import Mathlib

/-!
# LBANN communication engine: a shallow embedding

A Lean model of `lbann_comm` (`src/lbann_comm.cpp`): the column-slice layout used by the
allreduce algorithms, the scratch-buffer pool, the constructor's parameter checks and the
communicators it splits off, node discovery, the allreduce dispatcher, and the allreduce
algorithms themselves run by all ranks of a communicator; together with the ROI setting of
the image cropper (`cv_cropper.cpp`), the dimension setup and forward pass of the
concatenation layer (`concatenation.hpp`) and the parameter update of the RMSprop
optimizer (`lbann_optimizer_rmsprop.cpp`).  Definitions come first, the properties proved
about them follow.
-/

namespace lbann

/-! ## Slice layout -/

/-- Slice lengths as built in the allreduce routines: a vector of `nprocs` copies of
`cols / nprocs`, whose entries `0 .. cols % nprocs - 1` are then each incremented. -/
def slice_lengths (cols nprocs : Nat) : List Nat :=
  (List.range (cols % nprocs)).foldl (fun v i => v.set i (v.getD i 0 + 1))
    (List.replicate nprocs (cols / nprocs))

/-- Running sums (`std::partial_sum`) started from the accumulator `acc`. -/
def partial_sum_from (acc : Nat) : List Nat → List Nat
  | [] => []
  | x :: xs => (acc + x) :: partial_sum_from (acc + x) xs

/-- The `std::partial_sum` of a vector. -/
def partial_sum (v : List Nat) : List Nat := partial_sum_from 0 v

/-- Slice ends: `std::partial_sum` of the slice lengths. -/
def slice_ends (cols nprocs : Nat) : List Nat := partial_sum (slice_lengths cols nprocs)

/-- First column of slice `i`: the expression `slice_ends[i] - slice_lengths[i]`. -/
def slice_begin (cols nprocs i : Nat) : Nat :=
  (slice_ends cols nprocs).getD i 0 - (slice_lengths cols nprocs).getD i 0

/-- One past the last column of slice `i`: `slice_ends[i]`. -/
def slice_end (cols nprocs i : Nat) : Nat := (slice_ends cols nprocs).getD i 0

/-! ## Matrices, index ranges and views -/

/-- The matrix abstraction (`El::Mat`): a height, a width, the entries and the leading
dimension.  The matrix is stored column by column, `entry i j` for `i < ldim` being the
element `Buffer()[i + j * ldim]`; the rows from `height` up to `ldim` are padding.  A matrix
written without a leading dimension is stored without padding. -/
structure Mat (α : Type) where
  height : Nat
  width : Nat
  entry : Nat → Nat → α
  ldim : Nat := height

/-- An index range (`El::IR`): either `ALL` or the half-open range `[a, b)`. -/
inductive IR where
  | ALL : IR
  | range (a b : Nat) : IR

/-- First index of a range. -/
def IR.lo : IR → Nat
  | IR.ALL => 0
  | IR.range a _ => a

/-- One past the last index of a range, inside a dimension of extent `dim`. -/
def IR.hi (dim : Nat) : IR → Nat
  | IR.ALL => dim
  | IR.range _ b => b

/-- The contents of the view `mat(rows, cols)`; a view shares the memory of the matrix and
so has its leading dimension. -/
def view {α : Type} (mat : Mat α) (rows cols : IR) : Mat α :=
  { height := rows.hi mat.height - rows.lo
    width := cols.hi mat.width - cols.lo
    entry := fun i j => mat.entry (rows.lo + i) (cols.lo + j)
    ldim := mat.ldim }

/-- The matrix after the view `mat(rows, cols)` has been overwritten with `v`. -/
def set_view {α : Type} (mat : Mat α) (rows cols : IR) (v : Mat α) : Mat α :=
  { height := mat.height
    width := mat.width
    entry := fun i j =>
      if rows.lo ≤ i ∧ i < rows.hi mat.height ∧ cols.lo ≤ j ∧ j < cols.hi mat.width
      then v.entry (i - rows.lo) (j - cols.lo) else mat.entry i j
    ldim := mat.ldim }

/-- A copy of a block stored without padding. -/
def packed {α : Type} (b : Mat α) : Mat α :=
  { height := b.height, width := b.width, entry := b.entry }

/-- The `height * width` elements that lie in memory from `Buffer()` on, as a block without
padding: element `i + j * height` of the run is `Buffer()[i + j * height]`.  This is the
block itself when its leading dimension is its height, and otherwise runs through the
padding. -/
def contiguous {α : Type} (b : Mat α) : Mat α :=
  if b.ldim = b.height then b
  else
    { height := b.height
      width := b.width
      entry := fun i j =>
        b.entry ((i + j * b.height) % b.ldim) ((i + j * b.height) / b.ldim) }

/-- The matrix after the `data.height * data.width` elements of the block `data` were
written into its memory from the start of column `c0` on: element `k` of the block lands
at `Buffer()[c0 * ldim + k]`.  When neither the matrix nor the block has padding and their
heights agree these are the columns `c0, c0 + 1, ...` of the matrix. -/
def raw_write {α : Type} (mat : Mat α) (c0 : Nat) (data : Mat α) : Mat α :=
  if mat.ldim = mat.height ∧ data.height = mat.height then
    set_view mat IR.ALL (IR.range c0 (c0 + data.width)) data
  else
    { mat with
      entry := fun i j =>
        if c0 ≤ j ∧ i < mat.ldim ∧ i + (j - c0) * mat.ldim < data.height * data.width
        then data.entry ((i + (j - c0) * mat.ldim) % data.height)
          ((i + (j - c0) * mat.ldim) / data.height)
        else mat.entry i j }

/-! ## Transform callbacks -/

/-- The caller-supplied callbacks of an allreduce.  A byte buffer is represented by the
matrix block it encodes; every callback also reports a byte count.
`send_transform mat rows cols flag` gives the buffer and `send_size`, the length in bytes
of what it wrote there; `recv_transform buf view` and `recv_apply_transform buf view
is_local` give the new contents of the view they were handed and the size they report. -/
structure transforms (α : Type) where
  send_transform : Mat α → IR → IR → Bool → Mat α × Nat
  recv_transform : Mat α → Mat α → Mat α × Nat
  recv_apply_transform : Mat α → Mat α → Bool → Mat α × Nat

/-- Identity-copy `send_transform`: the buffer holds a copy of `mat(rows, cols)` without
padding. -/
def id_send_transform {α : Type} (sizeof_DataType : Nat) (mat : Mat α) (rows cols : IR)
    (_const_data : Bool) : Mat α × Nat :=
  (packed (view mat rows cols),
    sizeof_DataType * (view mat rows cols).height * (view mat rows cols).width)

/-- Identity-copy `recv_transform`: the buffer is copied into the destination view. -/
def id_recv_transform {α : Type} (sizeof_DataType : Nat) (buf v : Mat α) : Mat α × Nat :=
  ({ height := v.height
     width := v.width
     entry := fun i j => if i < v.height ∧ j < v.width then buf.entry i j else v.entry i j },
    sizeof_DataType * v.height * v.width)

/-- Summing `recv_apply_transform`: the buffer is added entry by entry into the view. -/
def sum_recv_apply_transform {α : Type} [Add α] (sizeof_DataType : Nat) (buf v : Mat α)
    (_is_local : Bool) : Mat α × Nat :=
  ({ height := v.height
     width := v.width
     entry := fun i j =>
       if i < v.height ∧ j < v.width then v.entry i j + buf.entry i j else v.entry i j },
    sizeof_DataType * v.height * v.width)

/-- The identity-copy / summing callback triple. -/
def id_sum_transforms (α : Type) [Add α] (sizeof_DataType : Nat) : transforms α :=
  { send_transform := id_send_transform sizeof_DataType
    recv_transform := id_recv_transform sizeof_DataType
    recv_apply_transform := sum_recv_apply_transform sizeof_DataType }

/-! ## Buffer pool -/

/-- The scratch-buffer pool: `collective_bufs` maps a size to its vector of buffers (`none`
when the key is absent); a buffer is the address of an allocation, and `heap` lists the
capacity of every allocation made so far (the address is the position in that list). -/
structure buffer_pool where
  collective_bufs : Nat → Option (List Nat)
  heap : List Nat

/-- The pool of a freshly constructed engine, within a heap holding earlier allocations. -/
def empty_pool (heap : List Nat) : buffer_pool :=
  { collective_bufs := fun _ => none, heap := heap }

/-- The effect of `new uint8_t[size]` followed by `collective_bufs[size].push_back`, where
`v` is the vector stored under `size`. -/
def push_new_buffer (pool : buffer_pool) (size : Nat) (v : List Nat) : buffer_pool :=
  { collective_bufs :=
      fun k => if k = size then some (v ++ [pool.heap.length]) else pool.collective_bufs k
    heap := pool.heap ++ [size] }

/-- `lbann_comm::get_collective_buffer(size, idx)`: the returned pointer (`none` is
`nullptr`) and the pool afterwards. -/
def get_collective_buffer (size idx : Nat) (pool : buffer_pool) : Option Nat × buffer_pool :=
  match pool.collective_bufs size with
  | none =>
    if idx ≠ 0 then (none, pool)
    else
      let pool1 := push_new_buffer pool size []
      (((pool1.collective_bufs size).getD [])[0]?, pool1)
  | some v =>
    if v.length > idx then (v[idx]?, pool)
    else if v.length ≠ idx then (none, pool)
    else
      let pool1 := push_new_buffer pool size v
      (((pool1.collective_bufs size).getD [])[idx]?, pool1)

/-- The pool after a sequence of `get_collective_buffer(size, idx)` calls. -/
def run_calls (pool : buffer_pool) (calls : List (Nat × Nat)) : buffer_pool :=
  calls.foldl (fun q c => (get_collective_buffer c.1 c.2 q).2) pool

/-- Number of slots that exist for `size` (zero when the size was never requested). -/
def num_slots (pool : buffer_pool) (size : Nat) : Nat :=
  ((pool.collective_bufs size).getD []).length

/-- The buffer stored under the key `(size, idx)`, if any. -/
def slot (pool : buffer_pool) (size idx : Nat) : Option Nat :=
  ((pool.collective_bufs size).getD [])[idx]?


/-- Well-formedness of a pool: every stored buffer is an allocation of exactly the key's size,
every present key has at least one slot, and distinct keys hold distinct buffers. -/
def pool_wf (pool : buffer_pool) : Prop :=
  (∀ size idx b, slot pool size idx = some b → pool.heap[b]? = some size) ∧
  (∀ size v, pool.collective_bufs size = some v → 1 ≤ v.length) ∧
  (∀ s1 i1 s2 i2 b, slot pool s1 i1 = some b → slot pool s2 i2 = some b → s1 = s2 ∧ i1 = i2)

/-! ## Constructor and dispatcher -/

/-- A call `mpi::Split(mpi::COMM_WORLD, color, key, _)`. -/
structure split_call where
  color : Int
  key : Int
deriving DecidableEq

/-- The topology parameters the constructor derives. -/
structure topology where
  procs_per_model : Int
  num_models : Int
  model_rank : Int
  rank_in_model : Int
deriving DecidableEq

/-- What the constructor did: the communicator splits it performed, in order, and either the
message of the `lbann_exception` it threw or the parameters it derived. -/
structure ctor_result where
  splits : List split_call
  result : Except String topology

/-- The effective group size: a requested `procs_per_model` of 0 means the world size. -/
def effective_procs_per_model (world_size _procs_per_model : Int) : Int :=
  if _procs_per_model = 0 then world_size else _procs_per_model

/-- The constructor `lbann_comm::lbann_comm(_procs_per_model)` run by the process of world
rank `world_rank` in a world of `world_size` processes, up to and including the two splits
of the world communicator.  `int` division and remainder truncate towards zero. -/
def lbann_comm_ctor (world_size world_rank _procs_per_model : Int) : ctor_result :=
  let procs_per_model := effective_procs_per_model world_size _procs_per_model
  let num_models := world_size.tdiv procs_per_model
  let model_rank := world_rank.tdiv procs_per_model
  let rank_in_model := world_rank.tmod procs_per_model
  if procs_per_model > world_size then
    { splits := []
      result := Except.error "Not enough processes to create one model" }
  else if world_size.tmod procs_per_model ≠ 0 then
    { splits := []
      result := Except.error "Procs per model does not divide total number of procs" }
  else
    { splits := [{ color := model_rank, key := rank_in_model },
                 { color := rank_in_model, key := model_rank }]
      result := Except.ok
        { procs_per_model := procs_per_model
          num_models := num_models
          model_rank := model_rank
          rank_in_model := rank_in_model } }

/-- The allreduce implementations the dispatcher can call. -/
inductive allreduce_algorithm where
  | recursive_doubling_allreduce_pow2 : allreduce_algorithm
  | pe_ring_allreduce : allreduce_algorithm
deriving DecidableEq

/-- The calls `lbann_comm::intermodel_allreduce` makes, in order, for `nprocs` participants
and a `height × width` matrix. -/
def intermodel_allreduce_calls (nprocs height width : Nat) : List allreduce_algorithm :=
  if nprocs &&& (nprocs - 1) ≠ 0 then
    [allreduce_algorithm.pe_ring_allreduce]
  else if height ≤ 64 ∧ width ≤ 64 then
    [allreduce_algorithm.recursive_doubling_allreduce_pow2]
  else
    [allreduce_algorithm.pe_ring_allreduce]

/-! ## Engine state and the processes of a communicator -/

/-- The engine state an allreduce touches: the buffer pool and the byte counters (wall-clock
timers are left out). -/
structure lbann_comm where
  pool : buffer_pool
  bytes_sent : Nat
  bytes_received : Nat
  ar_bytes_sent : Nat
  ar_bytes_received : Nat
  ar_rs_bytes_sent : Nat
  ar_rs_bytes_received : Nat
  ar_ag_bytes_sent : Nat
  ar_ag_bytes_received : Nat

/-- A `uint8_t*` held by an allreduce: null, a scratch allocation, or the buffer of the
matrix view `mat(ALL, cols)`. -/
inductive bufptr where
  | null : bufptr
  | scratch (addr : Nat) : bufptr
  | matview (cols : IR) : bufptr

/-- The pointer `get_collective_buffer` returned. -/
def bufptr.of_result : Option Nat → bufptr
  | none => bufptr.null
  | some a => bufptr.scratch a

/-- What a process did that others can observe or that claims memory. -/
inductive event where
  | acquire (size idx : Nat) : event
  | sendrecv (dst src : Nat) : event
deriving DecidableEq

/-- One process inside an allreduce call: its engine, its matrix, the contents of its scratch
allocations, the log of its pool requests and exchanges, and the local variables that live
across loop iterations. -/
structure proc (α : Type) where
  comm : lbann_comm
  mat : Mat α
  mem : Nat → Mat α
  log : List event
  max_recv_count : Nat
  max_recv_buf : bufptr
  recv_buf : bufptr
  recv_buf2 : bufptr
  send_size : Nat

/-- The arguments of an allreduce call that all ranks share, with the node-locality test
`is_rank_node_local rank other` and the size of `DataType` taken as parameters. -/
structure call_args (α : Type) where
  nprocs : Nat
  max_recv_count : Nat
  T : transforms α
  id_recv : Bool
  no_local_trans : Bool
  is_rank_node_local : Nat → Nat → Bool
  sizeof_DataType : Nat

/-- How a call ended on one rank: it returned, it threw, or it did not come back: it blocked
in an exchange, an exchange failed because the message was longer than the receive count
(`MPI_ERR_TRUNCATE`, fatal under the default error handler), it dereferenced a null buffer
or wrote outside a buffer, or it looped forever. -/
inductive outcome (σ : Type) where
  | returned (s : σ) : outcome σ
  | threw (msg : String) (s : σ) : outcome σ
  | stuck : outcome σ

/-- Reading the buffer a pointer designates: the block a scratch allocation holds, or the
elements that lie in memory from the start of the view `mat(ALL, cols)` on. -/
def load {α : Type} (p : proc α) : bufptr → Option (Mat α)
  | bufptr.null => none
  | bufptr.scratch a => some (p.mem a)
  | bufptr.matview cols => some (contiguous (view p.mat IR.ALL cols))

/-- Writing a message, the block `m.1` of `m.2` bytes, into the buffer a pointer designates.
A scratch allocation takes a message no longer than its capacity, the size it was allocated
with.  At the buffer of the view `mat(ALL, cols)` the bytes become matrix elements: the
message has to be a block of `DataType` elements, `sizeof(DataType)` bytes each, and has to
end inside the memory of the matrix, `ldim * width` elements.  Writing through a null
pointer or past the end of a buffer gives no state. -/
def store {α : Type} (sizeof_DataType : Nat) (p : proc α) :
    bufptr → Mat α × Nat → Option (proc α)
  | bufptr.null, _ => none
  | bufptr.scratch a, m =>
    match p.comm.pool.heap[a]? with
    | none => none
    | some capacity =>
      if m.2 ≤ capacity then
        some { p with mem := fun x => if x = a then contiguous m.1 else p.mem x }
      else none
  | bufptr.matview cols, m =>
    if m.2 = sizeof_DataType * m.1.height * m.1.width ∧
        cols.lo * p.mat.ldim + m.1.height * m.1.width ≤ p.mat.ldim * p.mat.width then
      some { p with mat := raw_write p.mat cols.lo (contiguous m.1) }
    else none

/-- The receiving half of `mpi::SendRecv(..., recv_buf, recv_size, src, comm)` when the
message `incoming` of `incoming.2` bytes arrives: a message longer than the receive count
`recv_size` is an error that ends the job, a shorter one is written to `recv_buf`. -/
def receive {α : Type} (sizeof_DataType : Nat) (p : proc α) (recv_buf : bufptr)
    (recv_size : Nat) (incoming : Mat α × Nat) : Option (proc α) :=
  if recv_size < incoming.2 then none else store sizeof_DataType p recv_buf incoming

/-- A `get_collective_buffer(size, idx)` call made by a process. -/
def acquire {α : Type} (size idx : Nat) (p : proc α) : bufptr × proc α :=
  (bufptr.of_result (get_collective_buffer size idx p.comm.pool).1,
    { p with
      comm := { p.comm with pool := (get_collective_buffer size idx p.comm.pool).2 }
      log := p.log ++ [event.acquire size idx] })

/-- The column range of slice `i`: `IR(slice_ends[i] - slice_lengths[i], slice_ends[i])`. -/
def slice_range (cols nprocs i : Nat) : IR :=
  IR.range (slice_begin cols nprocs i) (slice_end cols nprocs i)

/-- One blocking `mpi::SendRecv` performed by every rank at the same point of the algorithm:
rank `r` sends to `dst_of r` and receives from `src_of r`.  Rank `r` gets past the call when
its source sends to it and its destination receives from it; it then continues with `body`
on the message its source sent, the buffer and the `send_size` bytes of it that travel;
`body` starts with the receiving half of the call (`receive`).  A rank whose exchange is not
matched never comes back. -/
def sendrecv_all {σ α : Type} (nprocs : Nat) (dst_of src_of : Nat → Nat)
    (send : Nat → σ → Option (Mat α × Nat))
    (body : Nat → Mat α × Nat → σ → Option σ)
    (sts : Nat → Option σ) : Nat → Option σ :=
  fun r =>
    match sts r, sts (src_of r), sts (dst_of r) with
    | some p, some q, some _ =>
      if dst_of r < nprocs ∧ src_of r < nprocs ∧ dst_of (src_of r) = r ∧ src_of (dst_of r) = r
      then
        match send (src_of r) q with
        | some data => body r data p
        | none => none
      else none
    | _, _, _ => none

/-- A step every rank takes on its own. -/
def each_rank {α : Type} (f : Nat → proc α → proc α) (sts : Nat → Option (proc α)) :
    Nat → Option (proc α) :=
  fun r => (sts r).map (f r)

/-- The loop `for (int step = lo; step < hi; ++step) body(step)`. -/
def for_loop {σ : Type} (lo hi : Nat) (body : Nat → σ → σ) (s : σ) : σ :=
  (List.range' lo (hi - lo)).foldl (fun st step => body step st) s

/-- The state a call left behind when it returned. -/
def outcome.final {σ : Type} : outcome σ → Option σ
  | outcome.returned s => some s
  | outcome.threw _ _ => none
  | outcome.stuck => none

/-- A process about to make its first allreduce call: matrix `mat`, an empty buffer pool, all
counters at zero. -/
def fresh_proc {α : Type} (mat : Mat α) : proc α :=
  { comm :=
      { pool := empty_pool []
        bytes_sent := 0
        bytes_received := 0
        ar_bytes_sent := 0
        ar_bytes_received := 0
        ar_rs_bytes_sent := 0
        ar_rs_bytes_received := 0
        ar_ag_bytes_sent := 0
        ar_ag_bytes_received := 0 }
    mat := mat
    mem := fun _ => mat
    log := []
    max_recv_count := 0
    max_recv_buf := bufptr.null
    recv_buf := bufptr.null
    recv_buf2 := bufptr.null
    send_size := 0 }

/-- Row `i` of the matrix a call left on a rank, as a list (empty when it did not return). -/
def final_row {α : Type} (o : outcome (proc α)) (i : Nat) : List α :=
  match o.final with
  | some p => (List.range p.mat.width).map (fun j => p.mat.entry i j)
  | none => []

/-- Whether a logged event is an exchange. -/
def event.is_sendrecv : event → Bool
  | event.sendrecv _ _ => true
  | event.acquire _ _ => false

/-- The number of `mpi::SendRecv` calls a process has made. -/
def num_exchanges {α : Type} (p : proc α) : Nat := p.log.countP event.is_sendrecv

/-- The exchanges a process has made, in order. -/
def exchanges {α : Type} (p : proc α) : List event := p.log.filter event.is_sendrecv

/-! ## Recursive-doubling allreduce -/

/-- The buffer and `send_size` a rank prepares in one iteration of the exchange loop of
`recursive_doubling_allreduce_pow2`. -/
def rd_send {α : Type} (A : call_args α) (rank mask : Nat) (p : proc α) : Mat α × Nat :=
  if A.no_local_trans && A.is_rank_node_local rank (rank ^^^ mask) then
    (p.mat, A.sizeof_DataType * p.mat.height * p.mat.width)
  else
    A.T.send_transform p.mat IR.ALL IR.ALL false

/-- One iteration of the exchange loop of `recursive_doubling_allreduce_pow2` on rank `rank`,
where `incoming` is what `mpi::SendRecv` delivers from the partner. -/
def rd_iter {α : Type} (A : call_args α) (rank mask : Nat) (incoming : Mat α × Nat)
    (p : proc α) : Option (proc α) :=
  let partner := rank ^^^ mask
  let is_local := A.no_local_trans && A.is_rank_node_local rank partner
  let send_size := (rd_send A rank mask p).2
  let recv_size := if is_local then send_size else p.max_recv_count
  let a := if is_local then acquire recv_size 0 p else (p.max_recv_buf, p)
  let p1 : proc α :=
    { a.2 with
      recv_buf := a.1
      comm := { a.2.comm with
        bytes_sent := a.2.comm.bytes_sent + send_size
        ar_bytes_sent := a.2.comm.ar_bytes_sent + send_size }
      log := a.2.log ++ [event.sendrecv partner partner] }
  match receive A.sizeof_DataType p1 p1.recv_buf recv_size incoming with
  | none => none
  | some p2 =>
    match load p2 p2.recv_buf with
    | none => none
    | some buf =>
      let t := A.T.recv_apply_transform buf p2.mat is_local
      some { p2 with
        mat := set_view p2.mat IR.ALL IR.ALL t.1
        comm := { p2.comm with
          bytes_received := p2.comm.bytes_received + t.2
          ar_bytes_received := p2.comm.ar_bytes_received + t.2 } }

/-- The exchange loop `while (mask < nprocs) { ...; mask <<= 1; }` run by all ranks, `mask`
being an `unsigned int`; `fuel` bounds the number of iterations. -/
def rd_loop {α : Type} (A : call_args α) :
    Nat → Nat → (Nat → Option (proc α)) → (Nat → Option (proc α))
  | 0, mask, sts => if mask < A.nprocs then fun _ => none else sts
  | fuel + 1, mask, sts =>
    if mask < A.nprocs then
      rd_loop A fuel ((mask <<< 1) % 2 ^ 32)
        (sendrecv_all A.nprocs (fun r => r ^^^ mask) (fun r => r ^^^ mask)
          (fun r q => some (rd_send A r mask q)) (fun r => rd_iter A r mask) sts)
    else sts

/-- The statements of `recursive_doubling_allreduce_pow2` between the power-of-two check and
the loop: the scratch buffer is requested. -/
def rd_setup {α : Type} (A : call_args α) (p : proc α) : proc α :=
  let a := acquire A.max_recv_count 0 p
  { a.2 with max_recv_count := A.max_recv_count, max_recv_buf := a.1, recv_buf := a.1 }

/-- `lbann_comm::recursive_doubling_allreduce_pow2` called by every rank `r` of a communicator
of `A.nprocs` processes in state `init r`: how the call ends on rank `rank`. -/
def recursive_doubling_allreduce_pow2 {α : Type} (A : call_args α) (init : Nat → proc α)
    (rank : Nat) : outcome (proc α) :=
  if A.nprocs = 1 then outcome.returned (init rank)
  else if A.nprocs &&& (A.nprocs - 1) ≠ 0 then
    outcome.threw ("lbann_comm: recursive doubling allreduce requires" ++
      " a power-of-2 number of participating processes") (init rank)
  else
    match rd_loop A 32 1 (fun r => some (rd_setup A (init r))) rank with
    | some p => outcome.returned p
    | none => outcome.stuck

/-- The arguments of the recursive-doubling scenario: 4 ranks, identity-copy and summing
callbacks, 8-byte entries, no node-local shortcut. -/
def scenario_rd_args : call_args Int :=
  { nprocs := 4
    max_recv_count := 32
    T := id_sum_transforms Int 8
    id_recv := false
    no_local_trans := false
    is_rank_node_local := fun _ _ => false
    sizeof_DataType := 8 }

/-- Rank `r` of the recursive-doubling scenario holds the row vector `[r, r, r, r]`. -/
def scenario_rd_init (r : Nat) : proc Int :=
  fresh_proc { height := 1, width := 4, entry := fun _ _ => (r : Int) }

/-- The state of a rank inside the loop of `recursive_doubling_allreduce_pow2`: it holds the
slot-0 buffer of `max_recv_count` bytes in a well-formed pool, and its matrix has the shape
`h × w`, without padding when the node-local shortcut is on. -/
def rd_state {α : Type} (A : call_args α) (h w : Nat) (p : proc α) : Prop :=
  p.mat.height = h ∧ p.mat.width = w ∧
    (A.no_local_trans = true → p.mat.ldim = p.mat.height) ∧
    (∃ a, p.max_recv_buf = bufptr.scratch a ∧ slot p.comm.pool A.max_recv_count 0 = some a) ∧
    p.max_recv_count = A.max_recv_count ∧ pool_wf p.comm.pool

/-- The state of a rank inside the loop of `recursive_doubling_allreduce_pow2` as far as the
exchanges go: a matrix of the shape `h × w` and the slot-0 buffer of `max_recv_count` bytes
in a well-formed pool. -/
def rd_buffers {α : Type} (A : call_args α) (h w : Nat) (p : proc α) : Prop :=
  p.mat.height = h ∧ p.mat.width = w ∧
    (∃ a, p.max_recv_buf = bufptr.scratch a ∧ slot p.comm.pool A.max_recv_count 0 = some a) ∧
    p.max_recv_count = A.max_recv_count ∧ pool_wf p.comm.pool

/-! ## Pairwise-exchange reduce-scatter and ring allgather -/

/-- The C expression `a % n` for an `int` `a` and a positive `int` `n`, as a rank. -/
def int_mod (a : Int) (n : Nat) : Nat := (a.tmod (n : Int)).toNat

/-- The statements of `pe_ring_allreduce` before the reduce-scatter loop: the scratch buffer
is requested.  (The slice layout is a function of the matrix width, which never changes.) -/
def pe_setup {α : Type} (A : call_args α) (p : proc α) : proc α :=
  let a := acquire A.max_recv_count 0 p
  { a.2 with max_recv_count := A.max_recv_count, max_recv_buf := a.1, recv_buf := a.1 }

/-- The buffer and `send_size` a rank prepares at step `step` of the reduce-scatter of
`pe_ring_allreduce`. -/
def pe_rs_send {α : Type} (A : call_args α) (rank step : Nat) (p : proc α) : Mat α × Nat :=
  let dst := (rank + step) % A.nprocs
  if A.no_local_trans && A.is_rank_node_local rank dst then
    (view p.mat IR.ALL (slice_range p.mat.width A.nprocs dst),
      A.sizeof_DataType * (view p.mat IR.ALL (slice_range p.mat.width A.nprocs dst)).height
        * (view p.mat IR.ALL (slice_range p.mat.width A.nprocs dst)).width)
  else
    A.T.send_transform p.mat IR.ALL (slice_range p.mat.width A.nprocs dst) true

/-- Step `step` of the pairwise-exchange reduce-scatter on rank `rank`, where `incoming` is
what `mpi::SendRecv` delivers from `src`. -/
def pe_rs_iter {α : Type} (A : call_args α) (rank step : Nat) (incoming : Mat α × Nat)
    (p : proc α) : Option (proc α) :=
  let dst := (rank + step) % A.nprocs
  let src := int_mod ((rank : Int) - (step : Int) + (A.nprocs : Int)) A.nprocs
  let is_recv_local := A.no_local_trans && A.is_rank_node_local rank src
  let accum := slice_range p.mat.width A.nprocs rank
  let send_size := (pe_rs_send A rank step p).2
  let recv_size :=
    if is_recv_local then
      A.sizeof_DataType * (view p.mat IR.ALL accum).height * (view p.mat IR.ALL accum).width
    else p.max_recv_count
  let a := if is_recv_local then acquire recv_size 0 p else (p.max_recv_buf, p)
  let p1 : proc α :=
    { a.2 with
      recv_buf := a.1
      comm := { a.2.comm with
        bytes_sent := a.2.comm.bytes_sent + send_size
        ar_bytes_sent := a.2.comm.ar_bytes_sent + send_size
        ar_rs_bytes_sent := a.2.comm.ar_rs_bytes_sent + send_size }
      log := a.2.log ++ [event.sendrecv dst src] }
  match receive A.sizeof_DataType p1 p1.recv_buf recv_size incoming with
  | none => none
  | some p2 =>
    match load p2 p2.recv_buf with
    | none => none
    | some buf =>
      let t := A.T.recv_apply_transform buf (view p2.mat IR.ALL accum) is_recv_local
      some { p2 with
        mat := set_view p2.mat IR.ALL accum t.1
        comm := { p2.comm with
          bytes_received := p2.comm.bytes_received + t.2
          ar_bytes_received := p2.comm.ar_bytes_received + t.2
          ar_rs_bytes_received := p2.comm.ar_rs_bytes_received + send_size } }

/-- The buffer and `send_size` of the first allgather step: the rank's own slice. -/
def pe_ag_first_send {α : Type} (A : call_args α) (rank : Nat) (p : proc α) : Mat α × Nat :=
  A.T.send_transform p.mat IR.ALL (slice_range p.mat.width A.nprocs rank) false

/-- The first step of the ring allgather on rank `rank`. -/
def pe_ag_first {α : Type} (A : call_args α) (rank : Nat) (incoming : Mat α × Nat)
    (p : proc α) : Option (proc α) :=
  let src := int_mod ((rank : Int) - 1 + (A.nprocs : Int)) A.nprocs
  let dst := (rank + 1) % A.nprocs
  let send_size := (pe_ag_first_send A rank p).2
  let data_src := int_mod ((rank : Int) - 1 + (A.nprocs : Int)) A.nprocs
  let recv_view := slice_range p.mat.width A.nprocs data_src
  let view_bytes := A.sizeof_DataType * (view p.mat IR.ALL recv_view).height
    * (view p.mat IR.ALL recv_view).width
  let p1 : proc α :=
    { p with
      recv_buf := if A.id_recv then bufptr.matview recv_view else p.recv_buf
      max_recv_count := if A.id_recv then view_bytes else p.max_recv_count
      comm := { p.comm with
        bytes_sent := p.comm.bytes_sent + send_size
        ar_bytes_sent := p.comm.ar_bytes_sent + send_size
        ar_ag_bytes_sent := p.comm.ar_ag_bytes_sent + send_size }
      log := p.log ++ [event.sendrecv dst src] }
  match receive A.sizeof_DataType p1 p1.recv_buf p1.max_recv_count incoming with
  | none => none
  | some p2 =>
    let r : Option (Mat α × Nat) :=
      if A.id_recv then some (p2.mat, view_bytes)
      else
        match load p2 p2.recv_buf with
        | none => none
        | some buf =>
          let t := A.T.recv_transform buf (view p2.mat IR.ALL recv_view)
          some (set_view p2.mat IR.ALL recv_view t.1, t.2)
    match r with
    | none => none
    | some (mat1, recv_size) =>
      some { p2 with
        mat := mat1
        comm := { p2.comm with
          bytes_received := p2.comm.bytes_received + recv_size
          ar_bytes_received := p2.comm.ar_bytes_received + recv_size
          ar_ag_bytes_received := p2.comm.ar_ag_bytes_received + send_size }
        send_size := recv_size }

/-- What a rank sends in a step of an allgather loop: `send_size` bytes from `recv_buf`, the
buffer it received last, `send_size` being the size reported for it. -/
def forward {α : Type} (p : proc α) : Option (Mat α × Nat) :=
  (load p p.recv_buf).map (fun buf => (buf, p.send_size))

/-- The statements between the first allgather step and the allgather loop: `recv_buf2` is
null, or the second scratch slot when `id_recv` is off. -/
def pe_second_buffer {α : Type} (A : call_args α) (p : proc α) : proc α :=
  if A.id_recv then { p with recv_buf2 := bufptr.null }
  else
    let a := acquire p.max_recv_count 1 p
    { a.2 with recv_buf2 := a.1 }

/-- Step `step` of the allgather loop on rank `rank`: the buffer received last is forwarded
and the incoming one is placed into slice `data_src`. -/
def pe_ag_iter {α : Type} (A : call_args α) (rank step : Nat) (incoming : Mat α × Nat)
    (p : proc α) : Option (proc α) :=
  let src := int_mod ((rank : Int) - 1 + (A.nprocs : Int)) A.nprocs
  let dst := (rank + 1) % A.nprocs
  let data_src := int_mod ((rank : Int) - (step : Int) - 1 + (A.nprocs : Int)) A.nprocs
  let recv_view := slice_range p.mat.width A.nprocs data_src
  let view_bytes := A.sizeof_DataType * (view p.mat IR.ALL recv_view).height
    * (view p.mat IR.ALL recv_view).width
  let p1 : proc α :=
    { p with
      recv_buf2 := if A.id_recv then bufptr.matview recv_view else p.recv_buf2
      max_recv_count := if A.id_recv then view_bytes else p.max_recv_count
      comm := { p.comm with
        bytes_sent := p.comm.bytes_sent + p.send_size
        ar_bytes_sent := p.comm.ar_bytes_sent + p.send_size
        ar_ag_bytes_sent := p.comm.ar_ag_bytes_sent + p.send_size }
      log := p.log ++ [event.sendrecv dst src] }
  match load p1 p1.recv_buf with
  | none => none
  | some _ =>
    match receive A.sizeof_DataType p1 p1.recv_buf2 p1.max_recv_count incoming with
    | none => none
    | some p2 =>
      let r : Option (Mat α × Nat) :=
        if A.id_recv then some (p2.mat, view_bytes)
        else
          match load p2 p2.recv_buf2 with
          | none => none
          | some buf =>
            let t := A.T.recv_transform buf (view p2.mat IR.ALL recv_view)
            some (set_view p2.mat IR.ALL recv_view t.1, t.2)
      match r with
      | none => none
      | some (mat1, recv_size) =>
        some { p2 with
          mat := mat1
          recv_buf := p2.recv_buf2
          recv_buf2 := p2.recv_buf
          send_size := recv_size
          comm := { p2.comm with
            bytes_received := p2.comm.bytes_received + recv_size
            ar_bytes_received := p2.comm.ar_bytes_received + recv_size
            ar_ag_bytes_received := p2.comm.ar_ag_bytes_received + recv_size } }

/-- The reduce-scatter loop of `pe_ring_allreduce` run by all ranks. -/
def pe_rs_loop {α : Type} (A : call_args α) (sts : Nat → Option (proc α)) :
    Nat → Option (proc α) :=
  for_loop 1 A.nprocs
    (fun step =>
      sendrecv_all A.nprocs (fun r => (r + step) % A.nprocs)
        (fun (r : Nat) => int_mod ((r : Int) - (step : Int) + (A.nprocs : Int)) A.nprocs)
        (fun r q => some (pe_rs_send A r step q)) (fun r => pe_rs_iter A r step))
    sts

/-- The ring allgather of `pe_ring_allreduce` run by all ranks. -/
def pe_ag_phase {α : Type} (A : call_args α) (sts : Nat → Option (proc α)) :
    Nat → Option (proc α) :=
  let ring_dst := fun (r : Nat) => (r + 1) % A.nprocs
  let ring_src := fun (r : Nat) => int_mod ((r : Int) - 1 + (A.nprocs : Int)) A.nprocs
  let s1 := sendrecv_all A.nprocs ring_dst ring_src
    (fun r q => some (pe_ag_first_send A r q)) (fun r => pe_ag_first A r) sts
  let s2 := each_rank (fun _ p => pe_second_buffer A p) s1
  for_loop 1 (A.nprocs - 1)
    (fun step =>
      sendrecv_all A.nprocs ring_dst ring_src
        (fun _ q => forward q) (fun r => pe_ag_iter A r step))
    s2

/-- `lbann_comm::pe_ring_allreduce` called by every rank `r` of a communicator of `A.nprocs`
processes in state `init r`: how the call ends on rank `rank`. -/
def pe_ring_allreduce {α : Type} (A : call_args α) (init : Nat → proc α) (rank : Nat) :
    outcome (proc α) :=
  if A.nprocs = 1 then outcome.returned (init rank)
  else
    let s0 : Nat → Option (proc α) := fun r => some (pe_setup A (init r))
    let s1 := pe_rs_loop A s0
    let s2 := each_rank (fun _ p => { p with recv_buf := p.max_recv_buf }) s1
    match pe_ag_phase A s2 rank with
    | some p => outcome.returned p
    | none => outcome.stuck

/-- The arguments of the pairwise-exchange scenario: 3 ranks, identity-copy and summing
callbacks, 8-byte entries, no node-local shortcut. -/
def scenario_pe_args : call_args Int :=
  { nprocs := 3
    max_recv_count := 8
    T := id_sum_transforms Int 8
    id_recv := false
    no_local_trans := false
    is_rank_node_local := fun _ _ => false
    sizeof_DataType := 8 }

/-- Every rank of the pairwise-exchange scenario holds the `1 × 3` all-ones vector. -/
def scenario_pe_init (_r : Nat) : proc Int :=
  fresh_proc { height := 1, width := 3, entry := fun _ _ => 1 }


/-- Column `j` lies in slice `k` of the layout for `cols` columns and `nprocs` ranks. -/
def in_slice (cols nprocs k j : Nat) : Prop :=
  slice_begin cols nprocs k ≤ j ∧ j < slice_end cols nprocs k

instance in_slice_decidable (cols nprocs k j : Nat) : Decidable (in_slice cols nprocs k j) :=
  inferInstanceAs
    (Decidable (slice_begin cols nprocs k ≤ j ∧ j < slice_end cols nprocs k))

/-- The rank `t` places behind `r` on the ring of `n` ranks. -/
def ring_back (n r t : Nat) : Nat := (r + n - t) % n

/-- State of all ranks after `s` steps of the pairwise-exchange reduce-scatter: every rank is
alive, holds its first scratch buffer, has a matrix without padding when a raw-buffer path
is on, and its own slice is the sum of that slice over the `s + 1` ranks
`r, r-1, ..., r-s` (round the ring), the rest of its matrix being untouched. -/
def pe_rs_inv {α : Type} [AddCommMonoid α] (A : call_args α) (init : Nat → proc α)
    (h w s : Nat) (sts : Nat → Option (proc α)) : Prop :=
  ∀ r, r < A.nprocs → ∃ p a, sts r = some p ∧ p.mat.height = h ∧ p.mat.width = w ∧
    (A.no_local_trans = true ∨ A.id_recv = true → p.mat.ldim = p.mat.height) ∧
    p.max_recv_buf = bufptr.scratch a ∧ p.max_recv_count = A.max_recv_count ∧
    pool_wf p.comm.pool ∧ slot p.comm.pool A.max_recv_count 0 = some a ∧
    ∀ i j, i < h → j < w → p.mat.entry i j =
      if in_slice w A.nprocs r j
      then (Finset.range (s + 1)).sum (fun t => (init (ring_back A.nprocs r t)).mat.entry i j)
      else (init r).mat.entry i j

/-- State of all ranks after the first allgather step and `m` steps of the allgather loop:
every rank is alive, the buffer in `recv_buf` holds the fully reduced slice `r - (m + 1)`
as a block without padding of `send_size` bytes, the send and receive buffers differ and
have the capacity `max_recv_count`, and the slices `r, r-1, ..., r-(m+1)` of the matrix are
fully reduced. -/
def pe_ag_inv {α : Type} [AddCommMonoid α] (A : call_args α) (init : Nat → proc α)
    (h w m : Nat) (sts : Nat → Option (proc α)) : Prop :=
  ∀ r, r < A.nprocs → ∃ p, sts r = some p ∧ p.mat.height = h ∧ p.mat.width = w ∧
    (A.no_local_trans = true ∨ A.id_recv = true → p.mat.ldim = p.mat.height) ∧
    ((A.id_recv = true ∧ ∃ c, p.recv_buf = bufptr.matview c) ∨
      (A.id_recv = false ∧ p.max_recv_count = A.max_recv_count ∧
        ∃ x y, p.recv_buf = bufptr.scratch x ∧ p.recv_buf2 = bufptr.scratch y ∧ x ≠ y ∧
          p.comm.pool.heap[x]? = some A.max_recv_count ∧
          p.comm.pool.heap[y]? = some A.max_recv_count)) ∧
    (∃ buf, load p p.recv_buf = some buf ∧ buf.height = h ∧ buf.ldim = buf.height ∧
      buf.width = slice_end w A.nprocs (ring_back A.nprocs r (m + 1))
        - slice_begin w A.nprocs (ring_back A.nprocs r (m + 1)) ∧
      p.send_size = A.sizeof_DataType * h * buf.width ∧
      ∀ i j, i < h →
        slice_begin w A.nprocs (ring_back A.nprocs r (m + 1)) + j
          < slice_end w A.nprocs (ring_back A.nprocs r (m + 1)) →
        buf.entry i j = (Finset.range A.nprocs).sum (fun q =>
          (init q).mat.entry i
            (slice_begin w A.nprocs (ring_back A.nprocs r (m + 1)) + j))) ∧
    ∀ t, t ≤ m + 1 → ∀ i j, i < h → j < w → in_slice w A.nprocs (ring_back A.nprocs r t) j →
      p.mat.entry i j = (Finset.range A.nprocs).sum (fun q => (init q).mat.entry i j)

/-! ## Rabenseifner's allreduce -/

/-- The `unsigned int` index variables of `rabenseifner_allreduce` that live across loop
iterations and differ from rank to rank. -/
structure rab_vars where
  send_idx : Nat
  recv_idx : Nat
  last_idx : Nat
deriving DecidableEq

/-- Reduction of a value to `unsigned int`. -/
def u32 (x : Nat) : Nat := x % 2 ^ 32

/-- `unsigned int` subtraction, which wraps round. -/
def u32_sub (a b : Nat) : Nat := (a + 2 ^ 32 - b % 2 ^ 32) % 2 ^ 32

/-- `unsigned int` division; dividing by zero is undefined. -/
def u32_div (a b : Nat) : Option Nat := if b = 0 then none else some (a / b)

/-- The range `IR(slice_ends[first] - slice_lengths[first], slice_ends[last - 1])` over the
slices `first .. last - 1`; reading past the end of a vector is undefined. -/
def rab_range (cols nprocs first last : Nat) : Option IR :=
  match (slice_ends cols nprocs)[first]?, (slice_lengths cols nprocs)[first]?,
      (slice_ends cols nprocs)[u32_sub last 1]? with
  | some e, some l, some e2 => some (IR.range (e - l) e2)
  | _, _, _ => none

/-- The index update and the send and receive ranges of one recursive-halving step. -/
def rab_rs_ranges (cols nprocs rank partner_mask slice_mask : Nat) (v : rab_vars) :
    Option (rab_vars × IR × IR) :=
  match u32_div nprocs (u32 (slice_mask * 2)) with
  | none => none
  | some d =>
    if rank < rank ^^^ partner_mask then
      let send_idx := u32 (v.recv_idx + d)
      match rab_range cols nprocs send_idx v.last_idx,
          rab_range cols nprocs v.recv_idx send_idx with
      | some send_range, some recv_range =>
        some ({ v with send_idx := send_idx }, send_range, recv_range)
      | _, _ => none
    else
      let recv_idx := u32 (v.send_idx + d)
      match rab_range cols nprocs v.send_idx recv_idx,
          rab_range cols nprocs recv_idx v.last_idx with
      | some send_range, some recv_range =>
        some ({ v with recv_idx := recv_idx }, send_range, recv_range)
      | _, _ => none

/-- The buffer and `send_size` for the range `send_range`, raw when the partner is treated
as node-local. -/
def rab_send_buf {α : Type} (A : call_args α) (is_local : Bool) (send_range : IR)
    (p : proc α) : Mat α × Nat :=
  if is_local then
    (view p.mat IR.ALL send_range,
      A.sizeof_DataType * (view p.mat IR.ALL send_range).height
        * (view p.mat IR.ALL send_range).width)
  else A.T.send_transform p.mat IR.ALL send_range false

/-- What a rank sends in one recursive-halving step. -/
def rab_rs_send {α : Type} (A : call_args α) (rank partner_mask slice_mask : Nat)
    (st : proc α × rab_vars) : Option (Mat α × Nat) :=
  match rab_rs_ranges st.1.mat.width A.nprocs rank partner_mask slice_mask st.2 with
  | none => none
  | some (_, send_range, _) =>
    some (rab_send_buf A
      (A.no_local_trans && A.is_rank_node_local rank (rank ^^^ partner_mask))
      send_range st.1)

/-- One step of the recursive-halving reduce-scatter on rank `rank`. -/
def rab_rs_iter {α : Type} (A : call_args α) (rank partner_mask slice_mask : Nat)
    (incoming : Mat α × Nat) (st : proc α × rab_vars) : Option (proc α × rab_vars) :=
  let p := st.1
  let partner := rank ^^^ partner_mask
  let is_local := A.no_local_trans && A.is_rank_node_local rank partner
  match rab_rs_ranges p.mat.width A.nprocs rank partner_mask slice_mask st.2 with
  | none => none
  | some (v1, send_range, recv_range) =>
    let send_size := (rab_send_buf A is_local send_range p).2
    let recv_size :=
      if is_local then
        A.sizeof_DataType * (view p.mat IR.ALL recv_range).height
          * (view p.mat IR.ALL recv_range).width
      else p.max_recv_count
    let p1 : proc α :=
      { p with
        comm := { p.comm with
          bytes_sent := p.comm.bytes_sent + send_size
          ar_bytes_sent := p.comm.ar_bytes_sent + send_size
          ar_rs_bytes_sent := p.comm.ar_rs_bytes_sent + send_size }
        log := p.log ++ [event.sendrecv partner partner] }
    match receive A.sizeof_DataType p1 p1.recv_buf recv_size incoming with
    | none => none
    | some p2 =>
      match load p2 p2.recv_buf with
      | none => none
      | some buf =>
        let t := A.T.recv_apply_transform buf (view p2.mat IR.ALL recv_range) is_local
        let p3 : proc α :=
          { p2 with
            mat := set_view p2.mat IR.ALL recv_range t.1
            comm := { p2.comm with
              bytes_received := p2.comm.bytes_received + t.2
              ar_bytes_received := p2.comm.ar_bytes_received + t.2
              ar_rs_bytes_received := p2.comm.ar_rs_bytes_received + send_size } }
        if partner_mask >>> 1 > 0 then
          match u32_div A.nprocs (u32 (slice_mask <<< 1)) with
          | none => none
          | some d =>
            some (p3, { send_idx := v1.recv_idx
                        recv_idx := v1.recv_idx
                        last_idx := u32 (v1.recv_idx + d) })
        else
          some (p3, { v1 with send_idx := v1.recv_idx })

/-- The loop `while (partner_mask > 0)` of the reduce-scatter run by all ranks; the result
carries the final `slice_mask`. -/
def rab_rs_loop {α : Type} (A : call_args α) :
    Nat → Nat → Nat → (Nat → Option (proc α × rab_vars)) →
      Nat × (Nat → Option (proc α × rab_vars))
  | 0, partner_mask, slice_mask, sts =>
    if partner_mask > 0 then (slice_mask, fun _ => none) else (slice_mask, sts)
  | fuel + 1, partner_mask, slice_mask, sts =>
    if partner_mask > 0 then
      rab_rs_loop A fuel (partner_mask >>> 1) (u32 (slice_mask <<< 1))
        (sendrecv_all A.nprocs (fun r => r ^^^ partner_mask) (fun r => r ^^^ partner_mask)
          (fun r q => rab_rs_send A r partner_mask slice_mask q)
          (fun r => rab_rs_iter A r partner_mask slice_mask) sts)
    else (slice_mask, sts)

/-- The index update and the send and receive ranges of one recursive-doubling step of the
allgather. -/
def rab_ag_ranges (cols nprocs rank partner_mask slice_mask : Nat) (v : rab_vars) :
    Option (rab_vars × IR × IR) :=
  match u32_div nprocs (u32 (slice_mask * 2)) with
  | none => none
  | some d =>
    if rank < rank ^^^ partner_mask then
      let last_idx := if slice_mask ≠ nprocs / 2 then u32 (v.last_idx + d) else v.last_idx
      let recv_idx := u32 (v.send_idx + d)
      match rab_range cols nprocs v.send_idx recv_idx,
          rab_range cols nprocs recv_idx last_idx with
      | some send_range, some recv_range =>
        some ({ v with recv_idx := recv_idx, last_idx := last_idx }, send_range, recv_range)
      | _, _ => none
    else
      let recv_idx := u32_sub v.send_idx d
      match rab_range cols nprocs v.send_idx v.last_idx,
          rab_range cols nprocs recv_idx v.send_idx with
      | some send_range, some recv_range =>
        some ({ v with recv_idx := recv_idx }, send_range, recv_range)
      | _, _ => none

/-- What a rank sends in one step of the allgather. -/
def rab_ag_send {α : Type} (A : call_args α) (rank partner_mask slice_mask : Nat)
    (st : proc α × rab_vars) : Option (Mat α × Nat) :=
  match rab_ag_ranges st.1.mat.width A.nprocs rank partner_mask slice_mask st.2 with
  | none => none
  | some (_, send_range, _) =>
    some (rab_send_buf A
      (A.no_local_trans && A.is_rank_node_local rank (rank ^^^ partner_mask))
      send_range st.1)

/-- One step of the recursive-doubling allgather on rank `rank`. -/
def rab_ag_iter {α : Type} (A : call_args α) (rank partner_mask slice_mask : Nat)
    (incoming : Mat α × Nat) (st : proc α × rab_vars) : Option (proc α × rab_vars) :=
  let p := st.1
  let partner := rank ^^^ partner_mask
  let is_local := A.no_local_trans && A.is_rank_node_local rank partner
  match rab_ag_ranges p.mat.width A.nprocs rank partner_mask slice_mask st.2 with
  | none => none
  | some (v1, send_range, recv_range) =>
    let send_size := (rab_send_buf A is_local send_range p).2
    let view_bytes := A.sizeof_DataType * (view p.mat IR.ALL recv_range).height
      * (view p.mat IR.ALL recv_range).width
    let recv_size := if A.id_recv || is_local then view_bytes else p.max_recv_count
    let p1 : proc α :=
      { p with
        recv_buf := if A.id_recv || is_local then bufptr.matview recv_range else p.recv_buf
        comm := { p.comm with
          bytes_sent := p.comm.bytes_sent + send_size
          ar_bytes_sent := p.comm.ar_bytes_sent + send_size
          ar_ag_bytes_sent := p.comm.ar_ag_bytes_sent + send_size }
        log := p.log ++ [event.sendrecv partner partner] }
    match receive A.sizeof_DataType p1 p1.recv_buf recv_size incoming with
    | none => none
    | some p2 =>
      let r : Option (Mat α × Nat) :=
        if A.id_recv then some (p2.mat, view_bytes)
        else
          match load p2 p2.recv_buf with
          | none => none
          | some buf =>
            let t := A.T.recv_transform buf (view p2.mat IR.ALL recv_range)
            some (set_view p2.mat IR.ALL recv_range t.1, t.2)
      match r with
      | none => none
      | some (mat1, recv_size) =>
        some ({ p2 with
            mat := mat1
            comm := { p2.comm with
              bytes_received := p2.comm.bytes_received + recv_size
              ar_bytes_received := p2.comm.ar_bytes_received + recv_size
              ar_ag_bytes_received := p2.comm.ar_ag_bytes_received + send_size } },
          if rank > partner then { v1 with send_idx := v1.recv_idx } else v1)

/-- The loop `while (partner_mask < nprocs)` of the allgather run by all ranks. -/
def rab_ag_loop {α : Type} (A : call_args α) :
    Nat → Nat → Nat → (Nat → Option (proc α × rab_vars)) →
      (Nat → Option (proc α × rab_vars))
  | 0, partner_mask, _, sts => if partner_mask < A.nprocs then fun _ => none else sts
  | fuel + 1, partner_mask, slice_mask, sts =>
    if partner_mask < A.nprocs then
      rab_ag_loop A fuel (u32 (partner_mask <<< 1)) (slice_mask >>> 1)
        (sendrecv_all A.nprocs (fun r => r ^^^ partner_mask) (fun r => r ^^^ partner_mask)
          (fun r q => rab_ag_send A r partner_mask slice_mask q)
          (fun r => rab_ag_iter A r partner_mask slice_mask) sts)
    else sts

/-- The statements of `rabenseifner_allreduce` between the power-of-two check and the first
loop: the index variables are initialised and the scratch buffer is requested. -/
def rab_setup {α : Type} (A : call_args α) (p : proc α) : proc α × rab_vars :=
  let a := acquire A.max_recv_count 0 p
  ({ a.2 with max_recv_count := A.max_recv_count, recv_buf := a.1 },
    { send_idx := 0, recv_idx := 0, last_idx := u32 A.nprocs })

/-- `lbann_comm::rabenseifner_allreduce` called by every rank `r` of a communicator of
`A.nprocs` processes in state `init r`: how the call ends on rank `rank`. -/
def rabenseifner_allreduce {α : Type} (A : call_args α) (init : Nat → proc α) (rank : Nat) :
    outcome (proc α) :=
  if A.nprocs = 1 then outcome.returned (init rank)
  else if A.nprocs &&& (A.nprocs - 1) ≠ 0 then
    outcome.threw ("lbann_comm: Rabenseifner allreduce requires" ++
      " a power-of-2 number of participating processes") (init rank)
  else
    let rs := rab_rs_loop A 32 (A.nprocs >>> 1) 1 (fun r => some (rab_setup A (init r)))
    match rab_ag_loop A 32 1 (rs.1 >>> 1) rs.2 rank with
    | some st => outcome.returned st.1
    | none => outcome.stuck

/-- The arguments of the two-node scenario: 4 ranks, ranks 0, 1 on one node and ranks 2, 3
on another, identity-copy and summing callbacks, the node-local shortcut switched on and
`id_recv` off. -/
def scenario_rab_args : call_args Int :=
  { nprocs := 4
    max_recv_count := 32
    T := id_sum_transforms Int 8
    id_recv := false
    no_local_trans := true
    is_rank_node_local := fun a b => a / 2 == b / 2
    sizeof_DataType := 8 }

/-- Rank `r` of the two-node scenario holds the row `[10r, 10r+1, 10r+2, 10r+3]`. -/
def scenario_rab_init (r : Nat) : proc Int :=
  fresh_proc { height := 1, width := 4, entry := fun _ j => 10 * (r : Int) + (j : Int) }

/-! ## Node-name hash key -/

/-- Narrowing of the 64-bit value of `std::hash<std::string>` to a 32-bit `int`. -/
def to_int32 (h : Nat) : Int :=
  if h % 2 ^ 32 < 2 ^ 31 then ((h % 2 ^ 32 : Nat) : Int) else ((h % 2 ^ 32 : Nat) : Int) - 2 ^ 32

/-- Negation of an `int`, the result taken modulo `2 ^ 32` into the range of `int`. -/
def int32_neg (x : Int) : Int :=
  if (-x) % 2 ^ 32 < 2 ^ 31 then (-x) % 2 ^ 32 else (-x) % 2 ^ 32 - 2 ^ 32

/-- The statement `hash = hash >= 0 ? hash : -hash` of `setup_node_comm`. -/
def normalise_hash (hash : Int) : Int := if hash ≥ 0 then hash else int32_neg hash

/-- The colour `setup_node_comm` passes to the first split, from the value `h` of
`std::hash<std::string>()(node_string)`. -/
def hash_key (h : Nat) : Int := normalise_hash (to_int32 h)

/-! ## Image cropper: `cv_cropper::set` -/

/-- Interpolation methods of the cropper. -/
inductive interpolation where
  | INTER_AREA : interpolation
  | INTER_LINEAR : interpolation
deriving DecidableEq

/-- The fields of a `cv_cropper`. -/
structure cv_cropper where
  m_width : Nat
  m_height : Nat
  m_rand_crop : Bool
  m_is_roi_set : Bool
  m_roi_size : Int × Int
  m_zoom : Rat
  m_interpolation : interpolation
  m_enabled : Bool
deriving DecidableEq

/-- The conversion `(unsigned) x` of an `int`. -/
def to_unsigned (x : Int) : Nat := (x % 2 ^ 32).toNat

/-- `cv_cropper::unset_roi`. -/
def cv_cropper.unset_roi (c : cv_cropper) : cv_cropper :=
  { c with m_is_roi_set := false, m_roi_size := (0, 0) }

/-- `cv_cropper::set(width, height, random_crop, roi_sz)`: either the cropper afterwards, or
the exception message together with the cropper as the throw leaves it. -/
def cv_cropper.set (c : cv_cropper) (width height : Nat) (random_crop : Bool)
    (roi_sz : Int × Int) : outcome cv_cropper :=
  let c1 : cv_cropper :=
    { c with m_width := width, m_height := height, m_rand_crop := random_crop }
  if roi_sz.1 > 0 ∧ roi_sz.2 > 0 then
    if to_unsigned roi_sz.1 < width ∨ to_unsigned roi_sz.2 < height then
      outcome.threw "cv_cropper: ROI size is smaller than that of a patch" c1
    else
      outcome.returned
        { c1 with
          m_is_roi_set := true
          m_roi_size := roi_sz
          m_zoom := 1
          m_interpolation := interpolation.INTER_AREA
          m_enabled := false }
  else if ¬ (roi_sz.1 = 0 ∧ roi_sz.2 = 0) then
    outcome.threw "cv_cropper: invalid ROI size" c1
  else
    outcome.returned
      { c1.unset_roi with
        m_zoom := 1
        m_interpolation := interpolation.INTER_AREA
        m_enabled := false }

/-! ## Communicator splits and node discovery -/

/-- The communicator `mpi::Split(comm, color, key, _)` hands to rank `r`, a communicator being
the list of its members as world ranks in rank order: the members of `comm` with the colour
of `r`, ordered by key, members with equal keys staying in their order in `comm`. -/
def split_comm (comm : List Nat) (color key : Nat → Int) (r : Nat) : List Nat :=
  List.insertionSort (fun a b => key a ≤ key b)
    (comm.filter (fun x => decide (color x = color r)))

/-- The `k`-th split world rank `r` performs in the constructor. -/
def ctor_split (world_size : Nat) (_procs_per_model : Int) (k r : Nat) : split_call :=
  (lbann_comm_ctor world_size r _procs_per_model).splits.getD k { color := 0, key := 0 }

/-- The communicator `model_comm` of world rank `r`, from the first split of the
constructor. -/
def model_comm (world_size : Nat) (_procs_per_model : Int) (r : Nat) : List Nat :=
  split_comm (List.range world_size)
    (fun x => (ctor_split world_size _procs_per_model 0 x).color)
    (fun x => (ctor_split world_size _procs_per_model 0 x).key) r

/-- The communicator `intermodel_comm` of world rank `r`, from the second split of the
constructor. -/
def intermodel_comm (world_size : Nat) (_procs_per_model : Int) (r : Nat) : List Nat :=
  split_comm (List.range world_size)
    (fun x => (ctor_split world_size _procs_per_model 1 x).color)
    (fun x => (ctor_split world_size _procs_per_model 1 x).key) r

/-- The loop of `setup_node_comm` over the gathered names: the position of the first entry
of `l` for which `p` holds, counted from `i`. -/
def first_index (p : Nat → Bool) : List Nat → Nat → Option Nat
  | [], _ => none
  | x :: xs, i => if p x then some i else first_index p xs (i + 1)

/-- The communicator `hash_comm` of world rank `r` in `setup_node_comm`: the world split by
the normalised hash of the node name, ordered by world rank.  `names x` is the processor
name of rank `x` and `hash` stands for `std::hash<std::string>`. -/
def hash_comm (world_size : Nat) (names : Nat → String) (hash : String → Nat) (r : Nat) :
    List Nat :=
  split_comm (List.range world_size) (fun x => hash_key (hash (names x)))
    (fun x => (x : Int)) r

/-- The value of `node_num` on world rank `r` after the comparison loop: it starts as the
rank's position in `hash_comm` and becomes the position of the first member of `hash_comm`
whose name equals the rank's own. -/
def node_num (world_size : Nat) (names : Nat → String) (hash : String → Nat) (r : Nat) :
    Nat :=
  match first_index (fun x => decide (names r = names x))
      (hash_comm world_size names hash r) 0 with
  | some i => i
  | none => (hash_comm world_size names hash r).indexOf r

/-- The communicator `node_comm` of world rank `r`: `hash_comm` split by `node_num`, ordered
by world rank. -/
def node_comm (world_size : Nat) (names : Nat → String) (hash : String → Nat) (r : Nat) :
    List Nat :=
  split_comm (hash_comm world_size names hash r)
    (fun x => (node_num world_size names hash x : Int)) (fun x => (x : Int)) r

/-- The list `world_ranks_on_node` of world rank `r`: the translation to world ranks of the
ranks `0 .. size - 1` of `node_comm`. -/
def world_ranks_on_node (world_size : Nat) (names : Nat → String) (hash : String → Nat)
    (r : Nat) : List Nat :=
  (List.range (node_comm world_size names hash r).length).map
    (fun i => (node_comm world_size names hash r).getD i 0)

/-! ## Ring reduce-scatter and ring allgather -/

/-- The statements of `ring_allreduce` before the reduce-scatter loop: the scratch buffer is
requested and `recv_buf` points at it. -/
def ring_setup {α : Type} (A : call_args α) (p : proc α) : proc α :=
  let a := acquire A.max_recv_count 0 p
  { a.2 with max_recv_count := A.max_recv_count, max_recv_buf := a.1, recv_buf := a.1 }

/-- The buffer and `send_size` a rank prepares at step `step` of the reduce-scatter of
`ring_allreduce`. -/
def ring_rs_send {α : Type} (A : call_args α) (rank step : Nat) (p : proc α) : Mat α × Nat :=
  let dst := (rank + 1) % A.nprocs
  let is_send_local := A.no_local_trans && A.is_rank_node_local rank dst
  let send_slice := int_mod ((rank : Int) - (step : Int) + (A.nprocs : Int)) A.nprocs
  if is_send_local then
    (view p.mat IR.ALL (slice_range p.mat.width A.nprocs dst),
      A.sizeof_DataType * (view p.mat IR.ALL (slice_range p.mat.width A.nprocs dst)).height
        * (view p.mat IR.ALL (slice_range p.mat.width A.nprocs dst)).width)
  else
    A.T.send_transform p.mat IR.ALL (slice_range p.mat.width A.nprocs send_slice) false

/-- Step `step` of the ring reduce-scatter on rank `rank`, where `incoming` is what
`mpi::SendRecv` delivers from `src`. -/
def ring_rs_iter {α : Type} (A : call_args α) (rank step : Nat)
    (incoming : Mat α × Nat) (p : proc α) : Option (proc α) :=
  let src := int_mod ((rank : Int) - 1 + (A.nprocs : Int)) A.nprocs
  let dst := (rank + 1) % A.nprocs
  let is_recv_local := A.no_local_trans && A.is_rank_node_local rank src
  let recv_slice := int_mod ((rank : Int) - (step : Int) - 1 + (A.nprocs : Int)) A.nprocs
  let send_size := (ring_rs_send A rank step p).2
  let recv_view := slice_range p.mat.width A.nprocs recv_slice
  let recv_size :=
    if is_recv_local then
      A.sizeof_DataType * (view p.mat IR.ALL recv_view).height
        * (view p.mat IR.ALL recv_view).width
    else p.max_recv_count
  let a := if is_recv_local then acquire recv_size 0 p else (p.max_recv_buf, p)
  let p1 : proc α :=
    { a.2 with
      recv_buf := a.1
      comm := { a.2.comm with
        bytes_sent := a.2.comm.bytes_sent + send_size
        ar_bytes_sent := a.2.comm.ar_bytes_sent + send_size
        ar_rs_bytes_sent := a.2.comm.ar_rs_bytes_sent + send_size }
      log := a.2.log ++ [event.sendrecv dst src] }
  match receive A.sizeof_DataType p1 p1.recv_buf recv_size incoming with
  | none => none
  | some p2 =>
    match load p2 p2.recv_buf with
    | none => none
    | some buf =>
      let t := A.T.recv_apply_transform buf (view p2.mat IR.ALL recv_view) is_recv_local
      some { p2 with
        mat := set_view p2.mat IR.ALL recv_view t.1
        comm := { p2.comm with
          bytes_received := p2.comm.bytes_received + t.2
          ar_bytes_received := p2.comm.ar_bytes_received + t.2
          ar_rs_bytes_received := p2.comm.ar_rs_bytes_received + t.2 } }

/-- The buffer and `send_size` of the first allgather step of `ring_allreduce`: slice
`(rank + 1) % nprocs`. -/
def ring_ag_first_send {α : Type} (A : call_args α) (rank : Nat) (p : proc α) :
    Mat α × Nat :=
  A.T.send_transform p.mat IR.ALL
    (slice_range p.mat.width A.nprocs ((rank + 1) % A.nprocs)) false

/-- The first step of the ring allgather of `ring_allreduce` on rank `rank`. -/
def ring_ag_first {α : Type} (A : call_args α) (rank : Nat) (incoming : Mat α × Nat)
    (p : proc α) : Option (proc α) :=
  let src := int_mod ((rank : Int) - 1 + (A.nprocs : Int)) A.nprocs
  let dst := (rank + 1) % A.nprocs
  let send_size := (ring_ag_first_send A rank p).2
  let recv_view := slice_range p.mat.width A.nprocs rank
  let view_bytes := A.sizeof_DataType * (view p.mat IR.ALL recv_view).height
    * (view p.mat IR.ALL recv_view).width
  let p1 : proc α :=
    { p with
      recv_buf := if A.id_recv then bufptr.matview recv_view else p.recv_buf
      max_recv_count := if A.id_recv then view_bytes else p.max_recv_count
      comm := { p.comm with
        bytes_sent := p.comm.bytes_sent + send_size
        ar_bytes_sent := p.comm.ar_bytes_sent + send_size
        ar_ag_bytes_sent := p.comm.ar_ag_bytes_sent + send_size }
      log := p.log ++ [event.sendrecv dst src] }
  match receive A.sizeof_DataType p1 p1.recv_buf p1.max_recv_count incoming with
  | none => none
  | some p2 =>
    let r : Option (Mat α × Nat) :=
      if A.id_recv then some (p2.mat, view_bytes)
      else
        match load p2 p2.recv_buf with
        | none => none
        | some buf =>
          let t := A.T.recv_transform buf (view p2.mat IR.ALL recv_view)
          some (set_view p2.mat IR.ALL recv_view t.1, t.2)
    match r with
    | none => none
    | some (mat1, recv_size) =>
      some { p2 with
        mat := mat1
        comm := { p2.comm with
          bytes_received := p2.comm.bytes_received + recv_size
          ar_bytes_received := p2.comm.ar_bytes_received + recv_size
          ar_ag_bytes_received := p2.comm.ar_ag_bytes_received + recv_size }
        send_size := recv_size }

/-- The statements between the first allgather step and the allgather loop of
`ring_allreduce`: `recv_buf2` is null, or the second scratch slot when `id_recv` is off. -/
def ring_second_buffer {α : Type} (A : call_args α) (p : proc α) : proc α :=
  if A.id_recv then { p with recv_buf2 := bufptr.null }
  else
    let a := acquire p.max_recv_count 1 p
    { a.2 with recv_buf2 := a.1 }

/-- Step `step` of the allgather loop of `ring_allreduce` on rank `rank`: the buffer
received last is forwarded and the incoming one is placed into slice `recv_slice`. -/
def ring_ag_iter {α : Type} (A : call_args α) (rank step : Nat)
    (incoming : Mat α × Nat) (p : proc α) : Option (proc α) :=
  let src := int_mod ((rank : Int) - 1 + (A.nprocs : Int)) A.nprocs
  let dst := (rank + 1) % A.nprocs
  let recv_slice := int_mod ((rank : Int) - (step : Int) + (A.nprocs : Int)) A.nprocs
  let recv_view := slice_range p.mat.width A.nprocs recv_slice
  let view_bytes := A.sizeof_DataType * (view p.mat IR.ALL recv_view).height
    * (view p.mat IR.ALL recv_view).width
  let p1 : proc α :=
    { p with
      recv_buf2 := if A.id_recv then bufptr.matview recv_view else p.recv_buf2
      max_recv_count := if A.id_recv then view_bytes else p.max_recv_count
      comm := { p.comm with
        bytes_sent := p.comm.bytes_sent + p.send_size
        ar_bytes_sent := p.comm.ar_bytes_sent + p.send_size
        ar_ag_bytes_sent := p.comm.ar_ag_bytes_sent + p.send_size }
      log := p.log ++ [event.sendrecv dst src] }
  match load p1 p1.recv_buf with
  | none => none
  | some _ =>
    match receive A.sizeof_DataType p1 p1.recv_buf2 p1.max_recv_count incoming with
    | none => none
    | some p2 =>
      let r : Option (Mat α × Nat) :=
        if A.id_recv then some (p2.mat, view_bytes)
        else
          match load p2 p2.recv_buf2 with
          | none => none
          | some buf =>
            let t := A.T.recv_transform buf (view p2.mat IR.ALL recv_view)
            some (set_view p2.mat IR.ALL recv_view t.1, t.2)
      match r with
      | none => none
      | some (mat1, recv_size) =>
        some { p2 with
          mat := mat1
          recv_buf := p2.recv_buf2
          recv_buf2 := p2.recv_buf
          send_size := recv_size
          comm := { p2.comm with
            bytes_received := p2.comm.bytes_received + recv_size
            ar_bytes_received := p2.comm.ar_bytes_received + recv_size
            ar_ag_bytes_received := p2.comm.ar_ag_bytes_received + recv_size } }

/-- The reduce-scatter loop of `ring_allreduce` run by all ranks. -/
def ring_rs_loop {α : Type} (A : call_args α) (sts : Nat → Option (proc α)) :
    Nat → Option (proc α) :=
  for_loop 0 (A.nprocs - 1)
    (fun step =>
      sendrecv_all A.nprocs (fun r => (r + 1) % A.nprocs)
        (fun (r : Nat) => int_mod ((r : Int) - 1 + (A.nprocs : Int)) A.nprocs)
        (fun r q => some (ring_rs_send A r step q)) (fun r => ring_rs_iter A r step))
    sts

/-- The ring allgather of `ring_allreduce` run by all ranks. -/
def ring_ag_phase {α : Type} (A : call_args α) (sts : Nat → Option (proc α)) :
    Nat → Option (proc α) :=
  let ring_dst := fun (r : Nat) => (r + 1) % A.nprocs
  let ring_src := fun (r : Nat) => int_mod ((r : Int) - 1 + (A.nprocs : Int)) A.nprocs
  let s1 := sendrecv_all A.nprocs ring_dst ring_src
    (fun r q => some (ring_ag_first_send A r q)) (fun r => ring_ag_first A r) sts
  let s2 := each_rank (fun _ p => ring_second_buffer A p) s1
  for_loop 1 (A.nprocs - 1)
    (fun step =>
      sendrecv_all A.nprocs ring_dst ring_src
        (fun _ q => forward q) (fun r => ring_ag_iter A r step))
    s2

/-- `lbann_comm::ring_allreduce` called by every rank `r` of a communicator of `A.nprocs`
processes in state `init r`: how the call ends on rank `rank`. -/
def ring_allreduce {α : Type} (A : call_args α) (init : Nat → proc α) (rank : Nat) :
    outcome (proc α) :=
  if A.nprocs = 1 then outcome.returned (init rank)
  else
    let s0 : Nat → Option (proc α) := fun r => some (ring_setup A (init r))
    let s1 := ring_rs_loop A s0
    let s2 := each_rank (fun _ p => { p with recv_buf := p.max_recv_buf }) s1
    match ring_ag_phase A s2 rank with
    | some p => outcome.returned p
    | none => outcome.stuck

/-- State of all ranks after `s` steps of the ring reduce-scatter: every rank is alive and
holds its first scratch buffer, of `max_recv_count` bytes in a well-formed pool, and on rank
`r` the slice `t` places behind `r` holds, for `t ≤ s`, the sum of that slice over the
`t + 1` ranks `r, r-1, ..., r-t`, and otherwise what the rank started with. -/
def ring_rs_inv {α : Type} [AddCommMonoid α] (A : call_args α) (init : Nat → proc α)
    (h w s : Nat) (sts : Nat → Option (proc α)) : Prop :=
  ∀ r, r < A.nprocs → ∃ p a, sts r = some p ∧ p.mat.height = h ∧ p.mat.width = w ∧
    p.max_recv_buf = bufptr.scratch a ∧ p.max_recv_count = A.max_recv_count ∧
    pool_wf p.comm.pool ∧ slot p.comm.pool A.max_recv_count 0 = some a ∧
    ∀ t, t < A.nprocs → ∀ i j, i < h → j < w →
      in_slice w A.nprocs (ring_back A.nprocs r t) j →
      p.mat.entry i j =
        if t ≤ s
        then (Finset.range (t + 1)).sum (fun u => (init (ring_back A.nprocs r u)).mat.entry i j)
        else (init r).mat.entry i j

/-! ## The concatenation layer -/

/-- The value of an `int` expression whose mathematical value is `x`: `x` modulo `2 ^ 32`,
taken in `[-2 ^ 31, 2 ^ 31)`, which is what the compiled two's-complement arithmetic
leaves. -/
def wrap_int (x : Int) : Int := (x + 2147483648) % 4294967296 - 2147483648

/-- The fields of `concatenation_layer` its dimension setup and forward pass use, with the
output dimensions the base class stores.  Dimensions and concatenation points are `int`s. -/
structure concatenation_layer where
  m_concatenation_axis : Int
  m_concatenation_points : List Int
  output_dims : List Int
deriving DecidableEq

/-- The loop of `setup_dims` over the parents after the first, with the local `output_dims`
and the points pushed so far: a parent whose dimensions differ from `output_dims` in number
or on an axis other than `axis` raises, otherwise its extent along `axis` is added to
`output_dims[axis]`, in `int`, and the new total is pushed. -/
def setup_dims_loop (L : concatenation_layer) (axis : Nat) :
    List (List Int) → List Int → List Int → outcome concatenation_layer
  | [], output_dims, points =>
    outcome.returned { L with m_concatenation_points := points, output_dims := output_dims }
  | input_dims :: rest, output_dims, points =>
    if input_dims.length ≠ output_dims.length
        ∨ input_dims.take axis ≠ output_dims.take axis
        ∨ input_dims.drop (axis + 1) ≠ output_dims.drop (axis + 1) then
      outcome.threw "expects input tensors with dimensions"
        { L with m_concatenation_points := points }
    else
      setup_dims_loop L axis rest
        (output_dims.set axis (wrap_int (output_dims.getD axis 0 + input_dims.getD axis 0)))
        (points ++ [wrap_int (output_dims.getD axis 0 + input_dims.getD axis 0)])

/-- The method `concatenation_layer::setup_dims`, given the dimensions of the parents in
order.  `setup_pointers` has rejected a layer without parents, so asking for the dimensions
of parent `0` of none does not come back; a negative axis passes the check against the
number of dimensions and then indexes out of bounds. -/
def setup_dims (L : concatenation_layer) (parents : List (List Int)) :
    outcome concatenation_layer :=
  match parents with
  | [] => outcome.stuck
  | output_dims :: rest =>
    if L.m_concatenation_axis ≥ (output_dims.length : Int) then
      outcome.threw "cannot concatenate along axis" L
    else if L.m_concatenation_axis < 0 then outcome.stuck
    else
      setup_dims_loop L L.m_concatenation_axis.toNat rest output_dims
        [0, output_dims.getD L.m_concatenation_axis.toNat 0]

/-- The call `std::accumulate(first, last, 1, std::multiplies<int>())` on the `int`s
`dims`. -/
def accumulate_product (dims : List Int) : Int :=
  dims.foldl (fun x y => wrap_int (x * y)) 1

/-- The local `num_regions` of `fp_compute`: the product of the output dimensions before the
concatenation axis. -/
def num_regions (L : concatenation_layer) : Int :=
  accumulate_product (L.output_dims.take L.m_concatenation_axis.toNat)

/-- The local `unit_region_size` of `fp_compute`: the product of the output dimensions after
the concatenation axis. -/
def unit_region_size (L : concatenation_layer) : Int :=
  accumulate_product (L.output_dims.drop (L.m_concatenation_axis.toNat + 1))

/-- The local `output_region_stride` of `fp_compute`. -/
def output_region_stride (L : concatenation_layer) : Int :=
  wrap_int (L.output_dims.getD L.m_concatenation_axis.toNat 0 * unit_region_size L)

/-- The local `input_region_stride` of `fp_compute` for parent `i`. -/
def input_region_stride (L : concatenation_layer) (i : Nat) : Int :=
  wrap_int (wrap_int (L.m_concatenation_points.getD (i + 1) 0
    - L.m_concatenation_points.getD i 0) * unit_region_size L)

/-- The local `output_region_start` of `fp_compute` for parent `i`. -/
def output_region_start (L : concatenation_layer) (i : Nat) : Int :=
  wrap_int (L.m_concatenation_points.getD i 0 * unit_region_size L)

/-- The local `output_region_end` of `fp_compute` for parent `i`. -/
def output_region_end (L : concatenation_layer) (i : Nat) : Int :=
  wrap_int (L.m_concatenation_points.getD (i + 1) 0 * unit_region_size L)

/-- The call `El::View(v, mat, El::IR(lo, hi), El::ALL)`: the rows `[lo, hi)` of `mat`, all
columns.  A row range that is not inside the matrix gives no view. -/
def view_rows {α : Type} (mat : Mat α) (lo hi : Int) : Option (Mat α) :=
  if 0 ≤ lo ∧ lo ≤ hi ∧ hi ≤ (mat.height : Int) then
    some (view mat (IR.range lo.toNat hi.toNat) IR.ALL)
  else none

/-- The body of the inner loop of `fp_compute`: rows
`[region * input_region_stride, (region + 1) * input_region_stride)` of the input, all
columns, are copied over rows `[output_region_start + region * output_region_stride,
output_region_end + region * output_region_stride)` of the output, the bounds computed in
`int`.  There is no state when one of the two views does not exist or when the two views
differ in shape, `El::Copy` being unable to resize a view of the output matrix. -/
def copy_region {α : Type} (L : concatenation_layer) (i : Nat) (input : Mat α)
    (region : Nat) (output : Mat α) : Option (Mat α) :=
  match view_rows input (wrap_int ((region : Int) * input_region_stride L i))
      (wrap_int (wrap_int ((region : Int) + 1) * input_region_stride L i)),
    view_rows output
      (wrap_int (output_region_start L i + wrap_int ((region : Int) * output_region_stride L)))
      (wrap_int (output_region_end L i + wrap_int ((region : Int) * output_region_stride L)))
  with
  | some m_input_region_v, some m_output_region_v =>
    if m_input_region_v.height = m_output_region_v.height
        ∧ m_input_region_v.width = m_output_region_v.width then
      some (set_view output
        (IR.range
          (wrap_int (output_region_start L i
            + wrap_int ((region : Int) * output_region_stride L))).toNat
          (wrap_int (output_region_end L i
            + wrap_int ((region : Int) * output_region_stride L))).toNat)
        IR.ALL m_input_region_v)
    else none
  | _, _ => none

/-- The method `concatenation_layer::fp_compute` for `num_parents` parents with activations
`inputs i`, as the new contents of the output matrix; there is none when the axis or a
concatenation point is read out of bounds or a copy has no state.  The loop
`for (int region = 0; region < num_regions; ++region)` makes no pass when `num_regions` is
not positive. -/
def fp_compute {α : Type} (L : concatenation_layer) (num_parents : Nat)
    (inputs : Nat → Mat α) (output : Mat α) : Option (Mat α) :=
  if L.m_concatenation_axis < 0 ∨ L.m_concatenation_axis ≥ (L.output_dims.length : Int)
      ∨ (0 < num_parents ∧ L.m_concatenation_points.length ≤ num_parents) then none
  else
    for_loop 0 num_parents
      (fun i out => for_loop 0 (num_regions L).toNat
        (fun region out2 => out2.bind (copy_region L i (inputs i) region)) out)
      (some output)

/-- Concatenation point `i` of the layer (`0` past the end of the vector). -/
def concat_point (L : concatenation_layer) (i : Nat) : Int :=
  L.m_concatenation_points.getD i 0

/-- The extent of parent `i` along the axis (`0` past the end of a list). -/
def extent (parents : List (List Int)) (axis i : Nat) : Int :=
  (parents.getD i []).getD axis 0

/-- The sum of the extents along the axis of the first `i` parents, as a mathematical
integer. -/
def extent_sum (parents : List (List Int)) (axis i : Nat) : Int :=
  ((List.range i).map (fun j => extent parents axis j)).sum

/-- The parents have tensors of non-negative dimensions, and the sizes the layer computes
from them fit an `int`: the sum of the extents along the axis, the product of the dimensions
before the axis, the product of the dimensions after the axis, and the number of entries of
the output tensor, which is the product of the three. -/
def concat_fits (parents : List (List Int)) (axis : Nat) : Prop :=
  (∀ d, d ∈ parents → ∀ x, x ∈ d → 0 ≤ x) ∧
    extent_sum parents axis parents.length < 2147483648 ∧
    ((parents.getD 0 []).take axis).prod < 2147483648 ∧
    ((parents.getD 0 []).drop (axis + 1)).prod < 2147483648 ∧
    ((parents.getD 0 []).take axis).prod
      * (extent_sum parents axis parents.length
        * ((parents.getD 0 []).drop (axis + 1)).prod) < 2147483648

instance concat_fits_decidable (parents : List (List Int)) (axis : Nat) :
    Decidable (concat_fits parents axis) :=
  inferInstanceAs (Decidable (_ ∧ _ ∧ _ ∧ _ ∧ _))

/-- The row arithmetic of the forward pass in natural numbers: the concatenation points
`pt 0 = 0 ≤ pt 1 ≤ ... ≤ pt k` of `k` parents. -/
def rows_wf (pt : Nat → Nat) (k : Nat) : Prop :=
  pt 0 = 0 ∧ ∀ i, i < k → pt i ≤ pt (i + 1)

/-- After the outer loop of `fp_compute` has finished parents `0 .. I-1` and the inner loop
has finished regions `0 .. R-1` of parent `I`, every row copied so far holds the input row it
was copied from, in all columns, and the shape of the output is unchanged; `n` is the number
of regions, `u` the unit region size, `pt` the concatenation points and `k` the number of
parents. -/
def copied {α : Type} (n u : Nat) (pt : Nat → Nat) (k : Nat) (inputs : Nat → Mat α)
    (output : Mat α) (I R : Nat) (out : Mat α) : Prop :=
  out.height = output.height ∧ out.width = output.width ∧
    ∀ i a t j, ((i < I ∧ a < n) ∨ (i = I ∧ a < R)) →
      t < (pt (i + 1) - pt i) * u → j < output.width →
      out.entry (pt i * u + a * (pt k * u) + t) j
        = (inputs i).entry (a * ((pt (i + 1) - pt i) * u) + t) j

/-- The parents of the concatenation scenario: tensors of dimensions `2 × 1 × 2` and
`2 × 2 × 2`, joined along axis `1`. -/
def scenario_concat_parents : List (List Int) := [[2, 1, 2], [2, 2, 2]]

/-- The layer of the concatenation scenario before its dimensions are set up. -/
def scenario_concat_layer : concatenation_layer :=
  { m_concatenation_axis := 1, m_concatenation_points := [], output_dims := [] }

/-- Input `i` of the concatenation scenario: one column holding `100 i + x` in row `x`. -/
def scenario_concat_inputs (i : Nat) : Mat Int :=
  { height := 4 + 4 * i, width := 1, entry := fun x _ => 100 * (i : Int) + (x : Int) }

/-- The output matrix of the concatenation scenario before the forward pass. -/
def scenario_concat_output : Mat Int :=
  { height := 12, width := 1, entry := fun _ _ => 0 }

/-! ## The dispatcher run on the algorithms -/

/-- `lbann_comm::intermodel_allreduce` called by every rank `r` of `intermodel_comm`, a
communicator of `A.nprocs` processes, in state `init r`: how the call ends on rank `rank`.
`num_models` is the value of `get_num_models()`, from which the algorithm is chosen. -/
def intermodel_allreduce {α : Type} (num_models : Nat) (A : call_args α)
    (init : Nat → proc α) (rank : Nat) : outcome (proc α) :=
  if num_models &&& (num_models - 1) ≠ 0 then pe_ring_allreduce A init rank
  else if (init rank).mat.height ≤ 64 ∧ (init rank).mat.width ≤ 64 then
    recursive_doubling_allreduce_pow2 A init rank
  else pe_ring_allreduce A init rank

/-! ## Byte counters with size-reporting callbacks -/

/-- The number of non-zero entries of a block. -/
def nonzero_count (m : Mat Int) : Nat :=
  ((List.range m.height).map
    (fun i => ((List.range m.width).filter (fun j => decide (m.entry i j ≠ 0))).length)).sum

/-- Callbacks that move the data like the identity-copy and summing ones but report sizes
of a sparse encoding: eight bytes for every non-zero entry of the block sent, and of the
buffer received. -/
def sparse_transforms : transforms Int :=
  { send_transform := fun mat rows cols _ =>
      (packed (view mat rows cols), 8 * nonzero_count (view mat rows cols))
    recv_transform := fun buf v => ((id_recv_transform 8 buf v).1, 8 * nonzero_count buf)
    recv_apply_transform := fun buf v is_local =>
      ((sum_recv_apply_transform 8 buf v is_local).1, 8 * nonzero_count buf) }

/-- The arguments of the sparse scenario: 2 ranks, the sparse callbacks, no node-local
shortcut. -/
def scenario_sparse_args : call_args Int :=
  { nprocs := 2
    max_recv_count := 16
    T := sparse_transforms
    id_recv := false
    no_local_trans := false
    is_rank_node_local := fun _ _ => false
    sizeof_DataType := 8 }

/-- Rank 0 of the sparse scenario holds the row `[5, 0]`, every other rank `[7, 9]`. -/
def scenario_sparse_init (r : Nat) : proc Int :=
  fresh_proc { height := 1, width := 2
               entry := fun _ j => if r = 0 then (if j = 0 then 5 else 0)
                                   else (if j = 0 then 7 else 9) }

/-- The counters `ar_bytes_received`, `ar_rs_bytes_received` and `ar_ag_bytes_received` a
call left behind. -/
def received_counters {α : Type} (o : outcome (proc α)) : Option (Nat × Nat × Nat) :=
  o.final.map (fun p =>
    (p.comm.ar_bytes_received, p.comm.ar_rs_bytes_received, p.comm.ar_ag_bytes_received))

/-! ## RMSprop update -/

/-- The arithmetic of `DataType` the update uses, taken as a parameter. -/
structure scalar_ops (α : Type) where
  add : α → α → α
  sub : α → α → α
  mul : α → α → α
  div : α → α → α
  Sqrt : α → α
  one : α

/-- The hyperparameters of an `rmsprop` optimizer. -/
structure rmsprop (α : Type) where
  m_learning_rate : α
  m_decay_rate : α
  m_eps : α

/-- The local buffers `rmsprop::update` writes, with the number of times each position of
the parameter buffer and of the cache buffer has been updated.  The parameter, gradient and
cache buffers are separate allocations. -/
structure rms_state (α : Type) where
  parameters_buffer : Nat → α
  cache_buffer : Nat → α
  x_updates : Nat → Nat
  c_updates : Nat → Nat

/-- The element update `c = decay * c + (1 - decay) * g * g; x -= lr * g / (Sqrt(c) + eps)`:
the new `x` and the new `c`. -/
def rms_element {α : Type} (O : scalar_ops α) (R : rmsprop α) (x g c : α) : α × α :=
  let c1 := O.add (O.mul R.m_decay_rate c) (O.mul (O.mul (O.sub O.one R.m_decay_rate) g) g)
  (O.sub x (O.div (O.mul R.m_learning_rate g) (O.add (O.Sqrt c1) R.m_eps)), c1)

/-- The loop body of `rmsprop::update` on parameter position `px`, gradient position `gx`
and cache position `cx`. -/
def rms_step {α : Type} (O : scalar_ops α) (R : rmsprop α) (gradient_buffer : Nat → α)
    (px gx cx : Nat) (s : rms_state α) : rms_state α :=
  { parameters_buffer := fun k =>
      if k = px then
        (rms_element O R (s.parameters_buffer px) (gradient_buffer gx) (s.cache_buffer cx)).1
      else s.parameters_buffer k
    cache_buffer := fun k =>
      if k = cx then
        (rms_element O R (s.parameters_buffer px) (gradient_buffer gx) (s.cache_buffer cx)).2
      else s.cache_buffer k
    x_updates := fun k => if k = px then s.x_updates k + 1 else s.x_updates k
    c_updates := fun k => if k = cx then s.c_updates k + 1 else s.c_updates k }

/-- The branch of `rmsprop::update` for non-contiguous data: the loop over the columns `j`
and, inside, over the rows `i`, on positions `i + j * ldim` of each buffer.  The iterations
of the parallel loop are run in order. -/
def update_noncontiguous {α : Type} (O : scalar_ops α) (R : rmsprop α)
    (local_height local_width parameters_ldim gradient_ldim cache_ldim : Nat)
    (gradient_buffer : Nat → α) (s : rms_state α) : rms_state α :=
  for_loop 0 local_width
    (fun j s1 => for_loop 0 local_height
      (fun i s2 => rms_step O R gradient_buffer (i + j * parameters_ldim)
        (i + j * gradient_ldim) (i + j * cache_ldim) s2) s1)
    s

/-- The branch of `rmsprop::update` for contiguous data: one loop over the positions
`0 .. local_height * local_width - 1`. -/
def update_contiguous {α : Type} (O : scalar_ops α) (R : rmsprop α)
    (local_height local_width : Nat) (gradient_buffer : Nat → α) (s : rms_state α) :
    rms_state α :=
  for_loop 0 (local_height * local_width)
    (fun i s1 => rms_step O R gradient_buffer i i i s1) s

/-- The method `rmsprop::update` on the local buffers. -/
def rmsprop.update {α : Type} (O : scalar_ops α) (R : rmsprop α)
    (local_height local_width parameters_ldim gradient_ldim cache_ldim : Nat)
    (gradient_buffer : Nat → α) (s : rms_state α) : rms_state α :=
  if parameters_ldim ≠ local_height ∨ gradient_ldim ≠ local_height
      ∨ cache_ldim ≠ local_height then
    update_noncontiguous O R local_height local_width parameters_ldim gradient_ldim
      cache_ldim gradient_buffer s
  else update_contiguous O R local_height local_width gradient_buffer s

/-- The buffers `s` when the positions `(i, j)` with `done i j` have been updated from the
buffers `s0` and no others: each such position holds the element update of the initial
values and has been updated once more than before, every other position is as in `s0`. -/
def rms_inv {α : Type} (O : scalar_ops α) (R : rmsprop α)
    (parameters_ldim gradient_ldim cache_ldim : Nat) (gradient_buffer : Nat → α)
    (s0 : rms_state α) (done : Nat → Nat → Prop) (s : rms_state α) : Prop :=
  (∀ i j, done i j →
    s.parameters_buffer (i + j * parameters_ldim)
      = (rms_element O R (s0.parameters_buffer (i + j * parameters_ldim))
          (gradient_buffer (i + j * gradient_ldim)) (s0.cache_buffer (i + j * cache_ldim))).1 ∧
    s.cache_buffer (i + j * cache_ldim)
      = (rms_element O R (s0.parameters_buffer (i + j * parameters_ldim))
          (gradient_buffer (i + j * gradient_ldim)) (s0.cache_buffer (i + j * cache_ldim))).2 ∧
    s.x_updates (i + j * parameters_ldim) = s0.x_updates (i + j * parameters_ldim) + 1 ∧
    s.c_updates (i + j * cache_ldim) = s0.c_updates (i + j * cache_ldim) + 1) ∧
  (∀ p, (∀ i j, done i j → p ≠ i + j * parameters_ldim) →
    s.parameters_buffer p = s0.parameters_buffer p ∧ s.x_updates p = s0.x_updates p) ∧
  (∀ p, (∀ i j, done i j → p ≠ i + j * cache_ldim) →
    s.cache_buffer p = s0.cache_buffer p ∧ s.c_updates p = s0.c_updates p)

/-- The arithmetic of the rationals, for the RMSprop scenario, with the identity standing in
for the square root. -/
def scenario_rms_ops : scalar_ops Rat :=
  { add := fun a b => a + b, sub := fun a b => a - b, mul := fun a b => a * b
    div := fun a b => a / b, Sqrt := fun a => a, one := 1 }

/-- The hyperparameters of the RMSprop scenario. -/
def scenario_rms : rmsprop Rat :=
  { m_learning_rate := 1, m_decay_rate := 1 / 2, m_eps := 1 }

/-- The buffers of the RMSprop scenario: parameter `k` at position `k`, a zero cache, no
update made yet. -/
def scenario_rms_state : rms_state Rat :=
  { parameters_buffer := fun k => (k : Rat), cache_buffer := fun _ => 0
    x_updates := fun _ => 0, c_updates := fun _ => 0 }

/-- The gradient buffer of the RMSprop scenario: `k` at position `k`. -/
def scenario_rms_gradient (k : Nat) : Rat := (k : Rat)

/-! ## Buffers of the ring allgather -/

/-- The states of all ranks when `pe_ring_allreduce` enters its ring allgather: after the
setup, the reduce-scatter loop and the statement pointing `recv_buf` back at
`max_recv_buf`. -/
def pe_before_ag {α : Type} (A : call_args α) (init : Nat → proc α) :
    Nat → Option (proc α) :=
  each_rank (fun _ p => { p with recv_buf := p.max_recv_buf })
    (pe_rs_loop A (fun r => some (pe_setup A (init r))))

/-- The states of all ranks of `pe_ring_allreduce` after the first allgather step, the
request for the second buffer and `m` steps of the allgather loop. -/
def pe_ag_steps {α : Type} (A : call_args α) (m : Nat) (sts : Nat → Option (proc α)) :
    Nat → Option (proc α) :=
  let ring_dst := fun (r : Nat) => (r + 1) % A.nprocs
  let ring_src := fun (r : Nat) => int_mod ((r : Int) - 1 + (A.nprocs : Int)) A.nprocs
  let s1 := sendrecv_all A.nprocs ring_dst ring_src
    (fun r q => some (pe_ag_first_send A r q)) (fun r => pe_ag_first A r) sts
  let s2 := each_rank (fun _ p => pe_second_buffer A p) s1
  for_loop 1 (1 + m)
    (fun step =>
      sendrecv_all A.nprocs ring_dst ring_src
        (fun _ q => forward q) (fun r => pe_ag_iter A r step))
    s2

/-- The states of all ranks when `ring_allreduce` enters its ring allgather. -/
def ring_before_ag {α : Type} (A : call_args α) (init : Nat → proc α) :
    Nat → Option (proc α) :=
  each_rank (fun _ p => { p with recv_buf := p.max_recv_buf })
    (ring_rs_loop A (fun r => some (ring_setup A (init r))))

/-- The states of all ranks of `ring_allreduce` after the first allgather step, the request
for the second buffer and `m` steps of the allgather loop. -/
def ring_ag_steps {α : Type} (A : call_args α) (m : Nat) (sts : Nat → Option (proc α)) :
    Nat → Option (proc α) :=
  let ring_dst := fun (r : Nat) => (r + 1) % A.nprocs
  let ring_src := fun (r : Nat) => int_mod ((r : Int) - 1 + (A.nprocs : Int)) A.nprocs
  let s1 := sendrecv_all A.nprocs ring_dst ring_src
    (fun r q => some (ring_ag_first_send A r q)) (fun r => ring_ag_first A r) sts
  let s2 := each_rank (fun _ p => ring_second_buffer A p) s1
  for_loop 1 (1 + m)
    (fun step =>
      sendrecv_all A.nprocs ring_dst ring_src
        (fun _ q => forward q) (fun r => ring_ag_iter A r step))
    s2

/-- A process in the reduce-scatter phase holds the slot-0 buffer of `max_recv_count` in
`max_recv_buf`, in a well-formed pool. -/
def holds_first_buffer {α : Type} (A : call_args α) (a : Nat) (p : proc α) : Prop :=
  p.max_recv_buf = bufptr.scratch a ∧ p.max_recv_count = A.max_recv_count ∧
    pool_wf p.comm.pool ∧ slot p.comm.pool A.max_recv_count 0 = some a

/-- A process in the allgather loop sends from one scratch buffer and receives into
another. -/
def holds_two_buffers {α : Type} (p : proc α) : Prop :=
  ∃ x y, p.recv_buf = bufptr.scratch x ∧ p.recv_buf2 = bufptr.scratch y ∧ x ≠ y

/-- The states of all ranks of `pe_ring_allreduce` after the first allgather step, where the
second buffer is requested. -/
def pe_after_first {α : Type} (A : call_args α) (sts : Nat → Option (proc α)) :
    Nat → Option (proc α) :=
  sendrecv_all A.nprocs (fun (r : Nat) => (r + 1) % A.nprocs)
    (fun (r : Nat) => int_mod ((r : Int) - 1 + (A.nprocs : Int)) A.nprocs)
    (fun r q => some (pe_ag_first_send A r q)) (fun r => pe_ag_first A r) sts

/-- The states of all ranks of `ring_allreduce` after the first allgather step, where the
second buffer is requested. -/
def ring_after_first {α : Type} (A : call_args α) (sts : Nat → Option (proc α)) :
    Nat → Option (proc α) :=
  sendrecv_all A.nprocs (fun (r : Nat) => (r + 1) % A.nprocs)
    (fun (r : Nat) => int_mod ((r : Int) - 1 + (A.nprocs : Int)) A.nprocs)
    (fun r q => some (ring_ag_first_send A r q)) (fun r => ring_ag_first A r) sts

/-- A process between the steps of a reduce-scatter loop whose messages fit: its matrix has
the shape `h × w` and it holds the slot-0 buffer of `max_recv_count` bytes. -/
def first_live {α : Type} (A : call_args α) (h w : Nat) (p : proc α) : Prop :=
  p.mat.height = h ∧ p.mat.width = w ∧ ∃ a, holds_first_buffer A a p

/-- A process between the steps of an allgather loop whose messages fit: its matrix has the
shape `h × w`, it sends from one scratch buffer and receives into another, both of
`max_recv_count` bytes, and the `send_size` it forwards next is at most `max_recv_count`. -/
def two_live {α : Type} (A : call_args α) (h w : Nat) (p : proc α) : Prop :=
  p.mat.height = h ∧ p.mat.width = w ∧ p.max_recv_count = A.max_recv_count ∧
    p.send_size ≤ A.max_recv_count ∧
    ∃ x y, p.recv_buf = bufptr.scratch x ∧ p.recv_buf2 = bufptr.scratch y ∧ x ≠ y ∧
      p.comm.pool.heap[x]? = some A.max_recv_count ∧
      p.comm.pool.heap[y]? = some A.max_recv_count

/-- The callbacks never report more than `max_recv_count` bytes: `send_transform` for a
column slice of a matrix of the shape `h × w`, whatever the flag, and `recv_transform` for
the view of such a slice, whatever the buffer. -/
def callbacks_fit {α : Type} (A : call_args α) (h w : Nat) : Prop :=
  ∀ (m : Mat α) (k : Nat), m.height = h → m.width = w → k < A.nprocs →
    (∀ flag : Bool,
      (A.T.send_transform m IR.ALL (slice_range w A.nprocs k) flag).2 ≤ A.max_recv_count) ∧
    ∀ buf : Mat α,
      (A.T.recv_transform buf (view m IR.ALL (slice_range w A.nprocs k))).2
        ≤ A.max_recv_count

/-- The arguments of the four-rank ring scenario: identity-copy and summing callbacks,
8-byte entries, buffers of 8 bytes, no node-local shortcut. -/
def scenario_ring4_args : call_args Int :=
  { nprocs := 4
    max_recv_count := 8
    T := id_sum_transforms Int 8
    id_recv := false
    no_local_trans := false
    is_rank_node_local := fun _ _ => false
    sizeof_DataType := 8 }

/-- Rank `r` of the four-rank ring scenario holds the row `[r, r, r, r]`. -/
def scenario_ring4_init (r : Nat) : proc Int :=
  fresh_proc { height := 1, width := 4, entry := fun _ _ => (r : Int) }

/-! ## The index variables of Rabenseifner's allreduce -/

/-- The index part of one iteration of the recursive-halving loop: the ranges of
`rab_rs_ranges` and the update of `send_idx` and `last_idx` at the end of the iteration
(`partner_mask` and `slice_mask` are the values at the start of the iteration). -/
def rab_rs_index_step (cols nprocs rank partner_mask slice_mask : Nat) (v : rab_vars) :
    Option (rab_vars × IR × IR) :=
  match rab_rs_ranges cols nprocs rank partner_mask slice_mask v with
  | none => none
  | some (v1, send_range, recv_range) =>
    if partner_mask >>> 1 > 0 then
      match u32_div nprocs (u32 (slice_mask <<< 1)) with
      | none => none
      | some d =>
        some ({ send_idx := v1.recv_idx
                recv_idx := v1.recv_idx
                last_idx := u32 (v1.recv_idx + d) }, send_range, recv_range)
    else
      some ({ v1 with send_idx := v1.recv_idx }, send_range, recv_range)

/-- The index part of the loop `while (partner_mask > 0)` on one rank: the partner, send
range and receive range of every iteration, the index variables after the loop and the
final `slice_mask`; `none` when an index is out of bounds or a division is by zero. -/
def rab_rs_indices (cols nprocs rank : Nat) :
    Nat → Nat → Nat → rab_vars → Option (List (Nat × IR × IR) × rab_vars × Nat)
  | 0, partner_mask, slice_mask, v =>
    if partner_mask > 0 then none else some ([], v, slice_mask)
  | fuel + 1, partner_mask, slice_mask, v =>
    if partner_mask > 0 then
      match rab_rs_index_step cols nprocs rank partner_mask slice_mask v with
      | none => none
      | some (v1, send_range, recv_range) =>
        match rab_rs_indices cols nprocs rank fuel (partner_mask >>> 1)
            (u32 (slice_mask <<< 1)) v1 with
        | none => none
        | some res => some ((rank ^^^ partner_mask, send_range, recv_range) :: res.1, res.2)
    else some ([], v, slice_mask)

/-- The index part of one iteration of the recursive-doubling loop of the allgather. -/
def rab_ag_index_step (cols nprocs rank partner_mask slice_mask : Nat) (v : rab_vars) :
    Option (rab_vars × IR × IR) :=
  match rab_ag_ranges cols nprocs rank partner_mask slice_mask v with
  | none => none
  | some (v1, send_range, recv_range) =>
    some (if rank > rank ^^^ partner_mask then { v1 with send_idx := v1.recv_idx } else v1,
      send_range, recv_range)

/-- The index part of the loop `while (partner_mask < nprocs)` on one rank. -/
def rab_ag_indices (cols nprocs rank : Nat) :
    Nat → Nat → Nat → rab_vars → Option (List (Nat × IR × IR) × rab_vars)
  | 0, partner_mask, _, v => if partner_mask < nprocs then none else some ([], v)
  | fuel + 1, partner_mask, slice_mask, v =>
    if partner_mask < nprocs then
      match rab_ag_index_step cols nprocs rank partner_mask slice_mask v with
      | none => none
      | some (v1, send_range, recv_range) =>
        match rab_ag_indices cols nprocs rank fuel (u32 (partner_mask <<< 1))
            (slice_mask >>> 1) v1 with
        | none => none
        | some res => some ((rank ^^^ partner_mask, send_range, recv_range) :: res.1, res.2)
    else some ([], v)

/-- The column range of the `len` slices starting at slice `lo`. -/
def block_range (cols nprocs lo len : Nat) : IR :=
  IR.range (slice_begin cols nprocs lo) (slice_end cols nprocs (lo + len - 1))

/-- The first slice of the block of `2 ^ e` slices, aligned to a multiple of `2 ^ e`, that
contains slice `r`. -/
def block_start (r e : Nat) : Nat := r / 2 ^ e * 2 ^ e

/-- The iterations of the recursive-halving loop from the one with `partner_mask = 2 ^ e`
down to the one with `partner_mask = 1`: the partner `rank XOR 2 ^ e`, the block of `2 ^ e`
slices of the partner as send range, the block of `2 ^ e` slices of the rank as receive
range. -/
def rab_rs_expected (cols nprocs rank : Nat) : Nat → List (Nat × IR × IR)
  | 0 => [(rank ^^^ 1, block_range cols nprocs (block_start (rank ^^^ 1) 0) 1,
      block_range cols nprocs (block_start rank 0) 1)]
  | e + 1 =>
    (rank ^^^ 2 ^ (e + 1),
      block_range cols nprocs (block_start (rank ^^^ 2 ^ (e + 1)) (e + 1)) (2 ^ (e + 1)),
      block_range cols nprocs (block_start rank (e + 1)) (2 ^ (e + 1)))
      :: rab_rs_expected cols nprocs rank e

/-- The iterations `u, u + 1, ..., u + j` of the recursive-doubling loop: the partner
`rank XOR 2 ^ u`, the block of `2 ^ u` slices of the rank as send range, the block of the
partner as receive range. -/
def rab_ag_expected (cols nprocs rank : Nat) : Nat → Nat → List (Nat × IR × IR)
  | u, 0 => [(rank ^^^ 2 ^ u, block_range cols nprocs (block_start rank u) (2 ^ u),
      block_range cols nprocs (block_start (rank ^^^ 2 ^ u) u) (2 ^ u))]
  | u, j + 1 =>
    (rank ^^^ 2 ^ u, block_range cols nprocs (block_start rank u) (2 ^ u),
      block_range cols nprocs (block_start (rank ^^^ 2 ^ u) u) (2 ^ u))
      :: rab_ag_expected cols nprocs rank (u + 1) j

/-- The send callback never reports more than `max_recv_count` bytes for a column range
inside a matrix of the shape `h × w`, whatever the flag. -/
def callbacks_fit_ranges {α : Type} (A : call_args α) (h w : Nat) : Prop :=
  ∀ (m : Mat α) (a b : Nat) (flag : Bool), m.height = h → m.width = w → a ≤ b → b ≤ w →
    (A.T.send_transform m IR.ALL (IR.range a b) flag).2 ≤ A.max_recv_count

/-- A process between the steps of the loops of `rabenseifner_allreduce` whose messages
fit: its matrix has the shape `h × w` and `recv_buf` is a scratch buffer of
`max_recv_count` bytes. -/
def rab_live {α : Type} (A : call_args α) (h w : Nat) (p : proc α) : Prop :=
  p.mat.height = h ∧ p.mat.width = w ∧ p.max_recv_count = A.max_recv_count ∧
    ∃ a, p.recv_buf = bufptr.scratch a ∧ p.comm.pool.heap[a]? = some A.max_recv_count

/-- The arguments of the two-node scenario with the node-local shortcut switched off. -/
def scenario_rab_plain_args : call_args Int :=
  { scenario_rab_args with no_local_trans := false }

/-! ## Slice layout: proofs -/

theorem extra_loop_length (k : Nat) (v : List Nat) :
    ((List.range k).foldl (fun v i => v.set i (v.getD i 0 + 1)) v).length = v.length := by
  induction k with
  | zero => simp
  | succ k ih =>
    simp only [List.range_succ, List.foldl_append, List.foldl_cons, List.foldl_nil,
      List.length_set]
    exact ih

theorem extra_loop_getD (k : Nat) (v : List Nat) (j : Nat) (hk : k ≤ v.length) :
    ((List.range k).foldl (fun v i => v.set i (v.getD i 0 + 1)) v).getD j 0
      = if j < k then v.getD j 0 + 1 else v.getD j 0 := by
  induction k with
  | zero => simp
  | succ k ih =>
    have hk' : k ≤ v.length := Nat.le_of_succ_le hk
    have hlen := extra_loop_length k v
    have h2 := ih hk'
    simp only [List.range_succ, List.foldl_append, List.foldl_cons, List.foldl_nil]
    rw [List.getD_eq_getElem?_getD, List.getElem?_set]
    rw [List.getD_eq_getElem?_getD] at h2
    by_cases hjk : k = j
    · subst hjk
      have hlt : k < ((List.range k).foldl (fun v i => v.set i (v.getD i 0 + 1)) v).length := by
        rw [hlen]; omega
      have h4 := extra_loop_length k v
      rw [if_pos rfl, if_pos hlt, if_pos (Nat.lt_succ_self k), Option.getD_some,
        List.getD_eq_getElem?_getD, h2, if_neg (Nat.lt_irrefl k)]
    · rw [if_neg hjk, h2]
      by_cases h3 : j < k
      · rw [if_pos h3, if_pos (by omega)]
      · rw [if_neg h3, if_neg (by omega)]

theorem slice_lengths_length (cols nprocs : Nat) :
    (slice_lengths cols nprocs).length = nprocs := by
  unfold slice_lengths
  rw [extra_loop_length]; simp

theorem slice_lengths_getD (cols nprocs i : Nat) (hn : 1 ≤ nprocs) (hi : i < nprocs) :
    (slice_lengths cols nprocs).getD i 0
      = if i < cols % nprocs then cols / nprocs + 1 else cols / nprocs := by
  unfold slice_lengths
  rw [extra_loop_getD]
  · have : (List.replicate nprocs (cols / nprocs)).getD i 0 = cols / nprocs := by
      rw [List.getD_eq_getElem?_getD]; simp [hi]
    rw [this]
  · simp; exact Nat.le_of_lt (Nat.mod_lt _ hn)

theorem slice_lengths_eq (cols nprocs : Nat) (hn : 1 ≤ nprocs) :
    slice_lengths cols nprocs
      = List.replicate (cols % nprocs) (cols / nprocs + 1)
          ++ List.replicate (nprocs - cols % nprocs) (cols / nprocs) := by
  have hr : cols % nprocs < nprocs := Nat.mod_lt _ hn
  apply List.ext_getElem
  · rw [slice_lengths_length]; simp; omega
  · intro i h1 h2
    rw [slice_lengths_length] at h1
    have := slice_lengths_getD cols nprocs i hn h1
    rw [List.getD_eq_getElem?_getD, List.getElem?_eq_getElem (by rw [slice_lengths_length]; exact h1)] at this
    simp only [Option.getD_some] at this
    rw [this]
    by_cases h3 : i < cols % nprocs
    · rw [List.getElem_append_left (by simpa using h3)]; simp [h3]
    · rw [List.getElem_append_right (by simpa using h3)]; simp [h3]


theorem partial_sum_from_length (acc : Nat) (l : List Nat) :
    (partial_sum_from acc l).length = l.length := by
  induction l generalizing acc with
  | nil => rfl
  | cons x xs ih => simp [partial_sum_from, ih]

theorem partial_sum_from_getD (acc : Nat) (l : List Nat) (i : Nat) (hi : i < l.length) :
    (partial_sum_from acc l).getD i 0 = acc + (l.take (i + 1)).sum := by
  induction l generalizing acc i with
  | nil => simp at hi
  | cons x xs ih =>
    cases i with
    | zero => simp [partial_sum_from]
    | succ i =>
      have hi' : i < xs.length := by simpa using hi
      have := ih (acc + x) i hi'
      simp only [partial_sum_from, List.getD_cons_succ, this, List.take_succ_cons, List.sum_cons]
      omega

theorem slice_ends_length (cols nprocs : Nat) : (slice_ends cols nprocs).length = nprocs := by
  unfold slice_ends partial_sum
  rw [partial_sum_from_length, slice_lengths_length]

theorem slice_end_eq_sum (cols nprocs i : Nat) (hi : i < nprocs) :
    slice_end cols nprocs i = ((slice_lengths cols nprocs).take (i + 1)).sum := by
  unfold slice_end slice_ends partial_sum
  rw [partial_sum_from_getD _ _ _ (by rw [slice_lengths_length]; exact hi)]
  simp

theorem take_succ_sum (l : List Nat) (i : Nat) :
    (l.take (i + 1)).sum = (l.take i).sum + l.getD i 0 := by
  induction l generalizing i with
  | nil => simp
  | cons x xs ih =>
    cases i with
    | zero => simp
    | succ i =>
      simp only [List.take_succ_cons, List.sum_cons, List.getD_cons_succ, ih i]
      omega

theorem slice_begin_eq_sum (cols nprocs i : Nat) (hi : i < nprocs) :
    slice_begin cols nprocs i = ((slice_lengths cols nprocs).take i).sum := by
  have h := slice_end_eq_sum cols nprocs i hi
  unfold slice_end at h
  unfold slice_begin
  rw [h, take_succ_sum]
  omega

theorem slice_begin_succ (cols nprocs i : Nat) (hi : i + 1 < nprocs) :
    slice_begin cols nprocs (i + 1) = slice_end cols nprocs i := by
  rw [slice_begin_eq_sum _ _ _ hi, slice_end_eq_sum _ _ _ (by omega)]

theorem slice_begin_le_end (cols nprocs i : Nat) (hi : i < nprocs) :
    slice_begin cols nprocs i ≤ slice_end cols nprocs i := by
  rw [slice_begin_eq_sum _ _ _ hi, slice_end_eq_sum _ _ _ hi, take_succ_sum]
  omega

theorem slice_end_sub_begin (cols nprocs i : Nat) (hi : i < nprocs) :
    slice_end cols nprocs i - slice_begin cols nprocs i = (slice_lengths cols nprocs).getD i 0 := by
  rw [slice_begin_eq_sum _ _ _ hi, slice_end_eq_sum _ _ _ hi, take_succ_sum]
  omega

theorem slice_lengths_sum (cols nprocs : Nat) (hn : 1 ≤ nprocs) :
    (slice_lengths cols nprocs).sum = cols := by
  rw [slice_lengths_eq cols nprocs hn]
  have hr : cols % nprocs < nprocs := Nat.mod_lt _ hn
  have h := Nat.div_add_mod cols nprocs
  simp only [List.sum_append, List.sum_replicate, smul_eq_mul]
  have h2 : (nprocs - cols % nprocs) * (cols / nprocs) + cols % nprocs * (cols / nprocs)
      = nprocs * (cols / nprocs) := by
    rw [← Nat.add_mul]; congr 1; omega
  rw [Nat.mul_add, Nat.mul_one]
  omega

theorem slice_end_last (cols nprocs : Nat) (hn : 1 ≤ nprocs) :
    slice_end cols nprocs (nprocs - 1) = cols := by
  rw [slice_end_eq_sum _ _ _ (by omega)]
  have h : nprocs - 1 + 1 = (slice_lengths cols nprocs).length := by
    rw [slice_lengths_length]; omega
  rw [h, List.take_length, slice_lengths_sum cols nprocs hn]

theorem slice_begin_zero (cols nprocs : Nat) (hn : 1 ≤ nprocs) :
    slice_begin cols nprocs 0 = 0 := by
  rw [slice_begin_eq_sum _ _ _ (by omega)]; simp

theorem slice_end_le_begin (cols nprocs i j : Nat) (hij : i < j) (hj : j < nprocs) :
    slice_end cols nprocs i ≤ slice_begin cols nprocs j := by
  induction j with
  | zero => omega
  | succ j ih =>
    rw [slice_begin_succ _ _ _ hj]
    by_cases h : i = j
    · subst h; exact Nat.le_refl _
    · exact Nat.le_trans (ih (by omega) (by omega)) (slice_begin_le_end _ _ _ (by omega))

theorem slice_end_le_cols (cols nprocs i : Nat) (hn : 1 ≤ nprocs) (hi : i < nprocs) :
    slice_end cols nprocs i ≤ cols := by
  by_cases h : i = nprocs - 1
  · subst h; exact Nat.le_of_eq (slice_end_last cols nprocs hn)
  · have h1 := slice_end_le_begin cols nprocs i (nprocs - 1) (by omega) (by omega)
    have h2 := slice_begin_le_end cols nprocs (nprocs - 1) (by omega)
    rw [slice_end_last cols nprocs hn] at h2
    omega

theorem slice_cover_aux (cols nprocs c : Nat) (k : Nat) (hk : k < nprocs)
    (hc : c < slice_end cols nprocs k) :
    ∃ i, i < nprocs ∧ slice_begin cols nprocs i ≤ c ∧ c < slice_end cols nprocs i := by
  induction k with
  | zero =>
    exact ⟨0, hk, by rw [slice_begin_zero cols nprocs (by omega)]; exact Nat.zero_le _, hc⟩
  | succ k ih =>
    by_cases h : c < slice_end cols nprocs k
    · exact ih (by omega) h
    · exact ⟨k + 1, hk, by rw [slice_begin_succ _ _ _ hk]; omega, hc⟩

theorem slice_cover (cols nprocs c : Nat) (hn : 1 ≤ nprocs) (hc : c < cols) :
    ∃ i, i < nprocs ∧ slice_begin cols nprocs i ≤ c ∧ c < slice_end cols nprocs i :=
  slice_cover_aux cols nprocs c (nprocs - 1) (by omega) (by rw [slice_end_last _ _ hn]; exact hc)

theorem slice_unique (cols nprocs c i j : Nat) (hi : i < nprocs) (hj : j < nprocs)
    (h1 : slice_begin cols nprocs i ≤ c ∧ c < slice_end cols nprocs i)
    (h2 : slice_begin cols nprocs j ≤ c ∧ c < slice_end cols nprocs j) : i = j := by
  by_contra hne
  rcases Nat.lt_or_gt_of_ne hne with h | h
  · have := slice_end_le_begin cols nprocs i j h hj; omega
  · have := slice_end_le_begin cols nprocs j i h hi; omega

/-- C1: for `nprocs ≥ 1` the slice-length vector has `nprocs` entries summing to `cols`;
entry `i` is `cols / nprocs + 1` when `i < cols % nprocs` and `cols / nprocs` otherwise, so
exactly `cols % nprocs` slices (the lowest-indexed ones) carry the extra column. -/
theorem C1_slice_lengths (cols nprocs : Nat) (hn : 1 ≤ nprocs) :
    (slice_lengths cols nprocs).length = nprocs ∧
    (slice_lengths cols nprocs).sum = cols ∧
    (∀ i, i < nprocs → (slice_lengths cols nprocs).getD i 0
        = if i < cols % nprocs then cols / nprocs + 1 else cols / nprocs) ∧
    ((Finset.range nprocs).filter
        (fun i => (slice_lengths cols nprocs).getD i 0 = cols / nprocs + 1)).card
      = cols % nprocs := by
  refine ⟨slice_lengths_length cols nprocs, slice_lengths_sum cols nprocs hn,
    fun i hi => slice_lengths_getD cols nprocs i hn hi, ?_⟩
  have hr : cols % nprocs < nprocs := Nat.mod_lt _ hn
  have : (Finset.range nprocs).filter
      (fun i => (slice_lengths cols nprocs).getD i 0 = cols / nprocs + 1)
      = Finset.range (cols % nprocs) := by
    ext i
    simp only [Finset.mem_filter, Finset.mem_range]
    constructor
    · rintro ⟨hi, h⟩
      rw [slice_lengths_getD cols nprocs i hn hi] at h
      by_contra hlt
      rw [if_neg hlt] at h
      omega
    · intro hi
      have hi' : i < nprocs := by omega
      refine ⟨hi', ?_⟩
      rw [slice_lengths_getD cols nprocs i hn hi', if_pos hi]
  rw [this, Finset.card_range]

theorem C1_slice_lengths_witness :
    (slice_lengths 7 3).length = 3 ∧ (slice_lengths 7 3).sum = 7 ∧
    (∀ i, i < 3 → (slice_lengths 7 3).getD i 0 = if i < 7 % 3 then 7 / 3 + 1 else 7 / 3) ∧
    ((Finset.range 3).filter (fun i => (slice_lengths 7 3).getD i 0 = 7 / 3 + 1)).card = 7 % 3 :=
  C1_slice_lengths 7 3 (by decide)

/-- C2: for `nprocs ≥ 1`, `slice_ends` holds the prefix sums of `slice_lengths`, its last entry
is `cols`, and the column ranges `[slice_ends[i] - slice_lengths[i], slice_ends[i])` start at 0,
are consecutive, pairwise disjoint and cover exactly `[0, cols)`. -/
theorem C2_slice_ends (cols nprocs : Nat) (hn : 1 ≤ nprocs) :
    (slice_ends cols nprocs).length = nprocs ∧
    (∀ i, i < nprocs →
      (slice_ends cols nprocs).getD i 0 = ((slice_lengths cols nprocs).take (i + 1)).sum) ∧
    (slice_ends cols nprocs).getD (nprocs - 1) 0 = cols ∧
    (∀ i, i < nprocs → (slice_lengths cols nprocs).getD i 0 ≤ (slice_ends cols nprocs).getD i 0) ∧
    slice_begin cols nprocs 0 = 0 ∧
    (∀ i, i + 1 < nprocs → slice_begin cols nprocs (i + 1) = slice_end cols nprocs i) ∧
    (∀ i j, i < j → j < nprocs → slice_end cols nprocs i ≤ slice_begin cols nprocs j) ∧
    (∀ c, c < cols ↔
      ∃ i, i < nprocs ∧ slice_begin cols nprocs i ≤ c ∧ c < slice_end cols nprocs i) := by
  refine ⟨slice_ends_length cols nprocs, fun i hi => slice_end_eq_sum cols nprocs i hi,
    slice_end_last cols nprocs hn, ?_, slice_begin_zero cols nprocs hn,
    fun i hi => slice_begin_succ cols nprocs i hi,
    fun i j hij hj => slice_end_le_begin cols nprocs i j hij hj, ?_⟩
  · intro i hi
    have h := slice_end_eq_sum cols nprocs i hi
    unfold slice_end at h
    rw [h, take_succ_sum]
    omega
  · intro c
    constructor
    · exact slice_cover cols nprocs c hn
    · rintro ⟨i, hi, _, h2⟩
      exact Nat.lt_of_lt_of_le h2 (slice_end_le_cols cols nprocs i hn hi)

theorem C2_slice_ends_witness : slice_ends 7 3 = [3, 5, 7] ∧ slice_begin 7 3 2 = 5 ∧
    (∀ c, c < 7 ↔ ∃ i, i < 3 ∧ slice_begin 7 3 i ≤ c ∧ c < slice_end 7 3 i) :=
  ⟨by decide, by decide, (C2_slice_ends 7 3 (by decide)).2.2.2.2.2.2.2⟩

/-! ## Powers of two -/

theorem testBit_of_range (x k : Nat) (h1 : 2 ^ k ≤ x) (h2 : x < 2 ^ (k + 1)) :
    x.testBit k = true := by
  rw [Nat.testBit_to_div_mod]
  have hpos : 0 < 2 ^ k := Nat.two_pow_pos k
  have h3 : x / 2 ^ k = 1 := by
    apply Nat.div_eq_of_lt_le
    · simpa using h1
    · rw [Nat.pow_succ] at h2; omega
  simp [h3]

theorem and_pred_eq_zero_iff (n : Nat) (hn : 1 ≤ n) :
    n &&& (n - 1) = 0 ↔ ∃ k, n = 2 ^ k := by
  constructor
  · intro h
    refine ⟨n.log2, ?_⟩
    have hne : n ≠ 0 := by omega
    have h1 : 2 ^ n.log2 ≤ n := Nat.log2_self_le hne
    have h2 : n < 2 ^ (n.log2 + 1) := Nat.lt_log2_self
    by_contra hcon
    have h3 : 2 ^ n.log2 ≤ n - 1 := by omega
    have h4 : n - 1 < 2 ^ (n.log2 + 1) := by omega
    have h5 : (n &&& (n - 1)).testBit n.log2 = true := by
      rw [Nat.testBit_and, testBit_of_range n _ h1 h2, testBit_of_range (n - 1) _ h3 h4]
      rfl
    rw [h] at h5
    simp at h5
  · rintro ⟨k, rfl⟩
    rw [Nat.and_pow_two_sub_one_eq_mod]
    exact Nat.mod_self _

/-! ## Buffer pool: proofs -/

theorem gcb_absent_zero (size : Nat) (pool : buffer_pool)
    (h : pool.collective_bufs size = none) :
    get_collective_buffer size 0 pool
      = (some pool.heap.length, push_new_buffer pool size []) := by
  simp [get_collective_buffer, h, push_new_buffer]

theorem gcb_absent_pos (size idx : Nat) (pool : buffer_pool)
    (h : pool.collective_bufs size = none) (hi : idx ≠ 0) :
    get_collective_buffer size idx pool = (none, pool) := by
  simp [get_collective_buffer, h, hi]

theorem gcb_present_lt (size idx : Nat) (pool : buffer_pool) (v : List Nat)
    (h : pool.collective_bufs size = some v) (hi : idx < v.length) :
    get_collective_buffer size idx pool = (some (v.get ⟨idx, hi⟩), pool) := by
  simp [get_collective_buffer, h, hi]

theorem gcb_present_eq (size idx : Nat) (pool : buffer_pool) (v : List Nat)
    (h : pool.collective_bufs size = some v) (hi : v.length = idx) :
    get_collective_buffer size idx pool
      = (some pool.heap.length, push_new_buffer pool size v) := by
  subst hi
  simp [get_collective_buffer, h, push_new_buffer]

theorem gcb_present_gt (size idx : Nat) (pool : buffer_pool) (v : List Nat)
    (h : pool.collective_bufs size = some v) (hi : v.length < idx) :
    get_collective_buffer size idx pool = (none, pool) := by
  have h1 : ¬ v.length > idx := by omega
  have h2 : v.length ≠ idx := by omega
  simp [get_collective_buffer, h, h1, h2]

/-- The three ways a `get_collective_buffer` call can go: null, an existing buffer, a new
buffer. -/
theorem gcb_cases (size idx : Nat) (pool : buffer_pool) :
    (get_collective_buffer size idx pool = (none, pool) ∧ num_slots pool size < idx) ∨
    (∃ b, get_collective_buffer size idx pool = (some b, pool) ∧ slot pool size idx = some b
        ∧ idx < num_slots pool size) ∨
    (∃ v, get_collective_buffer size idx pool
        = (some pool.heap.length, push_new_buffer pool size v) ∧
      (pool.collective_bufs size).getD [] = v ∧ v.length = idx) := by
  cases h : pool.collective_bufs size with
  | none =>
    by_cases hi : idx = 0
    · subst hi
      exact Or.inr (Or.inr ⟨[], gcb_absent_zero size pool h, by simp, rfl⟩)
    · exact Or.inl ⟨gcb_absent_pos size idx pool h hi, by simp [num_slots, h]; omega⟩
  | some v =>
    rcases Nat.lt_trichotomy idx v.length with h1 | h1 | h1
    · refine Or.inr (Or.inl ⟨v.get ⟨idx, h1⟩, gcb_present_lt size idx pool v h h1, ?_, ?_⟩)
      · simp [slot, h, h1]
      · simp [num_slots, h, h1]
    · exact Or.inr (Or.inr ⟨v, gcb_present_eq size idx pool v h h1.symm, by simp, h1.symm⟩)
    · exact Or.inl ⟨gcb_present_gt size idx pool v h h1, by simp [num_slots, h, h1]⟩

theorem slot_push_new_buffer (pool : buffer_pool) (size : Nat) (v : List Nat)
    (hv : (pool.collective_bufs size).getD [] = v) (s i : Nat) :
    slot (push_new_buffer pool size v) s i
      = if s = size ∧ i = v.length then some pool.heap.length else slot pool s i := by
  unfold slot push_new_buffer
  by_cases hs : s = size
  · subst hs
    simp only [if_true, Option.getD_some, true_and]
    rw [hv]
    by_cases hi : i = v.length
    · subst hi; simp
    · rw [if_neg hi]
      rcases Nat.lt_or_gt_of_ne hi with h | h
      · rw [List.getElem?_append_left h]
      · rw [List.getElem?_eq_none (by simp; omega), List.getElem?_eq_none (by omega)]
  · simp [hs]

theorem slot_lt_num_slots (pool : buffer_pool) (s i b : Nat) (h : slot pool s i = some b) :
    i < num_slots pool s := by
  unfold slot at h
  unfold num_slots
  by_contra hcon
  rw [List.getElem?_eq_none (by omega)] at h
  exact Option.noConfusion h

/-- A call never changes a buffer that is already stored. -/
theorem gcb_slot_mono (size idx : Nat) (pool : buffer_pool) (s i b : Nat)
    (h : slot pool s i = some b) :
    slot (get_collective_buffer size idx pool).2 s i = some b := by
  rcases gcb_cases size idx pool with ⟨h1, _⟩ | ⟨_, h1, _⟩ | ⟨v, h1, hv, _⟩
  · rw [h1]; exact h
  · rw [h1]; exact h
  · rw [h1]
    simp only
    rw [slot_push_new_buffer pool size v hv]
    by_cases hc : s = size ∧ i = v.length
    · exfalso
      have := slot_lt_num_slots pool s i b h
      unfold num_slots at this
      rw [hc.1, hv] at this
      omega
    · rw [if_neg hc]; exact h

theorem run_calls_slot_mono (calls : List (Nat × Nat)) (pool : buffer_pool) (s i b : Nat)
    (h : slot pool s i = some b) : slot (run_calls pool calls) s i = some b := by
  induction calls generalizing pool with
  | nil => exact h
  | cons c cs ih =>
    unfold run_calls
    rw [List.foldl_cons]
    exact ih _ (gcb_slot_mono c.1 c.2 pool s i b h)

/-- What a call returns is afterwards stored under its key. -/
theorem gcb_result_slot (size idx : Nat) (pool : buffer_pool) (b : Nat)
    (h : (get_collective_buffer size idx pool).1 = some b) :
    slot (get_collective_buffer size idx pool).2 size idx = some b := by
  rcases gcb_cases size idx pool with ⟨h1, _⟩ | ⟨b1, h1, h2, _⟩ | ⟨v, h1, hv, hl⟩
  · rw [h1] at h; exact Option.noConfusion h
  · rw [h1] at h ⊢
    simp only at h ⊢
    rw [h2]; exact h
  · rw [h1] at h ⊢
    simp only at h ⊢
    rw [slot_push_new_buffer pool size v hv, if_pos ⟨rfl, hl.symm⟩]; exact h

/-- A call for a key that is already stored returns the stored buffer. -/
theorem gcb_of_slot (size idx : Nat) (pool : buffer_pool) (b : Nat)
    (h : slot pool size idx = some b) :
    get_collective_buffer size idx pool = (some b, pool) := by
  have hlt := slot_lt_num_slots pool size idx b h
  rcases gcb_cases size idx pool with ⟨_, h2⟩ | ⟨b1, h1, h2, _⟩ | ⟨v, _, hv, hl⟩
  · omega
  · rw [h1]; rw [h] at h2; rw [Option.some.inj h2]
  · unfold num_slots at hlt; rw [hv] at hlt; omega

theorem gcb_null_iff (size idx : Nat) (pool : buffer_pool) :
    (get_collective_buffer size idx pool).1 = none ↔ num_slots pool size < idx := by
  rcases gcb_cases size idx pool with ⟨h1, h2⟩ | ⟨b1, h1, _, h2⟩ | ⟨v, h1, hv, hl⟩
  · rw [h1]; simp [h2]
  · rw [h1]; simp; omega
  · rw [h1]; simp [num_slots, hv]; omega

theorem pool_wf_empty (heap : List Nat) : pool_wf (empty_pool heap) := by
  refine ⟨?_, ?_, ?_⟩ <;> simp [slot, empty_pool]

theorem pool_wf_gcb (size idx : Nat) (pool : buffer_pool) (hw : pool_wf pool) :
    pool_wf (get_collective_buffer size idx pool).2 := by
  rcases gcb_cases size idx pool with ⟨h1, _⟩ | ⟨_, h1, _⟩ | ⟨v, h1, hv, hl⟩
  · rw [h1]; exact hw
  · rw [h1]; exact hw
  · rw [h1]
    simp only
    obtain ⟨ha, hb, hc⟩ := hw
    have hfresh : ∀ s i, slot pool s i ≠ some pool.heap.length := by
      intro s i hcon
      have := ha s i _ hcon
      rw [List.getElem?_eq_none (Nat.le_refl _)] at this
      exact Option.noConfusion this
    refine ⟨?_, ?_, ?_⟩
    · intro s i b hs
      rw [slot_push_new_buffer pool size v hv] at hs
      by_cases hk : s = size ∧ i = v.length
      · rw [if_pos hk] at hs
        rw [← Option.some.inj hs, hk.1]
        simp [push_new_buffer]
      · rw [if_neg hk] at hs
        have h3 := ha s i b hs
        have h4 : b < pool.heap.length := by
          by_contra hcon
          rw [List.getElem?_eq_none (by omega)] at h3
          exact Option.noConfusion h3
        simp only [push_new_buffer]
        rw [List.getElem?_append_left h4]; exact h3
    · intro s w hs
      simp only [push_new_buffer] at hs
      by_cases hk : s = size
      · rw [if_pos hk] at hs
        rw [← Option.some.inj hs]; simp
      · rw [if_neg hk] at hs; exact hb s w hs
    · intro s1 i1 s2 i2 b h1 h2
      rw [slot_push_new_buffer pool size v hv] at h1 h2
      by_cases hk1 : s1 = size ∧ i1 = v.length
      · rw [if_pos hk1] at h1
        by_cases hk2 : s2 = size ∧ i2 = v.length
        · exact ⟨hk1.1.trans hk2.1.symm, hk1.2.trans hk2.2.symm⟩
        · rw [if_neg hk2] at h2
          rw [← Option.some.inj h1] at h2
          exact absurd h2 (hfresh s2 i2)
      · rw [if_neg hk1] at h1
        by_cases hk2 : s2 = size ∧ i2 = v.length
        · rw [if_pos hk2] at h2
          rw [← Option.some.inj h2] at h1
          exact absurd h1 (hfresh s1 i1)
        · rw [if_neg hk2] at h2
          exact hc s1 i1 s2 i2 b h1 h2

theorem pool_wf_run_calls (calls : List (Nat × Nat)) (pool : buffer_pool) (hw : pool_wf pool) :
    pool_wf (run_calls pool calls) := by
  induction calls generalizing pool with
  | nil => exact hw
  | cons c cs ih =>
    unfold run_calls
    rw [List.foldl_cons]
    exact ih _ (pool_wf_gcb c.1 c.2 pool hw)

/-! ## Dispatcher, pool and constructor: the properties -/

/-- C3: for `nprocs ≥ 1`, `intermodel_allreduce` calls `recursive_doubling_allreduce_pow2`
if and only if `nprocs` is a power of two and both `height ≤ 64` and `width ≤ 64`; in every
other case it calls `pe_ring_allreduce`; it makes exactly one call, never both. -/
theorem C3_dispatch (nprocs height width : Nat) (hn : 1 ≤ nprocs) :
    (allreduce_algorithm.recursive_doubling_allreduce_pow2
        ∈ intermodel_allreduce_calls nprocs height width
      ↔ (∃ k, nprocs = 2 ^ k) ∧ height ≤ 64 ∧ width ≤ 64) ∧
    (allreduce_algorithm.pe_ring_allreduce ∈ intermodel_allreduce_calls nprocs height width
      ↔ ¬ ((∃ k, nprocs = 2 ^ k) ∧ height ≤ 64 ∧ width ≤ 64)) ∧
    (intermodel_allreduce_calls nprocs height width
        = [allreduce_algorithm.recursive_doubling_allreduce_pow2] ∨
      intermodel_allreduce_calls nprocs height width
        = [allreduce_algorithm.pe_ring_allreduce]) := by
  have hp := and_pred_eq_zero_iff nprocs hn
  unfold intermodel_allreduce_calls
  by_cases h1 : nprocs &&& (nprocs - 1) = 0
  · have hk := hp.1 h1
    by_cases h2 : height ≤ 64 ∧ width ≤ 64
    · simp [h1, h2, hk]
    · simp [h1, h2]
  · have hk : ¬ ∃ k, nprocs = 2 ^ k := fun h => h1 (hp.2 h)
    simp [h1, hk]

theorem C3_dispatch_witness :
    (allreduce_algorithm.recursive_doubling_allreduce_pow2 ∈ intermodel_allreduce_calls 4 64 10
      ↔ (∃ k, 4 = 2 ^ k) ∧ 64 ≤ 64 ∧ 10 ≤ 64) ∧
    (allreduce_algorithm.pe_ring_allreduce ∈ intermodel_allreduce_calls 4 64 10
      ↔ ¬ ((∃ k, 4 = 2 ^ k) ∧ 64 ≤ 64 ∧ 10 ≤ 64)) ∧
    (intermodel_allreduce_calls 4 64 10
        = [allreduce_algorithm.recursive_doubling_allreduce_pow2] ∨
      intermodel_allreduce_calls 4 64 10 = [allreduce_algorithm.pe_ring_allreduce]) :=
  C3_dispatch 4 64 10 (by decide)

/-- C7: once a `get_collective_buffer(size, idx)` call has returned a (non-null) buffer,
every later call with the same `(size, idx)` returns that same buffer, whatever other
requests are made in between. -/
theorem C7_same_buffer (pool : buffer_pool) (size idx b : Nat) (calls : List (Nat × Nat))
    (h : (get_collective_buffer size idx pool).1 = some b) :
    (get_collective_buffer size idx
      (run_calls (get_collective_buffer size idx pool).2 calls)).1 = some b := by
  have h1 := gcb_result_slot size idx pool b h
  have h2 := run_calls_slot_mono calls _ size idx b h1
  rw [gcb_of_slot size idx _ b h2]

theorem C7_same_buffer_witness :
    (get_collective_buffer 8 0 (empty_pool [])).1 = some 0 ∧
    (get_collective_buffer 8 0
      (run_calls (get_collective_buffer 8 0 (empty_pool [])).2
        [(16, 0), (8, 1), (8, 3), (16, 1)])).1 = some 0 :=
  ⟨by decide, C7_same_buffer (empty_pool []) 8 0 0 [(16, 0), (8, 1), (8, 3), (16, 1)]
    (by decide)⟩

theorem gcb_num_slots_le (size idx : Nat) (pool : buffer_pool) (s k : Nat)
    (hk : num_slots pool s ≤ k) (hne : (size, idx) ≠ (s, k)) :
    num_slots (get_collective_buffer size idx pool).2 s ≤ k := by
  rcases gcb_cases size idx pool with ⟨h1, _⟩ | ⟨_, h1, _⟩ | ⟨v, h1, hv, hl⟩
  · rw [h1]; exact hk
  · rw [h1]; exact hk
  · rw [h1]
    simp only [num_slots, push_new_buffer]
    by_cases hs : s = size
    · subst hs
      simp only [if_true, Option.getD_some, List.length_append, List.length_singleton]
      unfold num_slots at hk
      rw [hv] at hk
      have : idx ≠ k := fun hc => hne (by rw [hc])
      omega
    · rw [if_neg hs]; exact hk

theorem run_calls_null_of_not_acquired (calls : List (Nat × Nat)) (pool : buffer_pool)
    (size k : Nat) (hk : num_slots pool size ≤ k)
    (hfail : ∀ pre post, calls = pre ++ (size, k) :: post →
      (get_collective_buffer size k (run_calls pool pre)).1 = none) :
    num_slots (run_calls pool calls) size ≤ k := by
  induction calls generalizing pool with
  | nil => exact hk
  | cons c cs ih =>
    unfold run_calls
    rw [List.foldl_cons]
    apply ih
    · by_cases hc : c = (size, k)
      · have h0 := hfail [] cs (by rw [hc]; rfl)
        have h1 : run_calls pool [] = pool := rfl
        rw [h1] at h0
        rw [hc]
        simp only
        rcases gcb_cases size k pool with ⟨h2, _⟩ | ⟨_, h2, _⟩ | ⟨v, h2, _, _⟩
        · rw [h2]; exact hk
        · rw [h2]; exact hk
        · rw [h2] at h0; exact Option.noConfusion h0
      · exact gcb_num_slots_le c.1 c.2 pool size k hk hc
    · intro pre post hcs
      have := hfail (c :: pre) post (by rw [hcs]; rfl)
      exact this

/-- C8: `get_collective_buffer(size, idx)` returns the null handle if and only if `idx` is
strictly greater than the number of slots that exist for `size` (zero when the size was never
requested); slot 0 is never null; and, on an engine started with an empty pool, slot `k > 0`
requested while no request for slot `k - 1` has succeeded returns null. -/
theorem C8_null_handle (pool : buffer_pool) (size idx : Nat) :
    ((get_collective_buffer size idx pool).1 = none ↔ num_slots pool size < idx) ∧
    (pool.collective_bufs size = none → num_slots pool size = 0) ∧
    (get_collective_buffer size 0 pool).1 ≠ none ∧
    (∀ (heap : List Nat) (calls : List (Nat × Nat)) (k : Nat), 0 < k →
      (∀ pre post, calls = pre ++ (size, k - 1) :: post →
        (get_collective_buffer size (k - 1) (run_calls (empty_pool heap) pre)).1 = none) →
      (get_collective_buffer size k (run_calls (empty_pool heap) calls)).1 = none) := by
  refine ⟨gcb_null_iff size idx pool, ?_, ?_, ?_⟩
  · intro h; simp [num_slots, h]
  · intro h
    have := (gcb_null_iff size 0 pool).1 h
    omega
  · intro heap calls k hk hfail
    rw [gcb_null_iff]
    have := run_calls_null_of_not_acquired calls (empty_pool heap) size (k - 1)
      (by simp [num_slots, empty_pool]) hfail
    omega

theorem C8_null_handle_witness :
    (get_collective_buffer 8 2 (run_calls (empty_pool []) [(8, 0), (4, 0), (8, 2)])).1 = none :=
  (C8_null_handle (empty_pool []) 8 0).2.2.2 [] [(8, 0), (4, 0), (8, 2)] 2 (by decide)
    (by
      intro pre post h
      have hlen := congrArg List.length h
      simp only [List.length_cons, List.length_append, List.length_nil] at hlen
      match pre, h with
      | [], h => simp at h
      | [_], h => simp at h
      | [_, _], h => simp at h
      | _ :: _ :: _ :: _, _ => simp at hlen; omega)

/-- C9: every pool reached from the empty pool by `get_collective_buffer` calls keeps each
stored buffer an allocation of exactly its key's size, gives every present size at least one
slot (slots `0 .. k-1` of the vector, without holes), and never stores one buffer under two
distinct `(size, slot)` keys. -/
theorem C9_pool_invariants (heap : List Nat) (calls : List (Nat × Nat)) :
    (∀ size idx b, slot (run_calls (empty_pool heap) calls) size idx = some b →
      (run_calls (empty_pool heap) calls).heap[b]? = some size) ∧
    (∀ size v, (run_calls (empty_pool heap) calls).collective_bufs size = some v →
      1 ≤ v.length ∧ ∀ idx, idx < v.length →
        ∃ b, slot (run_calls (empty_pool heap) calls) size idx = some b) ∧
    (∀ s1 i1 s2 i2 b, slot (run_calls (empty_pool heap) calls) s1 i1 = some b →
      slot (run_calls (empty_pool heap) calls) s2 i2 = some b → s1 = s2 ∧ i1 = i2) := by
  obtain ⟨ha, hb, hc⟩ := pool_wf_run_calls calls (empty_pool heap) (pool_wf_empty heap)
  refine ⟨ha, ?_, hc⟩
  intro size v hv
  refine ⟨hb size v hv, ?_⟩
  intro idx hidx
  refine ⟨v.get ⟨idx, hidx⟩, ?_⟩
  simp [slot, hv, hidx]

theorem C9_pool_invariants_witness :
    slot (run_calls (empty_pool []) [(8, 0), (8, 1), (4, 0), (8, 1)]) 8 1 = some 1 ∧
    (run_calls (empty_pool []) [(8, 0), (8, 1), (4, 0), (8, 1)]).heap[1]? = some 8 :=
  ⟨by decide, (C9_pool_invariants [] [(8, 0), (8, 1), (4, 0), (8, 1)]).1 8 1 1 (by decide)⟩

theorem tmod_ne_zero_of_gt (a b : Int) (ha : 1 ≤ a) (hb : a < b) : a.tmod b ≠ 0 := by
  intro h
  have hd : b ∣ a := Int.dvd_of_tmod_eq_zero h
  have := Int.le_of_dvd (by omega) hd
  omega

/-- C10: for `world_size ≥ 1` the constructor throws if and only if the effective
`procs_per_model` exceeds `world_size` or does not divide it; when it exceeds `world_size`
(then both conditions hold) the "Not enough processes" error is the one thrown; and when it
throws, no communicator has been split. -/
theorem C10_ctor_errors (world_size world_rank ppm : Int) (hw : 1 ≤ world_size) :
    ((∃ msg, (lbann_comm_ctor world_size world_rank ppm).result = Except.error msg)
      ↔ (effective_procs_per_model world_size ppm > world_size
          ∨ ¬ effective_procs_per_model world_size ppm ∣ world_size)) ∧
    (effective_procs_per_model world_size ppm > world_size →
      ¬ effective_procs_per_model world_size ppm ∣ world_size) ∧
    (effective_procs_per_model world_size ppm > world_size
        ∧ ¬ effective_procs_per_model world_size ppm ∣ world_size →
      (lbann_comm_ctor world_size world_rank ppm).result
        = Except.error "Not enough processes to create one model") ∧
    ((∃ msg, (lbann_comm_ctor world_size world_rank ppm).result = Except.error msg) →
      (lbann_comm_ctor world_size world_rank ppm).splits = []) ∧
    ((∀ msg, (lbann_comm_ctor world_size world_rank ppm).result ≠ Except.error msg) →
      (lbann_comm_ctor world_size world_rank ppm).splits.length = 2) := by
  have hdvd : effective_procs_per_model world_size ppm ∣ world_size
      ↔ world_size.tmod (effective_procs_per_model world_size ppm) = 0 :=
    Int.dvd_iff_tmod_eq_zero
  have hgt : effective_procs_per_model world_size ppm > world_size →
      ¬ effective_procs_per_model world_size ppm ∣ world_size := by
    intro h hd
    exact tmod_ne_zero_of_gt world_size _ hw h (hdvd.1 hd)
  unfold lbann_comm_ctor
  by_cases h1 : effective_procs_per_model world_size ppm > world_size
  · simp [h1, hgt h1]
  · by_cases h2 : world_size.tmod (effective_procs_per_model world_size ppm) = 0
    · simp [h1, h2, hdvd]
    · simp [h1, h2, hdvd]

theorem C10_ctor_errors_witness :
    (lbann_comm_ctor 6 0 4).result
        = Except.error "Procs per model does not divide total number of procs" ∧
    (lbann_comm_ctor 6 0 4).splits = [] ∧
    ((∃ msg, (lbann_comm_ctor 6 0 4).result = Except.error msg)
      ↔ (effective_procs_per_model 6 4 > 6 ∨ ¬ effective_procs_per_model 6 4 ∣ 6)) :=
  ⟨rfl, rfl, (C10_ctor_errors 6 0 4 (by decide)).1⟩

/-! ## Receiving a message -/

theorem contiguous_of_ldim {α : Type} (b : Mat α) (h : b.ldim = b.height) :
    contiguous b = b := by
  unfold contiguous
  rw [if_pos h]

theorem contiguous_height {α : Type} (b : Mat α) : (contiguous b).height = b.height := by
  unfold contiguous
  split <;> rfl

theorem contiguous_width {α : Type} (b : Mat α) : (contiguous b).width = b.width := by
  unfold contiguous
  split <;> rfl

theorem contiguous_ldim {α : Type} (b : Mat α) : (contiguous b).ldim = (contiguous b).height := by
  unfold contiguous
  split
  · assumption
  · rfl

theorem packed_ldim {α : Type} (b : Mat α) : (packed b).ldim = (packed b).height := rfl

theorem raw_write_of_ldim {α : Type} (mat data : Mat α) (c0 : Nat)
    (h1 : mat.ldim = mat.height) (h2 : data.height = mat.height) :
    raw_write mat c0 data = set_view mat IR.ALL (IR.range c0 (c0 + data.width)) data := by
  unfold raw_write
  rw [if_pos ⟨h1, h2⟩]

theorem raw_write_dims {α : Type} (mat data : Mat α) (c0 : Nat) :
    (raw_write mat c0 data).height = mat.height ∧ (raw_write mat c0 data).width = mat.width ∧
      (raw_write mat c0 data).ldim = mat.ldim := by
  unfold raw_write
  split <;> exact ⟨rfl, rfl, rfl⟩

/-- A message that is no longer than the receive count and than the capacity of a scratch
buffer is received into it whole. -/
theorem receive_scratch {α : Type} (c sz : Nat) (p : proc α) (a n : Nat) (m : Mat α × Nat)
    (hc : p.comm.pool.heap[a]? = some c) (hn : m.2 ≤ n) (hm : m.2 ≤ c)
    (hl : m.1.ldim = m.1.height) :
    receive sz p (bufptr.scratch a) n m
      = some { p with mem := fun x => if x = a then m.1 else p.mem x } := by
  unfold receive
  rw [if_neg (by omega)]
  simp only [store, hc, if_pos hm, contiguous_of_ldim m.1 hl]

/-- A message that is no longer than the receive count and than the capacity of a scratch
buffer is received, whatever its block. -/
theorem receive_scratch_any {α : Type} (c sz : Nat) (p : proc α) (a n : Nat)
    (m : Mat α × Nat) (hc : p.comm.pool.heap[a]? = some c) (hn : m.2 ≤ n) (hm : m.2 ≤ c) :
    receive sz p (bufptr.scratch a) n m
      = some { p with mem := fun x => if x = a then contiguous m.1 else p.mem x } := by
  unfold receive
  rw [if_neg (by omega)]
  simp only [store, hc, if_pos hm]

/-- What receiving into a scratch buffer leaves untouched, whatever the message. -/
theorem receive_scratch_fields {α : Type} (sz : Nat) (p p1 : proc α) (a n : Nat)
    (m : Mat α × Nat) (h : receive sz p (bufptr.scratch a) n m = some p1) :
    p1 = { p with mem := fun x => if x = a then contiguous m.1 else p.mem x } ∧
      m.2 ≤ n ∧ ∃ c, p.comm.pool.heap[a]? = some c ∧ m.2 ≤ c := by
  unfold receive at h
  split at h
  · exact Option.noConfusion h
  · rename_i hn
    simp only [store] at h
    split at h
    · exact Option.noConfusion h
    · rename_i c hc
      split at h
      · rename_i hm
        exact ⟨(Option.some.inj h).symm, by omega, c, hc, hm⟩
      · exact Option.noConfusion h

/-- A block of matrix elements that is no longer than the receive count and ends inside the
matrix is received into the columns from the start of a view on, when neither the matrix
nor the block has padding. -/
theorem receive_matview {α : Type} (sz : Nat) (p : proc α) (cols : IR) (n : Nat)
    (m : Mat α × Nat) (hn : m.2 ≤ n) (hb : m.2 = sz * m.1.height * m.1.width)
    (hl : m.1.ldim = m.1.height) (hp : p.mat.ldim = p.mat.height)
    (hh : m.1.height = p.mat.height) (hw : cols.lo + m.1.width ≤ p.mat.width) :
    receive sz p (bufptr.matview cols) n m
      = some { p with
          mat := set_view p.mat IR.ALL (IR.range cols.lo (cols.lo + m.1.width)) m.1 } := by
  unfold receive
  rw [if_neg (by omega)]
  have hfit : cols.lo * p.mat.ldim + m.1.height * m.1.width ≤ p.mat.ldim * p.mat.width := by
    rw [hp, hh]
    calc cols.lo * p.mat.height + p.mat.height * m.1.width
        = p.mat.height * (cols.lo + m.1.width) := by ring
      _ ≤ p.mat.height * p.mat.width := Nat.mul_le_mul_left _ hw
  simp only [store]
  rw [if_pos ⟨hb, hfit⟩, contiguous_of_ldim m.1 hl, raw_write_of_ldim p.mat m.1 cols.lo hp hh]

/-- The first buffer requested for a size is a scratch allocation of that size. -/
theorem acquire_zero_spec {α : Type} (size : Nat) (p : proc α) (hwf : pool_wf p.comm.pool) :
    ∃ b, (acquire size 0 p).1 = bufptr.scratch b ∧
      (acquire size 0 p).2.comm.pool.heap[b]? = some size ∧
      pool_wf (acquire size 0 p).2.comm.pool ∧
      slot (acquire size 0 p).2.comm.pool size 0 = some b := by
  have h := gcb_null_iff size 0 p.comm.pool
  have hw2 := pool_wf_gcb size 0 p.comm.pool hwf
  cases hr : (get_collective_buffer size 0 p.comm.pool).1 with
  | none => rw [hr] at h; simp at h
  | some b =>
    have hs := gcb_result_slot size 0 p.comm.pool b hr
    exact ⟨b, by simp [acquire, hr, bufptr.of_result], hw2.1 size 0 b hs, hw2, hs⟩

/-- The capacity of a buffer stored in a well-formed pool is the size of its key. -/
theorem slot_capacity (pool : buffer_pool) (hwf : pool_wf pool) (size idx b : Nat)
    (h : slot pool size idx = some b) : pool.heap[b]? = some size :=
  hwf.1 size idx b h

/-! ## Recursive doubling: proofs -/

theorem xor_two_pow_div (r t : Nat) : (r ^^^ 2 ^ t) / 2 ^ t = (r / 2 ^ t) ^^^ 1 := by
  apply Nat.eq_of_testBit_eq
  intro i
  rw [← Nat.shiftRight_eq_div_pow, ← Nat.shiftRight_eq_div_pow]
  simp only [Nat.testBit_shiftRight, Nat.testBit_xor]
  congr 1
  rw [Nat.testBit_two_pow]
  cases i with
  | zero => simp
  | succ i =>
    have : ¬ t = t + (i + 1) := by omega
    simp [this, Nat.testBit_succ]

theorem xor_two_pow_mod (r t : Nat) : (r ^^^ 2 ^ t) % 2 ^ t = r % 2 ^ t := by
  apply Nat.eq_of_testBit_eq
  intro i
  simp only [Nat.testBit_mod_two_pow, Nat.testBit_xor, Nat.testBit_two_pow]
  by_cases h : i < t
  · have : ¬ t = i := by omega
    simp [h, this]
  · simp [h]

theorem xor_one_eq (x : Nat) : x ^^^ 1 = if x % 2 = 0 then x + 1 else x - 1 := by
  apply Nat.eq_of_testBit_eq
  intro i
  have h2 := Nat.div_add_mod x 2
  cases i with
  | zero =>
    simp only [Nat.testBit_xor, Nat.testBit_zero]
    by_cases h : x % 2 = 0
    · rw [if_pos h]
      have h3 : (x + 1) % 2 = 1 := by omega
      simp [h, h3]
    · rw [if_neg h]
      have h3 : x % 2 = 1 := by omega
      have h4 : (x - 1) % 2 = 0 := by omega
      simp [h3, h4]
      omega
  | succ i =>
    simp only [Nat.testBit_succ]
    rw [Nat.xor_div_two]
    have h1 : (1 : Nat) / 2 = 0 := rfl
    rw [h1, Nat.xor_zero]
    split <;> rename_i h
    · have : (x + 1) / 2 = x / 2 := by omega
      rw [this]
    · have : (x - 1) / 2 = x / 2 := by omega
      rw [this]

theorem xor_xor_cancel (r m : Nat) : (r ^^^ m) ^^^ m = r := by
  rw [Nat.xor_assoc, Nat.xor_self, Nat.xor_zero]

theorem xor_two_pow_lt (r t k : Nat) (hr : r < 2 ^ k) (ht : t < k) : r ^^^ 2 ^ t < 2 ^ k :=
  Nat.xor_lt_two_pow hr (Nat.pow_lt_pow_right (by decide) ht)

theorem xor_two_pow_ne (r t : Nat) : r ^^^ 2 ^ t ≠ r := by
  intro h
  have := congrArg (fun x => x ^^^ r) h
  simp only at this
  rw [Nat.xor_comm r, Nat.xor_assoc, Nat.xor_self, Nat.xor_zero] at this
  have := Nat.two_pow_pos t
  omega

/-- Sum over the block of `2 ^ (t + 1)` ranks splits into the two half blocks. -/
theorem block_sum_split {β : Type} [AddCommMonoid β] (f : Nat → β) (b t : Nat) :
    (Finset.range (2 ^ (t + 1))).sum (fun q => f (b * 2 ^ (t + 1) + q))
      = (Finset.range (2 ^ t)).sum (fun q => f ((2 * b) * 2 ^ t + q))
        + (Finset.range (2 ^ t)).sum (fun q => f ((2 * b + 1) * 2 ^ t + q)) := by
  have h : 2 ^ (t + 1) = 2 ^ t + 2 ^ t := by rw [Nat.pow_succ]; omega
  rw [h, Finset.sum_range_add]
  congr 1
  · apply Finset.sum_congr rfl
    intro q _
    congr 1
    rw [← h, Nat.pow_succ]; ring
  · apply Finset.sum_congr rfl
    intro q _
    congr 1
    rw [← h, Nat.pow_succ]; ring

theorem block_sum_step {β : Type} [AddCommMonoid β] (f : Nat → β) (r t : Nat) :
    (Finset.range (2 ^ (t + 1))).sum (fun q => f (r / 2 ^ (t + 1) * 2 ^ (t + 1) + q))
      = (Finset.range (2 ^ t)).sum (fun q => f (r / 2 ^ t * 2 ^ t + q))
        + (Finset.range (2 ^ t)).sum (fun q => f ((r ^^^ 2 ^ t) / 2 ^ t * 2 ^ t + q)) := by
  rw [block_sum_split, xor_two_pow_div, xor_one_eq]
  have hd : r / 2 ^ (t + 1) = r / 2 ^ t / 2 := by
    rw [Nat.pow_succ, Nat.div_div_eq_div_mul]
  rw [hd]
  have h2 := Nat.div_add_mod (r / 2 ^ t) 2
  by_cases hpar : r / 2 ^ t % 2 = 0
  · rw [if_pos hpar]
    have e1 : 2 * (r / 2 ^ t / 2) = r / 2 ^ t := by omega
    rw [e1]
  · rw [if_neg hpar]
    have e1 : 2 * (r / 2 ^ t / 2) + 1 = r / 2 ^ t := by omega
    have e2 : 2 * (r / 2 ^ t / 2) = r / 2 ^ t - 1 := by omega
    rw [e1, e2, add_comm]

theorem acquire_zero_scratch {α : Type} (size : Nat) (p : proc α) :
    ∃ b, (acquire size 0 p).1 = bufptr.scratch b := by
  have h := (gcb_null_iff size 0 p.comm.pool)
  cases hr : (get_collective_buffer size 0 p.comm.pool).1 with
  | none => rw [hr] at h; simp at h
  | some b => exact ⟨b, by simp [acquire, hr, bufptr.of_result]⟩

theorem acquire_mat {α : Type} (size idx : Nat) (p : proc α) :
    (acquire size idx p).2.mat = p.mat := rfl

theorem rd_send_entry {α : Type} [Add α] (A : call_args α)
    (hT : A.T = id_sum_transforms α A.sizeof_DataType) (rank mask : Nat) (p : proc α)
    (i j : Nat) :
    (rd_send A rank mask p).1.entry i j = p.mat.entry i j := by
  unfold rd_send
  split
  · rfl
  · rw [hT]
    simp [id_sum_transforms, id_send_transform, view, packed, IR.lo]

/-- What a rank sends in a step of the recursive-doubling loop with the identity-copy
callback: a block of the shape of its matrix, without padding when the matrix has none, of
`sizeof(DataType)` bytes for every entry. -/
theorem rd_send_shape {α : Type} [Add α] (A : call_args α)
    (hT : A.T = id_sum_transforms α A.sizeof_DataType) (rank mask : Nat) (p : proc α)
    (hld : A.no_local_trans = true → p.mat.ldim = p.mat.height) :
    (rd_send A rank mask p).1.height = p.mat.height ∧
      (rd_send A rank mask p).1.width = p.mat.width ∧
      (rd_send A rank mask p).1.ldim = (rd_send A rank mask p).1.height ∧
      (rd_send A rank mask p).2 = A.sizeof_DataType * p.mat.height * p.mat.width := by
  unfold rd_send
  by_cases hl : (A.no_local_trans && A.is_rank_node_local rank (rank ^^^ mask)) = true
  · rw [if_pos hl]
    have hn : A.no_local_trans = true := by
      cases hx : A.no_local_trans
      · rw [hx] at hl; simp at hl
      · rfl
    exact ⟨rfl, rfl, hld hn, rfl⟩
  · rw [if_neg hl, hT]
    simp [id_sum_transforms, id_send_transform, view, packed, IR.lo, IR.hi]

/-- One iteration of the recursive-doubling loop with the summing callback, on a message of
the shape of the matrix that fits the scratch buffer: the rank comes back with the incoming
matrix added to its own. -/
theorem rd_iter_spec {α : Type} [Add α] (A : call_args α)
    (hT : A.T = id_sum_transforms α A.sizeof_DataType) (rank mask h w : Nat)
    (incoming : Mat α × Nat) (p : proc α) (hp : rd_state A h w p)
    (hil : incoming.1.ldim = incoming.1.height)
    (hib : incoming.2 = A.sizeof_DataType * h * w)
    (hfit : A.sizeof_DataType * h * w ≤ A.max_recv_count) :
    ∃ p1, rd_iter A rank mask incoming p = some p1 ∧ rd_state A h w p1 ∧
      num_exchanges p1 = num_exchanges p + 1 ∧
      exchanges p1 = exchanges p ++ [event.sendrecv (rank ^^^ mask) (rank ^^^ mask)] ∧
      (∀ i j, i < h → j < w →
        p1.mat.entry i j = p.mat.entry i j + incoming.1.entry i j) := by
  obtain ⟨hph, hpw, hpl, ⟨a, hbuf, hslot⟩, hcnt, hwf⟩ := hp
  unfold rd_iter
  by_cases hl : (A.no_local_trans && A.is_rank_node_local rank (rank ^^^ mask)) = true
  · have hs : (rd_send A rank mask p).2 = A.sizeof_DataType * h * w := by
      unfold rd_send
      rw [if_pos hl, hph, hpw]
    obtain ⟨b, hb, hcap, hwf2, _⟩ := acquire_zero_spec (rd_send A rank mask p).2 p hwf
    simp only [hl, if_true, hb]
    rw [receive_scratch (rd_send A rank mask p).2 _ _ _ _ _]
    · simp only [load, hT, id_sum_transforms, sum_recv_apply_transform, if_true]
      refine ⟨_, rfl, ⟨hph, hpw, hpl, ⟨a, ?_, ?_⟩, hcnt, hwf2⟩, ?_, ?_, ?_⟩
      · simp [acquire, hbuf]
      · exact gcb_slot_mono _ _ _ _ _ _ hslot
      · simp [acquire, num_exchanges, List.countP_append, event.is_sendrecv]
      · simp [acquire, exchanges, List.filter_append, event.is_sendrecv]
      · intro i j hi hj
        have hi2 : i < p.mat.height := by rw [hph]; exact hi
        have hj2 : j < p.mat.width := by rw [hpw]; exact hj
        simp [acquire, set_view, IR.lo, IR.hi, hi2, hj2]
    · exact hcap
    · rw [hib, hs]
    · rw [hib, hs]
    · exact hil
  · have hs : incoming.2 ≤ p.max_recv_count := by rw [hib, hcnt]; exact hfit
    have hl2 : (A.no_local_trans && A.is_rank_node_local rank (rank ^^^ mask)) = false := by
      simpa using hl
    simp only [hl2, Bool.false_eq_true, if_false, hbuf]
    rw [receive_scratch A.max_recv_count _ _ _ _ _]
    · simp only [load, hT, id_sum_transforms, sum_recv_apply_transform, if_true]
      refine ⟨_, rfl, ⟨hph, hpw, hpl, ⟨a, rfl, hslot⟩, hcnt, hwf⟩, ?_, ?_, ?_⟩
      · simp [num_exchanges, List.countP_append, event.is_sendrecv]
      · simp [exchanges, List.filter_append, event.is_sendrecv]
      · intro i j hi hj
        have hi2 : i < p.mat.height := by rw [hph]; exact hi
        have hj2 : j < p.mat.width := by rw [hpw]; exact hj
        simp [set_view, IR.lo, IR.hi, hi2, hj2]
    · exact slot_capacity _ hwf _ _ _ hslot
    · exact hs
    · rw [hib]; exact hfit
    · exact hil

theorem rd_step_inv {α : Type} [AddCommMonoid α] (A : call_args α) (k h w : Nat)
    (init : Nat → proc α) (hT : A.T = id_sum_transforms α A.sizeof_DataType)
    (hn : A.nprocs = 2 ^ k) (hfit : A.sizeof_DataType * h * w ≤ A.max_recv_count)
    (t : Nat) (ht : t < k) (sts : Nat → Option (proc α))
    (hinv : ∀ r, r < 2 ^ k → ∃ p, sts r = some p ∧ rd_state A h w p ∧
      num_exchanges p = num_exchanges (init r) + t ∧
      ∀ i j, i < h → j < w → p.mat.entry i j
        = (Finset.range (2 ^ t)).sum (fun q => (init (r / 2 ^ t * 2 ^ t + q)).mat.entry i j)) :
    ∀ r, r < 2 ^ k → ∃ p,
      sendrecv_all A.nprocs (fun r => r ^^^ 2 ^ t) (fun r => r ^^^ 2 ^ t)
        (fun r q => some (rd_send A r (2 ^ t) q)) (fun r => rd_iter A r (2 ^ t)) sts r
        = some p ∧ rd_state A h w p ∧
      num_exchanges p = num_exchanges (init r) + (t + 1) ∧
      ∀ i j, i < h → j < w → p.mat.entry i j
        = (Finset.range (2 ^ (t + 1))).sum
            (fun q => (init (r / 2 ^ (t + 1) * 2 ^ (t + 1) + q)).mat.entry i j) := by
  intro r hr
  have hpr : r ^^^ 2 ^ t < 2 ^ k := xor_two_pow_lt r t k hr ht
  obtain ⟨p, hp, hps, hpx, hpe⟩ := hinv r hr
  obtain ⟨q, hq, hqs, _, hqe⟩ := hinv (r ^^^ 2 ^ t) hpr
  obtain ⟨g1, g2, g3, g4⟩ := rd_send_shape A hT (r ^^^ 2 ^ t) (2 ^ t) q hqs.2.2.1
  obtain ⟨p1, h1, h1s, h1x, _, h1e⟩ :=
    rd_iter_spec A hT r (2 ^ t) h w (rd_send A (r ^^^ 2 ^ t) (2 ^ t) q) p hps g3
      (by rw [g4, hqs.1, hqs.2.1]) hfit
  refine ⟨p1, ?_, h1s, by rw [h1x, hpx]; omega, ?_⟩
  · unfold sendrecv_all
    simp only [hp, hq, hn, hpr, xor_xor_cancel, and_self, if_true]
    exact h1
  · intro i j hi hj
    rw [h1e i j hi hj, rd_send_entry A hT, hpe i j hi hj, hqe i j hi hj]
    exact (block_sum_step (fun x => (init x).mat.entry i j) r t).symm

theorem rd_loop_inv {α : Type} [AddCommMonoid α] (A : call_args α) (k h w : Nat)
    (init : Nat → proc α) (hT : A.T = id_sum_transforms α A.sizeof_DataType)
    (hn : A.nprocs = 2 ^ k) (hfit : A.sizeof_DataType * h * w ≤ A.max_recv_count)
    (hk : k ≤ 30) (fuel t : Nat) (ht : t ≤ k) (hfuel : k ≤ t + fuel)
    (sts : Nat → Option (proc α))
    (hinv : ∀ r, r < 2 ^ k → ∃ p, sts r = some p ∧ rd_state A h w p ∧
      num_exchanges p = num_exchanges (init r) + t ∧
      ∀ i j, i < h → j < w → p.mat.entry i j
        = (Finset.range (2 ^ t)).sum (fun q => (init (r / 2 ^ t * 2 ^ t + q)).mat.entry i j)) :
    ∀ r, r < 2 ^ k → ∃ p, rd_loop A fuel (2 ^ t) sts r = some p ∧
      p.mat.height = h ∧ p.mat.width = w ∧
      num_exchanges p = num_exchanges (init r) + k ∧
      ∀ i j, i < h → j < w → p.mat.entry i j
        = (Finset.range (2 ^ k)).sum (fun q => (init q).mat.entry i j) := by
  induction fuel generalizing t sts with
  | zero =>
    have htk : t = k := by omega
    subst htk
    intro r hr
    obtain ⟨p, hp, hps, hpx, hpe⟩ := hinv r hr
    refine ⟨p, ?_, hps.1, hps.2.1, hpx, ?_⟩
    · simp [rd_loop, hn, hp]
    · intro i j hi hj
      rw [hpe i j hi hj, Nat.div_eq_of_lt hr]
      simp
  | succ fuel ih =>
    by_cases htk : t = k
    · subst htk
      intro r hr
      obtain ⟨p, hp, hps, hpx, hpe⟩ := hinv r hr
      refine ⟨p, ?_, hps.1, hps.2.1, hpx, ?_⟩
      · simp [rd_loop, hn, hp]
      · intro i j hi hj
        rw [hpe i j hi hj, Nat.div_eq_of_lt hr]
        simp
    · have ht1 : t < k := by omega
      have hlt : 2 ^ t < A.nprocs := by
        rw [hn]; exact Nat.pow_lt_pow_right (by decide) ht1
      have hmask : (2 ^ t <<< 1) % 2 ^ 32 = 2 ^ (t + 1) := by
        rw [Nat.shiftLeft_eq, Nat.pow_one, ← Nat.pow_succ]
        apply Nat.mod_eq_of_lt
        exact Nat.pow_lt_pow_right (by decide) (by omega)
      unfold rd_loop
      rw [if_pos hlt, hmask]
      exact ih (t + 1) ht1 (by omega) _ (rd_step_inv A k h w init hT hn hfit t ht1 sts hinv)

theorem rd_setup_spec {α : Type} (A : call_args α) (h w : Nat) (p : proc α)
    (hh : p.mat.height = h) (hw : p.mat.width = w)
    (hld : A.no_local_trans = true → p.mat.ldim = p.mat.height)
    (hwf : pool_wf p.comm.pool) :
    (rd_setup A p).mat = p.mat ∧ rd_state A h w (rd_setup A p) ∧
      num_exchanges (rd_setup A p) = num_exchanges p ∧
      exchanges (rd_setup A p) = exchanges p := by
  obtain ⟨b, hb, _, hwf2, hs⟩ := acquire_zero_spec A.max_recv_count p hwf
  refine ⟨rfl, ⟨hh, hw, hld, ⟨b, ?_, hs⟩, rfl, hwf2⟩, ?_, ?_⟩
  · simp [rd_setup, hb]
  · simp [rd_setup, acquire, num_exchanges, List.countP_append, event.is_sendrecv]
  · simp [rd_setup, acquire, exchanges, List.filter_append, event.is_sendrecv]

/-- C5: with the identity-copy send transform and the summing `recv_apply_transform`, for a
power-of-two number `2 ^ k` of ranks (an `int`, so `k ≤ 30`) holding matrices of one shape
`h × w` in well-formed buffer pools, with `max_recv_count` at least the
`sizeof(DataType) * h * w` bytes of a matrix when there are two ranks or more, and with
matrices stored without padding when the node-local shortcut sends them raw, every rank
returns from `recursive_doubling_allreduce_pow2` after exactly `k = log2(n)` exchanges,
holding the element-wise sum of the matrices the ranks held before the call. -/
theorem C5_recursive_doubling_sum {α : Type} [AddCommMonoid α] (A : call_args α)
    (k h w : Nat) (init : Nat → proc α)
    (hT : A.T = id_sum_transforms α A.sizeof_DataType)
    (hn : A.nprocs = 2 ^ k) (hk : k ≤ 30)
    (hdim : ∀ r, r < A.nprocs → (init r).mat.height = h ∧ (init r).mat.width = w)
    (hfit : 2 ≤ A.nprocs → A.sizeof_DataType * h * w ≤ A.max_recv_count)
    (hld : A.no_local_trans = true →
      ∀ r, r < A.nprocs → (init r).mat.ldim = (init r).mat.height)
    (hwf : ∀ r, r < A.nprocs → pool_wf (init r).comm.pool)
    (rank : Nat) (hr : rank < A.nprocs) :
    ∃ p, recursive_doubling_allreduce_pow2 A init rank = outcome.returned p ∧
      p.mat.height = h ∧ p.mat.width = w ∧
      num_exchanges p = num_exchanges (init rank) + k ∧
      ∀ i j, i < h → j < w →
        p.mat.entry i j = (Finset.range A.nprocs).sum (fun r => (init r).mat.entry i j) := by
  unfold recursive_doubling_allreduce_pow2
  by_cases h1 : A.nprocs = 1
  · rw [if_pos h1]
    have hk0 : k = 0 := by
      rw [hn] at h1
      by_contra hne
      have : 2 ^ 1 ≤ 2 ^ k := Nat.pow_le_pow_right (by decide) (by omega)
      omega
    have hr0 : rank = 0 := by omega
    refine ⟨init rank, rfl, (hdim rank hr).1, (hdim rank hr).2, by omega, ?_⟩
    intro i j _ _
    rw [h1, hr0]; simp
  · rw [if_neg h1]
    have hz : A.nprocs &&& (A.nprocs - 1) = 0 :=
      (and_pred_eq_zero_iff A.nprocs (by omega)).2 ⟨k, hn⟩
    rw [if_neg (by simpa using hz)]
    have hinv : ∀ r, r < 2 ^ k → ∃ p,
        (fun r => some (rd_setup A (init r)) : Nat → Option (proc α)) r = some p ∧
        rd_state A h w p ∧
        num_exchanges p = num_exchanges (init r) + 0 ∧
        ∀ i j, i < h → j < w → p.mat.entry i j
          = (Finset.range (2 ^ 0)).sum
              (fun q => (init (r / 2 ^ 0 * 2 ^ 0 + q)).mat.entry i j) := by
      intro r hr2
      have hr3 : r < A.nprocs := by rw [hn]; exact hr2
      have hd := hdim r hr3
      obtain ⟨hm, hs, hx, _⟩ := rd_setup_spec A h w (init r) hd.1 hd.2
        (fun hnl => hld hnl r hr3) (hwf r hr3)
      refine ⟨rd_setup A (init r), rfl, hs, by rw [hx]; rfl, ?_⟩
      intro i j _ _
      rw [hm]; simp
    obtain ⟨p, hp, hph, hpw, hpx, hpe⟩ :=
      rd_loop_inv A k h w init hT hn (hfit (by omega)) hk 32 0 (Nat.zero_le _) (by omega) _
        hinv rank (by rw [← hn]; exact hr)
    have h20 : (2 : Nat) ^ 0 = 1 := rfl
    rw [h20] at hp
    rw [hp]
    refine ⟨p, rfl, hph, hpw, hpx, ?_⟩
    intro i j hi hj
    rw [hpe i j hi hj, hn]

theorem C5_recursive_doubling_sum_witness :
    (∃ p, recursive_doubling_allreduce_pow2 scenario_rd_args scenario_rd_init 3
        = outcome.returned p ∧
      p.mat.height = 1 ∧ p.mat.width = 4 ∧
      num_exchanges p = num_exchanges (scenario_rd_init 3) + 2 ∧
      ∀ i j, i < 1 → j < 4 → p.mat.entry i j
        = (Finset.range scenario_rd_args.nprocs).sum
            (fun r => (scenario_rd_init r).mat.entry i j)) ∧
    (∀ r, r < 4 →
      final_row (recursive_doubling_allreduce_pow2 scenario_rd_args scenario_rd_init r) 0
        = [6, 6, 6, 6]) :=
  ⟨C5_recursive_doubling_sum scenario_rd_args 2 1 4 scenario_rd_init rfl rfl (by decide)
    (by decide) (fun _ => by decide) (fun h => Bool.noConfusion h)
    (fun _ _ => pool_wf_empty []) 3 (by decide), by decide⟩

/-! ## Pairwise exchange: proofs -/

theorem mod_two_range (x n : Nat) (h : x < 2 * n) :
    x % n = if x < n then x else x - n := by
  by_cases hx : x < n
  · rw [if_pos hx, Nat.mod_eq_of_lt hx]
  · rw [if_neg hx, Nat.mod_eq_sub_mod (by omega), Nat.mod_eq_of_lt (by omega)]

theorem int_mod_eq_ring_back (n r t : Nat) (ht : t ≤ r + n) :
    int_mod ((r : Int) - (t : Int) + (n : Int)) n = ring_back n r t := by
  unfold int_mod ring_back
  have h1 : (r : Int) - (t : Int) + (n : Int) = ((r + n - t : Nat) : Int) := by omega
  rw [h1, Int.tmod_eq_emod (by omega) (by omega)]
  rw [← Int.natCast_mod, Int.toNat_natCast]

theorem ring_back_lt (n r t : Nat) (hn : 0 < n) : ring_back n r t < n :=
  Nat.mod_lt _ hn

theorem ring_back_zero (n r : Nat) (hr : r < n) : ring_back n r 0 = r := by
  unfold ring_back
  rw [mod_two_range _ _ (by omega)]
  split <;> omega

theorem ring_fwd_back (n r s : Nat) (hr : r < n) (hs : s ≤ n) :
    (ring_back n r s + s) % n = r := by
  unfold ring_back
  rw [mod_two_range (r + n - s) n (by omega)]
  split
  · rw [mod_two_range _ _ (by omega)]; split <;> omega
  · rw [mod_two_range _ _ (by omega)]; split <;> omega

theorem ring_back_fwd (n r s : Nat) (hr : r < n) (hs : s ≤ n) :
    ring_back n ((r + s) % n) s = r := by
  unfold ring_back
  rw [mod_two_range (r + s) n (by omega)]
  split
  · rw [mod_two_range _ _ (by omega)]; split <;> omega
  · rw [mod_two_range _ _ (by omega)]; split <;> omega

theorem ring_back_ne (n r s : Nat) (hr : r < n) (hs0 : 0 < s) (hs : s < n) :
    ring_back n r s ≠ r := by
  unfold ring_back
  rw [mod_two_range _ _ (by omega)]
  split <;> omega

theorem ring_back_back (n r t : Nat) (hr : r < n) (ht : t + 1 ≤ n) :
    ring_back n (ring_back n r 1) t = ring_back n r (t + 1) := by
  unfold ring_back
  rw [mod_two_range (r + n - 1) n (by omega)]
  split
  · rw [mod_two_range _ _ (by omega), mod_two_range _ _ (by omega)]; split <;> split <;> omega
  · rw [mod_two_range _ _ (by omega), mod_two_range _ _ (by omega)]; split <;> split <;> omega

theorem ring_back_invol (n r t : Nat) (hr : r < n) (ht : t < n) :
    ring_back n r (ring_back n r t) = t := by
  unfold ring_back
  rw [mod_two_range (r + n - t) n (by omega)]
  split
  · rw [mod_two_range _ _ (by omega)]; split <;> omega
  · rw [mod_two_range _ _ (by omega)]; split <;> omega

theorem ring_back_one_fwd (n r : Nat) (hr : r < n) :
    ring_back n ((r + 1) % n) 1 = r := ring_back_fwd n r 1 hr (by omega)

/-- Summing over the ranks met when walking backwards round the ring is summing over all
ranks. -/
theorem sum_ring_back {β : Type} [AddCommMonoid β] (f : Nat → β) (n r : Nat) (hr : r < n) :
    (Finset.range n).sum (fun t => f (ring_back n r t)) = (Finset.range n).sum f := by
  apply Finset.sum_nbij' (fun t => ring_back n r t) (fun x => ring_back n r x)
  · intro t _
    simp only [Finset.mem_range]
    exact ring_back_lt n r t (by omega)
  · intro t _
    simp only [Finset.mem_range]
    exact ring_back_lt n r t (by omega)
  · intro t ht
    simp only [Finset.mem_range] at ht
    exact ring_back_invol n r t hr ht
  · intro t ht
    simp only [Finset.mem_range] at ht
    exact ring_back_invol n r t hr ht
  · intro t _
    rfl

theorem for_loop_induct {σ : Type} (P : Nat → σ → Prop) (lo hi : Nat) (body : Nat → σ → σ)
    (s : σ) (hle : lo ≤ hi) (h0 : P lo s)
    (hstep : ∀ k st, lo ≤ k → k < hi → P k st → P (k + 1) (body k st)) :
    P hi (for_loop lo hi body s) := by
  obtain ⟨m, rfl⟩ : ∃ m, hi = lo + m := ⟨hi - lo, by omega⟩
  clear hle
  induction m with
  | zero => simpa [for_loop] using h0
  | succ m ih =>
    have hm : lo + (m + 1) - lo = m + 1 := by omega
    have hm0 : lo + m - lo = m := by omega
    unfold for_loop at ih ⊢
    rw [hm, List.range'_concat, List.foldl_append]
    rw [hm0] at ih
    simp only [List.foldl_cons, List.foldl_nil, Nat.one_mul]
    have := ih (fun k st h1 h2 hp => hstep k st h1 (by omega) hp)
    exact hstep (lo + m) _ (by omega) (by omega) this

theorem acquire_fields {α : Type} (size idx : Nat) (p : proc α) :
    (acquire size idx p).2.mat = p.mat ∧ (acquire size idx p).2.mem = p.mem ∧
    (acquire size idx p).2.max_recv_buf = p.max_recv_buf ∧
    (acquire size idx p).2.max_recv_count = p.max_recv_count ∧
    (acquire size idx p).2.comm.pool = (get_collective_buffer size idx p.comm.pool).2 :=
  ⟨rfl, rfl, rfl, rfl, rfl⟩

theorem pe_rs_send_entry {α : Type} [Add α] (A : call_args α)
    (hT : A.T = id_sum_transforms α A.sizeof_DataType) (rank step : Nat) (p : proc α)
    (i j : Nat) :
    (pe_rs_send A rank step p).1.entry i j
      = p.mat.entry i (slice_begin p.mat.width A.nprocs ((rank + step) % A.nprocs) + j) := by
  unfold pe_rs_send
  simp only []
  split
  · simp [view, IR.lo, slice_range]
  · rw [hT]
    simp [id_sum_transforms, id_send_transform, view, packed, IR.lo, slice_range]

theorem no_local_of_flag {α : Type} (A : call_args α) (x y : Nat)
    (h : (A.no_local_trans && A.is_rank_node_local x y) = true) :
    A.no_local_trans = true := by
  cases hx : A.no_local_trans
  · rw [hx] at h; simp at h
  · rfl

/-- The view of a column range over all rows: its shape and leading dimension. -/
theorem view_all_shape {α : Type} (mat : Mat α) (a b : Nat) :
    (view mat IR.ALL (IR.range a b)).height = mat.height ∧
      (view mat IR.ALL (IR.range a b)).width = b - a ∧
      (view mat IR.ALL (IR.range a b)).ldim = mat.ldim := by
  simp [view, IR.hi, IR.lo]

/-- The identity-copy `send_transform` on a column range: a block of the shape of the view,
without padding, of `sizeof(DataType)` bytes for every entry. -/
theorem id_send_shape {α : Type} (sz : Nat) (mat : Mat α) (a b : Nat) (c : Bool) :
    (id_send_transform sz mat IR.ALL (IR.range a b) c).1.height = mat.height ∧
      (id_send_transform sz mat IR.ALL (IR.range a b) c).1.width = b - a ∧
      (id_send_transform sz mat IR.ALL (IR.range a b) c).1.ldim
        = (id_send_transform sz mat IR.ALL (IR.range a b) c).1.height ∧
      (id_send_transform sz mat IR.ALL (IR.range a b) c).2 = sz * mat.height * (b - a) := by
  simp [id_send_transform, view, packed, IR.hi, IR.lo]

/-- What a rank sends at a step of the reduce-scatter with the identity-copy callback: its
slice `dst` as a block without padding (the matrix having none when the view is sent raw),
of `sizeof(DataType)` bytes for every entry. -/
theorem pe_rs_send_shape {α : Type} [Add α] (A : call_args α)
    (hT : A.T = id_sum_transforms α A.sizeof_DataType) (rank step : Nat) (p : proc α)
    (hld : A.no_local_trans = true → p.mat.ldim = p.mat.height) :
    (pe_rs_send A rank step p).1.height = p.mat.height ∧
      (pe_rs_send A rank step p).1.width
        = slice_end p.mat.width A.nprocs ((rank + step) % A.nprocs)
          - slice_begin p.mat.width A.nprocs ((rank + step) % A.nprocs) ∧
      (pe_rs_send A rank step p).1.ldim = (pe_rs_send A rank step p).1.height ∧
      (pe_rs_send A rank step p).2 = A.sizeof_DataType * p.mat.height
        * (slice_end p.mat.width A.nprocs ((rank + step) % A.nprocs)
          - slice_begin p.mat.width A.nprocs ((rank + step) % A.nprocs)) := by
  unfold pe_rs_send
  simp only []
  by_cases hl : (A.no_local_trans && A.is_rank_node_local rank ((rank + step) % A.nprocs))
      = true
  · rw [if_pos hl]
    obtain ⟨e1, e2, e3⟩ := view_all_shape p.mat
      (slice_begin p.mat.width A.nprocs ((rank + step) % A.nprocs))
      (slice_end p.mat.width A.nprocs ((rank + step) % A.nprocs))
    simp only [slice_range]
    refine ⟨e1, e2, ?_, ?_⟩
    · rw [e3, e1]; exact hld (no_local_of_flag A _ _ hl)
    · rw [e1, e2]
  · rw [if_neg hl, hT]
    exact id_send_shape A.sizeof_DataType p.mat _ _ true

/-- One reduce-scatter step with the summing callback, on a message of the shape of the
rank's own slice that fits the scratch buffer: the incoming buffer is added into the rank's
own slice, nothing else in the matrix changes. -/
theorem pe_rs_iter_spec {α : Type} [Add α] (A : call_args α)
    (hT : A.T = id_sum_transforms α A.sizeof_DataType) (rank step : Nat)
    (incoming : Mat α × Nat) (p : proc α)
    (a : Nat) (hbuf : p.max_recv_buf = bufptr.scratch a)
    (hcnt : p.max_recv_count = A.max_recv_count) (hwf : pool_wf p.comm.pool)
    (hslot : slot p.comm.pool A.max_recv_count 0 = some a)
    (hil : incoming.1.ldim = incoming.1.height)
    (hib : incoming.2 = A.sizeof_DataType * p.mat.height
      * (slice_end p.mat.width A.nprocs rank - slice_begin p.mat.width A.nprocs rank))
    (hfit : A.sizeof_DataType * p.mat.height
      * (slice_end p.mat.width A.nprocs rank - slice_begin p.mat.width A.nprocs rank)
      ≤ A.max_recv_count) :
    ∃ p1, pe_rs_iter A rank step incoming p = some p1 ∧
      p1.mat.height = p.mat.height ∧ p1.mat.width = p.mat.width ∧
      p1.mat.ldim = p.mat.ldim ∧
      p1.max_recv_buf = bufptr.scratch a ∧
      p1.max_recv_count = p.max_recv_count ∧
      pool_wf p1.comm.pool ∧
      (∀ s i b, slot p.comm.pool s i = some b → slot p1.comm.pool s i = some b) ∧
      (∀ i j, i < p.mat.height →
        p1.mat.entry i j
          = if in_slice p.mat.width A.nprocs rank j
            then p.mat.entry i j
              + incoming.1.entry i (j - slice_begin p.mat.width A.nprocs rank)
            else p.mat.entry i j) := by
  obtain ⟨e1, e2, _⟩ := view_all_shape p.mat (slice_begin p.mat.width A.nprocs rank)
    (slice_end p.mat.width A.nprocs rank)
  have hentry : ∀ (q : proc α), q.mat = p.mat → ∀ i j, i < p.mat.height →
      (set_view q.mat IR.ALL (slice_range q.mat.width A.nprocs rank)
        (sum_recv_apply_transform A.sizeof_DataType incoming.1
          (view q.mat IR.ALL (slice_range q.mat.width A.nprocs rank))
          (A.no_local_trans && A.is_rank_node_local rank
            (int_mod ((rank : Int) - (step : Int) + (A.nprocs : Int)) A.nprocs))).1).entry i j
        = if in_slice p.mat.width A.nprocs rank j
          then p.mat.entry i j
            + incoming.1.entry i (j - slice_begin p.mat.width A.nprocs rank)
          else p.mat.entry i j := by
    intro q hq i j hi
    rw [hq]
    simp only [set_view, view, slice_range, IR.lo, IR.hi, in_slice, sum_recv_apply_transform]
    by_cases hj : slice_begin p.mat.width A.nprocs rank ≤ j ∧
        j < slice_end p.mat.width A.nprocs rank
    · have h2 : j - slice_begin p.mat.width A.nprocs rank
          < slice_end p.mat.width A.nprocs rank - slice_begin p.mat.width A.nprocs rank := by
        omega
      have h3 : slice_begin p.mat.width A.nprocs rank
          + (j - slice_begin p.mat.width A.nprocs rank) = j := by omega
      simp [hi, hj, h2, h3]
    · have hj2 : ¬ (slice_begin p.mat.width A.nprocs rank ≤ j ∧
        j < slice_end p.mat.width A.nprocs rank) := hj
      simp only [Nat.zero_le, true_and, hi]
      rw [if_neg hj2, if_neg hj2]
  unfold pe_rs_iter
  by_cases hl : (A.no_local_trans && A.is_rank_node_local rank
      (int_mod ((rank : Int) - (step : Int) + (A.nprocs : Int)) A.nprocs)) = true
  · obtain ⟨b, hb, hcap, hwf2, _⟩ := acquire_zero_spec (A.sizeof_DataType
        * (view p.mat IR.ALL (slice_range p.mat.width A.nprocs rank)).height
        * (view p.mat IR.ALL (slice_range p.mat.width A.nprocs rank)).width) p hwf
    have hsz : A.sizeof_DataType
        * (view p.mat IR.ALL (slice_range p.mat.width A.nprocs rank)).height
        * (view p.mat IR.ALL (slice_range p.mat.width A.nprocs rank)).width
        = A.sizeof_DataType * p.mat.height
          * (slice_end p.mat.width A.nprocs rank - slice_begin p.mat.width A.nprocs rank) := by
      simp only [slice_range]
      rw [e1, e2]
    simp only [hl, if_true, hb]
    rw [receive_scratch (A.sizeof_DataType
        * (view p.mat IR.ALL (slice_range p.mat.width A.nprocs rank)).height
        * (view p.mat IR.ALL (slice_range p.mat.width A.nprocs rank)).width) _ _ _ _ _]
    · simp only [load, hT, id_sum_transforms, if_true]
      refine ⟨_, rfl, rfl, rfl, rfl, ?_, rfl, hwf2, ?_, ?_⟩
      · simp [acquire, hbuf]
      · intro s i b hs; exact gcb_slot_mono _ _ _ s i b hs
      · intro i j hi
        exact hentry _ rfl i j hi
    · exact hcap
    · rw [hib, hsz]
    · rw [hib, hsz]
    · exact hil
  · have hl2 : (A.no_local_trans && A.is_rank_node_local rank
        (int_mod ((rank : Int) - (step : Int) + (A.nprocs : Int)) A.nprocs)) = false := by
      simpa using hl
    simp only [hl2, Bool.false_eq_true, if_false, hbuf]
    rw [receive_scratch A.max_recv_count _ _ _ _ _]
    · simp only [load, hT, id_sum_transforms, if_true]
      refine ⟨_, rfl, rfl, rfl, rfl, rfl, rfl, hwf, ?_, ?_⟩
      · intro s i b hs; exact hs
      · intro i j hi
        exact hentry _ rfl i j hi
    · exact slot_capacity _ hwf _ _ _ hslot
    · rw [hib, hcnt]; exact hfit
    · rw [hib]; exact hfit
    · exact hil

theorem pe_ag_first_send_entry {α : Type} [Add α] (A : call_args α)
    (hT : A.T = id_sum_transforms α A.sizeof_DataType) (rank : Nat) (p : proc α)
    (i j : Nat) :
    (pe_ag_first_send A rank p).1.entry i j
      = p.mat.entry i (slice_begin p.mat.width A.nprocs rank + j) := by
  unfold pe_ag_first_send
  rw [hT]
  simp [id_sum_transforms, id_send_transform, view, packed, IR.lo, slice_range]

theorem pe_ag_first_send_shape {α : Type} [Add α] (A : call_args α)
    (hT : A.T = id_sum_transforms α A.sizeof_DataType) (rank : Nat) (p : proc α) :
    (pe_ag_first_send A rank p).1.height = p.mat.height ∧
      (pe_ag_first_send A rank p).1.width
        = slice_end p.mat.width A.nprocs rank - slice_begin p.mat.width A.nprocs rank ∧
      (pe_ag_first_send A rank p).1.ldim = (pe_ag_first_send A rank p).1.height ∧
      (pe_ag_first_send A rank p).2 = A.sizeof_DataType * p.mat.height
        * (slice_end p.mat.width A.nprocs rank - slice_begin p.mat.width A.nprocs rank) := by
  unfold pe_ag_first_send
  rw [hT]
  exact id_send_shape A.sizeof_DataType p.mat _ _ false

/-- The entries of a matrix after the block `incoming` has been written over the columns of
slice `k`. -/
theorem set_view_slice_entry {α : Type} (mat v : Mat α) (n k i j : Nat) (hi : i < mat.height) :
    (set_view mat IR.ALL (slice_range mat.width n k) v).entry i j
      = if in_slice mat.width n k j then v.entry i (j - slice_begin mat.width n k)
        else mat.entry i j := by
  simp only [set_view, slice_range, IR.lo, IR.hi, in_slice, Nat.zero_le, true_and, hi,
    Nat.sub_zero]

theorem view_slice_entry {α : Type} (mat : Mat α) (w n k i j : Nat) :
    (view mat IR.ALL (slice_range w n k)).entry i j
      = mat.entry i (slice_begin w n k + j) := by
  simp [view, slice_range, IR.lo]

/-- Reading at the buffer of a view over all rows of a matrix without padding gives the
view. -/
theorem load_matview {α : Type} (p : proc α) (c : IR) (h : p.mat.ldim = p.mat.height) :
    load p (bufptr.matview c) = some (view p.mat IR.ALL c) := by
  simp only [load]
  rw [contiguous_of_ldim]
  simp [view, IR.hi, IR.lo, h]

/-- The first allgather step with the identity-copy callbacks, on a message of the shape of
the slice of the ring predecessor that fits the receive buffer: the incoming buffer lands in
that slice and is the buffer held in `recv_buf` afterwards. -/
theorem pe_ag_first_spec {α : Type} [Add α] (A : call_args α)
    (hT : A.T = id_sum_transforms α A.sizeof_DataType) (rank : Nat)
    (incoming : Mat α × Nat) (p : proc α)
    (a : Nat) (hbuf : p.recv_buf = bufptr.scratch a) (hn : 0 < A.nprocs)
    (hw : incoming.1.width
      = slice_end p.mat.width A.nprocs (ring_back A.nprocs rank 1)
        - slice_begin p.mat.width A.nprocs (ring_back A.nprocs rank 1))
    (hih : incoming.1.height = p.mat.height) (hil : incoming.1.ldim = incoming.1.height)
    (hib : incoming.2 = A.sizeof_DataType * p.mat.height * incoming.1.width)
    (hcap : A.id_recv = false → p.comm.pool.heap[a]? = some A.max_recv_count ∧
      p.max_recv_count = A.max_recv_count ∧ incoming.2 ≤ A.max_recv_count)
    (hld : A.id_recv = true → p.mat.ldim = p.mat.height) :
    ∃ p1, pe_ag_first A rank incoming p = some p1 ∧
      p1.mat.height = p.mat.height ∧ p1.mat.width = p.mat.width ∧
      p1.mat.ldim = p.mat.ldim ∧
      p1.comm.pool = p.comm.pool ∧
      p1.send_size = A.sizeof_DataType * p.mat.height * incoming.1.width ∧
      (A.id_recv = false → p1.max_recv_count = p.max_recv_count ∧
        p1.recv_buf = bufptr.scratch a ∧ p1.mem a = incoming.1) ∧
      (A.id_recv = true → ∃ c, p1.recv_buf = bufptr.matview c) ∧
      (∃ buf, load p1 p1.recv_buf = some buf ∧ buf.width = incoming.1.width ∧
        buf.height = p.mat.height ∧ buf.ldim = buf.height ∧
        ∀ i j, i < p.mat.height →
          slice_begin p.mat.width A.nprocs (ring_back A.nprocs rank 1) + j
            < slice_end p.mat.width A.nprocs (ring_back A.nprocs rank 1) →
          buf.entry i j = incoming.1.entry i j) ∧
      (∀ i j, i < p.mat.height →
        p1.mat.entry i j
          = if in_slice p.mat.width A.nprocs (ring_back A.nprocs rank 1) j
            then incoming.1.entry i
              (j - slice_begin p.mat.width A.nprocs (ring_back A.nprocs rank 1))
            else p.mat.entry i j) := by
  have hsrc : int_mod ((rank : Int) - 1 + (A.nprocs : Int)) A.nprocs
      = ring_back A.nprocs rank 1 := by
    have := int_mod_eq_ring_back A.nprocs rank 1 (by omega)
    simpa using this
  have hle := slice_begin_le_end p.mat.width A.nprocs (ring_back A.nprocs rank 1)
    (ring_back_lt _ _ _ hn)
  have hend := slice_end_le_cols p.mat.width A.nprocs (ring_back A.nprocs rank 1) hn
    (ring_back_lt _ _ _ hn)
  have hrange : IR.range (slice_range p.mat.width A.nprocs (ring_back A.nprocs rank 1)).lo
      ((slice_range p.mat.width A.nprocs (ring_back A.nprocs rank 1)).lo + incoming.1.width)
      = slice_range p.mat.width A.nprocs (ring_back A.nprocs rank 1) := by
    simp only [slice_range, IR.lo, hw]
    congr 1
    omega
  obtain ⟨e1, e2, e3⟩ := view_all_shape p.mat
    (slice_begin p.mat.width A.nprocs (ring_back A.nprocs rank 1))
    (slice_end p.mat.width A.nprocs (ring_back A.nprocs rank 1))
  have hvb : A.sizeof_DataType
      * (view p.mat IR.ALL (slice_range p.mat.width A.nprocs (ring_back A.nprocs rank 1))).height
      * (view p.mat IR.ALL (slice_range p.mat.width A.nprocs (ring_back A.nprocs rank 1))).width
      = A.sizeof_DataType * p.mat.height * incoming.1.width := by
    simp only [slice_range]
    rw [e1, e2, hw]
  unfold pe_ag_first
  rw [hsrc]
  by_cases hid : A.id_recv = true
  · simp only [hid, if_true]
    rw [receive_matview _ _ _ _ _]
    · simp only [hrange]
      refine ⟨_, rfl, rfl, rfl, rfl, rfl, hvb, ?_, ?_, ?_, ?_⟩
      · intro hc; exact absurd hc (by simp)
      · intro _; exact ⟨_, rfl⟩
      · refine ⟨_, load_matview _ _ (hld hid), ?_, ?_, ?_, ?_⟩
        · simp [view, slice_range, IR.hi, IR.lo, hw]
        · simp [view, set_view, IR.hi, IR.lo]
        · simp [view, set_view, IR.hi, IR.lo, hld hid]
        intro i j hi hj
        rw [view_slice_entry, set_view_slice_entry _ _ _ _ _ _ hi]
        have : in_slice p.mat.width A.nprocs (ring_back A.nprocs rank 1)
            (slice_begin p.mat.width A.nprocs (ring_back A.nprocs rank 1) + j) :=
          ⟨Nat.le_add_right _ _, hj⟩
        rw [if_pos this]
        congr 1
        omega
      · intro i j hi
        exact set_view_slice_entry _ _ _ _ _ _ hi
    · rw [hib, hvb]
    · rw [hib, hih]
    · exact hil
    · exact hld hid
    · exact hih
    · simp only [slice_range, IR.lo, hw]
      omega
  · have hid2 : A.id_recv = false := by simpa using hid
    obtain ⟨hc1, hc2, hc3⟩ := hcap hid2
    simp only [hid2, Bool.false_eq_true, if_false, hbuf]
    rw [receive_scratch A.max_recv_count _ _ _ _ _]
    · simp only [load, hT, id_sum_transforms, id_recv_transform, if_true]
      refine ⟨_, rfl, rfl, rfl, rfl, rfl, hvb, ?_, ?_, ?_, ?_⟩
      · intro _; exact ⟨rfl, rfl, by simp⟩
      · intro hc; exact absurd hc (by simp)
      · refine ⟨_, rfl, ?_, ?_, ?_, ?_⟩
        · simp
        · simpa using hih
        · simpa using hil
        intro i j _ _
        simp
      · intro i j hi
        rw [set_view_slice_entry _ _ _ _ _ _ hi]
        by_cases hj : in_slice p.mat.width A.nprocs (ring_back A.nprocs rank 1) j
        · rw [if_pos hj, if_pos hj]
          have h1 := hj.1
          have h2 := hj.2
          simp only [view, IR.lo, IR.hi, slice_range, Nat.sub_zero, if_true, hi, true_and]
          rw [if_pos (by omega)]
        · rw [if_neg hj, if_neg hj]
    · exact hc1
    · rw [hc2]; exact hc3
    · exact hc3
    · exact hil

/-- One step of the allgather loop with the identity-copy callbacks, on a message of the
shape of slice `data_src` that fits the receive buffer: the incoming buffer lands in that
slice, and is the buffer held in `recv_buf` afterwards. -/
theorem pe_ag_iter_spec {α : Type} [Add α] (A : call_args α)
    (hT : A.T = id_sum_transforms α A.sizeof_DataType) (rank step : Nat)
    (incoming : Mat α × Nat) (p : proc α)
    (hstep : step + 1 ≤ A.nprocs) (hn : 0 < A.nprocs)
    (hw : incoming.1.width
      = slice_end p.mat.width A.nprocs (ring_back A.nprocs rank (step + 1))
        - slice_begin p.mat.width A.nprocs (ring_back A.nprocs rank (step + 1)))
    (hih : incoming.1.height = p.mat.height) (hil : incoming.1.ldim = incoming.1.height)
    (hib : incoming.2 = A.sizeof_DataType * p.mat.height * incoming.1.width)
    (hfit : A.id_recv = false → incoming.2 ≤ A.max_recv_count)
    (hld : A.id_recv = true → p.mat.ldim = p.mat.height)
    (hptr : (A.id_recv = true ∧ ∃ c, p.recv_buf = bufptr.matview c) ∨
      (A.id_recv = false ∧ p.max_recv_count = A.max_recv_count ∧
        ∃ x y, p.recv_buf = bufptr.scratch x ∧ p.recv_buf2 = bufptr.scratch y ∧ x ≠ y ∧
          p.comm.pool.heap[x]? = some A.max_recv_count ∧
          p.comm.pool.heap[y]? = some A.max_recv_count)) :
    ∃ p1, pe_ag_iter A rank step incoming p = some p1 ∧
      p1.mat.height = p.mat.height ∧ p1.mat.width = p.mat.width ∧
      p1.mat.ldim = p.mat.ldim ∧
      p1.send_size = A.sizeof_DataType * p.mat.height * incoming.1.width ∧
      ((A.id_recv = true ∧ ∃ c, p1.recv_buf = bufptr.matview c) ∨
        (A.id_recv = false ∧ p1.max_recv_count = A.max_recv_count ∧
          ∃ x y, p1.recv_buf = bufptr.scratch x ∧ p1.recv_buf2 = bufptr.scratch y ∧ x ≠ y ∧
            p1.comm.pool.heap[x]? = some A.max_recv_count ∧
            p1.comm.pool.heap[y]? = some A.max_recv_count)) ∧
      (∃ buf, load p1 p1.recv_buf = some buf ∧ buf.width = incoming.1.width ∧
        buf.height = p.mat.height ∧ buf.ldim = buf.height ∧
        ∀ i j, i < p.mat.height →
          slice_begin p.mat.width A.nprocs (ring_back A.nprocs rank (step + 1)) + j
            < slice_end p.mat.width A.nprocs (ring_back A.nprocs rank (step + 1)) →
          buf.entry i j = incoming.1.entry i j) ∧
      (∀ i j, i < p.mat.height →
        p1.mat.entry i j
          = if in_slice p.mat.width A.nprocs (ring_back A.nprocs rank (step + 1)) j
            then incoming.1.entry i
              (j - slice_begin p.mat.width A.nprocs (ring_back A.nprocs rank (step + 1)))
            else p.mat.entry i j) := by
  have hsrc : int_mod ((rank : Int) - (step : Int) - 1 + (A.nprocs : Int)) A.nprocs
      = ring_back A.nprocs rank (step + 1) := by
    have h1 := int_mod_eq_ring_back A.nprocs rank (step + 1) (by omega)
    have h2 : (rank : Int) - (step : Int) - 1 + (A.nprocs : Int)
        = (rank : Int) - ((step + 1 : Nat) : Int) + (A.nprocs : Int) := by
      push_cast; ring
    rw [h2]; exact h1
  have hle := slice_begin_le_end p.mat.width A.nprocs (ring_back A.nprocs rank (step + 1))
    (ring_back_lt _ _ _ hn)
  have hend := slice_end_le_cols p.mat.width A.nprocs (ring_back A.nprocs rank (step + 1)) hn
    (ring_back_lt _ _ _ hn)
  have hrange : IR.range
      (slice_range p.mat.width A.nprocs (ring_back A.nprocs rank (step + 1))).lo
      ((slice_range p.mat.width A.nprocs (ring_back A.nprocs rank (step + 1))).lo
        + incoming.1.width)
      = slice_range p.mat.width A.nprocs (ring_back A.nprocs rank (step + 1)) := by
    simp only [slice_range, IR.lo, hw]
    congr 1
    omega
  obtain ⟨e1, e2, e3⟩ := view_all_shape p.mat
    (slice_begin p.mat.width A.nprocs (ring_back A.nprocs rank (step + 1)))
    (slice_end p.mat.width A.nprocs (ring_back A.nprocs rank (step + 1)))
  have hvb : A.sizeof_DataType
      * (view p.mat IR.ALL
          (slice_range p.mat.width A.nprocs (ring_back A.nprocs rank (step + 1)))).height
      * (view p.mat IR.ALL
          (slice_range p.mat.width A.nprocs (ring_back A.nprocs rank (step + 1)))).width
      = A.sizeof_DataType * p.mat.height * incoming.1.width := by
    simp only [slice_range]
    rw [e1, e2, hw]
  unfold pe_ag_iter
  rw [hsrc]
  rcases hptr with ⟨hid, c, hc⟩ | ⟨hid, hcnt, x, y, hx, hy, hxy, hcx, hcy⟩
  · simp only [hid, if_true, hc, load]
    rw [receive_matview _ _ _ _ _]
    · simp only [hrange]
      refine ⟨_, rfl, rfl, rfl, rfl, hvb, Or.inl ⟨trivial, _, rfl⟩, ?_, ?_⟩
      · refine ⟨_, load_matview _ _ (hld hid), ?_, ?_, ?_, ?_⟩
        · simp [view, slice_range, IR.hi, IR.lo, hw]
        · simp [view, set_view, IR.hi, IR.lo]
        · simp [view, set_view, IR.hi, IR.lo, hld hid]
        intro i j hi hj
        rw [view_slice_entry, set_view_slice_entry _ _ _ _ _ _ hi]
        have : in_slice p.mat.width A.nprocs (ring_back A.nprocs rank (step + 1))
            (slice_begin p.mat.width A.nprocs (ring_back A.nprocs rank (step + 1)) + j) :=
          ⟨Nat.le_add_right _ _, hj⟩
        rw [if_pos this]
        congr 1
        omega
      · intro i j hi
        exact set_view_slice_entry _ _ _ _ _ _ hi
    · rw [hib, hvb]
    · rw [hib, hih]
    · exact hil
    · exact hld hid
    · exact hih
    · simp only [slice_range, IR.lo, hw]
      omega
  · have hf := hfit hid
    simp only [hid, Bool.false_eq_true, if_false, hx, hy, load]
    rw [receive_scratch A.max_recv_count _ _ _ _ _]
    · simp only [load, hT, id_sum_transforms, id_recv_transform, if_true]
      refine ⟨_, rfl, rfl, rfl, rfl, hvb,
        Or.inr ⟨trivial, hcnt, y, x, rfl, rfl, fun h => hxy h.symm, hcy, hcx⟩, ?_, ?_⟩
      · refine ⟨_, rfl, ?_, ?_, ?_, ?_⟩
        · simp
        · simpa using hih
        · simpa using hil
        intro i j _ _
        simp
      · intro i j hi
        rw [set_view_slice_entry _ _ _ _ _ _ hi]
        by_cases hj : in_slice p.mat.width A.nprocs (ring_back A.nprocs rank (step + 1)) j
        · rw [if_pos hj, if_pos hj]
          have h1 := hj.1
          have h2 := hj.2
          simp only [view, IR.lo, IR.hi, slice_range, Nat.sub_zero, if_true, hi, true_and]
          rw [if_pos (by omega)]
        · rw [if_neg hj, if_neg hj]
    · exact hcy
    · rw [hcnt]; exact hf
    · exact hf
    · exact hil

/-- The second scratch slot is a buffer different from the first, of the same capacity. -/
theorem pe_second_buffer_spec {α : Type} (A : call_args α) (p : proc α) (a : Nat)
    (hid : A.id_recv = false) (hbuf : p.recv_buf = bufptr.scratch a)
    (hwf : pool_wf p.comm.pool) (hslot : slot p.comm.pool p.max_recv_count 0 = some a) :
    (pe_second_buffer A p).mat = p.mat ∧ (pe_second_buffer A p).mem = p.mem ∧
    (pe_second_buffer A p).max_recv_count = p.max_recv_count ∧
    (pe_second_buffer A p).send_size = p.send_size ∧
    ∃ y, (pe_second_buffer A p).recv_buf = bufptr.scratch a ∧
      (pe_second_buffer A p).recv_buf2 = bufptr.scratch y ∧ a ≠ y ∧
      (pe_second_buffer A p).comm.pool.heap[a]? = some p.max_recv_count ∧
      (pe_second_buffer A p).comm.pool.heap[y]? = some p.max_recv_count := by
  have hns := slot_lt_num_slots _ _ _ _ hslot
  cases hr : (get_collective_buffer p.max_recv_count 1 p.comm.pool).1 with
  | none =>
    have := (gcb_null_iff p.max_recv_count 1 p.comm.pool).1 hr
    omega
  | some y =>
    have h1 := gcb_result_slot p.max_recv_count 1 p.comm.pool y hr
    have h0 := gcb_slot_mono p.max_recv_count 1 p.comm.pool _ _ _ hslot
    have hw := pool_wf_gcb p.max_recv_count 1 p.comm.pool hwf
    have hne : a ≠ y := by
      intro h
      rw [h] at h0
      have := (hw.2.2 _ _ _ _ _ h0 h1).2
      omega
    unfold pe_second_buffer
    simp only [hid, Bool.false_eq_true, if_false]
    refine ⟨rfl, rfl, rfl, rfl, y, ?_, ?_, hne, hw.1 _ _ _ h0, hw.1 _ _ _ h1⟩
    · simp [acquire, hbuf]
    · simp [acquire, hr, bufptr.of_result]

theorem pe_rs_inv_init {α : Type} [AddCommMonoid α] (A : call_args α) (init : Nat → proc α)
    (h w : Nat)
    (hdim : ∀ r, r < A.nprocs → (init r).mat.height = h ∧ (init r).mat.width = w)
    (hld : A.no_local_trans = true ∨ A.id_recv = true →
      ∀ r, r < A.nprocs → (init r).mat.ldim = (init r).mat.height)
    (hpool : ∀ r, r < A.nprocs → pool_wf (init r).comm.pool) :
    pe_rs_inv A init h w 0 (fun r => some (pe_setup A (init r))) := by
  intro r hr
  cases hres : (get_collective_buffer A.max_recv_count 0 (init r).comm.pool).1 with
  | none =>
    have := (gcb_null_iff A.max_recv_count 0 (init r).comm.pool).1 hres
    omega
  | some a =>
    refine ⟨pe_setup A (init r), a, rfl, (hdim r hr).1, (hdim r hr).2,
      fun hraw => hld hraw r hr, ?_, rfl, ?_, ?_, ?_⟩
    · simp [pe_setup, acquire, hres, bufptr.of_result]
    · exact pool_wf_gcb _ _ _ (hpool r hr)
    · exact gcb_result_slot _ _ _ _ hres
    · intro i j _ _
      have : (pe_setup A (init r)).mat = (init r).mat := rfl
      rw [this]
      simp [ring_back_zero A.nprocs r hr]

theorem pe_rs_step {α : Type} [AddCommMonoid α] (A : call_args α)
    (hT : A.T = id_sum_transforms α A.sizeof_DataType) (init : Nat → proc α) (h w s : Nat)
    (hfit : ∀ k, k < A.nprocs → A.sizeof_DataType * h
      * (slice_end w A.nprocs k - slice_begin w A.nprocs k) ≤ A.max_recv_count)
    (hs : s + 1 < A.nprocs) (sts : Nat → Option (proc α))
    (hinv : pe_rs_inv A init h w s sts) :
    pe_rs_inv A init h w (s + 1)
      (sendrecv_all A.nprocs (fun r => (r + (s + 1)) % A.nprocs)
        (fun (r : Nat) =>
          int_mod ((r : Int) - ((s + 1 : Nat) : Int) + (A.nprocs : Int)) A.nprocs)
        (fun r q => some (pe_rs_send A r (s + 1) q)) (fun r => pe_rs_iter A r (s + 1))
        sts) := by
  have hfun : (fun (r : Nat) =>
      int_mod ((r : Int) - ((s + 1 : Nat) : Int) + (A.nprocs : Int)) A.nprocs)
      = fun r => ring_back A.nprocs r (s + 1) := by
    funext r
    exact int_mod_eq_ring_back A.nprocs r (s + 1) (by omega)
  rw [hfun]
  intro r hr
  have hn : 0 < A.nprocs := by omega
  have hsrc : ring_back A.nprocs r (s + 1) < A.nprocs := ring_back_lt _ _ _ hn
  have hdst : (r + (s + 1)) % A.nprocs < A.nprocs := Nat.mod_lt _ hn
  obtain ⟨p, a, hp, hph, hpw, hpl, hpa, hpc, hpwf, hpslot, hpe⟩ := hinv r hr
  obtain ⟨q, _, hq, hqh, hqw, hql, _, _, _, _, hqe⟩ := hinv _ hsrc
  obtain ⟨d, _, hd, _⟩ := hinv _ hdst
  obtain ⟨g1, g2, g3, g4⟩ := pe_rs_send_shape A hT (ring_back A.nprocs r (s + 1)) (s + 1) q
    (fun hnl => hql (Or.inl hnl))
  rw [ring_fwd_back A.nprocs r (s + 1) hr (by omega), hqh, hqw] at g4
  obtain ⟨p1, h1, h1h, h1w, h1l, h1a, h1c, h1wf, h1slot, h1e⟩ :=
    pe_rs_iter_spec A hT r (s + 1)
      (pe_rs_send A (ring_back A.nprocs r (s + 1)) (s + 1) q) p a hpa hpc hpwf hpslot g3
      (by rw [g4, hph, hpw]) (by rw [hph, hpw]; exact hfit r hr)
  refine ⟨p1, a, ?_, by rw [h1h, hph], by rw [h1w, hpw],
    fun hraw => by rw [h1l, h1h]; exact hpl hraw, h1a, by rw [h1c, hpc], h1wf,
    h1slot _ _ _ hpslot, ?_⟩
  · unfold sendrecv_all
    simp only [hp, hq, hd, hsrc, hdst, ring_fwd_back A.nprocs r (s + 1) hr (by omega),
      ring_back_fwd A.nprocs r (s + 1) hr (by omega), and_self, if_true]
    exact h1
  · intro i j hi hj
    rw [h1e i j (by rw [hph]; exact hi), hpw]
    by_cases hin : in_slice w A.nprocs r j
    · rw [if_pos hin, if_pos hin, hpe i j hi hj, if_pos hin, pe_rs_send_entry A hT, hqw,
        ring_fwd_back A.nprocs r (s + 1) hr (by omega)]
      have hj2 : slice_begin w A.nprocs r + (j - slice_begin w A.nprocs r) = j := by
        have := hin.1; omega
      rw [hj2, hqe i j hi hj]
      have hnot : ¬ in_slice w A.nprocs (ring_back A.nprocs r (s + 1)) j := by
        intro hc
        exact ring_back_ne A.nprocs r (s + 1) hr (by omega) hs
          (slice_unique w A.nprocs j _ _ hsrc hr hc hin)
      rw [if_neg hnot, Finset.sum_range_succ _ (s + 1)]
    · rw [if_neg hin, if_neg hin, hpe i j hi hj, if_neg hin]

theorem pe_rs_loop_inv {α : Type} [AddCommMonoid α] (A : call_args α)
    (hT : A.T = id_sum_transforms α A.sizeof_DataType) (init : Nat → proc α) (h w : Nat)
    (hfit : ∀ k, k < A.nprocs → A.sizeof_DataType * h
      * (slice_end w A.nprocs k - slice_begin w A.nprocs k) ≤ A.max_recv_count)
    (hn : 2 ≤ A.nprocs) (sts : Nat → Option (proc α))
    (hinv : pe_rs_inv A init h w 0 sts) :
    pe_rs_inv A init h w (A.nprocs - 1) (pe_rs_loop A sts) := by
  unfold pe_rs_loop
  apply for_loop_induct (fun k st => pe_rs_inv A init h w (k - 1) st) 1 A.nprocs
  · omega
  · exact hinv
  · intro k st hk1 hk2 hP
    obtain ⟨s, rfl⟩ : ∃ s, k = s + 1 := ⟨k - 1, by omega⟩
    have := pe_rs_step A hT init h w s hfit hk2 st hP
    simpa using this

theorem pe_rs_final {α : Type} [AddCommMonoid α] (A : call_args α) (init : Nat → proc α)
    (h w : Nat) (hn : 2 ≤ A.nprocs) (sts : Nat → Option (proc α))
    (hinv : pe_rs_inv A init h w (A.nprocs - 1) sts) :
    ∀ r, r < A.nprocs → ∃ p a, sts r = some p ∧ p.mat.height = h ∧ p.mat.width = w ∧
      (A.no_local_trans = true ∨ A.id_recv = true → p.mat.ldim = p.mat.height) ∧
      p.max_recv_buf = bufptr.scratch a ∧ p.max_recv_count = A.max_recv_count ∧
      pool_wf p.comm.pool ∧ slot p.comm.pool A.max_recv_count 0 = some a ∧
      ∀ i j, i < h → j < w → p.mat.entry i j =
        if in_slice w A.nprocs r j
        then (Finset.range A.nprocs).sum (fun q => (init q).mat.entry i j)
        else (init r).mat.entry i j := by
  intro r hr
  obtain ⟨p, a, hp, hph, hpw, hpl, hpa, hpc, hpwf, hpslot, hpe⟩ := hinv r hr
  refine ⟨p, a, hp, hph, hpw, hpl, hpa, hpc, hpwf, hpslot, ?_⟩
  intro i j hi hj
  rw [hpe i j hi hj]
  have h1 : A.nprocs - 1 + 1 = A.nprocs := by omega
  rw [h1, sum_ring_back (fun x => (init x).mat.entry i j) A.nprocs r hr]

theorem each_rank_apply {α : Type} (f : Nat → proc α → proc α)
    (sts : Nat → Option (proc α)) (r : Nat) :
    each_rank f sts r = (sts r).map (f r) := rfl

theorem ring_src_fun (n : Nat) (hn : 1 ≤ n) :
    (fun (r : Nat) => int_mod ((r : Int) - 1 + (n : Int)) n) = fun r => ring_back n r 1 := by
  funext r
  have := int_mod_eq_ring_back n r 1 (by omega)
  simpa using this

theorem pe_ag_inv_init {α : Type} [AddCommMonoid α] (A : call_args α)
    (hT : A.T = id_sum_transforms α A.sizeof_DataType) (init : Nat → proc α) (h w : Nat)
    (hfit : ∀ k, k < A.nprocs → A.sizeof_DataType * h
      * (slice_end w A.nprocs k - slice_begin w A.nprocs k) ≤ A.max_recv_count)
    (hn : 2 ≤ A.nprocs) (sts : Nat → Option (proc α))
    (hinv : pe_rs_inv A init h w (A.nprocs - 1) sts) :
    pe_ag_inv A init h w 0
      (each_rank (fun _ p => pe_second_buffer A p)
        (sendrecv_all A.nprocs (fun (r : Nat) => (r + 1) % A.nprocs)
          (fun r => ring_back A.nprocs r 1)
          (fun r q => some (pe_ag_first_send A r q)) (fun r => pe_ag_first A r)
          (each_rank (fun _ p => { p with recv_buf := p.max_recv_buf }) sts))) := by
  have hfin := pe_rs_final A init h w hn sts hinv
  intro r hr
  have hn0 : 0 < A.nprocs := by omega
  have hsrc : ring_back A.nprocs r 1 < A.nprocs := ring_back_lt _ _ _ hn0
  have hdst : (r + 1) % A.nprocs < A.nprocs := Nat.mod_lt _ hn0
  obtain ⟨p, a, hp, hph, hpw, hpl, hpa, hpc, hpwf, hpslot, hpe⟩ := hfin r hr
  obtain ⟨q, _, hq, hqh, hqw, _, _, _, _, _, hqe⟩ := hfin _ hsrc
  obtain ⟨d, _, hd, _⟩ := hfin _ hdst
  obtain ⟨g1, g2, g3, g4⟩ := pe_ag_first_send_shape A hT (ring_back A.nprocs r 1)
    { q with recv_buf := q.max_recv_buf }
  simp only [hqh, hqw] at g1 g2 g4
  have hsendw := g2
  obtain ⟨p1, h1, h1h, h1w, h1l, h1pool, h1ss, h1nid, h1id,
      ⟨buf, h1load, h1bw, h1bh, h1bl, h1buf⟩, h1e⟩ :=
    pe_ag_first_spec A hT r
      (pe_ag_first_send A (ring_back A.nprocs r 1)
        { q with recv_buf := q.max_recv_buf })
      { p with recv_buf := p.max_recv_buf } a hpa hn0
      (by rw [hsendw]; simp only [hpw]) (by rw [g1]; exact hph.symm) g3
      (by rw [g4, g2]; simp only [hph])
      (fun _ => ⟨slot_capacity _ hpwf _ _ _ hpslot, hpc, by rw [g4]; exact hfit _ hsrc⟩)
      (fun hid => hpl (Or.inr hid))
  have hs3 : sendrecv_all A.nprocs (fun (r : Nat) => (r + 1) % A.nprocs)
      (fun r => ring_back A.nprocs r 1)
      (fun r q => some (pe_ag_first_send A r q)) (fun r => pe_ag_first A r)
      (each_rank (fun _ p => { p with recv_buf := p.max_recv_buf }) sts) r = some p1 := by
    unfold sendrecv_all each_rank
    simp only [hp, hq, hd, Option.map_some', hsrc, hdst,
      ring_fwd_back A.nprocs r 1 hr (by omega), ring_back_fwd A.nprocs r 1 hr (by omega),
      and_self, if_true]
    exact h1
  have hsend : ∀ i j, (pe_ag_first_send A (ring_back A.nprocs r 1)
      { q with recv_buf := q.max_recv_buf }).1.entry i j
      = q.mat.entry i (slice_begin w A.nprocs (ring_back A.nprocs r 1) + j) := by
    intro i j
    rw [pe_ag_first_send_entry A hT]
    simp only [hqw]
  have hne : ring_back A.nprocs r 1 ≠ r := ring_back_ne A.nprocs r 1 hr (by omega) (by omega)
  simp only [hph, hpw] at h1buf h1e h1ss h1bh
  have hp1l : A.no_local_trans = true ∨ A.id_recv = true → p1.mat.ldim = p1.mat.height := by
    intro hraw
    rw [h1l, h1h]
    exact hpl hraw
  have hmat : ∀ t, t ≤ 0 + 1 → ∀ i j, i < h → j < w →
      in_slice w A.nprocs (ring_back A.nprocs r t) j →
      p1.mat.entry i j = (Finset.range A.nprocs).sum (fun q => (init q).mat.entry i j) := by
    intro t ht i j hi hj hin
    rw [h1e i j hi]
    by_cases hin1 : in_slice w A.nprocs (ring_back A.nprocs r 1) j
    · rw [if_pos hin1, hsend]
      have : slice_begin w A.nprocs (ring_back A.nprocs r 1)
          + (j - slice_begin w A.nprocs (ring_back A.nprocs r 1)) = j := by
        have := hin1.1; omega
      rw [this, hqe i j hi hj, if_pos hin1]
    · rw [if_neg hin1]
      have ht0 : t = 0 := by
        by_contra hc
        have : t = 1 := by omega
        rw [this] at hin
        exact hin1 hin
      rw [ht0, ring_back_zero A.nprocs r hr] at hin
      show p.mat.entry i j = _
      rw [hpe i j hi hj, if_pos hin]
  have hbufe : ∀ i j, i < h →
      slice_begin w A.nprocs (ring_back A.nprocs r (0 + 1)) + j
        < slice_end w A.nprocs (ring_back A.nprocs r (0 + 1)) →
      buf.entry i j = (Finset.range A.nprocs).sum (fun q =>
        (init q).mat.entry i (slice_begin w A.nprocs (ring_back A.nprocs r (0 + 1)) + j)) := by
    intro i j hi hj
    rw [h1buf i j hi hj, hsend]
    have hjw : slice_begin w A.nprocs (ring_back A.nprocs r 1) + j < w :=
      Nat.lt_of_lt_of_le hj (slice_end_le_cols w A.nprocs _ (by omega) hsrc)
    rw [hqe i _ hi hjw, if_pos ⟨Nat.le_add_right _ _, hj⟩]
  by_cases hid : A.id_recv = true
  · obtain ⟨c, hc⟩ := h1id hid
    refine ⟨pe_second_buffer A p1, ?_, ?_, ?_, ?_, Or.inl ⟨hid, c, ?_⟩,
      ⟨buf, ?_, h1bh, h1bl, by rw [h1bw, hsendw], ?_, hbufe⟩, ?_⟩
    · rw [each_rank_apply, hs3]; rfl
    · simp only [pe_second_buffer, hid, if_true]; rw [h1h]; exact hph
    · simp only [pe_second_buffer, hid, if_true]; rw [h1w]; exact hpw
    · intro hraw
      have := hp1l hraw
      simp only [pe_second_buffer, hid, if_true]
      exact this
    · simp only [pe_second_buffer, hid, if_true]; exact hc
    · simp only [pe_second_buffer, hid, if_true]
      rw [hc] at h1load ⊢
      exact h1load
    · simp only [pe_second_buffer, hid, if_true]
      rw [h1ss, h1bw]
    · simp only [pe_second_buffer, hid, if_true]
      exact hmat
  · have hid2 : A.id_recv = false := by simpa using hid
    obtain ⟨hmrc, hrb, hmem⟩ := h1nid hid2
    have hmrc2 : p1.max_recv_count = A.max_recv_count := by
      rw [hmrc]; exact hpc
    have hslot1 : slot p1.comm.pool p1.max_recv_count 0 = some a := by
      rw [h1pool, hmrc]
      show slot p.comm.pool p.max_recv_count 0 = some a
      rw [hpc]; exact hpslot
    have hwf1 : pool_wf p1.comm.pool := by rw [h1pool]; exact hpwf
    obtain ⟨hm2, hmem2, hcnt2, hss2, y, hrb2, hrb22, hay, hca, hcy⟩ :=
      pe_second_buffer_spec A p1 a hid2 hrb hwf1 hslot1
    rw [hmrc2] at hca hcy
    refine ⟨pe_second_buffer A p1, ?_, ?_, ?_, ?_,
      Or.inr ⟨hid2, by rw [hcnt2]; exact hmrc2, a, y, hrb2, hrb22, hay, hca, hcy⟩,
      ⟨buf, ?_, h1bh, h1bl, by rw [h1bw, hsendw], ?_, hbufe⟩, ?_⟩
    · rw [each_rank_apply, hs3]; rfl
    · rw [hm2, h1h]; exact hph
    · rw [hm2, h1w]; exact hpw
    · rw [hm2]; exact hp1l
    · rw [hrb2]
      rw [hrb] at h1load
      simp only [load] at h1load ⊢
      rw [hmem2]; exact h1load
    · rw [hss2, h1ss, h1bw]
    · rw [hm2]; exact hmat

theorem pe_ag_step {α : Type} [AddCommMonoid α] (A : call_args α)
    (hT : A.T = id_sum_transforms α A.sizeof_DataType) (init : Nat → proc α) (h w m : Nat)
    (hfit : ∀ k, k < A.nprocs → A.sizeof_DataType * h
      * (slice_end w A.nprocs k - slice_begin w A.nprocs k) ≤ A.max_recv_count)
    (hm : m + 2 < A.nprocs) (sts : Nat → Option (proc α))
    (hinv : pe_ag_inv A init h w m sts) :
    pe_ag_inv A init h w (m + 1)
      (sendrecv_all A.nprocs (fun (r : Nat) => (r + 1) % A.nprocs)
        (fun r => ring_back A.nprocs r 1)
        (fun _ q => forward q) (fun r => pe_ag_iter A r (m + 1)) sts) := by
  intro r hr
  have hn0 : 0 < A.nprocs := by omega
  have hsrc : ring_back A.nprocs r 1 < A.nprocs := ring_back_lt _ _ _ hn0
  have hdst : (r + 1) % A.nprocs < A.nprocs := Nat.mod_lt _ hn0
  obtain ⟨p, hp, hph, hpw, hpl, hpptr, _, hpe⟩ := hinv r hr
  obtain ⟨q, hq, hqh, hqw, _, _, ⟨bufq, hqload, hqbh, hqbl, hqbw, hqss, hqbuf⟩, _⟩ :=
    hinv _ hsrc
  obtain ⟨d, hd, _⟩ := hinv _ hdst
  have hbb : ring_back A.nprocs (ring_back A.nprocs r 1) (m + 1)
      = ring_back A.nprocs r (m + 1 + 1) := ring_back_back A.nprocs r (m + 1) hr (by omega)
  rw [hbb] at hqbuf hqbw
  have hfwd : forward q = some (bufq, q.send_size) := by
    unfold forward
    rw [hqload]
    rfl
  have hlt2 : ring_back A.nprocs r (m + 1 + 1) < A.nprocs := ring_back_lt _ _ _ hn0
  obtain ⟨p1, h1, h1h, h1w, h1l, h1ss, h1ptr, ⟨buf, h1load, h1bw, h1bh, h1bl, h1buf⟩, h1e⟩ :=
    pe_ag_iter_spec A hT r (m + 1) (bufq, q.send_size) p (by omega) hn0
      (by rw [hpw]; exact hqbw) (by rw [hph]; exact hqbh) hqbl
      (by rw [hqss, hph])
      (fun _ => by
        show q.send_size ≤ A.max_recv_count
        rw [hqss, hqbw]
        exact hfit _ hlt2)
      (fun hid => hpl (Or.inr hid)) hpptr
  simp only [hph, hpw] at h1buf h1e h1ss h1bh
  refine ⟨p1, ?_, by rw [h1h, hph], by rw [h1w, hpw],
    fun hraw => by rw [h1l, h1h]; exact hpl hraw, h1ptr,
    ⟨buf, h1load, h1bh, h1bl, by rw [h1bw]; exact hqbw, by rw [h1ss, h1bw], ?_⟩, ?_⟩
  · unfold sendrecv_all
    simp only [hp, hq, hd, hsrc, hdst, hfwd,
      ring_fwd_back A.nprocs r 1 hr (by omega), ring_back_fwd A.nprocs r 1 hr (by omega),
      and_self, if_true]
    exact h1
  · intro i j hi hj
    rw [h1buf i j hi hj]
    exact hqbuf i j hi hj
  · intro t ht i j hi hj hin
    rw [h1e i j hi]
    by_cases hin1 : in_slice w A.nprocs (ring_back A.nprocs r (m + 1 + 1)) j
    · rw [if_pos hin1]
      have hlt : slice_begin w A.nprocs (ring_back A.nprocs r (m + 1 + 1))
          + (j - slice_begin w A.nprocs (ring_back A.nprocs r (m + 1 + 1)))
          < slice_end w A.nprocs (ring_back A.nprocs r (m + 1 + 1)) := by
        have h1 := hin1.1
        have h2 := hin1.2
        omega
      show bufq.entry i _ = _
      rw [hqbuf i _ hi hlt]
      have : slice_begin w A.nprocs (ring_back A.nprocs r (m + 1 + 1))
          + (j - slice_begin w A.nprocs (ring_back A.nprocs r (m + 1 + 1))) = j := by
        have := hin1.1; omega
      rw [this]
    · rw [if_neg hin1]
      have ht2 : t ≤ m + 1 := by
        by_contra hc
        have : t = m + 1 + 1 := by omega
        rw [this] at hin
        exact hin1 hin
      exact hpe t ht2 i j hi hj hin

theorem pe_ag_phase_inv {α : Type} [AddCommMonoid α] (A : call_args α)
    (hT : A.T = id_sum_transforms α A.sizeof_DataType) (init : Nat → proc α) (h w : Nat)
    (hfit : ∀ k, k < A.nprocs → A.sizeof_DataType * h
      * (slice_end w A.nprocs k - slice_begin w A.nprocs k) ≤ A.max_recv_count)
    (hn : 2 ≤ A.nprocs) (sts : Nat → Option (proc α))
    (hinv : pe_rs_inv A init h w (A.nprocs - 1) sts) :
    pe_ag_inv A init h w (A.nprocs - 2)
      (pe_ag_phase A (each_rank (fun _ p => { p with recv_buf := p.max_recv_buf }) sts)) := by
  unfold pe_ag_phase
  simp only [ring_src_fun A.nprocs (by omega)]
  apply for_loop_induct (fun k st => pe_ag_inv A init h w (k - 1) st) 1 (A.nprocs - 1)
  · omega
  · exact pe_ag_inv_init A hT init h w hfit hn sts hinv
  · intro k st hk1 hk2 hP
    obtain ⟨m, rfl⟩ : ∃ m, k = m + 1 := ⟨k - 1, by omega⟩
    have := pe_ag_step A hT init h w m hfit (by omega) st hP
    simpa using this

theorem pe_ag_final {α : Type} [AddCommMonoid α] (A : call_args α) (init : Nat → proc α)
    (h w : Nat) (hn : 2 ≤ A.nprocs) (sts : Nat → Option (proc α))
    (hinv : pe_ag_inv A init h w (A.nprocs - 2) sts) :
    ∀ r, r < A.nprocs → ∃ p, sts r = some p ∧ p.mat.height = h ∧ p.mat.width = w ∧
      ∀ i j, i < h → j < w →
        p.mat.entry i j = (Finset.range A.nprocs).sum (fun q => (init q).mat.entry i j) := by
  intro r hr
  obtain ⟨p, hp, hph, hpw, _, _, _, hpe⟩ := hinv r hr
  refine ⟨p, hp, hph, hpw, ?_⟩
  intro i j hi hj
  obtain ⟨k, hk, hin⟩ := slice_cover w A.nprocs j (by omega) hj
  have hinv2 := ring_back_invol A.nprocs r (ring_back A.nprocs r k) hr
    (ring_back_lt _ _ _ (by omega))
  have hk2 : ring_back A.nprocs r (ring_back A.nprocs r k) = k :=
    ring_back_invol A.nprocs r k hr hk
  have hlt := ring_back_lt A.nprocs r k (by omega)
  apply hpe (ring_back A.nprocs r k) (by omega) i j hi hj
  rw [hk2]
  exact hin

/-- C4: with the identity-copy send and receive transforms and the summing
`recv_apply_transform`, for every number of ranks `n ≥ 1` holding matrices of one shape
`h × w` (any height and width, also a width below `n`) and a well-formed buffer pool each,
whatever `id_recv`, `no_local_trans` and the node-locality test are, when `max_recv_count`
is at least the `sizeof(DataType) * h * (slice width)` bytes of every column slice and the
matrices are stored without padding in case a raw-buffer path is on (`no_local_trans` or
`id_recv`), every rank returns from `pe_ring_allreduce` holding the element-wise sum of the
matrices the ranks held before the call. -/
theorem C4_pe_ring_sum {α : Type} [AddCommMonoid α] (A : call_args α) (h w : Nat)
    (init : Nat → proc α) (hT : A.T = id_sum_transforms α A.sizeof_DataType)
    (hn : 1 ≤ A.nprocs)
    (hdim : ∀ r, r < A.nprocs → (init r).mat.height = h ∧ (init r).mat.width = w)
    (hfit : 2 ≤ A.nprocs → ∀ k, k < A.nprocs → A.sizeof_DataType * h
      * (slice_end w A.nprocs k - slice_begin w A.nprocs k) ≤ A.max_recv_count)
    (hld : A.no_local_trans = true ∨ A.id_recv = true →
      ∀ r, r < A.nprocs → (init r).mat.ldim = (init r).mat.height)
    (hpool : ∀ r, r < A.nprocs → pool_wf (init r).comm.pool)
    (rank : Nat) (hr : rank < A.nprocs) :
    ∃ p, pe_ring_allreduce A init rank = outcome.returned p ∧
      p.mat.height = h ∧ p.mat.width = w ∧
      ∀ i j, i < h → j < w →
        p.mat.entry i j = (Finset.range A.nprocs).sum (fun r => (init r).mat.entry i j) := by
  unfold pe_ring_allreduce
  by_cases h1 : A.nprocs = 1
  · rw [if_pos h1]
    have hr0 : rank = 0 := by omega
    refine ⟨init rank, rfl, (hdim rank hr).1, (hdim rank hr).2, ?_⟩
    intro i j _ _
    rw [h1, hr0]; simp
  · rw [if_neg h1]
    have hn2 : 2 ≤ A.nprocs := by omega
    have hrs := pe_rs_loop_inv A hT init h w (hfit hn2) hn2 _
      (pe_rs_inv_init A init h w hdim hld hpool)
    have hag := pe_ag_phase_inv A hT init h w (hfit hn2) hn2 _ hrs
    obtain ⟨p, hp, hph, hpw, hpe⟩ := pe_ag_final A init h w hn2 _ hag rank hr
    simp only []
    rw [hp]
    exact ⟨p, rfl, hph, hpw, hpe⟩

theorem C4_pe_ring_sum_witness :
    (∃ p, pe_ring_allreduce scenario_pe_args scenario_pe_init 2 = outcome.returned p ∧
      p.mat.height = 1 ∧ p.mat.width = 3 ∧
      ∀ i j, i < 1 → j < 3 → p.mat.entry i j
        = (Finset.range scenario_pe_args.nprocs).sum
            (fun r => (scenario_pe_init r).mat.entry i j)) ∧
    (∀ r, r < 3 →
      final_row (pe_ring_allreduce scenario_pe_args scenario_pe_init r) 0 = [3, 3, 3]) :=
  ⟨C4_pe_ring_sum scenario_pe_args 1 3 scenario_pe_init rfl (by decide) (by decide)
    (fun _ => by decide) (fun h => by simp [scenario_pe_args] at h)
    (fun _ _ => pool_wf_empty []) 2 (by decide), by decide⟩

/-! ## The power-of-two precondition -/

theorem rd_threw_iff {α : Type} (A : call_args α) (init : Nat → proc α) (rank : Nat) :
    (∃ msg s, recursive_doubling_allreduce_pow2 A init rank = outcome.threw msg s)
      ↔ (A.nprocs ≠ 1 ∧ A.nprocs &&& (A.nprocs - 1) ≠ 0) := by
  unfold recursive_doubling_allreduce_pow2
  by_cases h1 : A.nprocs = 1
  · simp [h1]
  · by_cases h2 : A.nprocs &&& (A.nprocs - 1) = 0
    · simp only [h1, h2, if_false, ne_eq, not_true_eq_false, and_false, iff_false]
      rintro ⟨msg, s, h⟩
      split at h <;> exact outcome.noConfusion h
    · simp [h1, h2]

theorem rab_threw_iff {α : Type} (A : call_args α) (init : Nat → proc α) (rank : Nat) :
    (∃ msg s, rabenseifner_allreduce A init rank = outcome.threw msg s)
      ↔ (A.nprocs ≠ 1 ∧ A.nprocs &&& (A.nprocs - 1) ≠ 0) := by
  unfold rabenseifner_allreduce
  by_cases h1 : A.nprocs = 1
  · simp [h1]
  · by_cases h2 : A.nprocs &&& (A.nprocs - 1) = 0
    · simp only [h1, h2, if_false, ne_eq, not_true_eq_false, and_false, iff_false]
      rintro ⟨msg, s, h⟩
      split at h <;> exact outcome.noConfusion h
    · simp [h1, h2]

theorem not_pow2_iff (n : Nat) (hn : 1 ≤ n) :
    (n ≠ 1 ∧ n &&& (n - 1) ≠ 0) ↔ ¬ ∃ k, n = 2 ^ k := by
  rw [← and_pred_eq_zero_iff n hn]
  constructor
  · exact fun h => h.2
  · intro h
    refine ⟨?_, h⟩
    intro h1
    rw [h1] at h
    exact h rfl

/-- C6: for `nprocs ≥ 1`, `recursive_doubling_allreduce_pow2` and `rabenseifner_allreduce`
each throw if and only if `nprocs` is not a power of two, with `nprocs = 1` returning at once
as a no-op; the exception thrown is the power-of-2 one, and the process is then exactly as
it was at the call: no buffer requested, no exchange made (the log is unchanged), the
matrix, the pool and the byte counters untouched. -/
theorem C6_power_of_two_check {α : Type} (A : call_args α) (init : Nat → proc α)
    (rank : Nat) (hn : 1 ≤ A.nprocs) :
    ((∃ msg s, recursive_doubling_allreduce_pow2 A init rank = outcome.threw msg s)
      ↔ ¬ ∃ k, A.nprocs = 2 ^ k) ∧
    ((∃ msg s, rabenseifner_allreduce A init rank = outcome.threw msg s)
      ↔ ¬ ∃ k, A.nprocs = 2 ^ k) ∧
    (A.nprocs = 1 →
      recursive_doubling_allreduce_pow2 A init rank = outcome.returned (init rank) ∧
      rabenseifner_allreduce A init rank = outcome.returned (init rank)) ∧
    (∀ msg s, recursive_doubling_allreduce_pow2 A init rank = outcome.threw msg s →
      msg = "lbann_comm: recursive doubling allreduce requires a power-of-2 number of participating processes"
      ∧ s = init rank ∧ s.log = (init rank).log ∧ s.mat = (init rank).mat
      ∧ s.comm = (init rank).comm) ∧
    (∀ msg s, rabenseifner_allreduce A init rank = outcome.threw msg s →
      msg = "lbann_comm: Rabenseifner allreduce requires a power-of-2 number of participating processes"
      ∧ s = init rank ∧ s.log = (init rank).log ∧ s.mat = (init rank).mat
      ∧ s.comm = (init rank).comm) := by
  refine ⟨(rd_threw_iff A init rank).trans (not_pow2_iff A.nprocs hn),
    (rab_threw_iff A init rank).trans (not_pow2_iff A.nprocs hn), ?_, ?_, ?_⟩
  · intro h1
    simp [recursive_doubling_allreduce_pow2, rabenseifner_allreduce, h1]
  · intro msg s h
    unfold recursive_doubling_allreduce_pow2 at h
    split at h
    · exact outcome.noConfusion h
    · split at h
      · injection h with hm hs
        subst hs
        exact ⟨hm.symm, rfl, rfl, rfl, rfl⟩
      · split at h <;> exact outcome.noConfusion h
  · intro msg s h
    unfold rabenseifner_allreduce at h
    split at h
    · exact outcome.noConfusion h
    · split at h
      · injection h with hm hs
        subst hs
        exact ⟨hm.symm, rfl, rfl, rfl, rfl⟩
      · simp only [] at h
        split at h <;> exact outcome.noConfusion h

theorem C6_power_of_two_check_witness :
    ((∃ msg s, recursive_doubling_allreduce_pow2 scenario_pe_args scenario_pe_init 0
        = outcome.threw msg s)
      ↔ ¬ ∃ k, scenario_pe_args.nprocs = 2 ^ k) ∧
    (∃ s, rabenseifner_allreduce scenario_pe_args scenario_pe_init 0
      = outcome.threw
        "lbann_comm: Rabenseifner allreduce requires a power-of-2 number of participating processes"
        s) :=
  ⟨(C6_power_of_two_check scenario_pe_args scenario_pe_init 0
    (by decide)).1, ⟨scenario_pe_init 0, rfl⟩⟩

/-! ## Constructor invariants, hash key and cropper: the properties -/

/-- For a non-negative `procs_per_model` argument the values the constructor derives satisfy
the topology invariants. -/
theorem ctor_invariants_of_nonneg (world_size world_rank ppm : Int) (t : topology)
    (hw : 1 ≤ world_size) (hr0 : 0 ≤ world_rank) (hr : world_rank < world_size)
    (hp : 0 ≤ ppm)
    (hok : (lbann_comm_ctor world_size world_rank ppm).result = Except.ok t) :
    t.procs_per_model = effective_procs_per_model world_size ppm ∧
    t.num_models * t.procs_per_model = world_size ∧ 1 ≤ t.num_models ∧
    0 ≤ t.model_rank ∧ t.model_rank < t.num_models ∧
    0 ≤ t.rank_in_model ∧ t.rank_in_model < t.procs_per_model ∧
    world_rank = t.model_rank * t.procs_per_model + t.rank_in_model := by
  have hpos : 0 < effective_procs_per_model world_size ppm := by
    unfold effective_procs_per_model
    split <;> omega
  unfold lbann_comm_ctor at hok
  simp only at hok
  split at hok
  · exact Except.noConfusion hok
  · rename_i hle
    split at hok
    · exact Except.noConfusion hok
    · rename_i hdiv
      have hdiv2 : world_size.tmod (effective_procs_per_model world_size ppm) = 0 := by
        simpa using hdiv
      injection hok with hok
      subst hok
      simp only
      generalize effective_procs_per_model world_size ppm = q at *
      have hq : q ≤ world_size := by omega
      have e1 : world_size.tdiv q = world_size / q := Int.tdiv_eq_ediv (by omega) (by omega)
      have e2 : world_rank.tdiv q = world_rank / q := Int.tdiv_eq_ediv hr0 (by omega)
      have e3 : world_rank.tmod q = world_rank % q := Int.tmod_eq_emod hr0 (by omega)
      have e4 : world_size.tmod q = world_size % q := Int.tmod_eq_emod (by omega) (by omega)
      rw [e4] at hdiv2
      rw [e1, e2, e3]
      have h1 : world_size / q * q = world_size := Int.ediv_mul_cancel_of_emod_eq_zero hdiv2
      have h2 := Int.emod_add_ediv world_rank q
      have h3 := Int.emod_nonneg world_rank (by omega : q ≠ 0)
      have h4 := Int.emod_lt_of_pos world_rank hpos
      have h5 : 0 ≤ world_rank / q := Int.ediv_nonneg hr0 (by omega)
      have h6 : world_rank / q < world_size / q := by
        apply Int.ediv_lt_of_lt_mul hpos
        rw [h1]; exact hr
      refine ⟨trivial, h1, by omega, h5, h6, h3, h4, ?_⟩
      rw [Int.mul_comm]; omega

/-- C11: the constructor accepts a negative `procs_per_model` that divides the world size
(for instance `-1` in a world of 4 processes) without raising, and then derives
`num_models = -4` and `model_rank = -1` on world rank 1, so that neither `num_models ≥ 1` nor
`0 ≤ model_rank` holds although the constructor did not raise. -/
theorem C11_ctor_negative_group_size :
    (lbann_comm_ctor 4 1 (-1)).result
      = Except.ok { procs_per_model := -1, num_models := -4, model_rank := -1,
                    rank_in_model := 0 } ∧
    (lbann_comm_ctor 4 1 (-1)).splits = [{ color := -1, key := 0 }, { color := 0, key := -1 }] ∧
    ¬ (1 : Int) ≤ -4 ∧ ¬ (0 : Int) ≤ -1 := by
  refine ⟨rfl, rfl, by decide, by decide⟩

theorem to_int32_range (h : Nat) : -(2 ^ 31) ≤ to_int32 h ∧ to_int32 h < 2 ^ 31 := by
  unfold to_int32
  have := Nat.mod_lt h (show 0 < 2 ^ 32 by decide)
  split <;> omega

/-- Away from the single value `-2 ^ 31` the normalised key is non-negative. -/
theorem normalise_hash_nonneg (x : Int) (h1 : -(2 ^ 31) < x) (h2 : x < 2 ^ 31) :
    0 ≤ normalise_hash x := by
  unfold normalise_hash int32_neg
  split
  · omega
  · have e : (-x) % 2 ^ 32 = -x := Int.emod_eq_of_lt (by omega) (by omega)
    rw [e]
    split <;> omega

/-- C14: when the low 32 bits of the hash value are `0x80000000` the `int` is `-2 ^ 31`, its
negation wraps round to `-2 ^ 31` again, and the colour passed to the split is negative. -/
theorem C14_hash_key_negative :
    to_int32 (2 ^ 31) = -(2 ^ 31) ∧ hash_key (2 ^ 31) = -(2 ^ 31) ∧ hash_key (2 ^ 31) < 0 := by
  refine ⟨by decide, by decide, by decide⟩

theorem to_unsigned_of_pos (x : Int) (h0 : 0 < x) (h1 : x < 2 ^ 31) :
    ((to_unsigned x : Nat) : Int) = x := by
  unfold to_unsigned
  rw [Int.emod_eq_of_lt (by omega) (by omega)]
  exact Int.toNat_of_nonneg (by omega)

/-- C19: `cv_cropper::set` throws if and only if the ROI is positive in both components but
smaller than the patch in width or height, or the ROI is neither `(0,0)` nor positive in
both components; when it returns, the ROI is set with size `(a, b)` exactly when both are
positive, and is otherwise unset with size `(0,0)`. -/
theorem C19_cropper_set (c : cv_cropper) (width height : Nat) (random_crop : Bool)
    (a b : Int) (ha : -(2 ^ 31) ≤ a ∧ a < 2 ^ 31) (hb : -(2 ^ 31) ≤ b ∧ b < 2 ^ 31) :
    ((∃ msg s, c.set width height random_crop (a, b) = outcome.threw msg s)
      ↔ ((a > 0 ∧ b > 0 ∧ (a < width ∨ b < height))
          ∨ (¬ (a = 0 ∧ b = 0) ∧ ¬ (a > 0 ∧ b > 0)))) ∧
    (∀ s, c.set width height random_crop (a, b) = outcome.returned s →
      (s.m_is_roi_set = true ↔ (a > 0 ∧ b > 0)) ∧
      (a > 0 ∧ b > 0 → s.m_roi_size = (a, b)) ∧
      (¬ (a > 0 ∧ b > 0) → s.m_is_roi_set = false ∧ s.m_roi_size = (0, 0)) ∧
      s.m_width = width ∧ s.m_height = height ∧ s.m_rand_crop = random_crop) := by
  unfold cv_cropper.set
  simp only
  by_cases hpos : a > 0 ∧ b > 0
  · have ea := to_unsigned_of_pos a hpos.1 ha.2
    have eb := to_unsigned_of_pos b hpos.2 hb.2
    have hlt : (to_unsigned a < width ∨ to_unsigned b < height)
        ↔ (a < (width : Int) ∨ b < (height : Int)) := by
      have h1 : to_unsigned a < width ↔ a < (width : Int) := by omega
      have h2 : to_unsigned b < height ↔ b < (height : Int) := by omega
      rw [h1, h2]
    rw [if_pos hpos]
    by_cases hsm : to_unsigned a < width ∨ to_unsigned b < height
    · rw [if_pos hsm]
      refine ⟨?_, ?_⟩
      · constructor
        · intro _
          exact Or.inl ⟨hpos.1, hpos.2, hlt.1 hsm⟩
        · intro _
          exact ⟨_, _, rfl⟩
      · intro s hs
        exact outcome.noConfusion hs
    · rw [if_neg hsm]
      refine ⟨?_, ?_⟩
      · constructor
        · rintro ⟨msg, s, h⟩
          exact outcome.noConfusion h
        · rintro (⟨_, _, h⟩ | ⟨_, h⟩)
          · exact absurd (hlt.2 h) hsm
          · exact absurd hpos h
      · intro s hs
        injection hs with hs
        subst hs
        simp [hpos]
  · rw [if_neg hpos]
    by_cases hz : a = 0 ∧ b = 0
    · rw [if_neg (by simpa using hz)]
      refine ⟨?_, ?_⟩
      · constructor
        · rintro ⟨msg, s, h⟩
          exact outcome.noConfusion h
        · rintro (⟨h1, h2, _⟩ | ⟨h, _⟩)
          · exact absurd ⟨h1, h2⟩ hpos
          · exact absurd hz h
      · intro s hs
        injection hs with hs
        subst hs
        simp [hpos, cv_cropper.unset_roi]
    · rw [if_pos (by simpa using hz)]
      refine ⟨?_, ?_⟩
      · constructor
        · intro _
          exact Or.inr ⟨hz, hpos⟩
        · intro _
          exact ⟨_, _, rfl⟩
      · intro s hs
        exact outcome.noConfusion hs

theorem C19_cropper_set_witness :
    ((∃ msg s,
        cv_cropper.set
          { m_width := 0, m_height := 0, m_rand_crop := false, m_is_roi_set := false,
            m_roi_size := (0, 0), m_zoom := 1,
            m_interpolation := interpolation.INTER_AREA, m_enabled := false }
          256 256 true (300, 200) = outcome.threw msg s)
      ↔ (((300 : Int) > 0 ∧ (200 : Int) > 0 ∧ ((300 : Int) < (256 : Nat) ∨ (200 : Int) < (256 : Nat)))
          ∨ (¬ ((300 : Int) = 0 ∧ (200 : Int) = 0) ∧ ¬ ((300 : Int) > 0 ∧ (200 : Int) > 0)))) :=
  (C19_cropper_set
    { m_width := 0, m_height := 0, m_rand_crop := false, m_is_roi_set := false,
      m_roi_size := (0, 0), m_zoom := 1,
      m_interpolation := interpolation.INTER_AREA, m_enabled := false }
    256 256 true 300 200 (by decide) (by decide)).1

/-! ## Exchange logs -/

theorem store_log {α : Type} (sz : Nat) (p p2 : proc α) (ptr : bufptr) (d : Mat α × Nat)
    (h : store sz p ptr d = some p2) :
    p2.log = p.log ∧ p2.comm = p.comm ∧ p2.recv_buf = p.recv_buf ∧
      p2.recv_buf2 = p.recv_buf2 ∧ p2.max_recv_buf = p.max_recv_buf ∧
      p2.max_recv_count = p.max_recv_count ∧ p2.mat.height = p.mat.height ∧
      p2.mat.width = p.mat.width := by
  cases ptr with
  | null => exact Option.noConfusion h
  | scratch a =>
    simp only [store] at h
    split at h
    · exact Option.noConfusion h
    · split at h
      · injection h with h
        subst h
        exact ⟨rfl, rfl, rfl, rfl, rfl, rfl, rfl, rfl⟩
      · exact Option.noConfusion h
  | matview c =>
    simp only [store] at h
    split at h
    · injection h with h
      subst h
      exact ⟨rfl, rfl, rfl, rfl, rfl, rfl, (raw_write_dims _ _ _).1, (raw_write_dims _ _ _).2.1⟩
    · exact Option.noConfusion h

/-- What receiving a message leaves untouched. -/
theorem receive_log {α : Type} (sz : Nat) (p p2 : proc α) (ptr : bufptr) (n : Nat)
    (d : Mat α × Nat) (h : receive sz p ptr n d = some p2) :
    p2.log = p.log ∧ p2.comm = p.comm ∧ p2.recv_buf = p.recv_buf ∧
      p2.recv_buf2 = p.recv_buf2 ∧ p2.max_recv_buf = p.max_recv_buf ∧
      p2.max_recv_count = p.max_recv_count ∧ p2.mat.height = p.mat.height ∧
      p2.mat.width = p.mat.width := by
  unfold receive at h
  split at h
  · exact Option.noConfusion h
  · exact store_log sz p p2 ptr d h

theorem exchanges_acquire {α : Type} (size idx : Nat) (p : proc α) :
    exchanges (acquire size idx p).2 = exchanges p := by
  simp [exchanges, acquire, List.filter_append, event.is_sendrecv]

theorem num_exchanges_eq_length {α : Type} (p : proc α) :
    num_exchanges p = (exchanges p).length := by
  unfold num_exchanges exchanges
  exact List.countP_eq_length_filter _ _

/-- What a rank that got past an exchange started from. -/
theorem sendrecv_all_some {σ α : Type} (nprocs : Nat) (dst_of src_of : Nat → Nat)
    (send : Nat → σ → Option (Mat α × Nat)) (body : Nat → Mat α × Nat → σ → Option σ)
    (sts : Nat → Option σ) (r : Nat) (p1 : σ)
    (h : sendrecv_all nprocs dst_of src_of send body sts r = some p1) :
    ∃ p data, sts r = some p ∧ body r data p = some p1 := by
  unfold sendrecv_all at h
  split at h
  · rename_i p q d hp hq hd
    split at h
    · split at h
      · rename_i data hdata
        exact ⟨p, data, hp, h⟩
      · exact Option.noConfusion h
    · exact Option.noConfusion h
  · exact Option.noConfusion h

/-- A reduce-scatter step of `pe_ring_allreduce` adds exactly one exchange, with
`dst = (rank + step) % nprocs` and `src = (rank - step + nprocs) % nprocs`. -/
theorem pe_rs_iter_exchanges {α : Type} (A : call_args α) (rank step : Nat)
    (incoming : Mat α × Nat) (p p1 : proc α)
    (h : pe_rs_iter A rank step incoming p = some p1) :
    exchanges p1 = exchanges p ++ [event.sendrecv ((rank + step) % A.nprocs)
      (int_mod ((rank : Int) - (step : Int) + (A.nprocs : Int)) A.nprocs)] := by
  unfold pe_rs_iter at h
  simp only at h
  split at h
  · exact Option.noConfusion h
  · rename_i p2 hst
    split at h
    · exact Option.noConfusion h
    · injection h with h
      subst h
      have hl := (receive_log _ _ _ _ _ _ hst).1
      simp only [exchanges] at hl ⊢
      rw [hl]
      split
      · simp [acquire, List.filter_append, event.is_sendrecv]
      · simp [List.filter_append, event.is_sendrecv]

theorem pe_rs_loop_exchanges {α : Type} (A : call_args α) (init : Nat → proc α)
    (hn : 1 ≤ A.nprocs) :
    ∀ r p, pe_rs_loop A (fun r => some (pe_setup A (init r))) r = some p →
      exchanges p = exchanges (init r)
        ++ (List.range (A.nprocs - 1)).map (fun s =>
            event.sendrecv ((r + (s + 1)) % A.nprocs)
              (int_mod ((r : Int) - ((s + 1 : Nat) : Int) + (A.nprocs : Int)) A.nprocs)) := by
  unfold pe_rs_loop
  apply for_loop_induct
    (fun k (st : Nat → Option (proc α)) => ∀ r p, st r = some p →
      exchanges p = exchanges (init r)
        ++ (List.range (k - 1)).map (fun s =>
            event.sendrecv ((r + (s + 1)) % A.nprocs)
              (int_mod ((r : Int) - ((s + 1 : Nat) : Int) + (A.nprocs : Int)) A.nprocs)))
    1 A.nprocs
  · exact hn
  · intro r p hp
    injection hp with hp
    subst hp
    simp only [Nat.sub_self, List.range_zero, List.map_nil, List.append_nil]
    unfold pe_setup
    exact exchanges_acquire A.max_recv_count 0 (init r)
  · intro k st hk1 hk2 hP r p1 h1
    obtain ⟨p, data, hp, hb⟩ := sendrecv_all_some _ _ _ _ _ _ _ _ h1
    rw [pe_rs_iter_exchanges A r k data p p1 hb, hP r p hp]
    obtain ⟨s, rfl⟩ : ∃ s, k = s + 1 := ⟨k - 1, by omega⟩
    simp only [Nat.add_sub_cancel, List.range_succ, List.map_append, List.map_cons,
      List.map_nil, List.append_assoc]

/-- C15: with the identity-copy and summing callbacks, for `n ≥ 2` ranks holding matrices of
one shape `h × w` in well-formed buffer pools, when `max_recv_count` is at least the
`sizeof(DataType) * h * (slice width)` bytes of every column slice and the matrices are
stored without padding in case a raw-buffer path is on, after the `n - 1` exchanges of the
pairwise-exchange reduce-scatter of `pe_ring_allreduce` rank `r` holds in its column slice
`r` the element-wise sum over all ranks of that slice, and every column outside slice `r`
is as it was before the call. -/
theorem C15_pe_reduce_scatter {α : Type} [AddCommMonoid α] (A : call_args α) (h w : Nat)
    (init : Nat → proc α) (hT : A.T = id_sum_transforms α A.sizeof_DataType)
    (hn : 2 ≤ A.nprocs)
    (hdim : ∀ r, r < A.nprocs → (init r).mat.height = h ∧ (init r).mat.width = w)
    (hfit : ∀ k, k < A.nprocs → A.sizeof_DataType * h
      * (slice_end w A.nprocs k - slice_begin w A.nprocs k) ≤ A.max_recv_count)
    (hld : A.no_local_trans = true ∨ A.id_recv = true →
      ∀ r, r < A.nprocs → (init r).mat.ldim = (init r).mat.height)
    (hpool : ∀ r, r < A.nprocs → pool_wf (init r).comm.pool)
    (rank : Nat) (hr : rank < A.nprocs) :
    ∃ p, pe_rs_loop A (fun r => some (pe_setup A (init r))) rank = some p ∧
      p.mat.height = h ∧ p.mat.width = w ∧
      num_exchanges p = num_exchanges (init rank) + (A.nprocs - 1) ∧
      (∀ i j, i < h → j < w → in_slice w A.nprocs rank j →
        p.mat.entry i j = (Finset.range A.nprocs).sum (fun q => (init q).mat.entry i j)) ∧
      (∀ i j, i < h → j < w → ¬ in_slice w A.nprocs rank j →
        p.mat.entry i j = (init rank).mat.entry i j) := by
  have hrs := pe_rs_loop_inv A hT init h w hfit hn _
    (pe_rs_inv_init A init h w hdim hld hpool)
  obtain ⟨p, a, hp, hph, hpw, _, _, _, _, _, hpe⟩ := pe_rs_final A init h w hn _ hrs rank hr
  have hx := pe_rs_loop_exchanges A init (by omega) rank p hp
  refine ⟨p, hp, hph, hpw, ?_, ?_, ?_⟩
  · rw [num_exchanges_eq_length, num_exchanges_eq_length, hx]
    simp
  · intro i j hi hj hin
    rw [hpe i j hi hj, if_pos hin]
  · intro i j hi hj hin
    rw [hpe i j hi hj, if_neg hin]

theorem C15_pe_reduce_scatter_witness :
    ∃ p, pe_rs_loop scenario_pe_args (fun r => some (pe_setup scenario_pe_args
        (scenario_pe_init r))) 1 = some p ∧
      p.mat.height = 1 ∧ p.mat.width = 3 ∧
      num_exchanges p = num_exchanges (scenario_pe_init 1) + (scenario_pe_args.nprocs - 1) ∧
      (∀ i j, i < 1 → j < 3 → in_slice 3 scenario_pe_args.nprocs 1 j →
        p.mat.entry i j
          = (Finset.range scenario_pe_args.nprocs).sum
              (fun q => (scenario_pe_init q).mat.entry i j)) ∧
      (∀ i j, i < 1 → j < 3 → ¬ in_slice 3 scenario_pe_args.nprocs 1 j →
        p.mat.entry i j = (scenario_pe_init 1).mat.entry i j) :=
  C15_pe_reduce_scatter scenario_pe_args 1 3 scenario_pe_init rfl (by decide) (by decide)
    (by decide) (fun h => by simp [scenario_pe_args] at h)
    (fun _ _ => pool_wf_empty []) 1 (by decide)

/-- One iteration of the recursive-doubling loop, whatever the callbacks, on a message no
longer than the receive count of the iteration: the rank gets past it, keeps its scratch
buffer and the shape of its matrix, and has made one more exchange, with `rank XOR mask`. -/
theorem rd_iter_exchanges {α : Type} (A : call_args α) (rank mask h w : Nat)
    (incoming : Mat α × Nat) (p : proc α) (hp : rd_buffers A h w p)
    (hin : incoming.2 ≤
      if (A.no_local_trans && A.is_rank_node_local rank (rank ^^^ mask)) = true
      then A.sizeof_DataType * h * w else A.max_recv_count) :
    ∃ p1, rd_iter A rank mask incoming p = some p1 ∧ rd_buffers A h w p1 ∧
      exchanges p1 = exchanges p ++ [event.sendrecv (rank ^^^ mask) (rank ^^^ mask)] := by
  obtain ⟨hph, hpw, ⟨a, hbuf, hslot⟩, hcnt, hwf⟩ := hp
  unfold rd_iter
  by_cases hl : (A.no_local_trans && A.is_rank_node_local rank (rank ^^^ mask)) = true
  · rw [if_pos hl] at hin
    have hs : (rd_send A rank mask p).2 = A.sizeof_DataType * h * w := by
      unfold rd_send
      rw [if_pos hl, hph, hpw]
    obtain ⟨b, hb, hcap, hwf2, _⟩ := acquire_zero_spec (rd_send A rank mask p).2 p hwf
    simp only [hl, if_true, hb]
    rw [receive_scratch_any (rd_send A rank mask p).2 _ _ _ _ _]
    · simp only [load]
      refine ⟨_, rfl, ⟨hph, hpw, ⟨a, ?_, ?_⟩, hcnt, hwf2⟩, ?_⟩
      · simp [acquire, hbuf]
      · exact gcb_slot_mono _ _ _ _ _ _ hslot
      · simp [acquire, exchanges, List.filter_append, event.is_sendrecv]
    · exact hcap
    · rw [hs]; exact hin
    · rw [hs]; exact hin
  · rw [if_neg hl] at hin
    have hl2 : (A.no_local_trans && A.is_rank_node_local rank (rank ^^^ mask)) = false := by
      simpa using hl
    simp only [hl2, Bool.false_eq_true, if_false, hbuf]
    rw [receive_scratch_any A.max_recv_count _ _ _ _ _]
    · simp only [load]
      refine ⟨_, rfl, ⟨hph, hpw, ⟨a, rfl, hslot⟩, hcnt, hwf⟩, ?_⟩
      simp [exchanges, List.filter_append, event.is_sendrecv]
    · exact slot_capacity _ hwf _ _ _ hslot
    · rw [hcnt]; exact hin
    · exact hin

/-- The length of what a rank sends in an iteration of the recursive-doubling loop, when
the send callback never reports more than `max_recv_count` bytes for a matrix of the shape
`h × w`: the raw matrix to a node-local partner, at most `max_recv_count` bytes
otherwise. -/
theorem rd_send_fits {α : Type} (A : call_args α) (rank mask h w : Nat) (p : proc α)
    (hph : p.mat.height = h) (hpw : p.mat.width = w)
    (hfit : ∀ m : Mat α, m.height = h → m.width = w →
      (A.T.send_transform m IR.ALL IR.ALL false).2 ≤ A.max_recv_count) :
    (rd_send A rank mask p).2 ≤
      if (A.no_local_trans && A.is_rank_node_local rank (rank ^^^ mask)) = true
      then A.sizeof_DataType * h * w else A.max_recv_count := by
  unfold rd_send
  by_cases hl : (A.no_local_trans && A.is_rank_node_local rank (rank ^^^ mask)) = true
  · rw [if_pos hl, if_pos hl, hph, hpw]
  · rw [if_neg hl, if_neg hl]
    exact hfit p.mat hph hpw

theorem rd_loop_exchanges {α : Type} (A : call_args α) (k h w : Nat) (init : Nat → proc α)
    (hn : A.nprocs = 2 ^ k) (hk : k ≤ 30)
    (hfit : ∀ m : Mat α, m.height = h → m.width = w →
      (A.T.send_transform m IR.ALL IR.ALL false).2 ≤ A.max_recv_count)
    (hsym : ∀ x y, A.is_rank_node_local x y = A.is_rank_node_local y x)
    (fuel t : Nat) (ht : t ≤ k) (hfuel : k ≤ t + fuel)
    (sts : Nat → Option (proc α))
    (hinv : ∀ r, r < 2 ^ k → ∃ p, sts r = some p ∧ rd_buffers A h w p ∧
      exchanges p = exchanges (init r)
        ++ (List.range t).map (fun u => event.sendrecv (r ^^^ 2 ^ u) (r ^^^ 2 ^ u))) :
    ∀ r, r < 2 ^ k → ∃ p, rd_loop A fuel (2 ^ t) sts r = some p ∧
      exchanges p = exchanges (init r)
        ++ (List.range k).map (fun u => event.sendrecv (r ^^^ 2 ^ u) (r ^^^ 2 ^ u)) := by
  induction fuel generalizing t sts with
  | zero =>
    have htk : t = k := by omega
    subst htk
    intro r hr
    obtain ⟨p, hp, _, hpx⟩ := hinv r hr
    exact ⟨p, by simp [rd_loop, hn, hp], hpx⟩
  | succ fuel ih =>
    by_cases htk : t = k
    · subst htk
      intro r hr
      obtain ⟨p, hp, _, hpx⟩ := hinv r hr
      exact ⟨p, by simp [rd_loop, hn, hp], hpx⟩
    · have ht1 : t < k := by omega
      have hlt : 2 ^ t < A.nprocs := by
        rw [hn]; exact Nat.pow_lt_pow_right (by decide) ht1
      have hmask : (2 ^ t <<< 1) % 2 ^ 32 = 2 ^ (t + 1) := by
        rw [Nat.shiftLeft_eq, Nat.pow_one, ← Nat.pow_succ]
        apply Nat.mod_eq_of_lt
        exact Nat.pow_lt_pow_right (by decide) (by omega)
      unfold rd_loop
      rw [if_pos hlt, hmask]
      apply ih (t + 1) ht1 (by omega)
      intro r hr
      have hpr : r ^^^ 2 ^ t < 2 ^ k := xor_two_pow_lt r t k hr ht1
      obtain ⟨p, hp, hps, hpx⟩ := hinv r hr
      obtain ⟨q, hq, hqs, _⟩ := hinv (r ^^^ 2 ^ t) hpr
      have hsend := rd_send_fits A (r ^^^ 2 ^ t) (2 ^ t) h w q hqs.1 hqs.2.1 hfit
      rw [xor_xor_cancel, hsym (r ^^^ 2 ^ t) r] at hsend
      obtain ⟨p1, h1, h1s, h1x⟩ :=
        rd_iter_exchanges A r (2 ^ t) h w (rd_send A (r ^^^ 2 ^ t) (2 ^ t) q) p hps hsend
      refine ⟨p1, ?_, h1s, ?_⟩
      · unfold sendrecv_all
        simp only [hp, hq, hn, hpr, xor_xor_cancel, and_self, if_true]
        exact h1
      · rw [h1x, hpx]
        simp only [List.range_succ, List.map_append, List.map_cons, List.map_nil,
          List.append_assoc]

/-- An iteration of the recursive-doubling loop that comes back has added exactly one
exchange, with `rank XOR mask`, whatever the callbacks and the sizes. -/
theorem rd_iter_log {α : Type} (A : call_args α) (rank mask : Nat)
    (incoming : Mat α × Nat) (p p1 : proc α)
    (h : rd_iter A rank mask incoming p = some p1) :
    exchanges p1 = exchanges p ++ [event.sendrecv (rank ^^^ mask) (rank ^^^ mask)] := by
  unfold rd_iter at h
  simp only at h
  split at h
  · exact Option.noConfusion h
  · rename_i p2 hst
    split at h
    · exact Option.noConfusion h
    · injection h with h
      subst h
      have hl := (receive_log _ _ _ _ _ _ hst).1
      simp only [exchanges] at hl ⊢
      rw [hl]
      split
      · simp [acquire, List.filter_append, event.is_sendrecv]
      · simp [List.filter_append, event.is_sendrecv]

/-- The masks the loop `while (mask < nprocs) { ...; mask <<= 1; }` goes through for
`nprocs = 2 ^ k`: the loop is the `k` lockstep exchanges with the masks
`2 ^ t, ..., 2 ^ (k - 1)`, in this order, whatever the states of the ranks. -/
theorem rd_loop_schedule {α : Type} (A : call_args α) (k : Nat) (hn : A.nprocs = 2 ^ k)
    (hk : k ≤ 30) (fuel t : Nat) (ht : t ≤ k) (hfuel : k ≤ t + fuel)
    (sts : Nat → Option (proc α)) :
    rd_loop A fuel (2 ^ t) sts
      = ((List.range' t (k - t)).map (fun u => 2 ^ u)).foldl
          (fun st mask =>
            sendrecv_all A.nprocs (fun r => r ^^^ mask) (fun r => r ^^^ mask)
              (fun r q => some (rd_send A r mask q)) (fun r => rd_iter A r mask) st)
          sts := by
  induction fuel generalizing t sts with
  | zero =>
    have htk : t = k := by omega
    subst htk
    simp [rd_loop, hn]
  | succ fuel ih =>
    by_cases htk : t = k
    · subst htk
      simp [rd_loop, hn]
    · have ht1 : t < k := by omega
      have hlt : 2 ^ t < A.nprocs := by
        rw [hn]; exact Nat.pow_lt_pow_right (by decide) ht1
      have hmask : (2 ^ t <<< 1) % 2 ^ 32 = 2 ^ (t + 1) := by
        rw [Nat.shiftLeft_eq, Nat.pow_one, ← Nat.pow_succ]
        apply Nat.mod_eq_of_lt
        exact Nat.pow_lt_pow_right (by decide) (by omega)
      have hkt : k - t = (k - (t + 1)) + 1 := by omega
      unfold rd_loop
      rw [if_pos hlt, hmask, ih (t + 1) ht1 (by omega), hkt]
      rfl

theorem rd_loop_log {α : Type} (A : call_args α) (k : Nat) (init : Nat → proc α)
    (hn : A.nprocs = 2 ^ k) (hk : k ≤ 30) (fuel t : Nat) (ht : t ≤ k) (hfuel : k ≤ t + fuel)
    (sts : Nat → Option (proc α))
    (hinv : ∀ r p, sts r = some p → exchanges p = exchanges (init r)
        ++ (List.range t).map (fun u => event.sendrecv (r ^^^ 2 ^ u) (r ^^^ 2 ^ u))) :
    ∀ r p, rd_loop A fuel (2 ^ t) sts r = some p → exchanges p = exchanges (init r)
        ++ (List.range k).map (fun u => event.sendrecv (r ^^^ 2 ^ u) (r ^^^ 2 ^ u)) := by
  induction fuel generalizing t sts with
  | zero =>
    have htk : t = k := by omega
    subst htk
    intro r p hp
    have : rd_loop A 0 (2 ^ t) sts = sts := by simp [rd_loop, hn]
    rw [this] at hp
    exact hinv r p hp
  | succ fuel ih =>
    by_cases htk : t = k
    · subst htk
      intro r p hp
      have : rd_loop A (fuel + 1) (2 ^ t) sts = sts := by simp [rd_loop, hn]
      rw [this] at hp
      exact hinv r p hp
    · have ht1 : t < k := by omega
      have hlt : 2 ^ t < A.nprocs := by
        rw [hn]; exact Nat.pow_lt_pow_right (by decide) ht1
      have hmask : (2 ^ t <<< 1) % 2 ^ 32 = 2 ^ (t + 1) := by
        rw [Nat.shiftLeft_eq, Nat.pow_one, ← Nat.pow_succ]
        apply Nat.mod_eq_of_lt
        exact Nat.pow_lt_pow_right (by decide) (by omega)
      unfold rd_loop
      rw [if_pos hlt, hmask]
      apply ih (t + 1) ht1 (by omega)
      intro r p1 h1
      obtain ⟨p, data, hp, hb⟩ := sendrecv_all_some _ _ _ _ _ _ _ _ h1
      rw [rd_iter_log A r (2 ^ t) data p p1 hb, hinv r p hp]
      simp only [List.range_succ, List.map_append, List.map_cons, List.map_nil,
        List.append_assoc]

/-- C20: for `n = 2 ^ k` ranks with `1 ≤ k` (and `k ≤ 30`, `n` being an `int`), whatever the
callbacks, the matrices and `max_recv_count`: `log2(n) = k`; the exchange loop of
`recursive_doubling_allreduce_pow2` is, from any states of the ranks, exactly the `k`
lockstep `mpi::SendRecv` steps with the masks `2 ^ 0, ..., 2 ^ (k - 1)` in this order, rank
`r` exchanging with `r XOR 2 ^ t` in iteration `t`; every rank `r < n` that returns has made
exactly these `k` exchanges; every rank does return when the matrices have one shape
`h × w`, the send callback never reports more than `max_recv_count` bytes for a matrix of
that shape, the node-locality test is symmetric and the pools are well formed; and the
partner `r XOR 2 ^ t` lies in `[0, n)`, differs from `r`, and has `r` as its own partner at
that iteration. -/
theorem C20_recursive_doubling_partners {α : Type} (A : call_args α) (k : Nat)
    (init : Nat → proc α) (hn : A.nprocs = 2 ^ k) (hk1 : 1 ≤ k) (hk : k ≤ 30)
    (rank : Nat) (hr : rank < A.nprocs) :
    Nat.log2 A.nprocs = k ∧
    (∀ sts : Nat → Option (proc α), rd_loop A 32 1 sts
      = ((List.range k).map (fun t => 2 ^ t)).foldl
          (fun st mask =>
            sendrecv_all A.nprocs (fun r => r ^^^ mask) (fun r => r ^^^ mask)
              (fun r q => some (rd_send A r mask q)) (fun r => rd_iter A r mask) st)
          sts) ∧
    (∀ p, recursive_doubling_allreduce_pow2 A init rank = outcome.returned p →
      exchanges p = exchanges (init rank)
        ++ (List.range k).map
            (fun t => event.sendrecv (rank ^^^ 2 ^ t) (rank ^^^ 2 ^ t))) ∧
    (∀ h w : Nat,
      (∀ r, r < A.nprocs → (init r).mat.height = h ∧ (init r).mat.width = w) →
      (∀ m : Mat α, m.height = h → m.width = w →
        (A.T.send_transform m IR.ALL IR.ALL false).2 ≤ A.max_recv_count) →
      (∀ x y, A.is_rank_node_local x y = A.is_rank_node_local y x) →
      (∀ r, r < A.nprocs → pool_wf (init r).comm.pool) →
      ∃ p, recursive_doubling_allreduce_pow2 A init rank = outcome.returned p) ∧
    (∀ t, t < k → rank ^^^ 2 ^ t < A.nprocs ∧ rank ^^^ 2 ^ t ≠ rank ∧
      (rank ^^^ 2 ^ t) ^^^ 2 ^ t = rank) := by
  have h1 : A.nprocs ≠ 1 := by
    rw [hn]
    have : 2 ^ 1 ≤ 2 ^ k := Nat.pow_le_pow_right (by decide) hk1
    omega
  have hz : A.nprocs &&& (A.nprocs - 1) = 0 :=
    (and_pred_eq_zero_iff A.nprocs (by omega)).2 ⟨k, hn⟩
  have h20 : (2 : Nat) ^ 0 = 1 := rfl
  refine ⟨by rw [hn]; exact Nat.log2_two_pow, ?_, ?_, ?_, ?_⟩
  · intro sts
    have h := rd_loop_schedule A k hn hk 32 0 (Nat.zero_le _) (by omega) sts
    rw [h20, Nat.sub_zero, ← List.range_eq_range'] at h
    exact h
  · intro p hp
    unfold recursive_doubling_allreduce_pow2 at hp
    rw [if_neg h1, if_neg (by simpa using hz)] at hp
    have hinv : ∀ r p, (fun r => some (rd_setup A (init r)) : Nat → Option (proc α)) r
        = some p → exchanges p = exchanges (init r)
          ++ (List.range 0).map (fun u => event.sendrecv (r ^^^ 2 ^ u) (r ^^^ 2 ^ u)) := by
      intro r p hp
      injection hp with hp
      subst hp
      simp only [List.range_zero, List.map_nil, List.append_nil]
      exact exchanges_acquire A.max_recv_count 0 (init r)
    have hlog := rd_loop_log A k init hn hk 32 0 (Nat.zero_le _) (by omega) _ hinv rank
    rw [h20] at hlog
    split at hp
    · rename_i q hq
      injection hp with hp
      subst hp
      exact hlog q hq
    · exact outcome.noConfusion hp
  · intro h w hdim hfit hsym hwf
    unfold recursive_doubling_allreduce_pow2
    rw [if_neg h1, if_neg (by simpa using hz)]
    have hinv : ∀ r, r < 2 ^ k → ∃ p,
        (fun r => some (rd_setup A (init r)) : Nat → Option (proc α)) r = some p ∧
        rd_buffers A h w p ∧
        exchanges p = exchanges (init r)
          ++ (List.range 0).map (fun u => event.sendrecv (r ^^^ 2 ^ u) (r ^^^ 2 ^ u)) := by
      intro r hr2
      have hr3 : r < A.nprocs := by rw [hn]; exact hr2
      obtain ⟨b, hb, _, hwf2, hs⟩ := acquire_zero_spec A.max_recv_count (init r) (hwf r hr3)
      refine ⟨rd_setup A (init r), rfl,
        ⟨(hdim r hr3).1, (hdim r hr3).2, ⟨b, ?_, hs⟩, rfl, hwf2⟩, ?_⟩
      · simp [rd_setup, hb]
      · simp only [List.range_zero, List.map_nil, List.append_nil]
        exact exchanges_acquire A.max_recv_count 0 (init r)
    obtain ⟨p, hp, _⟩ :=
      rd_loop_exchanges A k h w init hn hk hfit hsym 32 0 (Nat.zero_le _) (by omega) _ hinv
        rank (by rw [← hn]; exact hr)
    rw [h20] at hp
    rw [hp]
    exact ⟨p, rfl⟩
  · intro t ht
    rw [hn] at hr ⊢
    exact ⟨xor_two_pow_lt rank t k hr ht, xor_two_pow_ne rank t, xor_xor_cancel rank (2 ^ t)⟩

theorem C20_recursive_doubling_partners_witness :
    (∃ p, recursive_doubling_allreduce_pow2 scenario_rd_args scenario_rd_init 3
        = outcome.returned p ∧
      exchanges p = exchanges (scenario_rd_init 3)
        ++ [event.sendrecv 2 2, event.sendrecv 1 1]) ∧
    (∀ t, t < 2 → 3 ^^^ 2 ^ t < scenario_rd_args.nprocs ∧ 3 ^^^ 2 ^ t ≠ 3 ∧
      (3 ^^^ 2 ^ t) ^^^ 2 ^ t = 3) :=
  have h := C20_recursive_doubling_partners scenario_rd_args 2 scenario_rd_init rfl
    (by decide) (by decide) 3 (by decide)
  ⟨(h.2.2.2.1 1 4 (by decide)
      (fun m h1 h2 => by
        simp [scenario_rd_args, id_sum_transforms, id_send_transform, view, IR.hi, IR.lo,
          h1, h2])
      (fun _ _ => rfl) (fun _ _ => pool_wf_empty [])).elim
      (fun p hp => ⟨p, hp, h.2.2.1 p hp⟩),
    h.2.2.2.2⟩

/-! ## Rabenseifner's allreduce on two nodes -/

/-- C17: in the two-node scenario (4 ranks, two per node, node-local shortcut on, `id_recv`
off) `rabenseifner_allreduce` returns on rank 1 with the row `[68, 72, 68, 72]`, whereas the
element-wise sum of the four rows is `[60, 64, 68, 72]`: the receive buffer still points at
the view of the node-local allgather step when the next, non-local step receives. -/
theorem C17_rabenseifner_two_nodes :
    final_row (rabenseifner_allreduce scenario_rab_args scenario_rab_init 1) 0
      = [68, 72, 68, 72] ∧
    (List.range 4).map
        (fun j => (Finset.range 4).sum (fun r => (scenario_rab_init r).mat.entry 0 j))
      = [60, 64, 68, 72] ∧
    (∀ r, r < 4 →
      final_row (rabenseifner_allreduce
        { scenario_rab_args with no_local_trans := false } scenario_rab_init r) 0
      = [60, 64, 68, 72]) := by
  refine ⟨by decide, by decide, by decide⟩

/-! ## Communicator splits: proofs -/

theorem split_comm_eq_filter (comm : List Nat) (color key : Nat → Int) (r : Nat)
    (h : List.Sorted (fun a b => key a ≤ key b)
      (comm.filter (fun x => decide (color x = color r)))) :
    split_comm comm color key r = comm.filter (fun x => decide (color x = color r)) :=
  List.Sorted.insertionSort_eq h

theorem mem_split_comm (comm : List Nat) (color key : Nat → Int) (r x : Nat) :
    x ∈ split_comm comm color key r ↔ x ∈ comm ∧ color x = color r := by
  unfold split_comm
  rw [List.mem_insertionSort]
  simp

theorem list_eq_of_sorted_lt (l1 l2 : List Nat) (h1 : List.Sorted (· < ·) l1)
    (h2 : List.Sorted (· < ·) l2) (hm : ∀ x, x ∈ l1 ↔ x ∈ l2) : l1 = l2 :=
  List.eq_of_perm_of_sorted ((List.perm_ext_iff_of_nodup h1.nodup h2.nodup).2 hm) h1 h2

theorem div_eq_iff_block (x ppm m : Nat) (hp : 1 ≤ ppm) :
    x / ppm = m ↔ m * ppm ≤ x ∧ x < m * ppm + ppm := by
  have h1 : m ≤ x / ppm ↔ m * ppm ≤ x := Nat.le_div_iff_mul_le (by omega)
  have h2 : x / ppm < m + 1 ↔ x < (m + 1) * ppm := Nat.div_lt_iff_lt_mul (by omega)
  have h3 : (m + 1) * ppm = m * ppm + ppm := by ring
  rw [h3] at h2
  constructor
  · intro h
    exact ⟨h1.1 (by omega), h2.1 (by omega)⟩
  · rintro ⟨ha, hb⟩
    have := h1.2 ha
    have := h2.2 hb
    omega

/-- For a valid group size the constructor on any world rank `x` does not raise, and its two
splits have colour and key `x / ppm`, `x % ppm` and `x % ppm`, `x / ppm`. -/
theorem ctor_of_valid (ws ppm x : Nat) (hp : 1 ≤ ppm) (hd : ppm ∣ ws) (hw : 1 ≤ ws) :
    lbann_comm_ctor (ws : Int) (x : Int) (ppm : Int)
      = { splits := [{ color := ((x / ppm : Nat) : Int), key := ((x % ppm : Nat) : Int) },
                     { color := ((x % ppm : Nat) : Int), key := ((x / ppm : Nat) : Int) }]
          result := Except.ok
            { procs_per_model := (ppm : Int)
              num_models := ((ws / ppm : Nat) : Int)
              model_rank := ((x / ppm : Nat) : Int)
              rank_in_model := ((x % ppm : Nat) : Int) } } := by
  have hle : ppm ≤ ws := Nat.le_of_dvd (by omega) hd
  have hmod : ws % ppm = 0 := Nat.mod_eq_zero_of_dvd hd
  have heff : effective_procs_per_model (ws : Int) (ppm : Int) = (ppm : Int) := by
    unfold effective_procs_per_model
    rw [if_neg (by omega)]
  unfold lbann_comm_ctor
  simp only [heff]
  rw [if_neg (by omega)]
  have h2 : (ws : Int).tmod (ppm : Int) = 0 := by
    rw [← Int.ofNat_tmod, hmod]; rfl
  rw [if_neg (by simp [h2])]
  simp only [← Int.ofNat_tdiv, ← Int.ofNat_tmod]

theorem model_comm_eq (ws ppm r : Nat) (hp : 1 ≤ ppm) (hd : ppm ∣ ws) (hr : r < ws) :
    model_comm ws ppm r = List.range' (r / ppm * ppm) ppm := by
  have hw : 1 ≤ ws := by omega
  have hc : ∀ x, ctor_split ws (ppm : Int) 0 x
      = { color := ((x / ppm : Nat) : Int), key := ((x % ppm : Nat) : Int) } := by
    intro x
    unfold ctor_split
    rw [ctor_of_valid ws ppm x hp hd hw]
    rfl
  unfold model_comm
  simp only [hc]
  have hfil : (List.range ws).filter
      (fun x => decide (((x / ppm : Nat) : Int) = ((r / ppm : Nat) : Int)))
      = List.range' (r / ppm * ppm) ppm := by
    apply list_eq_of_sorted_lt
    · exact (List.sorted_lt_range ws).filter _
    · exact List.pairwise_lt_range' _ _
    · intro x
      simp only [List.mem_filter, List.mem_range, decide_eq_true_eq, Int.natCast_inj,
        List.mem_range'_1]
      rw [div_eq_iff_block x ppm (r / ppm) hp]
      constructor
      · exact fun h => h.2
      · intro h
        refine ⟨?_, h⟩
        obtain ⟨c, rfl⟩ := hd
        have h1 : r / ppm < c := by
          apply (Nat.div_lt_iff_lt_mul (by omega)).2
          rw [Nat.mul_comm]; exact hr
        have h2 : (r / ppm + 1) * ppm ≤ c * ppm := Nat.mul_le_mul_right _ h1
        have h3 : (r / ppm + 1) * ppm = r / ppm * ppm + ppm := by ring
        rw [Nat.mul_comm ppm c]
        omega
  rw [split_comm_eq_filter, hfil]
  rw [hfil]
  apply List.Pairwise.imp_of_mem _ (List.pairwise_lt_range' (r / ppm * ppm) ppm)
  intro a b ha hb hab
  simp only [List.mem_range'_1] at ha hb
  have ea := (div_eq_iff_block a ppm (r / ppm) hp).2 ha
  have eb := (div_eq_iff_block b ppm (r / ppm) hp).2 hb
  have h1 := Nat.div_add_mod a ppm
  have h2 := Nat.div_add_mod b ppm
  rw [ea] at h1
  rw [eb] at h2
  have : a % ppm ≤ b % ppm := by omega
  exact Int.ofNat_le.2 this

theorem intermodel_comm_eq (ws ppm r : Nat) (hp : 1 ≤ ppm) (hd : ppm ∣ ws) (hr : r < ws) :
    intermodel_comm ws ppm r = (List.range (ws / ppm)).map (fun m => m * ppm + r % ppm) := by
  have hw : 1 ≤ ws := by omega
  have hc : ∀ x, ctor_split ws (ppm : Int) 1 x
      = { color := ((x % ppm : Nat) : Int), key := ((x / ppm : Nat) : Int) } := by
    intro x
    unfold ctor_split
    rw [ctor_of_valid ws ppm x hp hd hw]
    rfl
  have hj : r % ppm < ppm := Nat.mod_lt _ (by omega)
  unfold intermodel_comm
  simp only [hc]
  have hsorted : List.Sorted (· < ·)
      ((List.range (ws / ppm)).map (fun m => m * ppm + r % ppm)) := by
    unfold List.Sorted
    rw [List.pairwise_map]
    apply List.Pairwise.imp _ (List.pairwise_lt_range (ws / ppm))
    intro a b hab
    have : a * ppm < b * ppm := Nat.mul_lt_mul_of_pos_right hab (by omega)
    omega
  have hmem : ∀ x, x ∈ (List.range (ws / ppm)).map (fun m => m * ppm + r % ppm)
      ↔ x < ws ∧ x % ppm = r % ppm := by
    intro x
    simp only [List.mem_map, List.mem_range]
    constructor
    · rintro ⟨m, hm, rfl⟩
      constructor
      · obtain ⟨c, rfl⟩ := hd
        rw [Nat.mul_div_cancel_left _ (by omega : 0 < ppm)] at hm
        have h2 : (m + 1) * ppm ≤ c * ppm := Nat.mul_le_mul_right _ hm
        have h3 : (m + 1) * ppm = m * ppm + ppm := by ring
        rw [Nat.mul_comm ppm c]
        omega
      · rw [Nat.add_comm, Nat.add_mul_mod_self_right]
        exact Nat.mod_eq_of_lt hj
    · rintro ⟨hx, hxm⟩
      refine ⟨x / ppm, ?_, ?_⟩
      · apply (Nat.div_lt_iff_lt_mul (by omega)).2
        rw [Nat.div_mul_cancel hd]; exact hx
      · rw [← hxm, Nat.mul_comm]; exact Nat.div_add_mod x ppm
  have hfil : (List.range ws).filter
      (fun x => decide (((x % ppm : Nat) : Int) = ((r % ppm : Nat) : Int)))
      = (List.range (ws / ppm)).map (fun m => m * ppm + r % ppm) := by
    apply list_eq_of_sorted_lt
    · exact (List.sorted_lt_range ws).filter _
    · exact hsorted
    · intro x
      rw [hmem]
      simp only [List.mem_filter, List.mem_range, decide_eq_true_eq, Int.natCast_inj]
  rw [split_comm_eq_filter, hfil]
  rw [hfil]
  apply List.Pairwise.imp _ hsorted
  intro a b hab
  exact Int.ofNat_le.2 (Nat.div_le_div_right (Nat.le_of_lt hab))

/-! ## The model and inter-model groups -/

/-- C12: for a valid configuration (`1 ≤ procs_per_model`, `procs_per_model` divides
`world_size`) and a world rank `r`, the constructor does not raise and derives
`model_rank = r / procs_per_model`, `rank_in_model = r % procs_per_model`,
`num_models = world_size / procs_per_model`; with a split modelled as grouping by colour and
ordering by key, the model group of `r` is the contiguous block of `procs_per_model` world
ranks with the model rank of `r`, holding `r` at position `rank_in_model`; the inter-model
group of `r` consists of the ranks with the same `rank_in_model`, has `num_models` members,
exactly one of every model, and holds `r` at position `model_rank`. -/
theorem C12_model_and_intermodel_groups (ws ppm r : Nat) (hp : 1 ≤ ppm) (hd : ppm ∣ ws)
    (hr : r < ws) :
    (lbann_comm_ctor (ws : Int) (r : Int) (ppm : Int)).result
        = Except.ok { procs_per_model := (ppm : Int)
                      num_models := ((ws / ppm : Nat) : Int)
                      model_rank := ((r / ppm : Nat) : Int)
                      rank_in_model := ((r % ppm : Nat) : Int) }
      ∧ model_comm ws ppm r = List.range' (r / ppm * ppm) ppm
      ∧ (∀ x, x ∈ model_comm ws ppm r ↔ x < ws ∧ x / ppm = r / ppm)
      ∧ (model_comm ws ppm r)[r % ppm]? = some r
      ∧ intermodel_comm ws ppm r = (List.range (ws / ppm)).map (fun m => m * ppm + r % ppm)
      ∧ (∀ x, x ∈ intermodel_comm ws ppm r ↔ x < ws ∧ x % ppm = r % ppm)
      ∧ (intermodel_comm ws ppm r).length = ws / ppm
      ∧ (∀ m, m < ws / ppm → ∃! x, x ∈ intermodel_comm ws ppm r ∧ x / ppm = m)
      ∧ (intermodel_comm ws ppm r)[r / ppm]? = some r := by
  have hw : 1 ≤ ws := by omega
  have hj : r % ppm < ppm := Nat.mod_lt _ (by omega)
  have hm : r / ppm < ws / ppm := by
    apply (Nat.div_lt_iff_lt_mul (by omega)).2
    rw [Nat.div_mul_cancel hd]; exact hr
  have hdm : r / ppm * ppm + r % ppm = r := by
    rw [Nat.mul_comm]; exact Nat.div_add_mod r ppm
  have hmc := model_comm_eq ws ppm r hp hd hr
  have hic := intermodel_comm_eq ws ppm r hp hd hr
  have hmemi : ∀ x, x ∈ intermodel_comm ws ppm r ↔ x < ws ∧ x % ppm = r % ppm := by
    intro x
    unfold intermodel_comm
    rw [mem_split_comm]
    have hc : ∀ y, ctor_split ws (ppm : Int) 1 y
        = { color := ((y % ppm : Nat) : Int), key := ((y / ppm : Nat) : Int) } := by
      intro y
      unfold ctor_split
      rw [ctor_of_valid ws ppm y hp hd hw]
      rfl
    simp only [hc, List.mem_range, Int.natCast_inj]
  refine ⟨?_, hmc, ?_, ?_, hic, hmemi, ?_, ?_, ?_⟩
  · rw [ctor_of_valid ws ppm r hp hd hw]
  · intro x
    unfold model_comm
    rw [mem_split_comm]
    have hc : ∀ y, ctor_split ws (ppm : Int) 0 y
        = { color := ((y / ppm : Nat) : Int), key := ((y % ppm : Nat) : Int) } := by
      intro y
      unfold ctor_split
      rw [ctor_of_valid ws ppm y hp hd hw]
      rfl
    simp only [hc, List.mem_range, Int.natCast_inj]
  · rw [hmc, List.getElem?_range' _ _ hj, Nat.one_mul, hdm]
  · rw [hic, List.length_map, List.length_range]
  · intro m hmlt
    refine ⟨m * ppm + r % ppm, ⟨?_, ?_⟩, ?_⟩
    · rw [hic]
      exact List.mem_map.2 ⟨m, List.mem_range.2 hmlt, rfl⟩
    · rw [div_eq_iff_block _ ppm m hp]; omega
    · rintro y ⟨hy, hym⟩
      have h1 := (hmemi y).1 hy
      have h2 := Nat.div_add_mod y ppm
      rw [hym, h1.2, Nat.mul_comm] at h2
      exact h2.symm
  · rw [hic, List.getElem?_map, List.getElem?_range hm]
    simp only [Option.map_some']
    rw [hdm]

theorem C12_model_and_intermodel_groups_witness :
    (lbann_comm_ctor ((6 : Nat) : Int) ((3 : Nat) : Int) ((2 : Nat) : Int)).result
        = Except.ok { procs_per_model := ((2 : Nat) : Int)
                      num_models := ((6 / 2 : Nat) : Int)
                      model_rank := ((3 / 2 : Nat) : Int)
                      rank_in_model := ((3 % 2 : Nat) : Int) }
      ∧ model_comm 6 (2 : Nat) 3 = List.range' (3 / 2 * 2) 2
      ∧ (∀ x, x ∈ model_comm 6 (2 : Nat) 3 ↔ x < 6 ∧ x / 2 = 3 / 2)
      ∧ (model_comm 6 (2 : Nat) 3)[3 % 2]? = some 3
      ∧ intermodel_comm 6 (2 : Nat) 3 = (List.range (6 / 2)).map (fun m => m * 2 + 3 % 2)
      ∧ (∀ x, x ∈ intermodel_comm 6 (2 : Nat) 3 ↔ x < 6 ∧ x % 2 = 3 % 2)
      ∧ (intermodel_comm 6 (2 : Nat) 3).length = 6 / 2
      ∧ (∀ m, m < 6 / 2 → ∃! x, x ∈ intermodel_comm 6 (2 : Nat) 3 ∧ x / 2 = m)
      ∧ (intermodel_comm 6 (2 : Nat) 3)[3 / 2]? = some 3 :=
  C12_model_and_intermodel_groups 6 2 3 (by decide) (by decide) (by decide)

/-! ## The node-local group -/

theorem hash_comm_eq (ws : Nat) (names : Nat → String) (hash : String → Nat) (r : Nat) :
    hash_comm ws names hash r = (List.range ws).filter
      (fun x => decide (hash_key (hash (names x)) = hash_key (hash (names r)))) := by
  unfold hash_comm
  apply split_comm_eq_filter
  apply List.Pairwise.imp _ ((List.sorted_lt_range ws).filter _)
  intro a b hab
  exact Int.ofNat_le.2 (Nat.le_of_lt hab)

theorem hash_comm_congr (ws : Nat) (names : Nat → String) (hash : String → Nat) (a b : Nat)
    (h : hash_key (hash (names a)) = hash_key (hash (names b))) :
    hash_comm ws names hash a = hash_comm ws names hash b := by
  rw [hash_comm_eq, hash_comm_eq, h]

theorem mem_hash_comm (ws : Nat) (names : Nat → String) (hash : String → Nat) (r x : Nat) :
    x ∈ hash_comm ws names hash r
      ↔ x < ws ∧ hash_key (hash (names x)) = hash_key (hash (names r)) := by
  rw [hash_comm_eq]
  simp

theorem first_index_some (p : Nat → Bool) (l : List Nat) (i : Nat)
    (h : ∃ y, y ∈ l ∧ p y = true) :
    ∃ j, first_index p l i = some j ∧ i ≤ j ∧ (l.getD (j - i) 0) ∈ l
      ∧ p (l.getD (j - i) 0) = true := by
  induction l generalizing i with
  | nil => obtain ⟨y, hy, _⟩ := h; cases hy
  | cons x xs ih =>
    by_cases hx : p x = true
    · refine ⟨i, ?_, Nat.le_refl _, ?_, ?_⟩
      · simp [first_index, hx]
      · simp
      · simpa using hx
    · have h2 : ∃ y, y ∈ xs ∧ p y = true := by
        obtain ⟨y, hy, hpy⟩ := h
        rcases List.mem_cons.1 hy with rfl | hy2
        · exact absurd hpy hx
        · exact ⟨y, hy2, hpy⟩
      obtain ⟨j, hj, hle, hmem, hpj⟩ := ih (i + 1) h2
      have e : j - i = (j - (i + 1)) + 1 := by omega
      refine ⟨j, ?_, by omega, ?_, ?_⟩
      · simp [first_index, hx, hj]
      · rw [e, List.getD_cons_succ]; exact List.mem_cons_of_mem _ hmem
      · rw [e, List.getD_cons_succ]; exact hpj

/-- On a rank below the world size `node_num` is the position of a member of `hash_comm`
with the rank's own name. -/
theorem node_num_spec (ws : Nat) (names : Nat → String) (hash : String → Nat) (r : Nat)
    (hr : r < ws) :
    names ((hash_comm ws names hash r).getD (node_num ws names hash r) 0) = names r := by
  have hmem : r ∈ hash_comm ws names hash r := (mem_hash_comm ws names hash r r).2 ⟨hr, rfl⟩
  obtain ⟨j, hj, _, _, hp⟩ := first_index_some (fun x => decide (names r = names x))
    (hash_comm ws names hash r) 0 ⟨r, hmem, by simp⟩
  unfold node_num
  rw [hj]
  simp only [Nat.sub_zero, decide_eq_true_eq] at hp
  exact hp.symm

theorem node_num_congr (ws : Nat) (names : Nat → String) (hash : String → Nat) (a b : Nat)
    (hb : b < ws) (h : names a = names b) :
    node_num ws names hash a = node_num ws names hash b := by
  have hc : hash_comm ws names hash a = hash_comm ws names hash b :=
    hash_comm_congr ws names hash a b (by rw [h])
  have hmem : b ∈ hash_comm ws names hash b := (mem_hash_comm ws names hash b b).2 ⟨hb, rfl⟩
  obtain ⟨j, hj, _⟩ := first_index_some (fun x => decide (names b = names x))
    (hash_comm ws names hash b) 0 ⟨b, hmem, by simp⟩
  unfold node_num
  rw [hc, h, hj]

theorem mem_node_comm (ws : Nat) (names : Nat → String) (hash : String → Nat) (a b : Nat)
    (ha : a < ws) (hb : b < ws) :
    b ∈ node_comm ws names hash a ↔ names a = names b := by
  unfold node_comm
  rw [mem_split_comm, mem_hash_comm]
  simp only [Int.natCast_inj]
  constructor
  · rintro ⟨⟨_, hk⟩, hn⟩
    have hc := hash_comm_congr ws names hash b a hk
    have h1 := node_num_spec ws names hash a ha
    have h2 := node_num_spec ws names hash b hb
    rw [hc, hn] at h2
    rw [← h1, ← h2]
  · intro h
    exact ⟨⟨hb, by rw [h]⟩, (node_num_congr ws names hash a b hb h).symm⟩

theorem world_ranks_on_node_eq (ws : Nat) (names : Nat → String) (hash : String → Nat)
    (r : Nat) : world_ranks_on_node ws names hash r = node_comm ws names hash r := by
  unfold world_ranks_on_node
  apply List.ext_getElem
  · simp
  · intro i h1 h2
    simp only [List.getElem_map, List.getElem_range]
    rw [List.getD_eq_getElem?_getD, List.getElem?_eq_getElem h2]
    rfl

/-- C13: for every assignment `names` of node identifiers to world ranks and every hash
function, colliding or not, `setup_node_comm` puts world ranks `A` and `B` in the same
node-local group exactly when their identifiers are equal: `B` is a member of the
`node_comm` of `A`, and of the `world_ranks_on_node` list of `A`, iff `names A = names B`;
so `B` is in the list of `A` iff `A` is in the list of `B`. -/
theorem C13_node_local_group (ws : Nat) (names : Nat → String) (hash : String → Nat)
    (A B : Nat) (hA : A < ws) (hB : B < ws) :
    (B ∈ node_comm ws names hash A ↔ names A = names B)
      ∧ (B ∈ world_ranks_on_node ws names hash A ↔ names A = names B)
      ∧ (B ∈ world_ranks_on_node ws names hash A
          ↔ A ∈ world_ranks_on_node ws names hash B) := by
  have h1 := mem_node_comm ws names hash A B hA hB
  have h2 := mem_node_comm ws names hash B A hB hA
  rw [world_ranks_on_node_eq, world_ranks_on_node_eq]
  refine ⟨h1, h1, ?_⟩
  rw [h1, h2]
  exact eq_comm

theorem C13_node_local_group_witness :
    (2 ∈ node_comm 4 (fun x => if x % 2 = 0 then "node0" else "node1") (fun _ => 7) 0
        ↔ (fun x => if x % 2 = 0 then "node0" else "node1") 0
            = (fun x => if x % 2 = 0 then "node0" else "node1") 2)
      ∧ (2 ∈ world_ranks_on_node 4 (fun x => if x % 2 = 0 then "node0" else "node1")
            (fun _ => 7) 0
          ↔ (fun x => if x % 2 = 0 then "node0" else "node1") 0
            = (fun x => if x % 2 = 0 then "node0" else "node1") 2)
      ∧ (2 ∈ world_ranks_on_node 4 (fun x => if x % 2 = 0 then "node0" else "node1")
            (fun _ => 7) 0
          ↔ 0 ∈ world_ranks_on_node 4 (fun x => if x % 2 = 0 then "node0" else "node1")
            (fun _ => 7) 2) :=
  C13_node_local_group 4 (fun x => if x % 2 = 0 then "node0" else "node1") (fun _ => 7) 0 2
    (by decide) (by decide)

/-! ## Ring reduce-scatter: proofs -/

theorem ring_back_inj (n r t u : Nat) (hr : r < n) (ht : t < n) (hu : u < n)
    (h : ring_back n r t = ring_back n r u) : t = u := by
  have h1 := ring_back_invol n r t hr ht
  have h2 := ring_back_invol n r u hr hu
  rw [h] at h1
  omega

theorem ring_back_self (n k : Nat) (hn : 1 ≤ n) (hk : k < n) :
    ring_back n (ring_back n k 1) (n - 1) = k := by
  rw [ring_back_back n k (n - 1) hk (by omega)]
  unfold ring_back
  have h1 : k + n - (n - 1 + 1) = k := by omega
  rw [h1, Nat.mod_eq_of_lt hk]

theorem int_mod_pred_eq_ring_back (n r t : Nat) (ht : t + 1 ≤ r + n) :
    int_mod ((r : Int) - (t : Int) - 1 + (n : Int)) n = ring_back n r (t + 1) := by
  have h1 : (r : Int) - (t : Int) - 1 + (n : Int)
      = (r : Int) - ((t + 1 : Nat) : Int) + (n : Int) := by
    push_cast; ring
  rw [h1, int_mod_eq_ring_back n r (t + 1) ht]

theorem ring_rs_send_entry {α : Type} [Add α] (A : call_args α)
    (hT : A.T = id_sum_transforms α A.sizeof_DataType) (hloc : A.no_local_trans = false)
    (rank step : Nat) (hs : step ≤ rank + A.nprocs) (p : proc α) (i j : Nat) :
    (ring_rs_send A rank step p).1.entry i j
      = p.mat.entry i
          (slice_begin p.mat.width A.nprocs (ring_back A.nprocs rank step) + j) := by
  unfold ring_rs_send
  simp only [hloc, Bool.false_and, Bool.false_eq_true, if_false]
  rw [hT, int_mod_eq_ring_back A.nprocs rank step hs]
  simp [id_sum_transforms, id_send_transform, view, packed, IR.lo, slice_range]

/-- What a rank sends at a step of the ring reduce-scatter with the identity-copy callback
and no node-local shortcut: slice `rank - step` as a block without padding, of
`sizeof(DataType)` bytes for every entry. -/
theorem ring_rs_send_shape {α : Type} [Add α] (A : call_args α)
    (hT : A.T = id_sum_transforms α A.sizeof_DataType) (hloc : A.no_local_trans = false)
    (rank step : Nat) (hs : step ≤ rank + A.nprocs) (p : proc α) :
    (ring_rs_send A rank step p).1.ldim = (ring_rs_send A rank step p).1.height ∧
      (ring_rs_send A rank step p).2 = A.sizeof_DataType * p.mat.height
        * (slice_end p.mat.width A.nprocs (ring_back A.nprocs rank step)
          - slice_begin p.mat.width A.nprocs (ring_back A.nprocs rank step)) := by
  unfold ring_rs_send
  simp only [hloc, Bool.false_and, Bool.false_eq_true, if_false]
  rw [hT, int_mod_eq_ring_back A.nprocs rank step hs]
  obtain ⟨_, _, e3, e4⟩ := id_send_shape A.sizeof_DataType p.mat
    (slice_begin p.mat.width A.nprocs (ring_back A.nprocs rank step))
    (slice_end p.mat.width A.nprocs (ring_back A.nprocs rank step)) false
  exact ⟨e3, e4⟩

/-- One step of the ring reduce-scatter with the summing callback and no node-local
shortcut, on a message without padding that fits the scratch buffer: the incoming buffer is
added into slice `rank - step - 1`, nothing else in the matrix changes. -/
theorem ring_rs_iter_spec {α : Type} [Add α] (A : call_args α)
    (hT : A.T = id_sum_transforms α A.sizeof_DataType) (hloc : A.no_local_trans = false)
    (rank step : Nat) (hs : step + 1 ≤ rank + A.nprocs) (incoming : Mat α × Nat)
    (p : proc α)
    (a : Nat) (hbuf : p.max_recv_buf = bufptr.scratch a)
    (hcnt : p.max_recv_count = A.max_recv_count) (hwf : pool_wf p.comm.pool)
    (hslot : slot p.comm.pool A.max_recv_count 0 = some a)
    (hil : incoming.1.ldim = incoming.1.height)
    (hfit : incoming.2 ≤ A.max_recv_count) :
    ∃ p1, ring_rs_iter A rank step incoming p = some p1 ∧
      p1.mat.height = p.mat.height ∧ p1.mat.width = p.mat.width ∧
      p1.max_recv_buf = bufptr.scratch a ∧
      p1.max_recv_count = p.max_recv_count ∧ p1.comm.pool = p.comm.pool ∧
      (∀ i j, i < p.mat.height →
        p1.mat.entry i j
          = if in_slice p.mat.width A.nprocs (ring_back A.nprocs rank (step + 1)) j
            then p.mat.entry i j + incoming.1.entry i
              (j - slice_begin p.mat.width A.nprocs (ring_back A.nprocs rank (step + 1)))
            else p.mat.entry i j) := by
  unfold ring_rs_iter
  simp only [hloc, Bool.false_and, Bool.false_eq_true, if_false, hbuf,
    int_mod_pred_eq_ring_back A.nprocs rank step hs]
  rw [receive_scratch A.max_recv_count _ _ _ _ _]
  · simp only [load, hT, id_sum_transforms, sum_recv_apply_transform, if_true]
    refine ⟨_, rfl, rfl, rfl, rfl, rfl, rfl, ?_⟩
    intro i j hi
    simp only [set_view, view, slice_range, IR.lo, IR.hi, in_slice]
    by_cases hj : slice_begin p.mat.width A.nprocs (ring_back A.nprocs rank (step + 1)) ≤ j ∧
        j < slice_end p.mat.width A.nprocs (ring_back A.nprocs rank (step + 1))
    · have h2 : j - slice_begin p.mat.width A.nprocs (ring_back A.nprocs rank (step + 1))
          < slice_end p.mat.width A.nprocs (ring_back A.nprocs rank (step + 1))
            - slice_begin p.mat.width A.nprocs (ring_back A.nprocs rank (step + 1)) := by
        omega
      have h3 : slice_begin p.mat.width A.nprocs (ring_back A.nprocs rank (step + 1))
          + (j - slice_begin p.mat.width A.nprocs (ring_back A.nprocs rank (step + 1)))
            = j := by omega
      simp [hi, hj, h2, h3]
    · have hj2 : ¬ (slice_begin p.mat.width A.nprocs (ring_back A.nprocs rank (step + 1)) ≤ j
          ∧ j < slice_end p.mat.width A.nprocs (ring_back A.nprocs rank (step + 1))) := hj
      simp only [Nat.zero_le, true_and, hi]
      rw [if_neg hj2, if_neg hj2]
  · exact slot_capacity _ hwf _ _ _ hslot
  · rw [hcnt]; exact hfit
  · exact hfit
  · exact hil

theorem ring_rs_inv_init {α : Type} [AddCommMonoid α] (A : call_args α) (init : Nat → proc α)
    (h w : Nat)
    (hdim : ∀ r, r < A.nprocs → (init r).mat.height = h ∧ (init r).mat.width = w)
    (hpool : ∀ r, r < A.nprocs → pool_wf (init r).comm.pool) :
    ring_rs_inv A init h w 0 (fun r => some (ring_setup A (init r))) := by
  intro r hr
  obtain ⟨a, ha, _, hwf2, hs⟩ := acquire_zero_spec A.max_recv_count (init r) (hpool r hr)
  refine ⟨ring_setup A (init r), a, rfl, (hdim r hr).1, (hdim r hr).2, ?_, rfl, hwf2, hs, ?_⟩
  · simp [ring_setup, ha]
  · intro t ht i j _ _ hin
    have hm : (ring_setup A (init r)).mat = (init r).mat := rfl
    rw [hm]
    by_cases h0 : t ≤ 0
    · have : t = 0 := by omega
      subst this
      simp [ring_back_zero A.nprocs r hr]
    · rw [if_neg h0]

theorem ring_rs_step {α : Type} [AddCommMonoid α] (A : call_args α)
    (hT : A.T = id_sum_transforms α A.sizeof_DataType) (hloc : A.no_local_trans = false)
    (init : Nat → proc α) (h w s : Nat)
    (hfit : ∀ k, k < A.nprocs → A.sizeof_DataType * h
      * (slice_end w A.nprocs k - slice_begin w A.nprocs k) ≤ A.max_recv_count)
    (hs : s + 1 < A.nprocs) (sts : Nat → Option (proc α))
    (hinv : ring_rs_inv A init h w s sts) :
    ring_rs_inv A init h w (s + 1)
      (sendrecv_all A.nprocs (fun r => (r + 1) % A.nprocs)
        (fun (r : Nat) => int_mod ((r : Int) - 1 + (A.nprocs : Int)) A.nprocs)
        (fun r q => some (ring_rs_send A r s q)) (fun r => ring_rs_iter A r s)
        sts) := by
  rw [ring_src_fun A.nprocs (by omega)]
  intro r hr
  have hn : 0 < A.nprocs := by omega
  have hsrc : ring_back A.nprocs r 1 < A.nprocs := ring_back_lt _ _ _ hn
  have hdst : (r + 1) % A.nprocs < A.nprocs := Nat.mod_lt _ hn
  obtain ⟨p, a, hp, hph, hpw, hpa, hpc, hpwf, hpslot, hpe⟩ := hinv r hr
  obtain ⟨q, _, hq, hqh, hqw, _, _, _, _, hqe⟩ := hinv _ hsrc
  obtain ⟨d, _, hd, _⟩ := hinv _ hdst
  obtain ⟨g1, g2⟩ := ring_rs_send_shape A hT hloc (ring_back A.nprocs r 1) s (by omega) q
  rw [hqh, hqw] at g2
  obtain ⟨p1, h1, h1h, h1w, h1a, h1c, h1p, h1e⟩ :=
    ring_rs_iter_spec A hT hloc r s (by omega)
      (ring_rs_send A (ring_back A.nprocs r 1) s q) p a hpa hpc hpwf hpslot g1
      (by rw [g2]; exact hfit _ (ring_back_lt _ _ _ hn))
  refine ⟨p1, a, ?_, by rw [h1h, hph], by rw [h1w, hpw], h1a, by rw [h1c, hpc],
    by rw [h1p]; exact hpwf, by rw [h1p]; exact hpslot, ?_⟩
  · unfold sendrecv_all
    simp only [hp, hq, hd, hsrc, hdst, ring_fwd_back A.nprocs r 1 hr (by omega),
      ring_back_fwd A.nprocs r 1 hr (by omega), and_self, if_true]
    exact h1
  · intro t ht i j hi hj hin
    rw [h1e i j (by rw [hph]; exact hi), hpw]
    by_cases hts : t = s + 1
    · subst hts
      rw [if_pos hin, if_pos (Nat.le_refl _), hpe (s + 1) ht i j hi hj hin,
        if_neg (by omega), ring_rs_send_entry A hT hloc _ s (by omega), hqw,
        ring_back_back A.nprocs r s hr (by omega)]
      have hj2 : slice_begin w A.nprocs (ring_back A.nprocs r (s + 1))
          + (j - slice_begin w A.nprocs (ring_back A.nprocs r (s + 1))) = j := by
        have := hin.1; omega
      rw [hj2]
      have hin2 : in_slice w A.nprocs (ring_back A.nprocs (ring_back A.nprocs r 1) s) j := by
        rw [ring_back_back A.nprocs r s hr (by omega)]; exact hin
      rw [hqe s (by omega) i j hi hj hin2, if_pos (Nat.le_refl _),
        Finset.sum_range_succ' _ (s + 1), ring_back_zero A.nprocs r hr, add_comm]
      congr 1
      apply Finset.sum_congr rfl
      intro u hu
      simp only [Finset.mem_range] at hu
      rw [ring_back_back A.nprocs r u hr (by omega)]
    · have hnot : ¬ in_slice w A.nprocs (ring_back A.nprocs r (s + 1)) j := by
        intro hc
        exact hts (ring_back_inj A.nprocs r t (s + 1) hr ht hs
          (slice_unique w A.nprocs j _ _ (ring_back_lt _ _ _ hn) (ring_back_lt _ _ _ hn)
            hin hc))
      rw [if_neg hnot, hpe t ht i j hi hj hin]
      by_cases hle : t ≤ s
      · rw [if_pos hle, if_pos (by omega)]
      · rw [if_neg hle, if_neg (by omega)]

theorem ring_rs_loop_inv {α : Type} [AddCommMonoid α] (A : call_args α)
    (hT : A.T = id_sum_transforms α A.sizeof_DataType) (hloc : A.no_local_trans = false)
    (init : Nat → proc α) (h w : Nat)
    (hfit : ∀ k, k < A.nprocs → A.sizeof_DataType * h
      * (slice_end w A.nprocs k - slice_begin w A.nprocs k) ≤ A.max_recv_count)
    (hn : 2 ≤ A.nprocs) (sts : Nat → Option (proc α))
    (hinv : ring_rs_inv A init h w 0 sts) :
    ring_rs_inv A init h w (A.nprocs - 1) (ring_rs_loop A sts) := by
  unfold ring_rs_loop
  apply for_loop_induct (fun k st => ring_rs_inv A init h w k st) 0 (A.nprocs - 1)
  · omega
  · exact hinv
  · intro k st _ hk2 hP
    exact ring_rs_step A hT hloc init h w k hfit (by omega) st hP

/-- C16: with the identity-copy and summing callbacks, no node-local shortcut and
`n ≥ 2` ranks holding matrices of one shape `h × w` in well-formed buffer pools, when
`max_recv_count` is at least the `sizeof(DataType) * h * (slice width)` bytes of every
column slice, after the `n - 1` steps of the ring reduce-scatter of `ring_allreduce`, for
every slice index `k` the rank `(k + n - 1) % n` is alive and holds in its column slice `k`
the element-wise sum over all `n` ranks of their original slice `k`. -/
theorem C16_ring_reduce_scatter {α : Type} [AddCommMonoid α] (A : call_args α)
    (h w : Nat) (init : Nat → proc α) (hT : A.T = id_sum_transforms α A.sizeof_DataType)
    (hloc : A.no_local_trans = false) (hn : 2 ≤ A.nprocs)
    (hdim : ∀ r, r < A.nprocs → (init r).mat.height = h ∧ (init r).mat.width = w)
    (hfit : ∀ k, k < A.nprocs → A.sizeof_DataType * h
      * (slice_end w A.nprocs k - slice_begin w A.nprocs k) ≤ A.max_recv_count)
    (hpool : ∀ r, r < A.nprocs → pool_wf (init r).comm.pool)
    (k : Nat) (hk : k < A.nprocs) :
    ∃ p, ring_rs_loop A (fun r => some (ring_setup A (init r)))
          ((k + A.nprocs - 1) % A.nprocs) = some p ∧
      p.mat.height = h ∧ p.mat.width = w ∧
      ∀ i j, i < h → j < w → in_slice w A.nprocs k j →
        p.mat.entry i j = (Finset.range A.nprocs).sum (fun q => (init q).mat.entry i j) := by
  have hrs := ring_rs_loop_inv A hT hloc init h w hfit hn _
    (ring_rs_inv_init A init h w hdim hpool)
  have hr : ring_back A.nprocs k 1 < A.nprocs := ring_back_lt _ _ _ (by omega)
  obtain ⟨p, a, hp, hph, hpw, _, _, _, _, hpe⟩ := hrs (ring_back A.nprocs k 1) hr
  refine ⟨p, hp, hph, hpw, ?_⟩
  intro i j hi hj hin
  have hin2 : in_slice w A.nprocs
      (ring_back A.nprocs (ring_back A.nprocs k 1) (A.nprocs - 1)) j := by
    rw [ring_back_self A.nprocs k (by omega) hk]; exact hin
  rw [hpe (A.nprocs - 1) (by omega) i j hi hj hin2, if_pos (Nat.le_refl _)]
  have h1 : A.nprocs - 1 + 1 = A.nprocs := by omega
  rw [h1, sum_ring_back (fun x => (init x).mat.entry i j) A.nprocs _ hr]

theorem C16_ring_reduce_scatter_witness :
    ∃ p, ring_rs_loop scenario_pe_args (fun r => some (ring_setup scenario_pe_args
          (scenario_pe_init r))) ((2 + scenario_pe_args.nprocs - 1) % scenario_pe_args.nprocs)
          = some p ∧
      p.mat.height = 1 ∧ p.mat.width = 3 ∧
      ∀ i j, i < 1 → j < 3 → in_slice 3 scenario_pe_args.nprocs 2 j →
        p.mat.entry i j
          = (Finset.range scenario_pe_args.nprocs).sum
              (fun q => (scenario_pe_init q).mat.entry i j) :=
  C16_ring_reduce_scatter scenario_pe_args 1 3 scenario_pe_init rfl rfl (by decide)
    (by decide) (by decide) (fun _ _ => pool_wf_empty []) 2 (by decide)

/-! ## The concatenation layer: proofs -/

theorem wrap_int_of_range (x : Int) (h1 : -2147483648 ≤ x) (h2 : x < 2147483648) :
    wrap_int x = x := by
  unfold wrap_int
  omega

theorem wrap_int_range (x : Int) : -2147483648 ≤ wrap_int x ∧ wrap_int x < 2147483648 := by
  unfold wrap_int
  omega

theorem wrap_int_add_mul (x q : Int) : wrap_int (x + q * 4294967296) = wrap_int x := by
  unfold wrap_int
  omega

theorem wrap_int_spec (x : Int) : ∃ q : Int, wrap_int x = x + q * 4294967296 := by
  refine ⟨-((x + 2147483648) / 4294967296), ?_⟩
  unfold wrap_int
  omega

theorem wrap_int_mul_left (a y : Int) : wrap_int (wrap_int a * y) = wrap_int (a * y) := by
  obtain ⟨q, hq⟩ := wrap_int_spec a
  rw [hq]
  have : (a + q * 4294967296) * y = a * y + (q * y) * 4294967296 := by ring
  rw [this, wrap_int_add_mul]

/-- The `int` difference of two consecutive running totals is the `int` that was added,
also when the addition wrapped. -/
theorem wrap_int_sub_step (p e : Int) (h1 : -2147483648 ≤ e) (h2 : e < 2147483648) :
    wrap_int (wrap_int (p + e) - p) = e := by
  unfold wrap_int
  omega

theorem accumulate_fold (l : List Int) (a : Int) :
    l.foldl (fun x y => wrap_int (x * y)) (wrap_int a) = wrap_int (a * l.prod) := by
  induction l generalizing a with
  | nil => simp
  | cons y l ih =>
    simp only [List.foldl_cons, List.prod_cons]
    rw [wrap_int_mul_left, ih, mul_assoc]

/-- The `int` product `std::accumulate` computes is the product modulo `2 ^ 32`. -/
theorem accumulate_product_eq (l : List Int) : accumulate_product l = wrap_int l.prod := by
  unfold accumulate_product
  have h := accumulate_fold l 1
  rw [wrap_int_of_range 1 (by decide) (by decide), one_mul] at h
  exact h

theorem take_set_self {β : Type} (l : List β) (n : Nat) (v : β) :
    (l.set n v).take n = l.take n := by
  apply List.ext_getElem?
  intro i
  rw [List.getElem?_take, List.getElem?_take]
  split
  · rw [List.getElem?_set_ne (by omega)]
  · rfl

/-- What a run of the parent loop of `setup_dims` that comes back has stored: the points
pushed before are kept, one point per parent is appended, each the `int` sum of the previous
one and the extent of that parent along the axis, the output extent along the axis is the
last point and the other output dimensions are untouched. -/
theorem setup_dims_loop_spec (L : concatenation_layer) (axis : Nat) :
    ∀ (rest : List (List Int)) (od pts : List Int) (L1 : concatenation_layer),
      axis < od.length → 0 < pts.length → od.getD axis 0 = pts.getD (pts.length - 1) 0 →
      setup_dims_loop L axis rest od pts = outcome.returned L1 →
      L1.m_concatenation_axis = L.m_concatenation_axis ∧
      L1.m_concatenation_points.length = pts.length + rest.length ∧
      (∀ i, i < pts.length → L1.m_concatenation_points.getD i 0 = pts.getD i 0) ∧
      (∀ i, i < rest.length →
        L1.m_concatenation_points.getD (pts.length + i) 0
          = wrap_int (L1.m_concatenation_points.getD (pts.length + i - 1) 0
            + (rest.getD i []).getD axis 0)) ∧
      L1.output_dims.getD axis 0
        = L1.m_concatenation_points.getD (pts.length + rest.length - 1) 0 ∧
      L1.output_dims.length = od.length ∧
      L1.output_dims.take axis = od.take axis ∧
      L1.output_dims.drop (axis + 1) = od.drop (axis + 1) ∧
      (∀ i, i < rest.length → (rest.getD i []).length = od.length ∧
        (rest.getD i []).take axis = od.take axis ∧
        (rest.getD i []).drop (axis + 1) = od.drop (axis + 1)) := by
  intro rest
  induction rest with
  | nil =>
    intro od pts L1 _ _ hlast h
    simp only [setup_dims_loop, outcome.returned.injEq] at h
    subst h
    refine ⟨rfl, by simp, fun i _ => rfl, ?_, ?_, rfl, rfl, rfl, ?_⟩
    · intro i hi; simp at hi
    · simpa using hlast
    · intro i hi; simp at hi
  | cons d rest ih =>
    intro od pts L1 hax hpts hlast h
    unfold setup_dims_loop at h
    split at h
    · exact outcome.noConfusion h
    · rename_i hchk
      have hchk2 : d.length = od.length ∧ d.take axis = od.take axis
          ∧ d.drop (axis + 1) = od.drop (axis + 1) := by
        by_contra hc
        apply hchk
        by_cases h1 : d.length = od.length
        · by_cases h2 : d.take axis = od.take axis
          · right; right
            intro h3; exact hc ⟨h1, h2, h3⟩
          · right; left; exact h2
        · left; exact h1
      have hset : (od.set axis (wrap_int (od.getD axis 0 + d.getD axis 0))).getD axis 0
          = wrap_int (od.getD axis 0 + d.getD axis 0) := by
        rw [List.getD_eq_getElem?_getD, List.getElem?_set_self hax]
        rfl
      obtain ⟨h1, h2, h3, h4, h5, h6, h7, h8, h9⟩ :=
        ih (od.set axis (wrap_int (od.getD axis 0 + d.getD axis 0)))
          (pts ++ [wrap_int (od.getD axis 0 + d.getD axis 0)]) L1
          (by simpa using hax) (by simp)
          (by
            rw [hset]
            simp [List.getD_eq_getElem?_getD])
          h
      have hlen : (pts ++ [wrap_int (od.getD axis 0 + d.getD axis 0)]).length
          = pts.length + 1 := by
        simp
      rw [hlen] at h2 h3 h4 h5
      refine ⟨h1, ?_, ?_, ?_, ?_, ?_, ?_, ?_, ?_⟩
      · rw [h2]; simp; omega
      · intro i hi
        rw [h3 i (by omega)]
        simp [List.getD_eq_getElem?_getD, List.getElem?_append_left hi]
      · intro i hi
        cases i with
        | zero =>
          have e1 := h3 pts.length (by omega)
          have e2 := h3 (pts.length - 1) (by omega)
          simp only [Nat.add_zero, List.getD_cons_zero]
          rw [e1, e2]
          simp only [List.getD_eq_getElem?_getD] at hlast ⊢
          rw [List.getElem?_append_left (by omega : pts.length - 1 < pts.length),
            ← hlast]
          simp
        | succ i =>
          have hi2 : i < rest.length := by simpa using hi
          have e := h4 i hi2
          have ea : pts.length + (i + 1) = pts.length + 1 + i := by omega
          rw [ea, e]
          simp
      · rw [h5]
        congr 1
        simp only [List.length_cons]
        omega
      · rw [h6]; simp
      · rw [h7]
        rw [take_set_self]
      · rw [h8]
        rw [List.drop_set_of_lt _ _ (Nat.lt_succ_self axis)]
      · intro i hi
        cases i with
        | zero => simpa using hchk2
        | succ i =>
          have hi2 : i < rest.length := by simpa using hi
          have e := h9 i hi2
          simp only [List.getD_cons_succ]
          rw [List.length_set, take_set_self,
            List.drop_set_of_lt _ _ (Nat.lt_succ_self axis)] at e
          exact e

/-- What `setup_dims` leaves behind when it comes back: the axis is unchanged and valid,
there is one concatenation point more than there are parents, the first is `0`, each next
one is the `int` sum of the one before and the extent of a parent along the axis, the
output extent along the axis is the last point, and every parent agrees with the output on
the other axes. -/
theorem setup_dims_spec (L0 L : concatenation_layer) (parents : List (List Int))
    (h : setup_dims L0 parents = outcome.returned L) :
    L.m_concatenation_axis = L0.m_concatenation_axis ∧ 0 ≤ L.m_concatenation_axis ∧
      1 ≤ parents.length ∧
      L.m_concatenation_axis.toNat < L.output_dims.length ∧
      L.m_concatenation_points.length = parents.length + 1 ∧
      concat_point L 0 = 0 ∧
      concat_point L 1 = extent parents L.m_concatenation_axis.toNat 0 ∧
      (∀ i, 1 ≤ i → i < parents.length →
        concat_point L (i + 1)
          = wrap_int (concat_point L i + extent parents L.m_concatenation_axis.toNat i)) ∧
      L.output_dims.getD L.m_concatenation_axis.toNat 0 = concat_point L parents.length ∧
      (∀ i, i < parents.length →
        (parents.getD i []).length = L.output_dims.length ∧
        (parents.getD i []).take L.m_concatenation_axis.toNat
          = L.output_dims.take L.m_concatenation_axis.toNat ∧
        (parents.getD i []).drop (L.m_concatenation_axis.toNat + 1)
          = L.output_dims.drop (L.m_concatenation_axis.toNat + 1)) := by
  cases parents with
  | nil => exact outcome.noConfusion h
  | cons d0 rest =>
    unfold setup_dims at h
    simp only at h
    split at h
    · exact outcome.noConfusion h
    · rename_i hge
      split at h
      · exact outcome.noConfusion h
      · rename_i hneg
        have hax : L0.m_concatenation_axis.toNat < d0.length := by omega
        obtain ⟨h1, h2, h3, h4, h5, h6, h7, h8, h9⟩ :=
          setup_dims_loop_spec L0 L0.m_concatenation_axis.toNat rest d0
            [0, d0.getD L0.m_concatenation_axis.toNat 0] L hax (by simp) (by simp) h
        rw [h1]
        simp only [List.length_cons, List.length_nil, Nat.zero_add] at h2 h3 h4 h5
        refine ⟨rfl, by omega, by simp, by rw [h6]; exact hax, ?_, ?_, ?_, ?_, ?_, ?_⟩
        · rw [h2]; simp; omega
        · exact h3 0 (by omega)
        · have e1 := h3 1 (by omega)
          simp only [concat_point, extent, List.getD_cons_zero]
          rw [e1]
          simp
        · intro i hi1 hi
          obtain ⟨i, rfl⟩ : ∃ j, i = j + 1 := ⟨i - 1, by omega⟩
          have hi2 : i < rest.length := by simpa using hi
          have e := h4 i hi2
          simp only [concat_point, extent, List.getD_cons_succ]
          have ea : i + 1 + 1 = 1 + 1 + i := by omega
          have eb : 1 + 1 + i - 1 = i + 1 := by omega
          rw [ea, e, eb]
        · rw [h5]
          simp only [concat_point, List.length_cons]
          congr 1
          omega
        · intro i hi
          cases i with
          | zero =>
            simp only [List.getD_cons_zero]
            exact ⟨h6.symm, h7.symm, h8.symm⟩
          | succ i =>
            have hi2 : i < rest.length := by simpa using hi
            have e := h9 i hi2
            simp only [List.getD_cons_succ]
            rw [h6, h7, h8]
            exact e

/-! ## The concatenation points -/

theorem setup_dims_loop_returns (L : concatenation_layer) (axis : Nat) :
    ∀ (rest : List (List Int)) (od pts : List Int),
      (∀ d, d ∈ rest → d.length = od.length ∧ d.take axis = od.take axis
        ∧ d.drop (axis + 1) = od.drop (axis + 1)) →
      ∃ L1, setup_dims_loop L axis rest od pts = outcome.returned L1 := by
  intro rest
  induction rest with
  | nil => intro od pts _; exact ⟨_, rfl⟩
  | cons d rest ih =>
    intro od pts h
    obtain ⟨h1, h2, h3⟩ := h d (List.mem_cons_self _ _)
    unfold setup_dims_loop
    rw [if_neg (by
      rintro (hc | hc | hc)
      · exact hc h1
      · exact hc h2
      · exact hc h3)]
    apply ih
    intro d2 hd2
    obtain ⟨g1, g2, g3⟩ := h d2 (List.mem_cons_of_mem _ hd2)
    rw [List.length_set, take_set_self, List.drop_set_of_lt _ _ (Nat.lt_succ_self axis)]
    exact ⟨g1, g2, g3⟩

theorem getD_eq_of_take_drop (l1 l2 : List Int) (a x : Nat) (hx : x ≠ a)
    (ht : l1.take a = l2.take a) (hd : l1.drop (a + 1) = l2.drop (a + 1)) :
    l1.getD x 0 = l2.getD x 0 := by
  rw [List.getD_eq_getElem?_getD, List.getD_eq_getElem?_getD]
  congr 1
  by_cases hlt : x < a
  · have e1 : (l1.take a)[x]? = if x < a then l1[x]? else none := List.getElem?_take
    have e2 : (l2.take a)[x]? = if x < a then l2[x]? else none := List.getElem?_take
    rw [if_pos hlt] at e1 e2
    rw [← e1, ← e2, ht]
  · have e1 := List.getElem?_drop l1 (a + 1) (x - (a + 1))
    have e2 := List.getElem?_drop l2 (a + 1) (x - (a + 1))
    have e : a + 1 + (x - (a + 1)) = x := by omega
    rw [e] at e1 e2
    rw [← e1, ← e2, hd]

theorem extent_sum_succ (parents : List (List Int)) (axis i : Nat) :
    extent_sum parents axis (i + 1) = extent_sum parents axis i + extent parents axis i := by
  simp [extent_sum, List.range_succ]

/-- The concatenation points are the running sums of the extents as long as these sums fit
an `int`. -/
theorem concat_point_exact (L0 L : concatenation_layer) (parents : List (List Int))
    (h : setup_dims L0 parents = outcome.returned L)
    (hsum : ∀ i, i ≤ parents.length →
      -2147483648 ≤ extent_sum parents L0.m_concatenation_axis.toNat i
        ∧ extent_sum parents L0.m_concatenation_axis.toNat i < 2147483648) :
    ∀ i, i ≤ parents.length →
      concat_point L i = extent_sum parents L0.m_concatenation_axis.toNat i := by
  obtain ⟨h1, _, h3, _, _, h6, h7, h8, _, _⟩ := setup_dims_spec L0 L parents h
  rw [h1] at h7 h8
  intro i
  induction i with
  | zero => intro _; rw [h6]; rfl
  | succ i ih =>
    intro hi
    rw [extent_sum_succ]
    cases i with
    | zero =>
      rw [h7]
      simp [extent_sum]
    | succ i =>
      have hs := hsum (i + 1 + 1) hi
      rw [extent_sum_succ] at hs
      rw [h8 (i + 1) (by omega) (by omega), ih (by omega)]
      exact wrap_int_of_range _ hs.1 hs.2

/-- C29: for a layer with a non-negative axis below the number of dimensions of the first
parent and `k ≥ 1` parents that agree with the first one in the number of dimensions and on
every axis but the concatenation axis, the extents along the axis being `int` values,
`setup_dims` comes back; and whenever it comes back `m_concatenation_points` has `k + 1`
entries, the first is `0`, the `int` difference `points[i+1] - points[i]`, which is what the
forward pass computes from the points, is the extent of parent `i` along the axis (also
when the running total of line 191 wrapped), the last entry is the output extent along the
axis, and the output dimensions are those of the first parent on every other axis; and when
the running totals of the extents fit an `int`, point `i` is the sum of the extents of the
parents before `i`, so that the mathematical difference `points[i+1] - points[i]` is the
extent of parent `i` and the last point and the output extent are the sum of all
extents. -/
theorem C29_setup_dims_points (L0 : concatenation_layer) (d0 : List Int)
    (rest : List (List Int)) (h0 : 0 ≤ L0.m_concatenation_axis)
    (hax : L0.m_concatenation_axis < (d0.length : Int))
    (hchk : ∀ d, d ∈ rest → d.length = d0.length
      ∧ d.take L0.m_concatenation_axis.toNat = d0.take L0.m_concatenation_axis.toNat
      ∧ d.drop (L0.m_concatenation_axis.toNat + 1)
        = d0.drop (L0.m_concatenation_axis.toNat + 1))
    (hint : ∀ i, i < (d0 :: rest).length →
      -2147483648 ≤ extent (d0 :: rest) L0.m_concatenation_axis.toNat i
        ∧ extent (d0 :: rest) L0.m_concatenation_axis.toNat i < 2147483648) :
    (∃ L, setup_dims L0 (d0 :: rest) = outcome.returned L) ∧
    ∀ L, setup_dims L0 (d0 :: rest) = outcome.returned L →
      L.m_concatenation_points.length = (d0 :: rest).length + 1 ∧
      L.m_concatenation_points.getD 0 0 = 0 ∧
      (∀ i, i < (d0 :: rest).length →
        wrap_int (L.m_concatenation_points.getD (i + 1) 0 - L.m_concatenation_points.getD i 0)
          = ((d0 :: rest).getD i []).getD L0.m_concatenation_axis.toNat 0) ∧
      L.m_concatenation_points.getD (d0 :: rest).length 0
        = L.output_dims.getD L0.m_concatenation_axis.toNat 0 ∧
      L.output_dims.length = d0.length ∧
      (∀ x, x ≠ L0.m_concatenation_axis.toNat → L.output_dims.getD x 0 = d0.getD x 0) ∧
      ((∀ i, i ≤ (d0 :: rest).length →
          -2147483648 ≤ extent_sum (d0 :: rest) L0.m_concatenation_axis.toNat i
            ∧ extent_sum (d0 :: rest) L0.m_concatenation_axis.toNat i < 2147483648) →
        (∀ i, i ≤ (d0 :: rest).length → L.m_concatenation_points.getD i 0
          = extent_sum (d0 :: rest) L0.m_concatenation_axis.toNat i) ∧
        (∀ i, i < (d0 :: rest).length →
          L.m_concatenation_points.getD (i + 1) 0 - L.m_concatenation_points.getD i 0
            = ((d0 :: rest).getD i []).getD L0.m_concatenation_axis.toNat 0) ∧
        L.output_dims.getD L0.m_concatenation_axis.toNat 0
          = extent_sum (d0 :: rest) L0.m_concatenation_axis.toNat (d0 :: rest).length) := by
  constructor
  · unfold setup_dims
    simp only
    rw [if_neg (by omega), if_neg (by omega)]
    exact setup_dims_loop_returns L0 _ rest d0 _ hchk
  · intro L h
    obtain ⟨h1, _, _, _, h5, h6, h7, h8, h9, h10⟩ := setup_dims_spec L0 L (d0 :: rest) h
    rw [h1] at h7 h8 h9 h10
    simp only [concat_point] at h6 h7 h8 h9
    have h100 := h10 0 (by simp)
    simp only [List.getD_cons_zero] at h100
    refine ⟨h5, h6, ?_, h9.symm, h100.1.symm, ?_, ?_⟩
    · intro i hi
      have hr := hint i hi
      cases i with
      | zero =>
        rw [h7, h6, Int.sub_zero]
        exact wrap_int_of_range _ hr.1 hr.2
      | succ i =>
        rw [h8 (i + 1) (by omega) hi]
        exact wrap_int_sub_step _ _ hr.1 hr.2
    · intro x hx
      exact (getD_eq_of_take_drop d0 L.output_dims _ x hx h100.2.1 h100.2.2).symm
    · intro hsum
      have hex := concat_point_exact L0 L (d0 :: rest) h hsum
      simp only [concat_point] at hex
      refine ⟨hex, ?_, ?_⟩
      · intro i hi
        rw [hex (i + 1) (by omega), hex i (by omega), extent_sum_succ]
        simp [extent]
      · rw [h9]
        exact hex _ (Nat.le_refl _)

theorem C29_setup_dims_points_witness :
    (∃ L, setup_dims scenario_concat_layer ([2, 1, 2] :: [[2, 2, 2]]) = outcome.returned L) ∧
    ∀ L, setup_dims scenario_concat_layer ([2, 1, 2] :: [[2, 2, 2]]) = outcome.returned L →
      L.m_concatenation_points = [0, 1, 3] ∧ L.output_dims = [2, 3, 2] ∧
      L.m_concatenation_points.length = ([2, 1, 2] :: [[2, 2, 2]]).length + 1 ∧
      L.m_concatenation_points.getD 0 0 = 0 ∧
      (∀ i, i < ([2, 1, 2] :: [[2, 2, 2]]).length →
        L.m_concatenation_points.getD (i + 1) 0 - L.m_concatenation_points.getD i 0
          = (([2, 1, 2] :: [[2, 2, 2]]).getD i []).getD
              scenario_concat_layer.m_concatenation_axis.toNat 0) ∧
      L.m_concatenation_points.getD ([2, 1, 2] :: [[2, 2, 2]]).length 0
        = L.output_dims.getD scenario_concat_layer.m_concatenation_axis.toNat 0 :=
  have h := C29_setup_dims_points scenario_concat_layer [2, 1, 2] [[2, 2, 2]] (by decide)
    (by decide) (by decide) (by decide)
  ⟨h.1, fun L hL =>
    have e : outcome.returned L
        = outcome.returned (concatenation_layer.mk 1 [0, 1, 3] [2, 3, 2]) :=
      hL.symm.trans rfl
    ⟨by injection e with e; rw [e], by injection e with e; rw [e], (h.2 L hL).1,
      (h.2 L hL).2.1, ((h.2 L hL).2.2.2.2.2.2 (by decide)).2.1, (h.2 L hL).2.2.2.1⟩⟩

/-- At parents with the extents `2147483647` and `1` along axis `0` the running total of
`setup_dims` wraps: the points are `0, 2147483647, -2147483648` and the output extent is
`-2147483648`; the `int` difference of the last two points is still the extent `1`. -/
theorem setup_dims_wraps :
    setup_dims (concatenation_layer.mk 0 [] []) [[2147483647], [1]]
      = outcome.returned
          (concatenation_layer.mk 0 [0, 2147483647, -2147483648] [-2147483648])
    ∧ wrap_int (-2147483648 - 2147483647) = 1 :=
  ⟨rfl, rfl⟩

/-! ## The forward pass of the concatenation layer -/
/-! ### Row arithmetic -/

theorem rows_mono (pt : Nat → Nat) (k : Nat) (hwf : rows_wf pt k) :
    ∀ j, j ≤ k → ∀ i, i ≤ j → pt i ≤ pt j := by
  intro j
  induction j with
  | zero =>
    intro _ i hi
    have : i = 0 := by omega
    subst this
    exact Nat.le_refl _
  | succ j ih =>
    intro hj i hi
    by_cases hij : i = j + 1
    · subst hij; exact Nat.le_refl _
    · have h1 := ih (by omega) i (by omega)
      have h2 := hwf.2 j (by omega)
      omega

/-- An offset inside the block of parent `i` lies between the scaled concatenation points of
the parent and below the output stride. -/
theorem region_offset_bounds (pt : Nat → Nat) (k u : Nat) (hwf : rows_wf pt k)
    (i t : Nat) (hi : i < k) (ht : t < (pt (i + 1) - pt i) * u) :
    pt i * u + t < pt (i + 1) * u ∧ pt (i + 1) * u ≤ pt k * u := by
  have h1 := hwf.2 i hi
  have h2 := rows_mono pt k hwf k (Nat.le_refl _) (i + 1) (by omega)
  rw [Nat.sub_mul] at ht
  have h3 := Nat.mul_le_mul_right u h1
  have h4 := Nat.mul_le_mul_right u h2
  omega

/-- Two copies that hit the same output row are the same copy. -/
theorem region_row_unique (pt : Nat → Nat) (k u : Nat) (hwf : rows_wf pt k)
    (i a t i2 a2 t2 : Nat) (hi : i < k) (hi2 : i2 < k)
    (ht : t < (pt (i + 1) - pt i) * u) (ht2 : t2 < (pt (i2 + 1) - pt i2) * u)
    (heq : pt i * u + a * (pt k * u) + t = pt i2 * u + a2 * (pt k * u) + t2) :
    i = i2 ∧ a = a2 ∧ t = t2 := by
  obtain ⟨hb1, hb2⟩ := region_offset_bounds pt k u hwf i t hi ht
  obtain ⟨hc1, hc2⟩ := region_offset_bounds pt k u hwf i2 t2 hi2 ht2
  have hpos : 0 < pt k * u := by omega
  have e1 : (pt i * u + t + a * (pt k * u)) / (pt k * u) = a := by
    rw [Nat.add_mul_div_right _ _ hpos, Nat.div_eq_of_lt (by omega), Nat.zero_add]
  have e2 : (pt i2 * u + t2 + a2 * (pt k * u)) / (pt k * u) = a2 := by
    rw [Nat.add_mul_div_right _ _ hpos, Nat.div_eq_of_lt (by omega), Nat.zero_add]
  have e3 : pt i * u + t + a * (pt k * u) = pt i2 * u + t2 + a2 * (pt k * u) := by omega
  have ha : a = a2 := by rw [← e1, ← e2, e3]
  subst ha
  have hc : pt i * u + t = pt i2 * u + t2 := by omega
  have hii : i = i2 := by
    rcases Nat.lt_trichotomy i i2 with hlt | heq2 | hgt
    · exfalso
      have hm := rows_mono pt k hwf i2 (by omega) (i + 1) (by omega)
      have hm2 := Nat.mul_le_mul_right u hm
      omega
    · exact heq2
    · exfalso
      have hm := rows_mono pt k hwf i (by omega) (i2 + 1) (by omega)
      have hm2 := Nat.mul_le_mul_right u hm
      omega
  subst hii
  exact ⟨rfl, rfl, by omega⟩

theorem find_interval (g : Nat → Nat) (c : Nat) :
    ∀ k, g 0 ≤ c → c < g k → ∃ i, i < k ∧ g i ≤ c ∧ c < g (i + 1) := by
  intro k
  induction k with
  | zero => intro h0 hk; omega
  | succ k ih =>
    intro h0 hk
    by_cases hc : c < g k
    · obtain ⟨i, hi, h1, h2⟩ := ih h0 hc
      exact ⟨i, by omega, h1, h2⟩
    · exact ⟨k, by omega, by omega, hk⟩

/-- Every output row below `n * (pt k * u)` is hit by a copy. -/
theorem region_row_exists (pt : Nat → Nat) (k u n : Nat) (hwf : rows_wf pt k)
    (x : Nat) (hx : x < n * (pt k * u)) :
    ∃ i a t, i < k ∧ a < n ∧ t < (pt (i + 1) - pt i) * u ∧
      x = pt i * u + a * (pt k * u) + t := by
  have hpos : 0 < pt k * u := by
    rcases Nat.eq_zero_or_pos (pt k * u) with h0 | h0
    · rw [h0] at hx; simp at hx
    · exact h0
  have ha : x / (pt k * u) < n := (Nat.div_lt_iff_lt_mul hpos).2 hx
  have hc : x % (pt k * u) < pt k * u := Nat.mod_lt _ hpos
  obtain ⟨i, hi, h1, h2⟩ := find_interval (fun i => pt i * u) (x % (pt k * u)) k
    (by simp [hwf.1]) hc
  refine ⟨i, x / (pt k * u), x % (pt k * u) - pt i * u, hi, ha, ?_, ?_⟩
  · rw [Nat.sub_mul]
    omega
  · have hdm := Nat.div_add_mod x (pt k * u)
    rw [Nat.mul_comm] at hdm
    omega

/-! ### The `int` variables of the forward pass when nothing wraps -/

theorem wrap_int_nat (x : Nat) (h : x < 2147483648) : wrap_int (x : Int) = (x : Int) :=
  wrap_int_of_range _ (by omega) (by omega)

theorem getD_nonneg (d : List Int) (hd : ∀ x, x ∈ d → 0 ≤ x) (a : Nat) : 0 ≤ d.getD a 0 := by
  rw [List.getD_eq_getElem?_getD]
  cases h : d[a]? with
  | none => simp
  | some v =>
    simp only [Option.getD_some]
    exact hd v (List.getElem?_mem h)

theorem extent_nonneg (parents : List (List Int)) (axis i : Nat)
    (hnn : ∀ d, d ∈ parents → ∀ x, x ∈ d → 0 ≤ x) : 0 ≤ extent parents axis i := by
  unfold extent
  apply getD_nonneg
  rw [List.getD_eq_getElem?_getD]
  cases h : parents[i]? with
  | none => simp
  | some d =>
    simp only [Option.getD_some]
    exact hnn d (List.getElem?_mem h)

theorem extent_sum_mono (parents : List (List Int)) (axis : Nat)
    (hnn : ∀ d, d ∈ parents → ∀ x, x ∈ d → 0 ≤ x) :
    ∀ j i, i ≤ j → extent_sum parents axis i ≤ extent_sum parents axis j := by
  intro j
  induction j with
  | zero =>
    intro i hi
    have : i = 0 := by omega
    subst this
    exact Int.le_refl _
  | succ j ih =>
    intro i hi
    by_cases hij : i = j + 1
    · subst hij; exact Int.le_refl _
    · have h1 := ih i (by omega)
      have h2 := extent_nonneg parents axis j hnn
      rw [extent_sum_succ]
      omega

theorem extent_sum_zero (parents : List (List Int)) (axis : Nat) :
    extent_sum parents axis 0 = 0 := rfl

theorem prod_nonneg_of_mem (l d : List Int) (hd : ∀ x, x ∈ d → 0 ≤ x)
    (hl : ∀ x, x ∈ l → x ∈ d) : 0 ≤ l.prod :=
  List.prod_nonneg (fun x hx => hd x (hl x hx))

/-- The variables of the forward pass of a layer set up for parents whose sizes fit an `int`
are the mathematical quantities: `num_regions` and `unit_region_size` are the products of
the dimensions before and after the axis, the concatenation points are running sums of
non-negative extents, and the output extent along the axis is the last point. -/
theorem fp_exact (L0 L : concatenation_layer) (parents : List (List Int))
    (hsetup : setup_dims L0 parents = outcome.returned L)
    (hfit : concat_fits parents L0.m_concatenation_axis.toNat) :
    ∃ (n u : Nat) (pt : Nat → Nat), rows_wf pt parents.length ∧
      num_regions L = (n : Int) ∧ unit_region_size L = (u : Int) ∧
      (∀ i, i ≤ parents.length → concat_point L i = (pt i : Int)) ∧
      L.output_dims.getD L.m_concatenation_axis.toNat 0 = (pt parents.length : Int) ∧
      n < 2147483648 ∧ pt parents.length < 2147483648 ∧
      n * (pt parents.length * u) < 2147483648 := by
  obtain ⟨hnn, hS, hnr, hur, htot⟩ := hfit
  obtain ⟨h1, h2, h3, h4, h5, h6, h7, h8, h9, h10⟩ := setup_dims_spec L0 L parents hsetup
  have hsum : ∀ i, i ≤ parents.length →
      -2147483648 ≤ extent_sum parents L0.m_concatenation_axis.toNat i
        ∧ extent_sum parents L0.m_concatenation_axis.toNat i < 2147483648 := by
    intro i hi
    have ha := extent_sum_mono parents L0.m_concatenation_axis.toNat hnn i 0 (Nat.zero_le _)
    have hb := extent_sum_mono parents L0.m_concatenation_axis.toNat hnn _ i hi
    rw [extent_sum_zero] at ha
    omega
  have hex := concat_point_exact L0 L parents hsetup hsum
  have h100 := h10 0 (by omega)
  rw [h1] at h100 h9
  have hd0 : parents.getD 0 [] ∈ parents := by
    cases parents with
    | nil => simp at h3
    | cons d0 rest => simp
  have hn0 : 0 ≤ ((parents.getD 0 []).take L0.m_concatenation_axis.toNat).prod :=
    prod_nonneg_of_mem _ _ (hnn _ hd0) (fun x hx => List.mem_of_mem_take hx)
  have hu0 : 0 ≤ ((parents.getD 0 []).drop (L0.m_concatenation_axis.toNat + 1)).prod :=
    prod_nonneg_of_mem _ _ (hnn _ hd0) (fun x hx => List.mem_of_mem_drop hx)
  have hS0 : 0 ≤ extent_sum parents L0.m_concatenation_axis.toNat parents.length := by
    have ha := extent_sum_mono parents L0.m_concatenation_axis.toNat hnn parents.length 0
      (Nat.zero_le _)
    rw [extent_sum_zero] at ha
    exact ha
  refine ⟨(((parents.getD 0 []).take L0.m_concatenation_axis.toNat).prod).toNat,
    (((parents.getD 0 []).drop (L0.m_concatenation_axis.toNat + 1)).prod).toNat,
    fun i => (extent_sum parents L0.m_concatenation_axis.toNat i).toNat,
    ⟨?_, ?_⟩, ?_, ?_, ?_, ?_, ?_, ?_, ?_⟩
  · simp [extent_sum_zero]
  · intro i _
    exact Int.toNat_le_toNat
      (extent_sum_mono parents L0.m_concatenation_axis.toNat hnn (i + 1) i (by omega))
  · unfold num_regions
    rw [h1, ← h100.2.1, accumulate_product_eq, Int.toNat_of_nonneg hn0]
    exact wrap_int_of_range _ (by omega) hnr
  · unfold unit_region_size
    rw [h1, ← h100.2.2, accumulate_product_eq, Int.toNat_of_nonneg hu0]
    exact wrap_int_of_range _ (by omega) hur
  · intro i hi
    rw [hex i hi, Int.toNat_of_nonneg]
    have ha := extent_sum_mono parents L0.m_concatenation_axis.toNat hnn i 0 (Nat.zero_le _)
    rw [extent_sum_zero] at ha
    exact ha
  · rw [h1, h9, hex _ (Nat.le_refl _), Int.toNat_of_nonneg hS0]
  · omega
  · show (extent_sum parents L0.m_concatenation_axis.toNat parents.length).toNat < 2147483648
    omega
  · have e : (((((parents.getD 0 []).take L0.m_concatenation_axis.toNat).prod).toNat
        * ((extent_sum parents L0.m_concatenation_axis.toNat parents.length).toNat
          * (((parents.getD 0 []).drop (L0.m_concatenation_axis.toNat + 1)).prod).toNat)
          : Nat) : Int) < 2147483648 := by
      push_cast
      rw [Int.toNat_of_nonneg hn0, Int.toNat_of_nonneg hu0, Int.toNat_of_nonneg hS0]
      exact htot
    exact_mod_cast e

/-- The strides and region bounds of the forward pass when nothing wraps and there is at
least one region. -/
theorem strides_exact (L : concatenation_layer) (k n u : Nat) (pt : Nat → Nat)
    (hwf : rows_wf pt k) (hu : unit_region_size L = (u : Int))
    (hpt : ∀ i, i ≤ k → concat_point L i = (pt i : Int))
    (hod : L.output_dims.getD L.m_concatenation_axis.toNat 0 = (pt k : Int))
    (hS : pt k < 2147483648) (htot : n * (pt k * u) < 2147483648) (hn1 : 1 ≤ n) :
    output_region_stride L = ((pt k * u : Nat) : Int) ∧
    ∀ i, i < k →
      input_region_stride L i = (((pt (i + 1) - pt i) * u : Nat) : Int) ∧
      output_region_start L i = ((pt i * u : Nat) : Int) ∧
      output_region_end L i = ((pt (i + 1) * u : Nat) : Int) := by
  have hM : pt k * u ≤ n * (pt k * u) := Nat.le_mul_of_pos_left _ (by omega)
  refine ⟨?_, ?_⟩
  · unfold output_region_stride
    rw [hod, hu, ← Nat.cast_mul]
    exact wrap_int_nat _ (by omega)
  · intro i hi
    have hp0 := hpt i (by omega)
    have hp1 := hpt (i + 1) (by omega)
    simp only [concat_point] at hp0 hp1
    have hle := hwf.2 i hi
    have hle1 := rows_mono pt k hwf k (Nat.le_refl _) (i + 1) (by omega)
    have hle0 := rows_mono pt k hwf k (Nat.le_refl _) i (by omega)
    have hm1 := Nat.mul_le_mul_right u hle1
    have hm0 := Nat.mul_le_mul_right u hle0
    have hmd : (pt (i + 1) - pt i) * u ≤ pt k * u :=
      Nat.mul_le_mul_right u (by omega)
    refine ⟨?_, ?_, ?_⟩
    · unfold input_region_stride
      rw [hp0, hp1, hu, ← Nat.cast_sub hle, wrap_int_nat _ (by omega), ← Nat.cast_mul]
      exact wrap_int_nat _ (by omega)
    · unfold output_region_start
      rw [hp0, hu, ← Nat.cast_mul]
      exact wrap_int_nat _ (by omega)
    · unfold output_region_end
      rw [hp1, hu, ← Nat.cast_mul]
      exact wrap_int_nat _ (by omega)

theorem view_rows_nat {α : Type} (mat : Mat α) (lo hi : Nat) (h1 : lo ≤ hi)
    (h2 : hi ≤ mat.height) :
    view_rows mat (lo : Int) (hi : Int) = some (view mat (IR.range lo hi) IR.ALL) := by
  unfold view_rows
  rw [if_pos ⟨by omega, by omega, by omega⟩]
  simp

/-- One pass of the inner loop body when nothing wraps and the row ranges lie inside the
matrices: the rows of region `a` of the input are written over the rows of the output that
belong to parent `i` in region `a`. -/
theorem copy_region_exact {α : Type} (L : concatenation_layer) (k n u : Nat)
    (pt : Nat → Nat) (hwf : rows_wf pt k) (hu : unit_region_size L = (u : Int))
    (hpt : ∀ i, i ≤ k → concat_point L i = (pt i : Int))
    (hod : L.output_dims.getD L.m_concatenation_axis.toNat 0 = (pt k : Int))
    (hn31 : n < 2147483648) (hS : pt k < 2147483648) (htot : n * (pt k * u) < 2147483648)
    (i a : Nat) (hi : i < k) (ha : a < n) (input out : Mat α)
    (hin : (a + 1) * ((pt (i + 1) - pt i) * u) ≤ input.height)
    (hout : pt (i + 1) * u + a * (pt k * u) ≤ out.height) (hw : input.width = out.width) :
    copy_region L i input a out
      = some (set_view out
          (IR.range (pt i * u + a * (pt k * u)) (pt (i + 1) * u + a * (pt k * u))) IR.ALL
          (view input
            (IR.range (a * ((pt (i + 1) - pt i) * u)) ((a + 1) * ((pt (i + 1) - pt i) * u)))
            IR.ALL)) := by
  have hle := hwf.2 i hi
  have hle1 := rows_mono pt k hwf k (Nat.le_refl _) (i + 1) (by omega)
  have hm1 := Nat.mul_le_mul_right u hle1
  have hm0 := Nat.mul_le_mul_right u hle
  have hmd : (pt (i + 1) - pt i) * u ≤ pt k * u := Nat.mul_le_mul_right u (by omega)
  have hA : (a + 1) * (pt k * u) ≤ n * (pt k * u) := Nat.mul_le_mul_right _ (by omega)
  have hB : (a + 1) * ((pt (i + 1) - pt i) * u) ≤ (a + 1) * (pt k * u) :=
    Nat.mul_le_mul_left _ hmd
  have hC : (a + 1) * (pt k * u) = a * (pt k * u) + pt k * u := Nat.succ_mul _ _
  have hD : (a + 1) * ((pt (i + 1) - pt i) * u)
      = a * ((pt (i + 1) - pt i) * u) + (pt (i + 1) - pt i) * u := Nat.succ_mul _ _
  have hE : (pt (i + 1) - pt i) * u = pt (i + 1) * u - pt i * u := Nat.sub_mul _ _ _
  have b1 : a * ((pt (i + 1) - pt i) * u) < 2147483648 := by omega
  have b2 : a + 1 < 2147483648 := by omega
  have b3 : (a + 1) * ((pt (i + 1) - pt i) * u) < 2147483648 := by omega
  have b4 : a * (pt k * u) < 2147483648 := by omega
  have b5 : pt i * u + a * (pt k * u) < 2147483648 := by omega
  have b6 : pt (i + 1) * u + a * (pt k * u) < 2147483648 := by omega
  have c1 : a * ((pt (i + 1) - pt i) * u) ≤ (a + 1) * ((pt (i + 1) - pt i) * u) := by omega
  have c2 : pt i * u + a * (pt k * u) ≤ pt (i + 1) * u + a * (pt k * u) := by omega
  have c3 : (a + 1) * ((pt (i + 1) - pt i) * u) - a * ((pt (i + 1) - pt i) * u)
      = pt (i + 1) * u + a * (pt k * u) - (pt i * u + a * (pt k * u)) := by omega
  have v1 := view_rows_nat input _ _ c1 hin
  have v2 := view_rows_nat out _ _ c2 hout
  clear hle hle1 hm1 hm0 hmd hA hB hC hD hE
  obtain ⟨hos, hstr⟩ := strides_exact L k n u pt hwf hu hpt hod hS htot (by omega)
  obtain ⟨his, hst, hen⟩ := hstr i hi
  have e1 : wrap_int ((a : Int) * input_region_stride L i)
      = ((a * ((pt (i + 1) - pt i) * u) : Nat) : Int) := by
    rw [his, ← Nat.cast_mul]
    exact wrap_int_nat _ b1
  have e2 : wrap_int (wrap_int ((a : Int) + 1) * input_region_stride L i)
      = (((a + 1) * ((pt (i + 1) - pt i) * u) : Nat) : Int) := by
    have : ((a : Int) + 1) = ((a + 1 : Nat) : Int) := by push_cast; rfl
    rw [this, wrap_int_nat _ b2, his, ← Nat.cast_mul]
    exact wrap_int_nat _ b3
  have e0 : wrap_int ((a : Int) * output_region_stride L) = ((a * (pt k * u) : Nat) : Int) := by
    rw [hos, ← Nat.cast_mul]
    exact wrap_int_nat _ b4
  have e3 : wrap_int (output_region_start L i + wrap_int ((a : Int) * output_region_stride L))
      = ((pt i * u + a * (pt k * u) : Nat) : Int) := by
    rw [e0, hst, ← Nat.cast_add]
    exact wrap_int_nat _ b5
  have e4 : wrap_int (output_region_end L i + wrap_int ((a : Int) * output_region_stride L))
      = ((pt (i + 1) * u + a * (pt k * u) : Nat) : Int) := by
    rw [e0, hen, ← Nat.cast_add]
    exact wrap_int_nat _ b6
  unfold copy_region
  simp only [e1, e2, e3, e4, v1, v2, Int.toNat_ofNat]
  rw [if_pos]
  simp only [view, IR.hi, IR.lo, hw, Nat.sub_zero, and_true]
  exact c3

theorem copy_entry {α : Type} (input out : Mat α) (lo hi ilo ihi x j : Nat) :
    (set_view out (IR.range lo hi) IR.ALL (view input (IR.range ilo ihi) IR.ALL)).entry x j
      = if lo ≤ x ∧ x < hi ∧ j < out.width then input.entry (ilo + (x - lo)) j
        else out.entry x j := by
  simp [set_view, view, IR.lo, IR.hi]

/-- One pass of the inner loop body keeps what was copied before and adds the rows of its
own region. -/
theorem copied_step {α : Type} (n u : Nat) (pt : Nat → Nat) (k : Nat) (hwf : rows_wf pt k)
    (inputs : Nat → Mat α) (output out : Mat α) (I R : Nat) (hI : I < k)
    (h : copied n u pt k inputs output I R out) :
    copied n u pt k inputs output I (R + 1)
      (set_view out
        (IR.range (pt I * u + R * (pt k * u)) (pt (I + 1) * u + R * (pt k * u))) IR.ALL
        (view (inputs I)
          (IR.range (R * ((pt (I + 1) - pt I) * u)) ((R + 1) * ((pt (I + 1) - pt I) * u)))
          IR.ALL)) := by
  obtain ⟨hh, hw, he⟩ := h
  refine ⟨hh, hw, ?_⟩
  intro i a t j hia ht hj
  rw [copy_entry]
  by_cases hnew : i = I ∧ a = R
  · obtain ⟨rfl, rfl⟩ := hnew
    obtain ⟨hb1, _⟩ := region_offset_bounds pt k u hwf i t hI ht
    have hc : pt i * u + a * (pt k * u) ≤ pt i * u + a * (pt k * u) + t
        ∧ pt i * u + a * (pt k * u) + t < pt (i + 1) * u + a * (pt k * u)
        ∧ j < out.width := by
      refine ⟨by omega, by omega, by rw [hw]; exact hj⟩
    rw [if_pos hc]
    congr 2
    omega
  · have hold : (i < I ∧ a < n) ∨ (i = I ∧ a < R) := by
      rcases hia with h1 | ⟨h1, h2⟩
      · exact Or.inl h1
      · right
        refine ⟨h1, ?_⟩
        by_contra hc
        exact hnew ⟨h1, by omega⟩
    have hik : i < k := by
      rcases hold with h1 | h1 <;> omega
    have hnot : ¬ (pt I * u + R * (pt k * u) ≤ pt i * u + a * (pt k * u) + t
        ∧ pt i * u + a * (pt k * u) + t < pt (I + 1) * u + R * (pt k * u)
        ∧ j < out.width) := by
      rintro ⟨h1, h2, _⟩
      have hlt : pt i * u + a * (pt k * u) + t - (pt I * u + R * (pt k * u))
          < (pt (I + 1) - pt I) * u := by
        have hle := hwf.2 I hI
        have hm := Nat.mul_le_mul_right u hle
        rw [Nat.sub_mul]
        omega
      have := region_row_unique pt k u hwf i a t I R _ hik hI ht hlt (by omega)
      exact hnew ⟨this.1, this.2.1⟩
    rw [if_neg hnot]
    exact he i a t j hold ht hj

theorem copied_inner {α : Type} (L : concatenation_layer) (k n u : Nat) (pt : Nat → Nat)
    (hwf : rows_wf pt k) (hn : num_regions L = (n : Int))
    (hu : unit_region_size L = (u : Int))
    (hpt : ∀ i, i ≤ k → concat_point L i = (pt i : Int))
    (hod : L.output_dims.getD L.m_concatenation_axis.toNat 0 = (pt k : Int))
    (hn31 : n < 2147483648) (hS : pt k < 2147483648) (htot : n * (pt k * u) < 2147483648)
    (inputs : Nat → Mat α) (output out : Mat α) (I : Nat) (hI : I < k)
    (hin : n * ((pt (I + 1) - pt I) * u) ≤ (inputs I).height)
    (hw : (inputs I).width = output.width) (hout : n * (pt k * u) ≤ output.height)
    (h : copied n u pt k inputs output I 0 out) :
    ∃ o, for_loop 0 (num_regions L).toNat
        (fun region out2 => out2.bind (copy_region L I (inputs I) region)) (some out) = some o
      ∧ copied n u pt k inputs output (I + 1) 0 o := by
  rw [hn, Int.toNat_ofNat]
  have h1 := for_loop_induct
    (fun R (st : Option (Mat α)) => ∃ o, st = some o ∧ copied n u pt k inputs output I R o)
    0 n (fun region out2 => out2.bind (copy_region L I (inputs I) region)) (some out)
    (Nat.zero_le _) ⟨out, rfl, h⟩
    (by
      intro R st _ hR ⟨o, ho, hc⟩
      have hle1 := rows_mono pt k hwf k (Nat.le_refl _) (I + 1) (by omega)
      have hm1 := Nat.mul_le_mul_right u hle1
      have hA : (R + 1) * (pt k * u) ≤ n * (pt k * u) := Nat.mul_le_mul_right _ (by omega)
      have hB : (R + 1) * ((pt (I + 1) - pt I) * u) ≤ n * ((pt (I + 1) - pt I) * u) :=
        Nat.mul_le_mul_right _ (by omega)
      have hC : (R + 1) * (pt k * u) = R * (pt k * u) + pt k * u := Nat.succ_mul _ _
      have e := copy_region_exact L k n u pt hwf hu hpt hod hn31 hS htot I R hI hR
        (inputs I) o (by omega) (by rw [hc.1]; omega) (by rw [hc.2.1]; exact hw)
      refine ⟨_, ?_, copied_step n u pt k hwf inputs output o I R hI hc⟩
      rw [ho]
      exact e)
  obtain ⟨o, ho, hh, hw2, he⟩ := h1
  refine ⟨o, ho, hh, hw2, ?_⟩
  intro i a t j hia ht hj
  apply he i a t j _ ht hj
  rcases hia with ⟨h2, h3⟩ | ⟨_, h3⟩
  · by_cases hi : i = I
    · exact Or.inr ⟨hi, h3⟩
    · exact Or.inl ⟨by omega, h3⟩
  · omega

theorem copied_all {α : Type} (L : concatenation_layer) (k n u : Nat) (pt : Nat → Nat)
    (hwf : rows_wf pt k) (hn : num_regions L = (n : Int))
    (hu : unit_region_size L = (u : Int))
    (hpt : ∀ i, i ≤ k → concat_point L i = (pt i : Int))
    (hod : L.output_dims.getD L.m_concatenation_axis.toNat 0 = (pt k : Int))
    (hn31 : n < 2147483648) (hS : pt k < 2147483648) (htot : n * (pt k * u) < 2147483648)
    (inputs : Nat → Mat α) (output : Mat α)
    (hin : ∀ i, i < k → (inputs i).width = output.width
      ∧ n * ((pt (i + 1) - pt i) * u) ≤ (inputs i).height)
    (hout : n * (pt k * u) ≤ output.height) :
    ∃ o, for_loop 0 k
        (fun i out => for_loop 0 (num_regions L).toNat
          (fun region out2 => out2.bind (copy_region L i (inputs i) region)) out)
        (some output) = some o
      ∧ copied n u pt k inputs output k 0 o := by
  apply for_loop_induct
    (fun I (st : Option (Mat α)) => ∃ o, st = some o ∧ copied n u pt k inputs output I 0 o)
    0 k
  · exact Nat.zero_le _
  · refine ⟨output, rfl, rfl, rfl, ?_⟩
    intro i a t j hia
    rcases hia with ⟨h1, _⟩ | ⟨_, h1⟩ <;> omega
  · intro I st _ hI ⟨o, ho, hc⟩
    rw [ho]
    exact copied_inner L k n u pt hwf hn hu hpt hod hn31 hS htot inputs output o I hI
      (hin I hI).2 (hin I hI).1 hout hc

/-- With no region the forward pass leaves the output as it is. -/
theorem fp_loops_empty {α : Type} (L : concatenation_layer) (k : Nat)
    (hn : (num_regions L).toNat = 0) (inputs : Nat → Mat α) (output : Mat α) :
    for_loop 0 k
        (fun i out => for_loop 0 (num_regions L).toNat
          (fun region out2 => out2.bind (copy_region L i (inputs i) region)) out)
        (some output) = some output := by
  rw [hn]
  apply for_loop_induct (fun _ (st : Option (Mat α)) => st = some output) 0 k
  · exact Nat.zero_le _
  · rfl
  · intro I st _ _ hst
    rw [hst]
    rfl

theorem fp_index_cast (p u a m t : Nat) :
    ((p : Int) * (u : Int) + (a : Int) * ((m : Nat) : Int) + (t : Int)).toNat
      = p * u + a * m + t := by
  have : ((p : Int) * (u : Int) + (a : Int) * ((m : Nat) : Int) + (t : Int))
      = ((p * u + a * m + t : Nat) : Int) := by push_cast; ring
  rw [this, Int.toNat_ofNat]

theorem fp_index_cast_in (a s t : Nat) :
    ((a : Int) * ((s : Nat) : Int) + (t : Int)).toNat = a * s + t := by
  have : ((a : Int) * ((s : Nat) : Int) + (t : Int)) = ((a * s + t : Nat) : Int) := by
    push_cast; ring
  rw [this, Int.toNat_ofNat]

/-- C18: in a layer whose dimensions `setup_dims` has set up for parents of non-negative
dimensions whose sizes fit an `int` (`concat_fits`), with input matrices of the width of the
output and of at least `num_regions * input_region_stride` rows and an output of at least
`num_regions * output_region_stride` rows, `fp_compute` comes back, keeps the shape of the
output, and for every parent `i`, region `a < num_regions` and offset
`t < (points[i+1] - points[i]) * unit_region_size` leaves in row
`points[i] * unit_region_size + a * output_region_stride + t` of the output, in every
column, row `a * input_region_stride + t` of input `i`; and every output row below
`num_regions * output_region_stride` is the target of exactly one such `(i, a, t)`.  All the
quantities named are the `int` variables of the code. -/
theorem C18_concatenation_fp_compute {α : Type} (L0 L : concatenation_layer)
    (parents : List (List Int)) (inputs : Nat → Mat α) (output : Mat α)
    (hsetup : setup_dims L0 parents = outcome.returned L)
    (hfit : concat_fits parents L0.m_concatenation_axis.toNat)
    (hin : ∀ i, i < parents.length → (inputs i).width = output.width
      ∧ num_regions L * input_region_stride L i ≤ ((inputs i).height : Int))
    (hout : num_regions L * output_region_stride L ≤ (output.height : Int)) :
    ∃ out, fp_compute L parents.length inputs output = some out ∧
      out.height = output.height ∧ out.width = output.width ∧
      (∀ i a t j : Nat, i < parents.length → (a : Int) < num_regions L →
        (t : Int) < (concat_point L (i + 1) - concat_point L i) * unit_region_size L →
        j < output.width →
        out.entry (concat_point L i * unit_region_size L
            + (a : Int) * output_region_stride L + (t : Int)).toNat j
          = (inputs i).entry ((a : Int) * input_region_stride L i + (t : Int)).toNat j) ∧
      (∀ x : Nat, (x : Int) < num_regions L * output_region_stride L →
        ∃ i a t : Nat, (i < parents.length ∧ (a : Int) < num_regions L ∧
            (t : Int) < (concat_point L (i + 1) - concat_point L i) * unit_region_size L ∧
            (x : Int) = concat_point L i * unit_region_size L
              + (a : Int) * output_region_stride L + (t : Int)) ∧
          ∀ i2 a2 t2 : Nat, i2 < parents.length → (a2 : Int) < num_regions L →
            (t2 : Int) < (concat_point L (i2 + 1) - concat_point L i2) * unit_region_size L →
            (x : Int) = concat_point L i2 * unit_region_size L
              + (a2 : Int) * output_region_stride L + (t2 : Int) →
            i2 = i ∧ a2 = a ∧ t2 = t) := by
  obtain ⟨n, u, pt, hwf, hn, hu, hpt, hod, hn31, hS, htot⟩ := fp_exact L0 L parents hsetup hfit
  obtain ⟨_, hax0, _, haxl, hlen, _⟩ := setup_dims_spec L0 L parents hsetup
  have hguard : ¬ (L.m_concatenation_axis < 0
      ∨ L.m_concatenation_axis ≥ (L.output_dims.length : Int)
      ∨ (0 < parents.length ∧ L.m_concatenation_points.length ≤ parents.length)) := by
    rintro (h1 | h1 | ⟨_, h1⟩) <;> omega
  by_cases hn0 : n = 0
  · subst hn0
    refine ⟨output, ?_, rfl, rfl, ?_, ?_⟩
    · unfold fp_compute
      rw [if_neg hguard]
      exact fp_loops_empty L parents.length (by rw [hn]; rfl) inputs output
    · intro i a t j _ ha
      rw [hn] at ha
      exact absurd ha (by omega)
    · intro x hx
      rw [hn] at hx
      simp only [Nat.cast_zero, zero_mul] at hx
      exact absurd hx (by omega)
  · have hn1 : 1 ≤ n := by omega
    obtain ⟨hos, hstr⟩ := strides_exact L parents.length n u pt hwf hu hpt hod hS htot hn1
    have hin2 : ∀ i, i < parents.length → (inputs i).width = output.width
        ∧ n * ((pt (i + 1) - pt i) * u) ≤ (inputs i).height := by
      intro i hi
      refine ⟨(hin i hi).1, ?_⟩
      have h := (hin i hi).2
      rw [hn, (hstr i hi).1, ← Nat.cast_mul] at h
      exact_mod_cast h
    have hout2 : n * (pt parents.length * u) ≤ output.height := by
      rw [hn, hos, ← Nat.cast_mul] at hout
      exact_mod_cast hout
    obtain ⟨o, ho, hh, hw, he⟩ := copied_all L parents.length n u pt hwf hn hu hpt hod hn31
      hS htot inputs output hin2 hout2
    have hcast_t : ∀ i t : Nat, i < parents.length →
        ((t : Int) < (concat_point L (i + 1) - concat_point L i) * unit_region_size L
          ↔ t < (pt (i + 1) - pt i) * u) := by
      intro i t hi
      rw [hpt (i + 1) (by omega), hpt i (by omega), hu, ← Nat.cast_sub (hwf.2 i hi),
        ← Nat.cast_mul]
      exact Nat.cast_lt
    have hcast_a : ∀ a : Nat, ((a : Int) < num_regions L ↔ a < n) := by
      intro a
      rw [hn]
      exact Nat.cast_lt
    have hcast_x : ∀ x i a t : Nat, i < parents.length →
        ((x : Int) = concat_point L i * unit_region_size L
            + (a : Int) * output_region_stride L + (t : Int)
          ↔ x = pt i * u + a * (pt parents.length * u) + t) := by
      intro x i a t hi
      rw [hpt i (by omega), hu, hos]
      constructor
      · intro h
        have h2 := congrArg Int.toNat h
        rw [fp_index_cast, Int.toNat_ofNat] at h2
        exact h2
      · intro h
        rw [h]
        push_cast
        ring
    refine ⟨o, ?_, hh, hw, ?_, ?_⟩
    · unfold fp_compute
      rw [if_neg hguard]
      exact ho
    · intro i a t j hi ha ht hj
      rw [hpt i (by omega), hu, hos, (hstr i hi).1, fp_index_cast, fp_index_cast_in]
      exact he i a t j (Or.inl ⟨hi, (hcast_a a).1 ha⟩) ((hcast_t i t hi).1 ht) hj
    · intro x hx
      rw [hn, hos, ← Nat.cast_mul] at hx
      have hx2 : x < n * (pt parents.length * u) := by exact_mod_cast hx
      obtain ⟨i, a, t, hi, ha, ht, hxe⟩ :=
        region_row_exists pt parents.length u n hwf x hx2
      refine ⟨i, a, t, ⟨hi, (hcast_a a).2 ha, (hcast_t i t hi).2 ht,
        (hcast_x x i a t hi).2 hxe⟩, ?_⟩
      intro i2 a2 t2 hi2 _ ht2 hx2e
      exact region_row_unique pt parents.length u hwf i2 a2 t2 i a t hi2 hi
        ((hcast_t i2 t2 hi2).1 ht2) ht
        (by rw [← hxe]; exact ((hcast_x x i2 a2 t2 hi2).1 hx2e).symm)

theorem C18_concatenation_fp_compute_witness :
    setup_dims scenario_concat_layer scenario_concat_parents
        = outcome.returned (concatenation_layer.mk 1 [0, 1, 3] [2, 3, 2]) ∧
      ∃ out, fp_compute (concatenation_layer.mk 1 [0, 1, 3] [2, 3, 2])
          scenario_concat_parents.length scenario_concat_inputs scenario_concat_output
            = some out ∧
        out.height = scenario_concat_output.height ∧
        out.width = scenario_concat_output.width ∧
        (List.range 12).map (fun x => out.entry x 0)
          = [0, 1, 100, 101, 102, 103, 2, 3, 104, 105, 106, 107] := by
  refine ⟨rfl, ?_⟩
  obtain ⟨out, h1, h2, h3, _, _⟩ := C18_concatenation_fp_compute scenario_concat_layer
    (concatenation_layer.mk 1 [0, 1, 3] [2, 3, 2])
    scenario_concat_parents scenario_concat_inputs scenario_concat_output rfl (by decide)
    (by decide) (by decide)
  refine ⟨out, h1, h2, h3, ?_⟩
  have e : some out = some _ := h1.symm.trans (by rfl)
  injection e with e
  rw [e]
  decide

/-! ## Failed and successful pool requests -/

/-- C27: a `get_collective_buffer(size, idx)` call that returns the null handle leaves the
pool exactly as it was, key map and allocations alike; and every call, whatever it returns,
keeps every buffer stored under a `(size, slot)` key, makes at most one allocation (of `size`
bytes) and adds at most one mapping, the one for `(size, idx)`, to the new allocation. -/
theorem C27_pool_preservation (size idx : Nat) (pool : buffer_pool) :
    ((get_collective_buffer size idx pool).1 = none →
      (get_collective_buffer size idx pool).2 = pool) ∧
    (∀ s i b, slot pool s i = some b →
      slot (get_collective_buffer size idx pool).2 s i = some b) ∧
    ((get_collective_buffer size idx pool).2.heap = pool.heap ∨
      (get_collective_buffer size idx pool).2.heap = pool.heap ++ [size]) ∧
    (∀ s i b, slot (get_collective_buffer size idx pool).2 s i = some b →
      slot pool s i = some b ∨
        (s = size ∧ i = idx ∧ b = pool.heap.length ∧ slot pool s i = none ∧
          (get_collective_buffer size idx pool).1 = some b ∧
          (get_collective_buffer size idx pool).2.heap = pool.heap ++ [size])) := by
  rcases gcb_cases size idx pool with ⟨h1, _⟩ | ⟨b1, h1, _, _⟩ | ⟨v, h1, hv, hl⟩
  · rw [h1]
    exact ⟨fun _ => rfl, fun _ _ _ h => h, Or.inl rfl, fun _ _ _ h => Or.inl h⟩
  · rw [h1]
    refine ⟨fun h => ?_, fun _ _ _ h => h, Or.inl rfl, fun _ _ _ h => Or.inl h⟩
    exact Option.noConfusion h
  · rw [h1]
    refine ⟨fun h => ?_, ?_, Or.inr rfl, ?_⟩
    · exact Option.noConfusion h
    · intro s i b h
      have := gcb_slot_mono size idx pool s i b h
      rw [h1] at this
      exact this
    · intro s i b h
      simp only at h
      rw [slot_push_new_buffer pool size v hv] at h
      by_cases hc : s = size ∧ i = v.length
      · rw [if_pos hc] at h
        right
        obtain ⟨hs, hi⟩ := hc
        subst hs
        refine ⟨rfl, by omega, (Option.some.inj h).symm, ?_, ?_, rfl⟩
        · unfold slot
          rw [hv]
          exact List.getElem?_eq_none (by omega)
        · rw [← Option.some.inj h]
      · rw [if_neg hc] at h
        exact Or.inl h

/-! ## The dispatcher never trips the power-of-two check -/

theorem pe_ring_never_throws {α : Type} (A : call_args α) (init : Nat → proc α)
    (rank : Nat) (msg : String) (s : proc α) :
    pe_ring_allreduce A init rank ≠ outcome.threw msg s := by
  unfold pe_ring_allreduce
  intro h
  split at h
  · exact outcome.noConfusion h
  · simp only at h
    split at h <;> exact outcome.noConfusion h

/-- C24: when the inter-model communicator has `get_num_models()` members (`A.nprocs =
num_models ≥ 1`), `intermodel_allreduce` never ends in an exception, whatever the matrix
shape: whenever the dispatcher selects `recursive_doubling_allreduce_pow2` the participant
count is a power of two, the check `nprocs & (nprocs - 1)` of that routine is zero and the
routine does not throw. -/
theorem C24_dispatch_never_throws {α : Type} (num_models : Nat) (A : call_args α)
    (init : Nat → proc α) (rank : Nat) (hn : 1 ≤ A.nprocs) (hm : A.nprocs = num_models) :
    (∀ msg s, intermodel_allreduce num_models A init rank ≠ outcome.threw msg s) ∧
    (allreduce_algorithm.recursive_doubling_allreduce_pow2
        ∈ intermodel_allreduce_calls num_models (init rank).mat.height (init rank).mat.width →
      A.nprocs &&& (A.nprocs - 1) = 0 ∧ (∃ k, A.nprocs = 2 ^ k) ∧
      intermodel_allreduce num_models A init rank
        = recursive_doubling_allreduce_pow2 A init rank ∧
      ∀ msg s, recursive_doubling_allreduce_pow2 A init rank ≠ outcome.threw msg s) := by
  subst hm
  have hrd : A.nprocs &&& (A.nprocs - 1) = 0 →
      ∀ msg s, recursive_doubling_allreduce_pow2 A init rank ≠ outcome.threw msg s := by
    intro h0 msg s h
    have := (rd_threw_iff A init rank).1 ⟨msg, s, h⟩
    exact this.2 h0
  constructor
  · intro msg s
    unfold intermodel_allreduce
    by_cases h1 : A.nprocs &&& (A.nprocs - 1) = 0
    · rw [if_neg (by simpa using h1)]
      split
      · exact hrd h1 msg s
      · exact pe_ring_never_throws A init rank msg s
    · rw [if_pos h1]
      exact pe_ring_never_throws A init rank msg s
  · intro hsel
    unfold intermodel_allreduce_calls at hsel
    by_cases h1 : A.nprocs &&& (A.nprocs - 1) = 0
    · refine ⟨h1, (and_pred_eq_zero_iff A.nprocs hn).1 h1, ?_, hrd h1⟩
      by_cases h2 : (init rank).mat.height ≤ 64 ∧ (init rank).mat.width ≤ 64
      · unfold intermodel_allreduce
        rw [if_neg (by simpa using h1), if_pos h2]
      · simp [h1, h2] at hsel
    · simp [h1] at hsel

theorem C24_dispatch_never_throws_witness :
    (∀ msg s, intermodel_allreduce 4 scenario_rd_args scenario_rd_init 1
      ≠ outcome.threw msg s) ∧
    (allreduce_algorithm.recursive_doubling_allreduce_pow2
        ∈ intermodel_allreduce_calls 4 (scenario_rd_init 1).mat.height
            (scenario_rd_init 1).mat.width →
      scenario_rd_args.nprocs &&& (scenario_rd_args.nprocs - 1) = 0 ∧
      (∃ k, scenario_rd_args.nprocs = 2 ^ k) ∧
      intermodel_allreduce 4 scenario_rd_args scenario_rd_init 1
        = recursive_doubling_allreduce_pow2 scenario_rd_args scenario_rd_init 1 ∧
      ∀ msg s, recursive_doubling_allreduce_pow2 scenario_rd_args scenario_rd_init 1
        ≠ outcome.threw msg s) :=
  C24_dispatch_never_throws 4 scenario_rd_args scenario_rd_init 1 (by decide) rfl

/-! ## The node-local branch of the ring reduce-scatter -/

/-- C23: in the two-node scenario rank 0, whose ring destination rank 1 is node-local, sends
at each of the steps 0, 1, 2 of the reduce-scatter of `ring_allreduce` the raw view of slice
1 (columns `[1, 2)`), the slice of its destination, and not slice `(0 - s + 4) % 4`, which is
slice 0 (columns `[0, 1)`) at step 0; rank 1, whose destination is not node-local, sends
slice `(1 - s + 4) % 4`; and the call leaves `[53, 55, 13, 37]` on rank 0 where the
element-wise sum is `[60, 64, 68, 72]`. -/
theorem C23_ring_local_send_slice :
    (ring_rs_send scenario_rab_args 0 0 (scenario_rab_init 0)).1
        = view (scenario_rab_init 0).mat IR.ALL (slice_range 4 4 1) ∧
      (ring_rs_send scenario_rab_args 0 1 (scenario_rab_init 0)).1
        = view (scenario_rab_init 0).mat IR.ALL (slice_range 4 4 1) ∧
      (ring_rs_send scenario_rab_args 0 2 (scenario_rab_init 0)).1
        = view (scenario_rab_init 0).mat IR.ALL (slice_range 4 4 1) ∧
      slice_range 4 4 1 = IR.range 1 2 ∧
      slice_range 4 4 (int_mod ((0 : Int) - 0 + 4) 4) = IR.range 0 1 ∧
      (ring_rs_send scenario_rab_args 0 0 (scenario_rab_init 0)).1.entry 0 0 = 1 ∧
      (view (scenario_rab_init 0).mat IR.ALL
        (slice_range 4 4 (int_mod ((0 : Int) - 0 + 4) 4))).entry 0 0 = 0 ∧
      (ring_rs_send scenario_rab_args 1 0 (scenario_rab_init 1)).1
        = view (scenario_rab_init 1).mat IR.ALL
            (slice_range 4 4 (int_mod ((1 : Int) - 0 + 4) 4)) ∧
      (ring_rs_send scenario_rab_args 1 1 (scenario_rab_init 1)).1
        = view (scenario_rab_init 1).mat IR.ALL
            (slice_range 4 4 (int_mod ((1 : Int) - 1 + 4) 4)) ∧
      (ring_rs_send scenario_rab_args 1 2 (scenario_rab_init 1)).1
        = view (scenario_rab_init 1).mat IR.ALL
            (slice_range 4 4 (int_mod ((1 : Int) - 2 + 4) 4)) ∧
      final_row (ring_allreduce scenario_rab_args scenario_rab_init 0) 0 = [53, 55, 13, 37] ∧
      (List.range 4).map (fun j => (List.range 4).foldl
          (fun acc r => acc + (scenario_rab_init r).mat.entry 0 j) 0) = [60, 64, 68, 72] := by
  refine ⟨rfl, rfl, rfl, rfl, rfl, by decide, by decide, rfl, rfl, rfl, by decide,
    by decide⟩

/-! ## The received-bytes counters of the pairwise-exchange allreduce -/

/-- C28: in the sparse scenario (2 ranks holding `[5, 0]` and `[7, 9]`, callbacks reporting
eight bytes per non-zero entry, all counters at zero before the call) `pe_ring_allreduce`
leaves the sums `[12, 9]` on rank 0 and has added 16 to `ar_bytes_received` but 0 to
`ar_rs_bytes_received` and 8 to `ar_ag_bytes_received`: the phase counters are advanced by
`send_size`, the total by `recv_size`. -/
theorem C28_pe_received_counters :
    final_row (pe_ring_allreduce scenario_sparse_args scenario_sparse_init 0) 0 = [12, 9] ∧
    received_counters (pe_ring_allreduce scenario_sparse_args scenario_sparse_init 0)
      = some (16, 0, 8) ∧
    (scenario_sparse_init 0).comm.ar_bytes_received = 0 ∧
    (scenario_sparse_init 0).comm.ar_rs_bytes_received = 0 ∧
    (scenario_sparse_init 0).comm.ar_ag_bytes_received = 0 ∧
    (16 : Nat) ≠ 0 + 8 ∧
    received_counters (ring_allreduce scenario_sparse_args scenario_sparse_init 0)
      = some (16, 8, 8) := by
  refine ⟨by decide, by decide, rfl, rfl, rfl, by decide, by decide⟩

/-! ## RMSprop update: proofs -/

theorem strided_pos_unique (ld h i j i2 j2 : Nat) (hld : h ≤ ld) (hi : i < h) (hi2 : i2 < h)
    (heq : i + j * ld = i2 + j2 * ld) : i = i2 ∧ j = j2 := by
  have hpos : 0 < ld := by omega
  have e1 : (i + j * ld) / ld = j := by
    rw [Nat.add_mul_div_right _ _ hpos, Nat.div_eq_of_lt (by omega), Nat.zero_add]
  have e2 : (i2 + j2 * ld) / ld = j2 := by
    rw [Nat.add_mul_div_right _ _ hpos, Nat.div_eq_of_lt (by omega), Nat.zero_add]
  have hj : j = j2 := by rw [← e1, ← e2, heq]
  subst hj
  exact ⟨by omega, rfl⟩

theorem rms_inv_congr {α : Type} (O : scalar_ops α) (R : rmsprop α) (pl gl cl : Nat)
    (g : Nat → α) (s0 s : rms_state α) (done done2 : Nat → Nat → Prop)
    (hd : ∀ i j, done2 i j ↔ done i j) (h : rms_inv O R pl gl cl g s0 done s) :
    rms_inv O R pl gl cl g s0 done2 s := by
  obtain ⟨h1, h2, h3⟩ := h
  refine ⟨fun i j hij => h1 i j ((hd i j).1 hij), ?_, ?_⟩
  · intro p hp
    exact h2 p (fun i j hij => hp i j ((hd i j).2 hij))
  · intro p hp
    exact h3 p (fun i j hij => hp i j ((hd i j).2 hij))

/-- One run of the loop body at a position not updated so far adds that position to the
updated ones. -/
theorem rms_inv_step {α : Type} (O : scalar_ops α) (R : rmsprop α) (h pl gl cl : Nat)
    (g : Nat → α) (s0 s : rms_state α) (done : Nat → Nat → Prop) (I J : Nat)
    (hpl : h ≤ pl) (hcl : h ≤ cl) (hI : I < h) (hdone : ∀ i j, done i j → i < h)
    (hnew : ¬ done I J) (hinv : rms_inv O R pl gl cl g s0 done s) :
    rms_inv O R pl gl cl g s0 (fun i j => done i j ∨ (i = I ∧ j = J))
      (rms_step O R g (I + J * pl) (I + J * gl) (I + J * cl) s) := by
  obtain ⟨h1, h2, h3⟩ := hinv
  have hpx : ∀ i j, done i j → I + J * pl ≠ i + j * pl := by
    intro i j hij hc
    have := strided_pos_unique pl h I J i j hpl hI (hdone i j hij) hc
    rw [this.1, this.2] at hnew
    exact hnew hij
  have hcx : ∀ i j, done i j → I + J * cl ≠ i + j * cl := by
    intro i j hij hc
    have := strided_pos_unique cl h I J i j hcl hI (hdone i j hij) hc
    rw [this.1, this.2] at hnew
    exact hnew hij
  have hx0 := h2 _ hpx
  have hc0 := h3 _ hcx
  refine ⟨?_, ?_, ?_⟩
  · intro i j hij
    rcases hij with hij | ⟨rfl, rfl⟩
    · have n1 : i + j * pl ≠ I + J * pl := fun hc => hpx i j hij hc.symm
      have n2 : i + j * cl ≠ I + J * cl := fun hc => hcx i j hij hc.symm
      simp only [rms_step, if_neg n1, if_neg n2]
      exact h1 i j hij
    · simp only [rms_step, if_true]
      rw [hx0.1, hc0.1, hx0.2, hc0.2]
      exact ⟨rfl, rfl, rfl, rfl⟩
  · intro p hp
    have n1 : p ≠ I + J * pl := hp I J (Or.inr ⟨rfl, rfl⟩)
    simp only [rms_step, if_neg n1]
    exact h2 p (fun i j hij => hp i j (Or.inl hij))
  · intro p hp
    have n1 : p ≠ I + J * cl := hp I J (Or.inr ⟨rfl, rfl⟩)
    simp only [rms_step, if_neg n1]
    exact h3 p (fun i j hij => hp i j (Or.inl hij))

theorem rms_inv_init {α : Type} (O : scalar_ops α) (R : rmsprop α) (pl gl cl : Nat)
    (g : Nat → α) (s0 : rms_state α) (done : Nat → Nat → Prop) (hd : ∀ i j, ¬ done i j) :
    rms_inv O R pl gl cl g s0 done s0 :=
  ⟨fun i j hij => absurd hij (hd i j), fun _ _ => ⟨rfl, rfl⟩, fun _ _ => ⟨rfl, rfl⟩⟩

/-- The non-contiguous branch updates exactly the positions `(i, j)` with `i < h`,
`j < w`. -/
theorem update_noncontiguous_inv {α : Type} (O : scalar_ops α) (R : rmsprop α)
    (h w pl gl cl : Nat) (g : Nat → α) (s0 : rms_state α) (hpl : h ≤ pl) (hcl : h ≤ cl) :
    rms_inv O R pl gl cl g s0 (fun i j => i < h ∧ j < w)
      (update_noncontiguous O R h w pl gl cl g s0) := by
  unfold update_noncontiguous
  apply for_loop_induct
    (fun J s => rms_inv O R pl gl cl g s0 (fun i j => i < h ∧ j < J) s) 0 w
  · exact Nat.zero_le _
  · exact rms_inv_init O R pl gl cl g s0 _ (fun i j hc => by omega)
  · intro J s _ hJ hP
    have hin := for_loop_induct
      (fun I s2 => rms_inv O R pl gl cl g s0
        (fun i j => i < h ∧ (j < J ∨ (j = J ∧ i < I))) s2) 0 h
      (fun i s2 => rms_step O R g (i + J * pl) (i + J * gl) (i + J * cl) s2) s
      (Nat.zero_le _)
      (rms_inv_congr O R pl gl cl g s0 s _ _ (fun i j => by omega) hP)
      (fun I s2 _ hI hP2 => by
        have := rms_inv_step O R h pl gl cl g s0 s2 _ I J hpl hcl hI
          (fun i j hij => hij.1) (by omega) hP2
        exact rms_inv_congr O R pl gl cl g s0 _ _ _ (fun i j => by omega) this)
    exact rms_inv_congr O R pl gl cl g s0 _ _ _ (fun i j => by omega) hin

/-- The contiguous branch updates exactly the positions below `h * w`. -/
theorem update_contiguous_inv {α : Type} (O : scalar_ops α) (R : rmsprop α)
    (h w : Nat) (g : Nat → α) (s0 : rms_state α) :
    rms_inv O R (h * w) (h * w) (h * w) g s0 (fun i j => i < h * w ∧ j = 0)
      (update_contiguous O R h w g s0) := by
  unfold update_contiguous
  apply for_loop_induct
    (fun K s => rms_inv O R (h * w) (h * w) (h * w) g s0 (fun i j => i < K ∧ j = 0) s)
    0 (h * w)
  · exact Nat.zero_le _
  · exact rms_inv_init O R _ _ _ g s0 _ (fun i j hc => by omega)
  · intro K s _ hK hP
    have := rms_inv_step O R (h * w) (h * w) (h * w) (h * w) g s0 s _ K 0 (Nat.le_refl _)
      (Nat.le_refl _) hK (fun i j hij => by omega) (by omega) hP
    simp only [Nat.zero_mul, Nat.add_zero] at this
    exact rms_inv_congr O R _ _ _ g s0 _ _ _ (fun i j => by omega) this

theorem strided_pos_iff (h w p : Nat) :
    (∃ i j, i < h ∧ j < w ∧ p = i + j * h) ↔ p < h * w := by
  constructor
  · rintro ⟨i, j, hi, hj, rfl⟩
    have h1 : (j + 1) * h ≤ w * h := Nat.mul_le_mul_right h (by omega)
    have h2 : (j + 1) * h = j * h + h := by ring
    rw [Nat.mul_comm h w]
    omega
  · intro hp
    have hpos : 0 < h := by
      rcases Nat.eq_zero_or_pos h with h0 | h0
      · rw [h0] at hp; simp at hp
      · exact h0
    refine ⟨p % h, p / h, Nat.mod_lt _ hpos, ?_, ?_⟩
    · apply (Nat.div_lt_iff_lt_mul hpos).2
      rw [Nat.mul_comm]; exact hp
    · have := Nat.mod_add_div p h
      rw [Nat.mul_comm] at this
      exact this.symm

theorem rms_state_ext {α : Type} (s1 s2 : rms_state α)
    (h1 : ∀ p, s1.parameters_buffer p = s2.parameters_buffer p)
    (h2 : ∀ p, s1.cache_buffer p = s2.cache_buffer p)
    (h3 : ∀ p, s1.x_updates p = s2.x_updates p)
    (h4 : ∀ p, s1.c_updates p = s2.c_updates p) : s1 = s2 := by
  cases s1
  cases s2
  simp only [rms_state.mk.injEq]
  exact ⟨funext h1, funext h2, funext h3, funext h4⟩

/-- With all leading dimensions equal to the height the two branches compute the same
buffers. -/
theorem update_branches_agree {α : Type} (O : scalar_ops α) (R : rmsprop α)
    (h w : Nat) (g : Nat → α) (s0 : rms_state α) :
    update_noncontiguous O R h w h h h g s0 = update_contiguous O R h w g s0 := by
  obtain ⟨a1, a2, a3⟩ := update_noncontiguous_inv O R h w h h h g s0 (Nat.le_refl _)
    (Nat.le_refl _)
  obtain ⟨b1, b2, b3⟩ := update_contiguous_inv O R h w g s0
  have key : ∀ p, p < h * w →
      (update_noncontiguous O R h w h h h g s0).parameters_buffer p
        = (update_contiguous O R h w g s0).parameters_buffer p ∧
      (update_noncontiguous O R h w h h h g s0).cache_buffer p
        = (update_contiguous O R h w g s0).cache_buffer p ∧
      (update_noncontiguous O R h w h h h g s0).x_updates p
        = (update_contiguous O R h w g s0).x_updates p ∧
      (update_noncontiguous O R h w h h h g s0).c_updates p
        = (update_contiguous O R h w g s0).c_updates p := by
    intro p hp
    obtain ⟨i, j, hi, hj, rfl⟩ := (strided_pos_iff h w p).2 hp
    have ha := a1 i j ⟨hi, hj⟩
    have hb := b1 (i + j * h) 0 ⟨hp, rfl⟩
    simp only [Nat.zero_mul, Nat.add_zero] at hb
    exact ⟨ha.1.trans hb.1.symm, ha.2.1.trans hb.2.1.symm, ha.2.2.1.trans hb.2.2.1.symm,
      ha.2.2.2.trans hb.2.2.2.symm⟩
  have out1 : ∀ p, ¬ p < h * w → ∀ i j, i < h ∧ j < w → p ≠ i + j * h := by
    intro p hp i j hij hc
    exact hp ((strided_pos_iff h w p).1 ⟨i, j, hij.1, hij.2, hc⟩)
  have out2 : ∀ p, ¬ p < h * w → ∀ i j, i < h * w ∧ j = 0 → p ≠ i + j * (h * w) := by
    intro p hp i j hij hc
    rw [hij.2] at hc
    omega
  apply rms_state_ext
  · intro p
    by_cases hp : p < h * w
    · exact (key p hp).1
    · rw [(a2 p (out1 p hp)).1, (b2 p (out2 p hp)).1]
  · intro p
    by_cases hp : p < h * w
    · exact (key p hp).2.1
    · rw [(a3 p (out1 p hp)).1, (b3 p (out2 p hp)).1]
  · intro p
    by_cases hp : p < h * w
    · exact (key p hp).2.2.1
    · rw [(a2 p (out1 p hp)).2, (b2 p (out2 p hp)).2]
  · intro p
    by_cases hp : p < h * w
    · exact (key p hp).2.2.2
    · rw [(a3 p (out1 p hp)).2, (b3 p (out2 p hp)).2]

/-- C30: in `rmsprop::update` with parameter and cache leading dimensions at least
`local_height` (the gradient buffer is only read), the non-contiguous branch, which is the
one taken when some leading dimension differs from `local_height`, leaves at every position
`i + j * ldim` with `i < local_height`, `j < local_width` the cache value
`c1 = decay * c + (1 - decay) * g * g` and the parameter `x - lr * g / (Sqrt(c1) + eps)`,
where `x`, `g`, `c` are the initial values at that position, each such position of the
parameter and of the cache buffer being updated exactly once, and leaves every other
position untouched; and when all leading dimensions equal `local_height` these positions
are exactly `0 .. local_height * local_width - 1` and the branch computes the same buffers
as the contiguous branch, which is the one then taken. -/
theorem C30_rmsprop_update {α : Type} (O : scalar_ops α) (R : rmsprop α)
    (h w pl gl cl : Nat) (g : Nat → α) (s0 : rms_state α) (hpl : h ≤ pl) (hcl : h ≤ cl) :
    ((pl ≠ h ∨ gl ≠ h ∨ cl ≠ h) →
      rmsprop.update O R h w pl gl cl g s0 = update_noncontiguous O R h w pl gl cl g s0) ∧
    (∀ i j, i < h → j < w →
      (update_noncontiguous O R h w pl gl cl g s0).cache_buffer (i + j * cl)
        = O.add (O.mul R.m_decay_rate (s0.cache_buffer (i + j * cl)))
            (O.mul (O.mul (O.sub O.one R.m_decay_rate) (g (i + j * gl))) (g (i + j * gl))) ∧
      (update_noncontiguous O R h w pl gl cl g s0).parameters_buffer (i + j * pl)
        = O.sub (s0.parameters_buffer (i + j * pl))
            (O.div (O.mul R.m_learning_rate (g (i + j * gl)))
              (O.add
                (O.Sqrt (O.add (O.mul R.m_decay_rate (s0.cache_buffer (i + j * cl)))
                  (O.mul (O.mul (O.sub O.one R.m_decay_rate) (g (i + j * gl)))
                    (g (i + j * gl)))))
                R.m_eps)) ∧
      (update_noncontiguous O R h w pl gl cl g s0).x_updates (i + j * pl)
        = s0.x_updates (i + j * pl) + 1 ∧
      (update_noncontiguous O R h w pl gl cl g s0).c_updates (i + j * cl)
        = s0.c_updates (i + j * cl) + 1) ∧
    (∀ p, (∀ i j, i < h → j < w → p ≠ i + j * pl) →
      (update_noncontiguous O R h w pl gl cl g s0).parameters_buffer p
        = s0.parameters_buffer p ∧
      (update_noncontiguous O R h w pl gl cl g s0).x_updates p = s0.x_updates p) ∧
    (∀ p, (∀ i j, i < h → j < w → p ≠ i + j * cl) →
      (update_noncontiguous O R h w pl gl cl g s0).cache_buffer p = s0.cache_buffer p ∧
      (update_noncontiguous O R h w pl gl cl g s0).c_updates p = s0.c_updates p) ∧
    ((pl = h ∧ gl = h ∧ cl = h) →
      (∀ p, (∃ i j, i < h ∧ j < w ∧ p = i + j * pl) ↔ p < h * w) ∧
      update_noncontiguous O R h w pl gl cl g s0 = update_contiguous O R h w g s0 ∧
      rmsprop.update O R h w pl gl cl g s0 = update_contiguous O R h w g s0 ∧
      ∀ p, p < h * w →
        (update_contiguous O R h w g s0).cache_buffer p
          = O.add (O.mul R.m_decay_rate (s0.cache_buffer p))
              (O.mul (O.mul (O.sub O.one R.m_decay_rate) (g p)) (g p)) ∧
        (update_contiguous O R h w g s0).parameters_buffer p
          = O.sub (s0.parameters_buffer p)
              (O.div (O.mul R.m_learning_rate (g p))
                (O.add
                  (O.Sqrt (O.add (O.mul R.m_decay_rate (s0.cache_buffer p))
                    (O.mul (O.mul (O.sub O.one R.m_decay_rate) (g p)) (g p))))
                  R.m_eps)) ∧
        (update_contiguous O R h w g s0).x_updates p = s0.x_updates p + 1 ∧
        (update_contiguous O R h w g s0).c_updates p = s0.c_updates p + 1) := by
  obtain ⟨a1, a2, a3⟩ := update_noncontiguous_inv O R h w pl gl cl g s0 hpl hcl
  refine ⟨?_, ?_, ?_, ?_, ?_⟩
  · intro hne
    unfold rmsprop.update
    rw [if_pos hne]
  · intro i j hi hj
    obtain ⟨b1, b2, b3, b4⟩ := a1 i j ⟨hi, hj⟩
    exact ⟨b2, b1, b3, b4⟩
  · intro p hp
    exact a2 p (fun i j hij => hp i j hij.1 hij.2)
  · intro p hp
    exact a3 p (fun i j hij => hp i j hij.1 hij.2)
  · rintro ⟨e1, e2, e3⟩
    rw [e1, e2, e3]
    refine ⟨fun p => strided_pos_iff h w p, update_branches_agree O R h w g s0, ?_, ?_⟩
    · unfold rmsprop.update
      rw [if_neg (by simp)]
    · intro p hp
      obtain ⟨i, j, hi, hj, hpe⟩ := (strided_pos_iff h w p).2 hp
      obtain ⟨c1, _, _⟩ := update_noncontiguous_inv O R h w h h h g s0
        (Nat.le_refl _) (Nat.le_refl _)
      obtain ⟨b1, b2, b3, b4⟩ := c1 i j ⟨hi, hj⟩
      rw [← update_branches_agree O R h w g s0, hpe]
      exact ⟨b2, b1, b3, b4⟩

theorem C30_rmsprop_update_witness :
    (update_noncontiguous scenario_rms_ops scenario_rms 2 2 3 4 5 scenario_rms_gradient
        scenario_rms_state).cache_buffer (1 + 1 * 5) = 25 / 2 ∧
    (update_noncontiguous scenario_rms_ops scenario_rms 2 2 3 4 5 scenario_rms_gradient
        scenario_rms_state).parameters_buffer (1 + 1 * 3) = 98 / 27 ∧
    (update_noncontiguous scenario_rms_ops scenario_rms 2 2 3 4 5 scenario_rms_gradient
        scenario_rms_state).x_updates (1 + 1 * 3) = 1 := by
  obtain ⟨h1, h2, h3, _⟩ := (C30_rmsprop_update scenario_rms_ops scenario_rms 2 2 3 4 5
    scenario_rms_gradient scenario_rms_state (by decide) (by decide)).2.1 1 1
    (by decide) (by decide)
  rw [h1, h2, h3]
  refine ⟨?_, ?_, ?_⟩
  · norm_num [scenario_rms_ops, scenario_rms, scenario_rms_gradient, scenario_rms_state]
  · norm_num [scenario_rms_ops, scenario_rms, scenario_rms_gradient, scenario_rms_state]
  · rfl

/-! ## Buffers of the ring allgather: proofs -/

theorem pe_ag_phase_eq_steps {α : Type} (A : call_args α) (sts : Nat → Option (proc α))
    (hn : 2 ≤ A.nprocs) : pe_ag_phase A sts = pe_ag_steps A (A.nprocs - 2) sts := by
  unfold pe_ag_phase pe_ag_steps
  have e : 1 + (A.nprocs - 2) = A.nprocs - 1 := by omega
  rw [e]

theorem ring_ag_phase_eq_steps {α : Type} (A : call_args α) (sts : Nat → Option (proc α))
    (hn : 2 ≤ A.nprocs) : ring_ag_phase A sts = ring_ag_steps A (A.nprocs - 2) sts := by
  unfold ring_ag_phase ring_ag_steps
  have e : 1 + (A.nprocs - 2) = A.nprocs - 1 := by omega
  rw [e]

theorem setup_holds_first_buffer {α : Type} (A : call_args α) (p : proc α)
    (hwf : pool_wf p.comm.pool) :
    ∃ a, holds_first_buffer A a (pe_setup A p) ∧ holds_first_buffer A a (ring_setup A p) := by
  cases hres : (get_collective_buffer A.max_recv_count 0 p.comm.pool).1 with
  | none =>
    have := (gcb_null_iff A.max_recv_count 0 p.comm.pool).1 hres
    omega
  | some a =>
    have h1 : (pe_setup A p).max_recv_buf = bufptr.scratch a := by
      simp [pe_setup, acquire, hres, bufptr.of_result]
    have h2 : (ring_setup A p).max_recv_buf = bufptr.scratch a := by
      simp [ring_setup, acquire, hres, bufptr.of_result]
    exact ⟨a, ⟨h1, rfl, pool_wf_gcb _ _ _ hwf, gcb_result_slot _ _ _ _ hres⟩,
      ⟨h2, rfl, pool_wf_gcb _ _ _ hwf, gcb_result_slot _ _ _ _ hres⟩⟩

/-- The first buffer after an optional request for slot 0 of another size. -/
theorem holds_first_acquire {α : Type} (A : call_args α) (a size : Nat) (c : Bool)
    (p : proc α) (hb : holds_first_buffer A a p) :
    (if c = true then acquire size 0 p else (p.max_recv_buf, p)).2.max_recv_buf
        = bufptr.scratch a ∧
      (if c = true then acquire size 0 p else (p.max_recv_buf, p)).2.max_recv_count
        = A.max_recv_count ∧
      pool_wf (if c = true then acquire size 0 p else (p.max_recv_buf, p)).2.comm.pool ∧
      slot (if c = true then acquire size 0 p else (p.max_recv_buf, p)).2.comm.pool
        A.max_recv_count 0 = some a := by
  obtain ⟨hbuf, hcnt, hwf, hslot⟩ := hb
  cases c with
  | true =>
    simp only [if_true]
    exact ⟨hbuf, hcnt, pool_wf_gcb _ _ _ hwf, gcb_slot_mono _ _ _ _ _ _ hslot⟩
  | false =>
    simp only [Bool.false_eq_true, if_false]
    exact ⟨hbuf, hcnt, hwf, hslot⟩

/-- A reduce-scatter step of `pe_ring_allreduce` that comes back keeps the first buffer,
whatever the callbacks and the sizes. -/
theorem pe_rs_iter_keeps {α : Type} (A : call_args α) (rank step : Nat)
    (incoming : Mat α × Nat) (p p1 : proc α) (a : Nat)
    (h : pe_rs_iter A rank step incoming p = some p1) (hb : holds_first_buffer A a p) :
    holds_first_buffer A a p1 := by
  unfold pe_rs_iter at h
  simp only at h
  split at h
  · exact Option.noConfusion h
  · rename_i p2 hst
    split at h
    · exact Option.noConfusion h
    · injection h with h
      subst h
      obtain ⟨_, hc, _, _, hmb, hmc, _, _⟩ := receive_log _ _ _ _ _ _ hst
      obtain ⟨g1, g2, g3, g4⟩ := holds_first_acquire A a
        (if (A.no_local_trans && A.is_rank_node_local rank
            (int_mod ((rank : Int) - (step : Int) + (A.nprocs : Int)) A.nprocs)) = true
          then A.sizeof_DataType
            * (view p.mat IR.ALL (slice_range p.mat.width A.nprocs rank)).height
            * (view p.mat IR.ALL (slice_range p.mat.width A.nprocs rank)).width
          else p.max_recv_count)
        (A.no_local_trans && A.is_rank_node_local rank
          (int_mod ((rank : Int) - (step : Int) + (A.nprocs : Int)) A.nprocs)) p hb
      refine ⟨?_, ?_, ?_, ?_⟩
      · exact hmb.trans g1
      · exact hmc.trans g2
      · show pool_wf p2.comm.pool
        rw [hc]; exact g3
      · show slot p2.comm.pool A.max_recv_count 0 = some a
        rw [hc]; exact g4

/-- A reduce-scatter step of `ring_allreduce` that comes back keeps the first buffer,
whatever the callbacks and the sizes. -/
theorem ring_rs_iter_keeps {α : Type} (A : call_args α) (rank step : Nat)
    (incoming : Mat α × Nat) (p p1 : proc α) (a : Nat)
    (h : ring_rs_iter A rank step incoming p = some p1) (hb : holds_first_buffer A a p) :
    holds_first_buffer A a p1 := by
  unfold ring_rs_iter at h
  simp only at h
  split at h
  · exact Option.noConfusion h
  · rename_i p2 hst
    split at h
    · exact Option.noConfusion h
    · injection h with h
      subst h
      obtain ⟨_, hc, _, _, hmb, hmc, _, _⟩ := receive_log _ _ _ _ _ _ hst
      obtain ⟨g1, g2, g3, g4⟩ := holds_first_acquire A a
        (if (A.no_local_trans && A.is_rank_node_local rank
            (int_mod ((rank : Int) - 1 + (A.nprocs : Int)) A.nprocs)) = true
          then A.sizeof_DataType
          * (view p.mat IR.ALL (slice_range p.mat.width A.nprocs
              (int_mod ((rank : Int) - (step : Int) - 1 + (A.nprocs : Int)) A.nprocs))).height
          * (view p.mat IR.ALL (slice_range p.mat.width A.nprocs
              (int_mod ((rank : Int) - (step : Int) - 1 + (A.nprocs : Int)) A.nprocs))).width
          else p.max_recv_count)
        (A.no_local_trans && A.is_rank_node_local rank
          (int_mod ((rank : Int) - 1 + (A.nprocs : Int)) A.nprocs)) p hb
      refine ⟨?_, ?_, ?_, ?_⟩
      · exact hmb.trans g1
      · exact hmc.trans g2
      · show pool_wf p2.comm.pool
        rw [hc]; exact g3
      · show slot p2.comm.pool A.max_recv_count 0 = some a
        rw [hc]; exact g4

theorem pe_rs_loop_keeps {α : Type} (A : call_args α) (init : Nat → proc α)
    (hn : 1 ≤ A.nprocs) (hwf : ∀ r, r < A.nprocs → pool_wf (init r).comm.pool) :
    ∀ r, r < A.nprocs → ∀ p, pe_rs_loop A (fun r => some (pe_setup A (init r))) r = some p →
      ∃ a, holds_first_buffer A a p := by
  unfold pe_rs_loop
  apply for_loop_induct (fun _ (st : Nat → Option (proc α)) =>
    ∀ r, r < A.nprocs → ∀ p, st r = some p → ∃ a, holds_first_buffer A a p) 1 A.nprocs
  · exact hn
  · intro r hr p hp
    injection hp with hp
    subst hp
    obtain ⟨a, ha, _⟩ := setup_holds_first_buffer A (init r) (hwf r hr)
    exact ⟨a, ha⟩
  · intro s st _ _ hP r hr p1 h1
    obtain ⟨p, data, hp, hb⟩ := sendrecv_all_some _ _ _ _ _ _ _ _ h1
    obtain ⟨a, ha⟩ := hP r hr p hp
    exact ⟨a, pe_rs_iter_keeps A r s data p p1 a hb ha⟩

theorem ring_rs_loop_keeps {α : Type} (A : call_args α) (init : Nat → proc α)
    (hwf : ∀ r, r < A.nprocs → pool_wf (init r).comm.pool) :
    ∀ r, r < A.nprocs → ∀ p,
      ring_rs_loop A (fun r => some (ring_setup A (init r))) r = some p →
      ∃ a, holds_first_buffer A a p := by
  unfold ring_rs_loop
  apply for_loop_induct (fun _ (st : Nat → Option (proc α)) =>
    ∀ r, r < A.nprocs → ∀ p, st r = some p → ∃ a, holds_first_buffer A a p) 0 (A.nprocs - 1)
  · exact Nat.zero_le _
  · intro r hr p hp
    injection hp with hp
    subst hp
    obtain ⟨a, _, ha⟩ := setup_holds_first_buffer A (init r) (hwf r hr)
    exact ⟨a, ha⟩
  · intro s st _ _ hP r hr p1 h1
    obtain ⟨p, data, hp, hb⟩ := sendrecv_all_some _ _ _ _ _ _ _ _ h1
    obtain ⟨a, ha⟩ := hP r hr p hp
    exact ⟨a, ring_rs_iter_keeps A r s data p p1 a hb ha⟩

theorem each_rank_some {α : Type} (f : Nat → proc α → proc α) (sts : Nat → Option (proc α))
    (r : Nat) (p1 : proc α) (h : each_rank f sts r = some p1) :
    ∃ p, sts r = some p ∧ p1 = f r p := by
  rw [each_rank_apply] at h
  cases hs : sts r with
  | none => rw [hs] at h; exact Option.noConfusion h
  | some p =>
    rw [hs] at h
    exact ⟨p, rfl, (Option.some.inj h).symm⟩

/-- Every rank that enters the ring allgather of `pe_ring_allreduce` holds the slot-0 buffer
in `recv_buf`. -/
theorem pe_before_ag_keeps {α : Type} (A : call_args α) (init : Nat → proc α)
    (hn : 1 ≤ A.nprocs) (hwf : ∀ r, r < A.nprocs → pool_wf (init r).comm.pool) :
    ∀ r, r < A.nprocs → ∀ p, pe_before_ag A init r = some p →
      ∃ a, p.recv_buf = bufptr.scratch a ∧ holds_first_buffer A a p := by
  intro r hr p1 h1
  obtain ⟨p, hp, rfl⟩ := each_rank_some _ _ r p1 h1
  obtain ⟨a, ha⟩ := pe_rs_loop_keeps A init hn hwf r hr p hp
  exact ⟨a, ha.1, ha⟩

/-- Every rank that enters the ring allgather of `ring_allreduce` holds the slot-0 buffer in
`recv_buf`. -/
theorem ring_before_ag_keeps {α : Type} (A : call_args α) (init : Nat → proc α)
    (hwf : ∀ r, r < A.nprocs → pool_wf (init r).comm.pool) :
    ∀ r, r < A.nprocs → ∀ p, ring_before_ag A init r = some p →
      ∃ a, p.recv_buf = bufptr.scratch a ∧ holds_first_buffer A a p := by
  intro r hr p1 h1
  obtain ⟨p, hp, rfl⟩ := each_rank_some _ _ r p1 h1
  obtain ⟨a, ha⟩ := ring_rs_loop_keeps A init hwf r hr p hp
  exact ⟨a, ha.1, ha⟩

/-- The first allgather step of `pe_ring_allreduce` with `id_recv` off, when it comes back:
the message went into the slot-0 buffer, which stays in `recv_buf`. -/
theorem pe_ag_first_keeps {α : Type} (A : call_args α) (rank : Nat)
    (incoming : Mat α × Nat) (p p1 : proc α) (a : Nat) (hid : A.id_recv = false)
    (hr : p.recv_buf = bufptr.scratch a) (hb : holds_first_buffer A a p)
    (h : pe_ag_first A rank incoming p = some p1) :
    p1.recv_buf = bufptr.scratch a ∧ holds_first_buffer A a p1 ∧
      p1.mem a = contiguous incoming.1 := by
  obtain ⟨hbuf, hcnt, hwf, hslot⟩ := hb
  unfold pe_ag_first at h
  simp only [hid, Bool.false_eq_true, if_false, hr] at h
  split at h
  · exact Option.noConfusion h
  · rename_i p2 hst
    obtain ⟨e, _, _⟩ := receive_scratch_fields _ _ _ _ _ _ hst
    subst e
    simp only [load] at h
    injection h with h
    subst h
    exact ⟨rfl, ⟨hbuf, hcnt, hwf, hslot⟩, by simp⟩

/-- The first allgather step of `ring_allreduce` with `id_recv` off, when it comes back: the
message went into the slot-0 buffer, which stays in `recv_buf`. -/
theorem ring_ag_first_keeps {α : Type} (A : call_args α) (rank : Nat)
    (incoming : Mat α × Nat) (p p1 : proc α) (a : Nat) (hid : A.id_recv = false)
    (hr : p.recv_buf = bufptr.scratch a) (hb : holds_first_buffer A a p)
    (h : ring_ag_first A rank incoming p = some p1) :
    p1.recv_buf = bufptr.scratch a ∧ holds_first_buffer A a p1 ∧
      p1.mem a = contiguous incoming.1 := by
  obtain ⟨hbuf, hcnt, hwf, hslot⟩ := hb
  unfold ring_ag_first at h
  simp only [hid, Bool.false_eq_true, if_false, hr] at h
  split at h
  · exact Option.noConfusion h
  · rename_i p2 hst
    obtain ⟨e, _, _⟩ := receive_scratch_fields _ _ _ _ _ _ hst
    subst e
    simp only [load] at h
    injection h with h
    subst h
    exact ⟨rfl, ⟨hbuf, hcnt, hwf, hslot⟩, by simp⟩

theorem pe_after_first_keeps {α : Type} (A : call_args α) (init : Nat → proc α)
    (hid : A.id_recv = false) (hn : 1 ≤ A.nprocs)
    (hwf : ∀ r, r < A.nprocs → pool_wf (init r).comm.pool) :
    ∀ r, r < A.nprocs → ∀ p, pe_after_first A (pe_before_ag A init) r = some p →
      ∃ a, p.recv_buf = bufptr.scratch a ∧ holds_first_buffer A a p := by
  intro r hr p1 h1
  obtain ⟨p, data, hp, hb⟩ := sendrecv_all_some _ _ _ _ _ _ _ _ h1
  obtain ⟨a, h2, h3⟩ := pe_before_ag_keeps A init hn hwf r hr p hp
  obtain ⟨e1, e2, _⟩ := pe_ag_first_keeps A r data p p1 a hid h2 h3 hb
  exact ⟨a, e1, e2⟩

theorem ring_after_first_keeps {α : Type} (A : call_args α) (init : Nat → proc α)
    (hid : A.id_recv = false)
    (hwf : ∀ r, r < A.nprocs → pool_wf (init r).comm.pool) :
    ∀ r, r < A.nprocs → ∀ p, ring_after_first A (ring_before_ag A init) r = some p →
      ∃ a, p.recv_buf = bufptr.scratch a ∧ holds_first_buffer A a p := by
  intro r hr p1 h1
  obtain ⟨p, data, hp, hb⟩ := sendrecv_all_some _ _ _ _ _ _ _ _ h1
  obtain ⟨a, h2, h3⟩ := ring_before_ag_keeps A init hwf r hr p hp
  obtain ⟨e1, e2, _⟩ := ring_ag_first_keeps A r data p p1 a hid h2 h3 hb
  exact ⟨a, e1, e2⟩

/-- The request for slot 1 of `max_recv_count` made by a process that holds slot 0 returns a
buffer, and a different one. -/
theorem second_request_spec {α : Type} (A : call_args α) (p : proc α) (a : Nat)
    (hb : holds_first_buffer A a p) :
    ∃ y, (get_collective_buffer p.max_recv_count 1 p.comm.pool).1 = some y ∧ y ≠ a := by
  obtain ⟨_, hcnt, hwf, hslot⟩ := hb
  rw [← hcnt] at hslot
  have hns := slot_lt_num_slots _ _ _ _ hslot
  cases hr : (get_collective_buffer p.max_recv_count 1 p.comm.pool).1 with
  | none =>
    have := (gcb_null_iff p.max_recv_count 1 p.comm.pool).1 hr
    omega
  | some y =>
    refine ⟨y, rfl, ?_⟩
    have h1 := gcb_result_slot p.max_recv_count 1 p.comm.pool y hr
    have h0 := gcb_slot_mono p.max_recv_count 1 p.comm.pool _ _ _ hslot
    have hw := pool_wf_gcb p.max_recv_count 1 p.comm.pool hwf
    intro h
    rw [h] at h1
    have := (hw.2.2 _ _ _ _ _ h0 h1).2
    omega

theorem second_buffer_two {α : Type} (A : call_args α) (p : proc α) (a : Nat)
    (hid : A.id_recv = false) (hr : p.recv_buf = bufptr.scratch a)
    (hb : holds_first_buffer A a p) :
    holds_two_buffers (pe_second_buffer A p) ∧ holds_two_buffers (ring_second_buffer A p) := by
  obtain ⟨y, hy, hne⟩ := second_request_spec A p a hb
  constructor
  · refine ⟨a, y, ?_, ?_, fun h => hne h.symm⟩
    · simp [pe_second_buffer, hid, acquire, hr]
    · simp [pe_second_buffer, hid, acquire, hy, bufptr.of_result]
  · refine ⟨a, y, ?_, ?_, fun h => hne h.symm⟩
    · simp [ring_second_buffer, hid, acquire, hr]
    · simp [ring_second_buffer, hid, acquire, hy, bufptr.of_result]

/-- A step of the allgather loop of `pe_ring_allreduce` with `id_recv` off, when it comes
back: the message went into the buffer `recv_buf2`, the buffer `recv_buf` that is sent from
holds what it held, and the two buffers change roles. -/
theorem pe_ag_iter_keeps {α : Type} (A : call_args α) (rank step : Nat)
    (incoming : Mat α × Nat) (p p1 : proc α) (x y : Nat) (hid : A.id_recv = false)
    (hx : p.recv_buf = bufptr.scratch x) (hy : p.recv_buf2 = bufptr.scratch y) (hne : x ≠ y)
    (h : pe_ag_iter A rank step incoming p = some p1) :
    p1.recv_buf = bufptr.scratch y ∧ p1.recv_buf2 = bufptr.scratch x ∧
      p1.mem y = contiguous incoming.1 ∧ p1.mem x = p.mem x := by
  unfold pe_ag_iter at h
  simp only [hid, Bool.false_eq_true, if_false, hx, hy, load] at h
  split at h
  · exact Option.noConfusion h
  · rename_i p2 hst
    obtain ⟨e, _, _⟩ := receive_scratch_fields _ _ _ _ _ _ hst
    subst e
    simp only [load] at h
    injection h with h
    subst h
    exact ⟨rfl, rfl, by simp, by simp [hne]⟩

/-- A step of the allgather loop of `ring_allreduce` with `id_recv` off, when it comes back:
the message went into the buffer `recv_buf2`, the buffer `recv_buf` that is sent from holds
what it held, and the two buffers change roles. -/
theorem ring_ag_iter_keeps {α : Type} (A : call_args α) (rank step : Nat)
    (incoming : Mat α × Nat) (p p1 : proc α) (x y : Nat) (hid : A.id_recv = false)
    (hx : p.recv_buf = bufptr.scratch x) (hy : p.recv_buf2 = bufptr.scratch y) (hne : x ≠ y)
    (h : ring_ag_iter A rank step incoming p = some p1) :
    p1.recv_buf = bufptr.scratch y ∧ p1.recv_buf2 = bufptr.scratch x ∧
      p1.mem y = contiguous incoming.1 ∧ p1.mem x = p.mem x := by
  unfold ring_ag_iter at h
  simp only [hid, Bool.false_eq_true, if_false, hx, hy, load] at h
  split at h
  · exact Option.noConfusion h
  · rename_i p2 hst
    obtain ⟨e, _, _⟩ := receive_scratch_fields _ _ _ _ _ _ hst
    subst e
    simp only [load] at h
    injection h with h
    subst h
    exact ⟨rfl, rfl, by simp, by simp [hne]⟩

theorem pe_ag_steps_keeps {α : Type} (A : call_args α) (init : Nat → proc α)
    (hid : A.id_recv = false) (hn : 1 ≤ A.nprocs)
    (hwf : ∀ r, r < A.nprocs → pool_wf (init r).comm.pool) (m : Nat) :
    ∀ r, r < A.nprocs → ∀ q, pe_ag_steps A m (pe_before_ag A init) r = some q →
      holds_two_buffers q := by
  unfold pe_ag_steps
  apply for_loop_induct (fun _ (st : Nat → Option (proc α)) =>
    ∀ r, r < A.nprocs → ∀ q, st r = some q → holds_two_buffers q) 1 (1 + m)
  · omega
  · intro r hr q hq
    obtain ⟨p, hp, rfl⟩ := each_rank_some _ _ r q hq
    obtain ⟨a, h1, h2⟩ := pe_after_first_keeps A init hid hn hwf r hr p hp
    exact (second_buffer_two A p a hid h1 h2).1
  · intro s st _ _ hP r hr p1 h1
    obtain ⟨p, data, hp, hb⟩ := sendrecv_all_some _ _ _ _ _ _ _ _ h1
    obtain ⟨x, y, hx, hy, hne⟩ := hP r hr p hp
    obtain ⟨e1, e2, _, _⟩ := pe_ag_iter_keeps A r s data p p1 x y hid hx hy hne hb
    exact ⟨y, x, e1, e2, fun h => hne h.symm⟩

theorem ring_ag_steps_keeps {α : Type} (A : call_args α) (init : Nat → proc α)
    (hid : A.id_recv = false)
    (hwf : ∀ r, r < A.nprocs → pool_wf (init r).comm.pool) (m : Nat) :
    ∀ r, r < A.nprocs → ∀ q, ring_ag_steps A m (ring_before_ag A init) r = some q →
      holds_two_buffers q := by
  unfold ring_ag_steps
  apply for_loop_induct (fun _ (st : Nat → Option (proc α)) =>
    ∀ r, r < A.nprocs → ∀ q, st r = some q → holds_two_buffers q) 1 (1 + m)
  · omega
  · intro r hr q hq
    obtain ⟨p, hp, rfl⟩ := each_rank_some _ _ r q hq
    obtain ⟨a, h1, h2⟩ := ring_after_first_keeps A init hid hwf r hr p hp
    exact (second_buffer_two A p a hid h1 h2).2
  · intro s st _ _ hP r hr p1 h1
    obtain ⟨p, data, hp, hb⟩ := sendrecv_all_some _ _ _ _ _ _ _ _ h1
    obtain ⟨x, y, hx, hy, hne⟩ := hP r hr p hp
    obtain ⟨e1, e2, _, _⟩ := ring_ag_iter_keeps A r s data p p1 x y hid hx hy hne hb
    exact ⟨y, x, e1, e2, fun h => hne h.symm⟩

/-! ### Ranks whose messages fit get through -/

theorem int_mod_lt (a : Int) (n : Nat) (hn : 0 < n) : int_mod a n < n := by
  unfold int_mod
  have h := Int.tmod_lt_of_pos a (show (0 : Int) < (n : Int) by omega)
  omega

/-- An exchange in which every rank is alive, partners match, every rank sends a message
with the property `M` and the loop body comes back on such a message, leaves every rank
alive. -/
theorem sendrecv_all_live {σ α : Type} (n : Nat) (dst_of src_of : Nat → Nat)
    (send : Nat → σ → Option (Mat α × Nat)) (body : Nat → Mat α × Nat → σ → Option σ)
    (sts : Nat → Option σ) (P Q : σ → Prop) (M : Mat α × Nat → Prop)
    (hmatch : ∀ r, r < n → dst_of r < n ∧ src_of r < n ∧ dst_of (src_of r) = r
      ∧ src_of (dst_of r) = r)
    (hsts : ∀ r, r < n → ∃ p, sts r = some p ∧ P p)
    (hsend : ∀ r p, r < n → P p → ∃ d, send r p = some d ∧ M d)
    (hbody : ∀ r d p, r < n → P p → M d → ∃ p1, body r d p = some p1 ∧ Q p1) :
    ∀ r, r < n → ∃ p1, sendrecv_all n dst_of src_of send body sts r = some p1 ∧ Q p1 := by
  intro r hr
  obtain ⟨h1, h2, h3, h4⟩ := hmatch r hr
  obtain ⟨p, hp, hP⟩ := hsts r hr
  obtain ⟨q, hq, hQ⟩ := hsts _ h2
  obtain ⟨d, hd, _⟩ := hsts _ h1
  obtain ⟨data, hdata, hM⟩ := hsend (src_of r) q h2 hQ
  obtain ⟨p1, hp1, hQ1⟩ := hbody r data p hr hP hM
  refine ⟨p1, ?_, hQ1⟩
  unfold sendrecv_all
  simp only [hp, hq, hd, h1, h2, h3, h4, and_self, if_true, hdata]
  exact hp1

theorem ring_match (n s : Nat) (hs : s ≤ n) :
    ∀ r, r < n → (r + s) % n < n ∧ ring_back n r s < n
      ∧ (ring_back n r s + s) % n = r ∧ ring_back n ((r + s) % n) s = r := by
  intro r hr
  exact ⟨Nat.mod_lt _ (by omega), ring_back_lt _ _ _ (by omega), ring_fwd_back n r s hr hs,
    ring_back_fwd n r s hr hs⟩

/-- A reduce-scatter step of `pe_ring_allreduce` without the node-local shortcut comes back
on a message of at most `max_recv_count` bytes, whatever the callbacks. -/
theorem pe_rs_iter_live {α : Type} (A : call_args α) (rank step h w : Nat)
    (incoming : Mat α × Nat) (p : proc α) (hloc : A.no_local_trans = false)
    (hp : first_live A h w p) (hin : incoming.2 ≤ A.max_recv_count) :
    ∃ p1, pe_rs_iter A rank step incoming p = some p1 ∧ first_live A h w p1 := by
  obtain ⟨hph, hpw, a, hbuf, hcnt, hwf, hslot⟩ := hp
  unfold pe_rs_iter
  simp only [hloc, Bool.false_and, Bool.false_eq_true, if_false, hbuf]
  rw [receive_scratch_any A.max_recv_count _ _ _ _ _]
  · simp only [load]
    exact ⟨_, rfl, hph, hpw, a, rfl, hcnt, hwf, hslot⟩
  · exact slot_capacity _ hwf _ _ _ hslot
  · rw [hcnt]; exact hin
  · exact hin

/-- A reduce-scatter step of `ring_allreduce` without the node-local shortcut comes back on
a message of at most `max_recv_count` bytes, whatever the callbacks. -/
theorem ring_rs_iter_live {α : Type} (A : call_args α) (rank step h w : Nat)
    (incoming : Mat α × Nat) (p : proc α) (hloc : A.no_local_trans = false)
    (hp : first_live A h w p) (hin : incoming.2 ≤ A.max_recv_count) :
    ∃ p1, ring_rs_iter A rank step incoming p = some p1 ∧ first_live A h w p1 := by
  obtain ⟨hph, hpw, a, hbuf, hcnt, hwf, hslot⟩ := hp
  unfold ring_rs_iter
  simp only [hloc, Bool.false_and, Bool.false_eq_true, if_false, hbuf]
  rw [receive_scratch_any A.max_recv_count _ _ _ _ _]
  · simp only [load]
    exact ⟨_, rfl, hph, hpw, a, rfl, hcnt, hwf, hslot⟩
  · exact slot_capacity _ hwf _ _ _ hslot
  · rw [hcnt]; exact hin
  · exact hin

theorem pe_rs_loop_live {α : Type} (A : call_args α) (h w : Nat) (init : Nat → proc α)
    (hn : 2 ≤ A.nprocs) (hloc : A.no_local_trans = false)
    (hdim : ∀ r, r < A.nprocs → (init r).mat.height = h ∧ (init r).mat.width = w)
    (hcb : callbacks_fit A h w)
    (hwf : ∀ r, r < A.nprocs → pool_wf (init r).comm.pool) :
    ∀ r, r < A.nprocs → ∃ p, pe_rs_loop A (fun r => some (pe_setup A (init r))) r = some p
      ∧ first_live A h w p := by
  unfold pe_rs_loop
  apply for_loop_induct (fun _ (st : Nat → Option (proc α)) =>
    ∀ r, r < A.nprocs → ∃ p, st r = some p ∧ first_live A h w p) 1 A.nprocs
  · omega
  · intro r hr
    obtain ⟨a, ha, _⟩ := setup_holds_first_buffer A (init r) (hwf r hr)
    exact ⟨_, rfl, (hdim r hr).1, (hdim r hr).2, a, ha⟩
  · intro s st hs1 hs hP
    have hfun : (fun (r : Nat) =>
        int_mod ((r : Int) - (s : Int) + (A.nprocs : Int)) A.nprocs)
        = fun r => ring_back A.nprocs r s := by
      funext r
      exact int_mod_eq_ring_back A.nprocs r s (by omega)
    rw [hfun]
    apply sendrecv_all_live A.nprocs _ _ _ _ st (first_live A h w) (first_live A h w)
      (fun d => d.2 ≤ A.max_recv_count) (ring_match A.nprocs s (by omega)) hP
    · intro r p _ hp
      refine ⟨_, rfl, ?_⟩
      unfold pe_rs_send
      simp only [hloc, Bool.false_and, Bool.false_eq_true, if_false]
      rw [hp.2.1]
      exact (hcb p.mat _ hp.1 hp.2.1 (Nat.mod_lt _ (by omega))).1 true
    · intro r d p _ hp hd
      exact pe_rs_iter_live A r s h w d p hloc hp hd

theorem ring_rs_loop_live {α : Type} (A : call_args α) (h w : Nat) (init : Nat → proc α)
    (hn : 2 ≤ A.nprocs) (hloc : A.no_local_trans = false)
    (hdim : ∀ r, r < A.nprocs → (init r).mat.height = h ∧ (init r).mat.width = w)
    (hcb : callbacks_fit A h w)
    (hwf : ∀ r, r < A.nprocs → pool_wf (init r).comm.pool) :
    ∀ r, r < A.nprocs → ∃ p,
      ring_rs_loop A (fun r => some (ring_setup A (init r))) r = some p
      ∧ first_live A h w p := by
  unfold ring_rs_loop
  apply for_loop_induct (fun _ (st : Nat → Option (proc α)) =>
    ∀ r, r < A.nprocs → ∃ p, st r = some p ∧ first_live A h w p) 0 (A.nprocs - 1)
  · omega
  · intro r hr
    obtain ⟨a, _, ha⟩ := setup_holds_first_buffer A (init r) (hwf r hr)
    exact ⟨_, rfl, (hdim r hr).1, (hdim r hr).2, a, ha⟩
  · intro s st _ hs hP
    rw [ring_src_fun A.nprocs (by omega)]
    apply sendrecv_all_live A.nprocs _ _ _ _ st (first_live A h w) (first_live A h w)
      (fun d => d.2 ≤ A.max_recv_count) (ring_match A.nprocs 1 (by omega)) hP
    · intro r p _ hp
      refine ⟨_, rfl, ?_⟩
      unfold ring_rs_send
      simp only [hloc, Bool.false_and, Bool.false_eq_true, if_false]
      rw [hp.2.1]
      exact (hcb p.mat _ hp.1 hp.2.1 (int_mod_lt _ _ (by omega))).1 false
    · intro r d p _ hp hd
      exact ring_rs_iter_live A r s h w d p hloc hp hd

/-- The first allgather step of `pe_ring_allreduce` with `id_recv` off comes back on a
message of at most `max_recv_count` bytes, and the `send_size` it sets is at most
`max_recv_count` when the callbacks fit. -/
theorem pe_ag_first_live {α : Type} (A : call_args α) (rank h w : Nat)
    (incoming : Mat α × Nat) (p : proc α) (a : Nat) (hn : 0 < A.nprocs)
    (hid : A.id_recv = false) (hcb : callbacks_fit A h w)
    (hph : p.mat.height = h) (hpw : p.mat.width = w)
    (hr : p.recv_buf = bufptr.scratch a) (hb : holds_first_buffer A a p)
    (hin : incoming.2 ≤ A.max_recv_count) :
    ∃ p1, pe_ag_first A rank incoming p = some p1 ∧ p1.mat.height = h ∧ p1.mat.width = w ∧
      p1.recv_buf = bufptr.scratch a ∧ holds_first_buffer A a p1 ∧
      p1.send_size ≤ A.max_recv_count := by
  obtain ⟨hbuf, hcnt, hwf, hslot⟩ := hb
  unfold pe_ag_first
  simp only [hid, Bool.false_eq_true, if_false, hr]
  rw [receive_scratch_any A.max_recv_count _ _ _ _ _]
  · simp only [load]
    refine ⟨_, rfl, hph, hpw, rfl, ⟨hbuf, hcnt, hwf, hslot⟩, ?_⟩
    simp only [hpw]
    exact (hcb p.mat _ hph hpw (int_mod_lt _ _ hn)).2 _
  · exact slot_capacity _ hwf _ _ _ hslot
  · rw [hcnt]; exact hin
  · exact hin

/-- The first allgather step of `ring_allreduce` with `id_recv` off comes back on a message
of at most `max_recv_count` bytes, and the `send_size` it sets is at most `max_recv_count`
when the callbacks fit. -/
theorem ring_ag_first_live {α : Type} (A : call_args α) (rank h w : Nat)
    (incoming : Mat α × Nat) (p : proc α) (a : Nat) (hrank : rank < A.nprocs)
    (hid : A.id_recv = false) (hcb : callbacks_fit A h w)
    (hph : p.mat.height = h) (hpw : p.mat.width = w)
    (hr : p.recv_buf = bufptr.scratch a) (hb : holds_first_buffer A a p)
    (hin : incoming.2 ≤ A.max_recv_count) :
    ∃ p1, ring_ag_first A rank incoming p = some p1 ∧ p1.mat.height = h ∧ p1.mat.width = w ∧
      p1.recv_buf = bufptr.scratch a ∧ holds_first_buffer A a p1 ∧
      p1.send_size ≤ A.max_recv_count := by
  obtain ⟨hbuf, hcnt, hwf, hslot⟩ := hb
  unfold ring_ag_first
  simp only [hid, Bool.false_eq_true, if_false, hr]
  rw [receive_scratch_any A.max_recv_count _ _ _ _ _]
  · simp only [load]
    refine ⟨_, rfl, hph, hpw, rfl, ⟨hbuf, hcnt, hwf, hslot⟩, ?_⟩
    simp only [hpw]
    exact (hcb p.mat _ hph hpw hrank).2 _
  · exact slot_capacity _ hwf _ _ _ hslot
  · rw [hcnt]; exact hin
  · exact hin

theorem ring_second_buffer_eq {α : Type} (A : call_args α) (p : proc α) :
    ring_second_buffer A p = pe_second_buffer A p := rfl

/-- The request for the second buffer leaves a rank ready for the allgather loop. -/
theorem second_buffer_live {α : Type} (A : call_args α) (h w : Nat) (p : proc α) (a : Nat)
    (hid : A.id_recv = false) (hph : p.mat.height = h) (hpw : p.mat.width = w)
    (hr : p.recv_buf = bufptr.scratch a) (hb : holds_first_buffer A a p)
    (hs : p.send_size ≤ A.max_recv_count) :
    two_live A h w (pe_second_buffer A p) := by
  obtain ⟨_, hcnt, hwf, hslot⟩ := hb
  obtain ⟨e1, _, e3, e4, y, e5, e6, e7, e8, e9⟩ :=
    pe_second_buffer_spec A p a hid hr hwf (by rw [hcnt]; exact hslot)
  rw [hcnt] at e8 e9
  exact ⟨by rw [e1]; exact hph, by rw [e1]; exact hpw, e3.trans hcnt, by rw [e4]; exact hs,
    a, y, e5, e6, e7, e8, e9⟩

/-- A step of the allgather loop of `pe_ring_allreduce` with `id_recv` off comes back on a
message of at most `max_recv_count` bytes. -/
theorem pe_ag_iter_live {α : Type} (A : call_args α) (rank step h w : Nat)
    (incoming : Mat α × Nat) (p : proc α) (hn : 0 < A.nprocs) (hid : A.id_recv = false)
    (hcb : callbacks_fit A h w) (hp : two_live A h w p)
    (hin : incoming.2 ≤ A.max_recv_count) :
    ∃ p1, pe_ag_iter A rank step incoming p = some p1 ∧ two_live A h w p1 := by
  obtain ⟨hph, hpw, hcnt, _, x, y, hx, hy, hne, hcx, hcy⟩ := hp
  unfold pe_ag_iter
  simp only [hid, Bool.false_eq_true, if_false, hx, hy, load]
  rw [receive_scratch_any A.max_recv_count _ _ _ _ _]
  · simp only [load]
    refine ⟨_, rfl, hph, hpw, hcnt, ?_, y, x, rfl, rfl, fun e => hne e.symm, hcy, hcx⟩
    simp only [hpw]
    exact (hcb p.mat _ hph hpw (int_mod_lt _ _ hn)).2 _
  · exact hcy
  · rw [hcnt]; exact hin
  · exact hin

/-- A step of the allgather loop of `ring_allreduce` with `id_recv` off comes back on a
message of at most `max_recv_count` bytes. -/
theorem ring_ag_iter_live {α : Type} (A : call_args α) (rank step h w : Nat)
    (incoming : Mat α × Nat) (p : proc α) (hn : 0 < A.nprocs) (hid : A.id_recv = false)
    (hcb : callbacks_fit A h w) (hp : two_live A h w p)
    (hin : incoming.2 ≤ A.max_recv_count) :
    ∃ p1, ring_ag_iter A rank step incoming p = some p1 ∧ two_live A h w p1 := by
  obtain ⟨hph, hpw, hcnt, _, x, y, hx, hy, hne, hcx, hcy⟩ := hp
  unfold ring_ag_iter
  simp only [hid, Bool.false_eq_true, if_false, hx, hy, load]
  rw [receive_scratch_any A.max_recv_count _ _ _ _ _]
  · simp only [load]
    refine ⟨_, rfl, hph, hpw, hcnt, ?_, y, x, rfl, rfl, fun e => hne e.symm, hcy, hcx⟩
    simp only [hpw]
    exact (hcb p.mat _ hph hpw (int_mod_lt _ _ hn)).2 _
  · exact hcy
  · rw [hcnt]; exact hin
  · exact hin

/-- What a rank ready for a step of the allgather loop forwards: the buffer in `recv_buf`,
`send_size` bytes of it, at most `max_recv_count`. -/
theorem forward_live {α : Type} (A : call_args α) (h w : Nat) (p : proc α)
    (hp : two_live A h w p) : ∃ d, forward p = some d ∧ d.2 ≤ A.max_recv_count := by
  obtain ⟨_, _, _, hs, x, y, hx, _⟩ := hp
  refine ⟨(p.mem x, p.send_size), ?_, hs⟩
  simp [forward, hx, load]

theorem pe_after_first_live {α : Type} (A : call_args α) (h w : Nat) (init : Nat → proc α)
    (hid : A.id_recv = false) (hn : 2 ≤ A.nprocs) (hloc : A.no_local_trans = false)
    (hdim : ∀ r, r < A.nprocs → (init r).mat.height = h ∧ (init r).mat.width = w)
    (hcb : callbacks_fit A h w)
    (hwf : ∀ r, r < A.nprocs → pool_wf (init r).comm.pool) :
    ∀ r, r < A.nprocs → ∃ p, pe_after_first A (pe_before_ag A init) r = some p ∧
      p.mat.height = h ∧ p.mat.width = w ∧ p.send_size ≤ A.max_recv_count ∧
      ∃ a, p.recv_buf = bufptr.scratch a ∧ holds_first_buffer A a p := by
  have hbefore : ∀ r, r < A.nprocs → ∃ p, pe_before_ag A init r = some p ∧
      (p.mat.height = h ∧ p.mat.width = w ∧
        ∃ a, p.recv_buf = bufptr.scratch a ∧ holds_first_buffer A a p) := by
    intro r hr
    obtain ⟨p, hp, hph, hpw, a, ha⟩ := pe_rs_loop_live A h w init hn hloc hdim hcb hwf r hr
    unfold pe_before_ag
    rw [each_rank_apply, hp]
    exact ⟨_, rfl, hph, hpw, a, ha.1, ha⟩
  unfold pe_after_first
  rw [ring_src_fun A.nprocs (by omega)]
  apply sendrecv_all_live A.nprocs _ _ _ _ _
    (fun p => p.mat.height = h ∧ p.mat.width = w ∧
      ∃ a, p.recv_buf = bufptr.scratch a ∧ holds_first_buffer A a p)
    (fun p => p.mat.height = h ∧ p.mat.width = w ∧ p.send_size ≤ A.max_recv_count ∧
      ∃ a, p.recv_buf = bufptr.scratch a ∧ holds_first_buffer A a p)
    (fun d => d.2 ≤ A.max_recv_count) (ring_match A.nprocs 1 (by omega)) hbefore
  · intro r p hr hp
    refine ⟨_, rfl, ?_⟩
    unfold pe_ag_first_send
    rw [hp.2.1]
    exact (hcb p.mat _ hp.1 hp.2.1 hr).1 false
  · intro r d p _ ⟨hph, hpw, a, h1, h2⟩ hd
    obtain ⟨p1, e1, e2, e3, e4, e5, e6⟩ :=
      pe_ag_first_live A r h w d p a (by omega) hid hcb hph hpw h1 h2 hd
    exact ⟨p1, e1, e2, e3, e6, a, e4, e5⟩

theorem ring_after_first_live {α : Type} (A : call_args α) (h w : Nat) (init : Nat → proc α)
    (hid : A.id_recv = false) (hn : 2 ≤ A.nprocs) (hloc : A.no_local_trans = false)
    (hdim : ∀ r, r < A.nprocs → (init r).mat.height = h ∧ (init r).mat.width = w)
    (hcb : callbacks_fit A h w)
    (hwf : ∀ r, r < A.nprocs → pool_wf (init r).comm.pool) :
    ∀ r, r < A.nprocs → ∃ p, ring_after_first A (ring_before_ag A init) r = some p ∧
      p.mat.height = h ∧ p.mat.width = w ∧ p.send_size ≤ A.max_recv_count ∧
      ∃ a, p.recv_buf = bufptr.scratch a ∧ holds_first_buffer A a p := by
  have hbefore : ∀ r, r < A.nprocs → ∃ p, ring_before_ag A init r = some p ∧
      (p.mat.height = h ∧ p.mat.width = w ∧
        ∃ a, p.recv_buf = bufptr.scratch a ∧ holds_first_buffer A a p) := by
    intro r hr
    obtain ⟨p, hp, hph, hpw, a, ha⟩ := ring_rs_loop_live A h w init hn hloc hdim hcb hwf r hr
    unfold ring_before_ag
    rw [each_rank_apply, hp]
    exact ⟨_, rfl, hph, hpw, a, ha.1, ha⟩
  unfold ring_after_first
  rw [ring_src_fun A.nprocs (by omega)]
  apply sendrecv_all_live A.nprocs _ _ _ _ _
    (fun p => p.mat.height = h ∧ p.mat.width = w ∧
      ∃ a, p.recv_buf = bufptr.scratch a ∧ holds_first_buffer A a p)
    (fun p => p.mat.height = h ∧ p.mat.width = w ∧ p.send_size ≤ A.max_recv_count ∧
      ∃ a, p.recv_buf = bufptr.scratch a ∧ holds_first_buffer A a p)
    (fun d => d.2 ≤ A.max_recv_count) (ring_match A.nprocs 1 (by omega)) hbefore
  · intro r p hr hp
    refine ⟨_, rfl, ?_⟩
    unfold ring_ag_first_send
    rw [hp.2.1]
    exact (hcb p.mat _ hp.1 hp.2.1 (Nat.mod_lt _ (by omega))).1 false
  · intro r d p hr ⟨hph, hpw, a, h1, h2⟩ hd
    obtain ⟨p1, e1, e2, e3, e4, e5, e6⟩ :=
      ring_ag_first_live A r h w d p a hr hid hcb hph hpw h1 h2 hd
    exact ⟨p1, e1, e2, e3, e6, a, e4, e5⟩

theorem pe_ag_steps_live {α : Type} (A : call_args α) (h w : Nat) (init : Nat → proc α)
    (hid : A.id_recv = false) (hn : 2 ≤ A.nprocs) (hloc : A.no_local_trans = false)
    (hdim : ∀ r, r < A.nprocs → (init r).mat.height = h ∧ (init r).mat.width = w)
    (hcb : callbacks_fit A h w)
    (hwf : ∀ r, r < A.nprocs → pool_wf (init r).comm.pool) (m : Nat) :
    ∀ r, r < A.nprocs → ∃ q, pe_ag_steps A m (pe_before_ag A init) r = some q ∧
      two_live A h w q := by
  unfold pe_ag_steps
  apply for_loop_induct (fun _ (st : Nat → Option (proc α)) =>
    ∀ r, r < A.nprocs → ∃ q, st r = some q ∧ two_live A h w q) 1 (1 + m)
  · omega
  · intro r hr
    obtain ⟨p, hp, hph, hpw, hs, a, h1, h2⟩ :=
      pe_after_first_live A h w init hid hn hloc hdim hcb hwf r hr
    unfold pe_after_first at hp
    rw [each_rank_apply, hp]
    exact ⟨_, rfl, second_buffer_live A h w p a hid hph hpw h1 h2 hs⟩
  · intro s st _ _ hP
    rw [ring_src_fun A.nprocs (by omega)]
    apply sendrecv_all_live A.nprocs _ _ _ _ st (two_live A h w) (two_live A h w)
      (fun d => d.2 ≤ A.max_recv_count) (ring_match A.nprocs 1 (by omega)) hP
    · intro r p _ hp
      exact forward_live A h w p hp
    · intro r d p _ hp hd
      exact pe_ag_iter_live A r s h w d p (by omega) hid hcb hp hd

theorem ring_ag_steps_live {α : Type} (A : call_args α) (h w : Nat) (init : Nat → proc α)
    (hid : A.id_recv = false) (hn : 2 ≤ A.nprocs) (hloc : A.no_local_trans = false)
    (hdim : ∀ r, r < A.nprocs → (init r).mat.height = h ∧ (init r).mat.width = w)
    (hcb : callbacks_fit A h w)
    (hwf : ∀ r, r < A.nprocs → pool_wf (init r).comm.pool) (m : Nat) :
    ∀ r, r < A.nprocs → ∃ q, ring_ag_steps A m (ring_before_ag A init) r = some q ∧
      two_live A h w q := by
  unfold ring_ag_steps
  apply for_loop_induct (fun _ (st : Nat → Option (proc α)) =>
    ∀ r, r < A.nprocs → ∃ q, st r = some q ∧ two_live A h w q) 1 (1 + m)
  · omega
  · intro r hr
    obtain ⟨p, hp, hph, hpw, hs, a, h1, h2⟩ :=
      ring_after_first_live A h w init hid hn hloc hdim hcb hwf r hr
    unfold ring_after_first at hp
    rw [each_rank_apply, hp]
    exact ⟨_, rfl, second_buffer_live A h w p a hid hph hpw h1 h2 hs⟩
  · intro s st _ _ hP
    rw [ring_src_fun A.nprocs (by omega)]
    apply sendrecv_all_live A.nprocs _ _ _ _ st (two_live A h w) (two_live A h w)
      (fun d => d.2 ≤ A.max_recv_count) (ring_match A.nprocs 1 (by omega)) hP
    · intro r p _ hp
      exact forward_live A h w p hp
    · intro r d p _ hp hd
      exact ring_ag_iter_live A r s h w d p (by omega) hid hcb hp hd

theorem pe_ring_allreduce_eq {α : Type} (A : call_args α) (init : Nat → proc α)
    (rank : Nat) (hn : 2 ≤ A.nprocs) :
    pe_ring_allreduce A init rank
      = match pe_ag_steps A (A.nprocs - 2) (pe_before_ag A init) rank with
        | some p => outcome.returned p
        | none => outcome.stuck := by
  rw [← pe_ag_phase_eq_steps A _ hn]
  unfold pe_ring_allreduce
  rw [if_neg (by omega)]
  rfl

theorem ring_allreduce_eq {α : Type} (A : call_args α) (init : Nat → proc α)
    (rank : Nat) (hn : 2 ≤ A.nprocs) :
    ring_allreduce A init rank
      = match ring_ag_steps A (A.nprocs - 2) (ring_before_ag A init) rank with
        | some p => outcome.returned p
        | none => outcome.stuck := by
  rw [← ring_ag_phase_eq_steps A _ hn]
  unfold ring_allreduce
  rw [if_neg (by omega)]
  rfl

/-- C26: in `pe_ring_allreduce` and in `ring_allreduce` called with `id_recv = false` by
`n ≥ 2` ranks whose pools were reached from an empty pool by `get_collective_buffer` calls,
whatever the callbacks, the matrices and `max_recv_count`, for each of the two routines:
a rank that gets to the request `get_collective_buffer(max_recv_count, 1)` holds the slot-0
buffer in `recv_buf`, and the request returns a buffer (not the null handle) different from
it, which becomes `recv_buf2`; in the first allgather step, where what is sent is the buffer
the send callback returned, a rank that gets past the exchange has received into the slot-0
buffer held in `recv_buf`; before step `m + 1` of the allgather loop, and after the last
step (`m = n - 2`, which for `n = 2` is the state right after the request), `recv_buf` and
`recv_buf2` are different scratch buffers, the step sends `send_size` bytes of the buffer
`recv_buf`, and a rank that gets past the exchange has received into the buffer `recv_buf2`
while the buffer it sent from holds what it held, after which the two change roles.
Every rank does get to the request, through every step and to the return when the node-local
shortcut is off, the matrices have one shape and the callbacks never report more than
`max_recv_count` bytes (`callbacks_fit`). -/
theorem C26_allgather_buffers {α : Type} (A : call_args α) (init : Nat → proc α)
    (hid : A.id_recv = false) (hn : 2 ≤ A.nprocs)
    (hreach : ∀ r, r < A.nprocs →
      ∃ heap calls, (init r).comm.pool = run_calls (empty_pool heap) calls)
    (r : Nat) (hr : r < A.nprocs) :
    (∀ p, pe_after_first A (pe_before_ag A init) r = some p →
      ∃ a y, p.recv_buf = bufptr.scratch a ∧ slot p.comm.pool p.max_recv_count 0 = some a ∧
        (get_collective_buffer p.max_recv_count 1 p.comm.pool).1 = some y ∧ y ≠ a ∧
        (pe_second_buffer A p).recv_buf = bufptr.scratch a ∧
        (pe_second_buffer A p).recv_buf2 = bufptr.scratch y) ∧
    (∀ p incoming p1, pe_before_ag A init r = some p →
      pe_ag_first A r incoming p = some p1 →
      ∃ a, p.recv_buf = bufptr.scratch a ∧ slot p.comm.pool p.max_recv_count 0 = some a ∧
        p1.mem a = contiguous incoming.1 ∧ p1.recv_buf = bufptr.scratch a) ∧
    (∀ m q, m ≤ A.nprocs - 2 → pe_ag_steps A m (pe_before_ag A init) r = some q →
      ∃ x y, q.recv_buf = bufptr.scratch x ∧ q.recv_buf2 = bufptr.scratch y ∧ x ≠ y ∧
        forward q = some (q.mem x, q.send_size) ∧
        ∀ incoming q1, pe_ag_iter A r (m + 1) incoming q = some q1 →
          q1.mem y = contiguous incoming.1 ∧ q1.mem x = q.mem x ∧
          q1.recv_buf = bufptr.scratch y ∧ q1.recv_buf2 = bufptr.scratch x) ∧
    (∀ p, ring_after_first A (ring_before_ag A init) r = some p →
      ∃ a y, p.recv_buf = bufptr.scratch a ∧ slot p.comm.pool p.max_recv_count 0 = some a ∧
        (get_collective_buffer p.max_recv_count 1 p.comm.pool).1 = some y ∧ y ≠ a ∧
        (ring_second_buffer A p).recv_buf = bufptr.scratch a ∧
        (ring_second_buffer A p).recv_buf2 = bufptr.scratch y) ∧
    (∀ p incoming p1, ring_before_ag A init r = some p →
      ring_ag_first A r incoming p = some p1 →
      ∃ a, p.recv_buf = bufptr.scratch a ∧ slot p.comm.pool p.max_recv_count 0 = some a ∧
        p1.mem a = contiguous incoming.1 ∧ p1.recv_buf = bufptr.scratch a) ∧
    (∀ m q, m ≤ A.nprocs - 2 → ring_ag_steps A m (ring_before_ag A init) r = some q →
      ∃ x y, q.recv_buf = bufptr.scratch x ∧ q.recv_buf2 = bufptr.scratch y ∧ x ≠ y ∧
        forward q = some (q.mem x, q.send_size) ∧
        ∀ incoming q1, ring_ag_iter A r (m + 1) incoming q = some q1 →
          q1.mem y = contiguous incoming.1 ∧ q1.mem x = q.mem x ∧
          q1.recv_buf = bufptr.scratch y ∧ q1.recv_buf2 = bufptr.scratch x) ∧
    (∀ h w : Nat, A.no_local_trans = false →
      (∀ r, r < A.nprocs → (init r).mat.height = h ∧ (init r).mat.width = w) →
      callbacks_fit A h w →
      (∃ p, pe_after_first A (pe_before_ag A init) r = some p) ∧
      (∀ m, ∃ q, pe_ag_steps A m (pe_before_ag A init) r = some q) ∧
      (∃ q, pe_ring_allreduce A init r = outcome.returned q ∧ holds_two_buffers q) ∧
      (∃ p, ring_after_first A (ring_before_ag A init) r = some p) ∧
      (∀ m, ∃ q, ring_ag_steps A m (ring_before_ag A init) r = some q) ∧
      (∃ q, ring_allreduce A init r = outcome.returned q ∧ holds_two_buffers q)) := by
  have hwf : ∀ r, r < A.nprocs → pool_wf (init r).comm.pool := by
    intro r hr
    obtain ⟨heap, calls, h⟩ := hreach r hr
    rw [h]
    exact pool_wf_run_calls calls _ (pool_wf_empty heap)
  refine ⟨?_, ?_, ?_, ?_, ?_, ?_, ?_⟩
  · intro p hp
    obtain ⟨a, h1, h2⟩ := pe_after_first_keeps A init hid (by omega) hwf r hr p hp
    obtain ⟨y, hy, hne⟩ := second_request_spec A p a h2
    refine ⟨a, y, h1, ?_, hy, hne, ?_, ?_⟩
    · rw [h2.2.1]; exact h2.2.2.2
    · simp [pe_second_buffer, hid, acquire, h1]
    · simp [pe_second_buffer, hid, acquire, hy, bufptr.of_result]
  · intro p incoming p1 hp h1
    obtain ⟨a, h2, h3⟩ := pe_before_ag_keeps A init (by omega) hwf r hr p hp
    obtain ⟨e1, _, e3⟩ := pe_ag_first_keeps A r incoming p p1 a hid h2 h3 h1
    exact ⟨a, h2, by rw [h3.2.1]; exact h3.2.2.2, e3, e1⟩
  · intro m q _ hq
    obtain ⟨x, y, hx, hy, hne⟩ := pe_ag_steps_keeps A init hid (by omega) hwf m r hr q hq
    refine ⟨x, y, hx, hy, hne, by simp [forward, hx, load], ?_⟩
    intro incoming q1 h1
    obtain ⟨e1, e2, e3, e4⟩ := pe_ag_iter_keeps A r (m + 1) incoming q q1 x y hid hx hy hne h1
    exact ⟨e3, e4, e1, e2⟩
  · intro p hp
    obtain ⟨a, h1, h2⟩ := ring_after_first_keeps A init hid hwf r hr p hp
    obtain ⟨y, hy, hne⟩ := second_request_spec A p a h2
    refine ⟨a, y, h1, ?_, hy, hne, ?_, ?_⟩
    · rw [h2.2.1]; exact h2.2.2.2
    · simp [ring_second_buffer, hid, acquire, h1]
    · simp [ring_second_buffer, hid, acquire, hy, bufptr.of_result]
  · intro p incoming p1 hp h1
    obtain ⟨a, h2, h3⟩ := ring_before_ag_keeps A init hwf r hr p hp
    obtain ⟨e1, _, e3⟩ := ring_ag_first_keeps A r incoming p p1 a hid h2 h3 h1
    exact ⟨a, h2, by rw [h3.2.1]; exact h3.2.2.2, e3, e1⟩
  · intro m q _ hq
    obtain ⟨x, y, hx, hy, hne⟩ := ring_ag_steps_keeps A init hid hwf m r hr q hq
    refine ⟨x, y, hx, hy, hne, by simp [forward, hx, load], ?_⟩
    intro incoming q1 h1
    obtain ⟨e1, e2, e3, e4⟩ :=
      ring_ag_iter_keeps A r (m + 1) incoming q q1 x y hid hx hy hne h1
    exact ⟨e3, e4, e1, e2⟩
  · intro h w hloc hdim hcb
    refine ⟨?_, ?_, ?_, ?_, ?_, ?_⟩
    · obtain ⟨p, hp, _⟩ := pe_after_first_live A h w init hid hn hloc hdim hcb hwf r hr
      exact ⟨p, hp⟩
    · intro m
      obtain ⟨q, hq, _⟩ := pe_ag_steps_live A h w init hid hn hloc hdim hcb hwf m r hr
      exact ⟨q, hq⟩
    · obtain ⟨q, hq, _⟩ :=
        pe_ag_steps_live A h w init hid hn hloc hdim hcb hwf (A.nprocs - 2) r hr
      refine ⟨q, ?_, pe_ag_steps_keeps A init hid (by omega) hwf _ r hr q hq⟩
      rw [pe_ring_allreduce_eq A init r hn, hq]
    · obtain ⟨p, hp, _⟩ := ring_after_first_live A h w init hid hn hloc hdim hcb hwf r hr
      exact ⟨p, hp⟩
    · intro m
      obtain ⟨q, hq, _⟩ := ring_ag_steps_live A h w init hid hn hloc hdim hcb hwf m r hr
      exact ⟨q, hq⟩
    · obtain ⟨q, hq, _⟩ :=
        ring_ag_steps_live A h w init hid hn hloc hdim hcb hwf (A.nprocs - 2) r hr
      refine ⟨q, ?_, ring_ag_steps_keeps A init hid hwf _ r hr q hq⟩
      rw [ring_allreduce_eq A init r hn, hq]

theorem scenario_ring4_fits : callbacks_fit scenario_ring4_args 1 4 := by
  intro m k h1 h2 hk
  have hk4 : k < 4 := hk
  have hs : slice_end 4 4 k - slice_begin 4 4 k = 1 := by
    interval_cases k <;> decide
  refine ⟨fun flag => ?_, fun buf => ?_⟩
  · show 8 * (view m IR.ALL (slice_range 4 4 k)).height
        * (view m IR.ALL (slice_range 4 4 k)).width ≤ 8
    simp [view, IR.hi, IR.lo, slice_range, h1, hs]
  · show 8 * (view m IR.ALL (slice_range 4 4 k)).height
        * (view m IR.ALL (slice_range 4 4 k)).width ≤ 8
    simp [view, IR.hi, IR.lo, slice_range, h1, hs]

theorem C26_allgather_buffers_witness :
    (∃ q x y, pe_ag_steps scenario_ring4_args 1
        (pe_before_ag scenario_ring4_args scenario_ring4_init) 1 = some q ∧
      q.recv_buf = bufptr.scratch x ∧ q.recv_buf2 = bufptr.scratch y ∧ x ≠ y) ∧
    (∃ q, pe_ring_allreduce scenario_ring4_args scenario_ring4_init 1 = outcome.returned q ∧
      holds_two_buffers q) ∧
    (∃ q, ring_allreduce scenario_ring4_args scenario_ring4_init 1 = outcome.returned q ∧
      holds_two_buffers q) :=
  have h := C26_allgather_buffers scenario_ring4_args scenario_ring4_init rfl (by decide)
    (fun _ _ => ⟨[], [], rfl⟩) 1 (by decide)
  have hl := h.2.2.2.2.2.2 1 4 rfl (fun _ _ => ⟨rfl, rfl⟩) scenario_ring4_fits
  ⟨(hl.2.1 1).elim (fun q hq =>
      (h.2.2.1 1 q (by decide) hq).elim (fun x hx => hx.elim (fun y hy =>
        ⟨q, x, y, hq, hy.1, hy.2.1, hy.2.2.1⟩))),
    hl.2.2.1, hl.2.2.2.2.2⟩

/-! ## Partners of the pairwise exchange -/

/-- What a reduce-scatter step of `pe_ring_allreduce` does to the matrix of a rank that holds
its first buffer: the view `accum_view` of slice `rank` is replaced by what
`recv_apply_transform` makes of the received buffer and that view; nothing else changes. -/
theorem pe_rs_iter_mat {α : Type} (A : call_args α) (rank step : Nat)
    (incoming : Mat α × Nat) (p p1 : proc α) (a : Nat) (hb : holds_first_buffer A a p)
    (h : pe_rs_iter A rank step incoming p = some p1) :
    p1.mat = set_view p.mat IR.ALL (slice_range p.mat.width A.nprocs rank)
      (A.T.recv_apply_transform (contiguous incoming.1)
        (view p.mat IR.ALL (slice_range p.mat.width A.nprocs rank))
        (A.no_local_trans && A.is_rank_node_local rank
          (int_mod ((rank : Int) - (step : Int) + (A.nprocs : Int)) A.nprocs))).1 := by
  obtain ⟨hbuf, hcnt, hwf, hslot⟩ := hb
  unfold pe_rs_iter at h
  by_cases hl : (A.no_local_trans && A.is_rank_node_local rank
      (int_mod ((rank : Int) - (step : Int) + (A.nprocs : Int)) A.nprocs)) = true
  · obtain ⟨b, hb, _⟩ := acquire_zero_spec (A.sizeof_DataType
        * (view p.mat IR.ALL (slice_range p.mat.width A.nprocs rank)).height
        * (view p.mat IR.ALL (slice_range p.mat.width A.nprocs rank)).width) p hwf
    simp only [hl, if_true, hb] at h
    split at h
    · exact Option.noConfusion h
    · rename_i p2 hst
      obtain ⟨e, _, _⟩ := receive_scratch_fields _ _ _ _ _ _ hst
      subst e
      simp only [load] at h
      injection h with h
      subst h
      simp [acquire, hl]
  · have hl2 : (A.no_local_trans && A.is_rank_node_local rank
        (int_mod ((rank : Int) - (step : Int) + (A.nprocs : Int)) A.nprocs)) = false := by
      simpa using hl
    simp only [hl2, Bool.false_eq_true, if_false, hbuf] at h
    split at h
    · exact Option.noConfusion h
    · rename_i p2 hst
      obtain ⟨e, _, _⟩ := receive_scratch_fields _ _ _ _ _ _ hst
      subst e
      simp only [load] at h
      injection h with h
      subst h
      simp [hl2]

theorem scenario_pe_fits : callbacks_fit scenario_pe_args 1 3 := by
  intro m k h1 h2 hk
  have hk3 : k < 3 := hk
  have hs : slice_end 3 3 k - slice_begin 3 3 k = 1 := by
    interval_cases k <;> decide
  refine ⟨fun flag => ?_, fun buf => ?_⟩
  · show 8 * (view m IR.ALL (slice_range 3 3 k)).height
        * (view m IR.ALL (slice_range 3 3 k)).width ≤ 8
    simp [view, IR.hi, IR.lo, slice_range, h1, hs]
  · show 8 * (view m IR.ALL (slice_range 3 3 k)).height
        * (view m IR.ALL (slice_range 3 3 k)).width ≤ 8
    simp [view, IR.hi, IR.lo, slice_range, h1, hs]

/-- C21: for `n ≥ 2` ranks, a rank `r < n` and a reduce-scatter step `1 ≤ s < n` of
`pe_ring_allreduce`, whatever the callbacks and `max_recv_count`: the exchange the step
makes is with `dst = (r + s) % n` and `src = (r - s + n) % n`, and a rank that gets through
the loop has made exactly the `n - 1` exchanges with these partners, in the order of the
steps (every rank does get through when the node-local shortcut is off, the matrices have
one shape, the callbacks never report more than `max_recv_count` bytes and the buffer pools
are well formed); both partners are ranks below `n` other than `r`; the destination of rank
`src` at that step is `r`, and what `src` sends is built from its slice `r`; slice `r` is
the one `r` accumulates into: the step replaces the view of slice `r` of the matrix of `r`
by what `recv_apply_transform` makes of the received buffer and that view, and with
well-formed buffer pools every rank holds its first buffer at every step it gets to; and
over the steps `1 .. n-1` every rank other than `r` is the source exactly once. -/
theorem C21_pe_exchange_partners {α : Type} (A : call_args α) (init : Nat → proc α)
    (r s : Nat) (hn : 2 ≤ A.nprocs) (hr : r < A.nprocs) (hs1 : 1 ≤ s) (hs : s < A.nprocs) :
    (∀ incoming p p1, pe_rs_iter A r s incoming p = some p1 →
      exchanges p1 = exchanges p ++ [event.sendrecv ((r + s) % A.nprocs)
        (int_mod ((r : Int) - (s : Int) + (A.nprocs : Int)) A.nprocs)]) ∧
    (∀ p, pe_rs_loop A (fun q => some (pe_setup A (init q))) r = some p →
      exchanges p = exchanges (init r)
        ++ (List.range (A.nprocs - 1)).map (fun t =>
            event.sendrecv ((r + (t + 1)) % A.nprocs)
              (int_mod ((r : Int) - ((t + 1 : Nat) : Int) + (A.nprocs : Int)) A.nprocs))) ∧
    (∀ h w : Nat, A.no_local_trans = false →
      (∀ q, q < A.nprocs → (init q).mat.height = h ∧ (init q).mat.width = w) →
      callbacks_fit A h w →
      (∀ q, q < A.nprocs → pool_wf (init q).comm.pool) →
      ∃ p, pe_rs_loop A (fun q => some (pe_setup A (init q))) r = some p) ∧
    (r + s) % A.nprocs < A.nprocs ∧
    int_mod ((r : Int) - (s : Int) + (A.nprocs : Int)) A.nprocs < A.nprocs ∧
    (r + s) % A.nprocs ≠ r ∧
    int_mod ((r : Int) - (s : Int) + (A.nprocs : Int)) A.nprocs ≠ r ∧
    (int_mod ((r : Int) - (s : Int) + (A.nprocs : Int)) A.nprocs + s) % A.nprocs = r ∧
    (∀ p : proc α,
      pe_rs_send A (int_mod ((r : Int) - (s : Int) + (A.nprocs : Int)) A.nprocs) s p
        = if A.no_local_trans && A.is_rank_node_local
              (int_mod ((r : Int) - (s : Int) + (A.nprocs : Int)) A.nprocs) r
          then (view p.mat IR.ALL (slice_range p.mat.width A.nprocs r),
            A.sizeof_DataType * (view p.mat IR.ALL (slice_range p.mat.width A.nprocs r)).height
              * (view p.mat IR.ALL (slice_range p.mat.width A.nprocs r)).width)
          else A.T.send_transform p.mat IR.ALL (slice_range p.mat.width A.nprocs r) true) ∧
    (∀ incoming p p1 a, holds_first_buffer A a p →
      pe_rs_iter A r s incoming p = some p1 →
      p1.mat = set_view p.mat IR.ALL (slice_range p.mat.width A.nprocs r)
        (A.T.recv_apply_transform (contiguous incoming.1)
          (view p.mat IR.ALL (slice_range p.mat.width A.nprocs r))
          (A.no_local_trans && A.is_rank_node_local r
            (int_mod ((r : Int) - (s : Int) + (A.nprocs : Int)) A.nprocs))).1) ∧
    ((∀ q, q < A.nprocs → pool_wf (init q).comm.pool) →
      ∀ p, pe_rs_loop A (fun q => some (pe_setup A (init q))) r = some p →
        ∃ a, holds_first_buffer A a p) ∧
    (∀ q, q < A.nprocs → q ≠ r →
      ∃ t, (1 ≤ t ∧ t < A.nprocs ∧
          int_mod ((r : Int) - (t : Int) + (A.nprocs : Int)) A.nprocs = q) ∧
        ∀ t2, 1 ≤ t2 → t2 < A.nprocs →
          int_mod ((r : Int) - (t2 : Int) + (A.nprocs : Int)) A.nprocs = q → t2 = t) := by
  have hsrc := int_mod_eq_ring_back A.nprocs r s (by omega)
  have hfb := ring_fwd_back A.nprocs r s hr (by omega)
  refine ⟨?_, ?_, ?_, Nat.mod_lt _ (by omega), ?_, ?_, ?_, ?_, ?_, ?_, ?_, ?_⟩
  · intro incoming p p1 h
    exact pe_rs_iter_exchanges A r s incoming p p1 h
  · intro p hp
    exact pe_rs_loop_exchanges A init (by omega) r p hp
  · intro h w hloc hdim hcb hwf
    obtain ⟨p, hp, _⟩ := pe_rs_loop_live A h w init hn hloc hdim hcb hwf r hr
    exact ⟨p, hp⟩
  · rw [hsrc]; exact ring_back_lt _ _ _ (by omega)
  · intro hc
    have h1 := ring_back_fwd A.nprocs r s hr (by omega)
    rw [hc] at h1
    exact ring_back_ne A.nprocs r s hr (by omega) hs h1
  · rw [hsrc]; exact ring_back_ne A.nprocs r s hr (by omega) hs
  · rw [hsrc]; exact hfb
  · intro p
    rw [hsrc]
    unfold pe_rs_send
    simp only [hfb]
  · intro incoming p p1 a hb h
    exact pe_rs_iter_mat A r s incoming p p1 a hb h
  · intro hwf p hp
    exact pe_rs_loop_keeps A init (by omega) hwf r hr p hp
  · intro q hq hqr
    have hlt : ring_back A.nprocs r q < A.nprocs := ring_back_lt _ _ _ (by omega)
    have hinv := ring_back_invol A.nprocs r q hr hq
    refine ⟨ring_back A.nprocs r q, ⟨?_, hlt, ?_⟩, ?_⟩
    · rcases Nat.eq_zero_or_pos (ring_back A.nprocs r q) with h0 | h0
      · rw [h0, ring_back_zero A.nprocs r hr] at hinv
        exact absurd hinv.symm hqr
      · exact h0
    · rw [int_mod_eq_ring_back A.nprocs r _ (by omega)]
      exact hinv
    · intro t2 _ ht2 h2
      rw [int_mod_eq_ring_back A.nprocs r t2 (by omega)] at h2
      apply ring_back_inj A.nprocs r t2 _ hr ht2 hlt
      rw [h2, hinv]

theorem C21_pe_exchange_partners_witness :
    (∃ p, pe_rs_loop scenario_pe_args
        (fun q => some (pe_setup scenario_pe_args (scenario_pe_init q))) 1 = some p ∧
      exchanges p = exchanges (scenario_pe_init 1)
        ++ [event.sendrecv 2 0, event.sendrecv 0 2]) ∧
    (1 + 2) % scenario_pe_args.nprocs ≠ 1 ∧
    int_mod ((1 : Int) - ((2 : Nat) : Int) + (scenario_pe_args.nprocs : Int))
      scenario_pe_args.nprocs ≠ 1 :=
  have h := C21_pe_exchange_partners scenario_pe_args scenario_pe_init 1 2 (by decide)
    (by decide) (by decide) (by decide)
  ⟨(h.2.2.1 1 3 rfl (fun _ _ => ⟨rfl, rfl⟩) scenario_pe_fits
      (fun _ _ => pool_wf_empty [])).elim
      (fun p hp => ⟨p, hp, h.2.1 p hp⟩),
    h.2.2.2.2.2.1, h.2.2.2.2.2.2.1⟩

/-! ## Rabenseifner index arithmetic -/

theorem xor_two_pow_eq (r e : Nat) :
    r ^^^ 2 ^ e = if r / 2 ^ e % 2 = 0 then r + 2 ^ e else r - 2 ^ e := by
  have h1 := xor_two_pow_div r e
  have h2 := xor_two_pow_mod r e
  have h3 := Nat.div_add_mod (r ^^^ 2 ^ e) (2 ^ e)
  have h4 := Nat.div_add_mod r (2 ^ e)
  rw [h1, h2, xor_one_eq] at h3
  generalize r / 2 ^ e = q at h3 h4 ⊢
  generalize r % 2 ^ e = m at h3 h4
  generalize r ^^^ 2 ^ e = x at h3 ⊢
  generalize 2 ^ e = h at h3 h4 ⊢
  by_cases hb : q % 2 = 0
  · rw [if_pos hb] at h3 ⊢
    rw [Nat.mul_add, Nat.mul_one] at h3
    omega
  · rw [if_neg hb] at h3 ⊢
    have hq : 1 ≤ q := by omega
    have h5 : h * (q - 1) = h * q - h := by
      rw [Nat.mul_sub, Nat.mul_one]
    have h6 : h ≤ h * q := Nat.le_mul_of_pos_right _ hq
    omega

theorem two_pow_le_of_bit (r e : Nat) (hb : ¬ r / 2 ^ e % 2 = 0) : 2 ^ e ≤ r := by
  have h4 := Nat.div_add_mod r (2 ^ e)
  generalize r / 2 ^ e = q at h4 hb
  generalize r % 2 ^ e = m at h4
  generalize 2 ^ e = h at h4 ⊢
  have hq : 1 ≤ q := by omega
  have h6 : h ≤ h * q := Nat.le_mul_of_pos_right _ hq
  omega

theorem xor_lt_iff (r e : Nat) : r < r ^^^ 2 ^ e ↔ r / 2 ^ e % 2 = 0 := by
  have hpos : 0 < 2 ^ e := Nat.two_pow_pos e
  rw [xor_two_pow_eq]
  by_cases hb : r / 2 ^ e % 2 = 0
  · rw [if_pos hb]; simp [hb, hpos]
  · rw [if_neg hb]; simp [hb]

theorem block_start_zero (r : Nat) : block_start r 0 = r := by
  simp [block_start]

theorem block_start_one (r : Nat) : block_start r 1 = r / 2 * 2 := by
  simp [block_start]

/-- The aligned block of `2 ^ e` slices of a rank is the lower half of its block of
`2 ^ (e + 1)` slices when bit `e` of the rank is clear, and the upper half otherwise; the
partner `r XOR 2 ^ e` has the other half. -/
theorem block_start_halves (r e : Nat) :
    (r / 2 ^ e % 2 = 0 →
      block_start r e = block_start r (e + 1) ∧
      block_start (r ^^^ 2 ^ e) e = block_start r (e + 1) + 2 ^ e) ∧
    (¬ r / 2 ^ e % 2 = 0 →
      block_start r e = block_start r (e + 1) + 2 ^ e ∧
      block_start (r ^^^ 2 ^ e) e = block_start r (e + 1)) := by
  have hd : r / 2 ^ (e + 1) = r / 2 ^ e / 2 := by
    rw [Nat.pow_succ, Nat.div_div_eq_div_mul]
  have hp : 2 ^ (e + 1) = 2 * 2 ^ e := by rw [Nat.pow_succ, Nat.mul_comm]
  unfold block_start
  rw [xor_two_pow_div, xor_one_eq, hd, hp]
  constructor
  · intro hb
    rw [if_pos hb]
    obtain ⟨m, hm⟩ : ∃ m, r / 2 ^ e = 2 * m := ⟨r / 2 ^ e / 2, by omega⟩
    have hm2 : r / 2 ^ e / 2 = m := by omega
    rw [hm2, hm]
    constructor <;> ring
  · intro hb
    rw [if_neg hb]
    obtain ⟨m, hm⟩ : ∃ m, r / 2 ^ e = 2 * m + 1 := ⟨r / 2 ^ e / 2, by omega⟩
    have hm2 : r / 2 ^ e / 2 = m := by omega
    rw [hm2, hm]
    have h3 : 2 * m + 1 - 1 = 2 * m := by omega
    rw [h3]
    constructor <;> ring

/-- The aligned block of `2 ^ e` slices of a rank below `2 ^ (t + e)` lies below
`2 ^ (t + e)`. -/
theorem block_start_bound (r e t : Nat) (hr : r < 2 ^ (t + e)) :
    block_start r e + 2 ^ e ≤ 2 ^ (t + e) := by
  unfold block_start
  have hpos : 0 < 2 ^ e := Nat.two_pow_pos e
  have h1 : r / 2 ^ e < 2 ^ t := by
    apply (Nat.div_lt_iff_lt_mul hpos).2
    rw [← Nat.pow_add]; exact hr
  have h2 : (r / 2 ^ e + 1) * 2 ^ e ≤ 2 ^ t * 2 ^ e := Nat.mul_le_mul_right _ h1
  rw [Nat.pow_add]
  have h3 : (r / 2 ^ e + 1) * 2 ^ e = r / 2 ^ e * 2 ^ e + 2 ^ e := by ring
  omega

theorem block_start_le (r e : Nat) : block_start r e ≤ r := by
  unfold block_start
  exact Nat.div_mul_le_self r (2 ^ e)

theorem u32_of_lt (x : Nat) (h : x < 2 ^ 32) : u32 x = x := Nat.mod_eq_of_lt h

theorem two_pow_lt_u32 (a : Nat) (h : a ≤ 31) : 2 ^ a < 2 ^ 32 :=
  Nat.pow_lt_pow_right (by decide) (by omega)

/-- The range over the slices `first .. last - 1` when the indices are in bounds. -/
theorem rab_range_eq (cols nprocs first last : Nat) (hf : first < nprocs) (hl1 : 1 ≤ last)
    (hl : last ≤ nprocs) (hn : nprocs < 2 ^ 32) :
    rab_range cols nprocs first last
      = some (IR.range (slice_begin cols nprocs first) (slice_end cols nprocs (last - 1))) := by
  have hsub : u32_sub last 1 = last - 1 := by
    unfold u32_sub
    have : (1 : Nat) % 2 ^ 32 = 1 := by decide
    rw [this]
    have h2 : last + 2 ^ 32 - 1 = (last - 1) + 2 ^ 32 := by omega
    rw [h2, Nat.add_mod_right]
    exact Nat.mod_eq_of_lt (by omega)
  have e1 : (slice_ends cols nprocs)[first]? = some (slice_end cols nprocs first) := by
    unfold slice_end
    rw [List.getD_eq_getElem?_getD,
      List.getElem?_eq_getElem (by rw [slice_ends_length]; exact hf)]
    rfl
  have e2 : (slice_lengths cols nprocs)[first]?
      = some ((slice_lengths cols nprocs).getD first 0) := by
    rw [List.getD_eq_getElem?_getD,
      List.getElem?_eq_getElem (by rw [slice_lengths_length]; exact hf)]
    rfl
  have e3 : (slice_ends cols nprocs)[last - 1]? = some (slice_end cols nprocs (last - 1)) := by
    unfold slice_end
    rw [List.getD_eq_getElem?_getD,
      List.getElem?_eq_getElem (by rw [slice_ends_length]; omega)]
    rfl
  unfold rab_range
  rw [hsub, e1, e2, e3]
  rfl

/-! ## Rabenseifner: the recursive-halving index trace -/

theorem u32_div_pow (n t e : Nat) (hn : n = 2 ^ (t + e + 1)) (hk : t + e + 1 ≤ 30) :
    u32_div n (u32 (2 ^ t * 2)) = some (2 ^ e) := by
  have h1 : 2 ^ t * 2 = 2 ^ (t + 1) := (Nat.pow_succ 2 t).symm
  rw [h1, u32_of_lt _ (two_pow_lt_u32 _ (by omega))]
  unfold u32_div
  rw [if_neg (by have := Nat.two_pow_pos (t + 1); omega)]
  have h2 : t + e + 1 = e + (t + 1) := by omega
  rw [hn, h2, Nat.pow_add, Nat.mul_div_cancel _ (Nat.two_pow_pos (t + 1))]

theorem block_bound (n r t e : Nat) (hn : n = 2 ^ (t + e)) (hr : r < n) :
    block_start r e + 2 ^ e ≤ n := by
  rw [hn] at hr ⊢
  exact block_start_bound r e t hr

theorem halves_facts (B h H n : Nat) (hpos : 0 < h) (hH : H = h + h) (hb : B + H ≤ n)
    (hn32 : n < 2 ^ 32) :
    B + h < 2 ^ 32 ∧ B + h < n ∧ B < n ∧ 1 ≤ B + h ∧ B + h ≤ n ∧ 1 ≤ B + H
      ∧ B + H - 1 = B + h + h - 1 ∧ B + H < 2 ^ 32 := by
  omega

/-- The ranges of a recursive-halving step in closed form: the rank keeps its aligned block
of `2 ^ e` slices and sends the block of its partner. -/
theorem rab_rs_ranges_eq (cols n r t e : Nat) (hn : n = 2 ^ (t + e + 1))
    (hk : t + e + 1 ≤ 30) (hr : r < n) :
    rab_rs_ranges cols n r (2 ^ e) (2 ^ t)
        { send_idx := block_start r (e + 1), recv_idx := block_start r (e + 1)
          last_idx := block_start r (e + 1) + 2 ^ (e + 1) }
      = some ({ send_idx := block_start (r ^^^ 2 ^ e) e, recv_idx := block_start r e
                last_idx := block_start r (e + 1) + 2 ^ (e + 1) },
          block_range cols n (block_start (r ^^^ 2 ^ e) e) (2 ^ e),
          block_range cols n (block_start r e) (2 ^ e)) := by
  have hn32 : n < 2 ^ 32 := by rw [hn]; exact two_pow_lt_u32 _ (by omega)
  have hb := block_bound n r t (e + 1) hn hr
  have hp : 2 ^ (e + 1) = 2 ^ e + 2 ^ e := by rw [Nat.pow_succ]; omega
  obtain ⟨f1, f2, f3, f4, f5, f6, f7, _⟩ :=
    halves_facts (block_start r (e + 1)) (2 ^ e) (2 ^ (e + 1)) n (Nat.two_pow_pos e) hp hb hn32
  obtain ⟨hc, hs⟩ := block_start_halves r e
  unfold rab_rs_ranges
  rw [u32_div_pow n t e hn hk]
  simp only
  by_cases hbit : r / 2 ^ e % 2 = 0
  · obtain ⟨e1, e2⟩ := hc hbit
    rw [if_pos ((xor_lt_iff r e).2 hbit), u32_of_lt _ f1,
      rab_range_eq _ _ _ _ f2 f6 hb hn32, rab_range_eq _ _ _ _ f3 f4 f5 hn32]
    simp only [e1, e2, block_range, f7]
  · obtain ⟨e1, e2⟩ := hs hbit
    rw [if_neg (fun h => hbit ((xor_lt_iff r e).1 h)), u32_of_lt _ f1,
      rab_range_eq _ _ _ _ f3 f4 f5 hn32, rab_range_eq _ _ _ _ f2 f6 hb hn32]
    simp only [e1, e2, block_range, f7]

/-- The index variables after a recursive-halving step that is not the last: the block of
`2 ^ e` slices the rank kept. -/
theorem rab_rs_index_step_succ (cols n r t e : Nat) (hn : n = 2 ^ (t + (e + 1) + 1))
    (hk : t + (e + 1) + 1 ≤ 30) (hr : r < n) :
    rab_rs_index_step cols n r (2 ^ (e + 1)) (2 ^ t)
        { send_idx := block_start r (e + 2), recv_idx := block_start r (e + 2)
          last_idx := block_start r (e + 2) + 2 ^ (e + 2) }
      = some ({ send_idx := block_start r (e + 1), recv_idx := block_start r (e + 1)
                last_idx := block_start r (e + 1) + 2 ^ (e + 1) },
          block_range cols n (block_start (r ^^^ 2 ^ (e + 1)) (e + 1)) (2 ^ (e + 1)),
          block_range cols n (block_start r (e + 1)) (2 ^ (e + 1))) := by
  unfold rab_rs_index_step
  rw [rab_rs_ranges_eq cols n r t (e + 1) hn hk hr]
  simp only
  have hsh : 2 ^ (e + 1) >>> 1 = 2 ^ e := by
    rw [Nat.shiftRight_eq_div_pow, Nat.pow_one, Nat.pow_succ, Nat.mul_div_cancel _ (by decide)]
  have hsl : 2 ^ t <<< 1 = 2 ^ t * 2 := by rw [Nat.shiftLeft_eq, Nat.pow_one]
  rw [hsh, if_pos (Nat.two_pow_pos e), hsl, u32_div_pow n t (e + 1) hn hk]
  simp only
  have hn2 : n = 2 ^ (t + 1 + (e + 1)) := by
    rw [hn]; congr 1; omega
  have hb := block_bound n r (t + 1) (e + 1) hn2 hr
  have hn32 : n < 2 ^ 32 := by rw [hn]; exact two_pow_lt_u32 _ (by omega)
  rw [u32_of_lt _ (Nat.lt_of_le_of_lt hb hn32)]

/-- The index variables after the last recursive-halving step: `send_idx` and `recv_idx`
are the rank itself, `last_idx` is left at the end of the pair of slices of the step. -/
theorem rab_rs_index_step_last (cols n r t : Nat) (hn : n = 2 ^ (t + 0 + 1))
    (hk : t + 0 + 1 ≤ 30) (hr : r < n) :
    rab_rs_index_step cols n r (2 ^ 0) (2 ^ t)
        { send_idx := block_start r 1, recv_idx := block_start r 1
          last_idx := block_start r 1 + 2 ^ 1 }
      = some ({ send_idx := r, recv_idx := r, last_idx := block_start r 1 + 2 ^ 1 },
          block_range cols n (block_start (r ^^^ 2 ^ 0) 0) (2 ^ 0),
          block_range cols n (block_start r 0) (2 ^ 0)) := by
  unfold rab_rs_index_step
  rw [rab_rs_ranges_eq cols n r t 0 hn hk hr]
  simp only
  have hsh : 2 ^ 0 >>> 1 = 0 := by decide
  rw [hsh, if_neg (by decide), block_start_zero r]

theorem rab_rs_indices_done (cols n r fuel sm : Nat) (v : rab_vars) :
    rab_rs_indices cols n r fuel 0 sm v = some ([], v, sm) := by
  cases fuel <;> simp [rab_rs_indices]

theorem shift_left_one_u32 (t : Nat) (ht : t + 1 ≤ 31) : u32 (2 ^ t <<< 1) = 2 ^ (t + 1) := by
  rw [Nat.shiftLeft_eq, Nat.pow_one, ← Nat.pow_succ]
  exact u32_of_lt _ (two_pow_lt_u32 _ ht)

theorem shift_right_one_pow (e : Nat) : 2 ^ (e + 1) >>> 1 = 2 ^ e := by
  rw [Nat.shiftRight_eq_div_pow, Nat.pow_one, Nat.pow_succ, Nat.mul_div_cancel _ (by decide)]

/-- The recursive-halving loop from the step with `partner_mask = 2 ^ e` on, started on the
aligned block of `2 ^ (e + 1)` slices of the rank: it makes the `e + 1` steps of
`rab_rs_expected` and ends with `send_idx = recv_idx = rank`. -/
theorem rab_rs_indices_eq (cols n r : Nat) :
    ∀ e t fuel, n = 2 ^ (t + e + 1) → t + e + 1 ≤ 30 → r < n → e + 1 ≤ fuel →
      rab_rs_indices cols n r fuel (2 ^ e) (2 ^ t)
          { send_idx := block_start r (e + 1), recv_idx := block_start r (e + 1)
            last_idx := block_start r (e + 1) + 2 ^ (e + 1) }
        = some (rab_rs_expected cols n r e,
            { send_idx := r, recv_idx := r, last_idx := block_start r 1 + 2 ^ 1 }, n) := by
  intro e
  induction e with
  | zero =>
    intro t fuel hn hk hr hf
    obtain ⟨f, rfl⟩ : ∃ f, fuel = f + 1 := ⟨fuel - 1, by omega⟩
    unfold rab_rs_indices
    rw [if_pos (Nat.two_pow_pos 0), rab_rs_index_step_last cols n r t hn hk hr]
    simp only
    have hsh : 2 ^ 0 >>> 1 = 0 := by decide
    rw [hsh, rab_rs_indices_done, shift_left_one_u32 t (by omega)]
    simp only [rab_rs_expected, Nat.pow_zero]
    rw [hn]
  | succ e ih =>
    intro t fuel hn hk hr hf
    obtain ⟨f, rfl⟩ : ∃ f, fuel = f + 1 := ⟨fuel - 1, by omega⟩
    unfold rab_rs_indices
    rw [if_pos (Nat.two_pow_pos (e + 1)), rab_rs_index_step_succ cols n r t e hn hk hr]
    simp only
    have hn2 : n = 2 ^ (t + 1 + e + 1) := by
      rw [hn]; congr 1; omega
    rw [shift_right_one_pow, shift_left_one_u32 t (by omega),
      ih (t + 1) f hn2 (by omega) hr (by omega)]
    simp only [rab_rs_expected]

/-- The index variables a recursive-halving step of the full routine leaves are those of
the index step. -/
theorem rab_rs_iter_indices {α : Type} (A : call_args α) (rank pm sm : Nat)
    (incoming : Mat α × Nat) (st st1 : proc α × rab_vars)
    (h : rab_rs_iter A rank pm sm incoming st = some st1) :
    ∃ send_range recv_range,
      rab_rs_index_step st.1.mat.width A.nprocs rank pm sm st.2
        = some (st1.2, send_range, recv_range) ∧
      exchanges st1.1 = exchanges st.1 ++ [event.sendrecv (rank ^^^ pm) (rank ^^^ pm)] := by
  unfold rab_rs_iter at h
  simp only at h
  unfold rab_rs_index_step
  cases hrng : rab_rs_ranges st.1.mat.width A.nprocs rank pm sm st.2 with
  | none =>
    rw [hrng] at h
    exact Option.noConfusion h
  | some x =>
    obtain ⟨v1, s, rr⟩ := x
    rw [hrng] at h
    simp only at h ⊢
    split at h
    · exact Option.noConfusion h
    · rename_i p2 hst
      have hl := (receive_log _ _ _ _ _ _ hst).1
      split at h
      · exact Option.noConfusion h
      · by_cases hpm : pm >>> 1 > 0
        · rw [if_pos hpm] at h ⊢
          cases hd : u32_div A.nprocs (u32 (sm <<< 1)) with
          | none =>
            rw [hd] at h
            exact Option.noConfusion h
          | some d =>
            rw [hd] at h
            simp only at h ⊢
            injection h with h
            subst h
            refine ⟨s, rr, rfl, ?_⟩
            simp only [exchanges] at hl ⊢
            rw [hl]
            simp [List.filter_append, event.is_sendrecv]
        · rw [if_neg hpm] at h ⊢
          injection h with h
          subst h
          refine ⟨s, rr, rfl, ?_⟩
          simp only [exchanges] at hl ⊢
          rw [hl]
          simp [List.filter_append, event.is_sendrecv]

theorem rab_rs_run (cols k r : Nat) (hk1 : 1 ≤ k) (hk : k ≤ 30) (hr : r < 2 ^ k) :
    rab_rs_indices cols (2 ^ k) r 32 (2 ^ k >>> 1) 1
        { send_idx := 0, recv_idx := 0, last_idx := u32 (2 ^ k) }
      = some (rab_rs_expected cols (2 ^ k) r (k - 1),
          { send_idx := r, recv_idx := r, last_idx := r / 2 * 2 + 2 }, 2 ^ k) := by
  obtain ⟨e, rfl⟩ : ∃ e, k = e + 1 := ⟨k - 1, by omega⟩
  have h := rab_rs_indices_eq cols (2 ^ (e + 1)) r e 0 32 (by rw [Nat.zero_add]) (by omega)
    hr (by omega)
  have hb : block_start r (e + 1) = 0 := by
    unfold block_start
    rw [Nat.div_eq_of_lt hr, Nat.zero_mul]
  rw [hb, block_start_one] at h
  simp only [Nat.zero_add, Nat.pow_zero, Nat.pow_one] at h
  rw [shift_right_one_pow, u32_of_lt _ (two_pow_lt_u32 _ (by omega)), Nat.add_sub_cancel]
  exact h

/-! ## Rabenseifner: the recursive-doubling index trace -/

theorem u32_sub_of_le (a b : Nat) (hb : b ≤ a) (ha : a < 2 ^ 32) : u32_sub a b = a - b := by
  unfold u32_sub
  have h1 : b % 2 ^ 32 = b := Nat.mod_eq_of_lt (by omega)
  rw [h1]
  have h2 : a + 2 ^ 32 - b = (a - b) + 2 ^ 32 := by omega
  rw [h2, Nat.add_mod_right]
  exact Nat.mod_eq_of_lt (by omega)

theorem half_of_pow (n u j : Nat) (hn : n = 2 ^ (u + j + 1)) : n / 2 = 2 ^ (u + j) := by
  rw [hn, Nat.pow_succ, Nat.mul_div_cancel _ (by decide)]

theorem slice_mask_test (n u j : Nat) (hn : n = 2 ^ (u + j + 1)) :
    (2 ^ j ≠ n / 2) ↔ u ≠ 0 := by
  rw [half_of_pow n u j hn]
  constructor
  · intro h hu
    subst hu
    rw [Nat.zero_add] at h
    exact h rfl
  · intro hu h
    have := Nat.pow_right_injective (Nat.le_refl 2) h
    omega

theorem ag_facts (B h H n : Nat) (hpos : 0 < h) (hH : H = h + h) (hb : B + H ≤ n)
    (hn32 : n < 2 ^ 32) :
    B + h < 2 ^ 32 ∧ B + h < n ∧ B < n ∧ 1 ≤ B + h ∧ B + h ≤ n ∧ 1 ≤ B + H
      ∧ B + H - 1 = B + h + h - 1 ∧ B + H < 2 ^ 32 ∧ h ≤ B + h ∧ B + h - h = B
      ∧ B + h + h = B + H := by
  omega

/-- A recursive-doubling step in closed form: the rank sends its aligned block of `2 ^ u`
slices, receives the block of its partner, and owns the aligned block of `2 ^ (u + 1)`
slices afterwards. -/
theorem rab_ag_index_step_eq (cols n r u j : Nat) (hn : n = 2 ^ (u + j + 1))
    (hk : u + j + 1 ≤ 30) (hr : r < n) (v : rab_vars)
    (hs : v.send_idx = block_start r u)
    (hl : v.last_idx = if u = 0 then r / 2 * 2 + 2 else block_start r u + 2 ^ u) :
    ∃ v1, rab_ag_index_step cols n r (2 ^ u) (2 ^ j) v
        = some (v1, block_range cols n (block_start r u) (2 ^ u),
            block_range cols n (block_start (r ^^^ 2 ^ u) u) (2 ^ u)) ∧
      v1.send_idx = block_start r (u + 1) ∧
      v1.last_idx = block_start r (u + 1) + 2 ^ (u + 1) ∧
      v1.recv_idx = block_start (r ^^^ 2 ^ u) u := by
  have hn32 : n < 2 ^ 32 := by rw [hn]; exact two_pow_lt_u32 _ (by omega)
  have hn2 : n = 2 ^ (j + (u + 1)) := by rw [hn]; congr 1; omega
  have hb := block_bound n r j (u + 1) hn2 hr
  have hp : 2 ^ (u + 1) = 2 ^ u + 2 ^ u := by rw [Nat.pow_succ]; omega
  obtain ⟨f1, f2, f3, f4, f5, f6, f7, f8, f9, f10, f11⟩ :=
    ag_facts (block_start r (u + 1)) (2 ^ u) (2 ^ (u + 1)) n (Nat.two_pow_pos u) hp hb hn32
  obtain ⟨hc, hset⟩ := block_start_halves r u
  have hdiv : u32_div n (u32 (2 ^ j * 2)) = some (2 ^ u) :=
    u32_div_pow n j u (by rw [hn]; congr 1; omega) (by omega)
  have hmask := slice_mask_test n u j hn
  unfold rab_ag_index_step rab_ag_ranges
  rw [hdiv]
  simp only
  by_cases hbit : r / 2 ^ u % 2 = 0
  · obtain ⟨e1, e2⟩ := hc hbit
    have hlt := (xor_lt_iff r u).2 hbit
    have key : (if 2 ^ j ≠ n / 2 then u32 (v.last_idx + 2 ^ u) else v.last_idx)
        = block_start r (u + 1) + 2 ^ (u + 1) := by
      by_cases hu : u = 0
      · subst hu
        rw [if_neg (by intro hc2; exact (hmask.1 hc2) rfl), hl, if_pos rfl, block_start_one]
        rfl
      · rw [if_pos (hmask.2 hu), hl, if_neg hu, e1, f11, u32_of_lt _ f8]
    rw [if_pos hlt, key, hs, e1, u32_of_lt _ f1,
      rab_range_eq _ _ _ _ f3 f4 f5 hn32, rab_range_eq _ _ _ _ f2 f6 hb hn32]
    simp only
    rw [if_neg (by omega)]
    simp only [e2, block_range, f7]
    exact ⟨_, rfl, rfl, rfl, rfl⟩
  · obtain ⟨e1, e2⟩ := hset hbit
    have hnlt : ¬ r < r ^^^ 2 ^ u := fun h => hbit ((xor_lt_iff r u).1 h)
    have hgt : r > r ^^^ 2 ^ u := by
      have := xor_two_pow_ne r u
      omega
    have key : v.last_idx = block_start r (u + 1) + 2 ^ (u + 1) := by
      by_cases hu : u = 0
      · subst hu
        rw [hl, if_pos rfl, block_start_one]
        rfl
      · rw [hl, if_neg hu, e1, f11]
    rw [if_neg hnlt, key, hs, e1, u32_sub_of_le _ _ f9 f1, f10,
      rab_range_eq _ _ _ _ f2 f6 hb hn32, rab_range_eq _ _ _ _ f3 f4 f5 hn32]
    simp only
    rw [if_pos hgt]
    simp only [e2, block_range, f7]
    exact ⟨_, rfl, rfl, rfl, rfl⟩

theorem rab_ag_indices_done (cols n r fuel pm sm : Nat) (v : rab_vars) (h : ¬ pm < n) :
    rab_ag_indices cols n r fuel pm sm v = some ([], v) := by
  cases fuel <;> simp [rab_ag_indices, h]

/-- The recursive-doubling loop from the step with `partner_mask = 2 ^ u` on, started on the
aligned block of `2 ^ u` slices of the rank: it makes the `j + 1` steps of
`rab_ag_expected` and ends owning the aligned block of `2 ^ (u + j + 1)` slices. -/
theorem rab_ag_indices_eq (cols n r : Nat) :
    ∀ j u fuel (v : rab_vars), n = 2 ^ (u + j + 1) → u + j + 1 ≤ 30 → r < n → j + 1 ≤ fuel →
      v.send_idx = block_start r u →
      v.last_idx = (if u = 0 then r / 2 * 2 + 2 else block_start r u + 2 ^ u) →
      ∃ v2, rab_ag_indices cols n r fuel (2 ^ u) (2 ^ j) v
          = some (rab_ag_expected cols n r u j, v2) ∧
        v2.send_idx = block_start r (u + j + 1) ∧
        v2.last_idx = block_start r (u + j + 1) + 2 ^ (u + j + 1) := by
  intro j
  induction j with
  | zero =>
    intro u fuel v hn hk hr hf hs hl
    obtain ⟨f, rfl⟩ : ∃ f, fuel = f + 1 := ⟨fuel - 1, by omega⟩
    obtain ⟨v1, h1, h2, h3, _⟩ := rab_ag_index_step_eq cols n r u 0 hn hk hr v hs hl
    have hlt : 2 ^ u < n := by
      rw [hn]; exact Nat.pow_lt_pow_right (by decide) (by omega)
    unfold rab_ag_indices
    rw [if_pos hlt, h1]
    simp only
    rw [shift_left_one_u32 u (by omega),
      rab_ag_indices_done _ _ _ _ _ _ _ (by rw [hn]; exact Nat.lt_irrefl _)]
    exact ⟨v1, rfl, h2, h3⟩
  | succ j ih =>
    intro u fuel v hn hk hr hf hs hl
    obtain ⟨f, rfl⟩ : ∃ f, fuel = f + 1 := ⟨fuel - 1, by omega⟩
    obtain ⟨v1, h1, h2, h3, _⟩ := rab_ag_index_step_eq cols n r u (j + 1) hn hk hr v hs hl
    have hlt : 2 ^ u < n := by
      rw [hn]; exact Nat.pow_lt_pow_right (by decide) (by omega)
    have hn2 : n = 2 ^ (u + 1 + j + 1) := by rw [hn]; congr 1; omega
    obtain ⟨v2, g1, g2, g3⟩ := ih (u + 1) f v1 hn2 (by omega) hr (by omega) h2
      (by rw [h3, if_neg (by omega)])
    have hexp : u + 1 + j + 1 = u + (j + 1) + 1 := by omega
    rw [hexp] at g2 g3
    unfold rab_ag_indices
    rw [if_pos hlt, h1]
    simp only
    rw [shift_left_one_u32 u (by omega), shift_right_one_pow, g1]
    exact ⟨v2, rfl, g2, g3⟩

theorem rab_ag_run (cols k r : Nat) (hk1 : 1 ≤ k) (hk : k ≤ 30) (hr : r < 2 ^ k) :
    ∃ v2, rab_ag_indices cols (2 ^ k) r 32 1 (2 ^ k >>> 1)
        { send_idx := r, recv_idx := r, last_idx := r / 2 * 2 + 2 }
      = some (rab_ag_expected cols (2 ^ k) r 0 (k - 1), v2) ∧
      v2.send_idx = 0 ∧ v2.last_idx = 2 ^ k := by
  obtain ⟨e, rfl⟩ : ∃ e, k = e + 1 := ⟨k - 1, by omega⟩
  obtain ⟨v2, h1, h2, h3⟩ := rab_ag_indices_eq cols (2 ^ (e + 1)) r e 0 32
    { send_idx := r, recv_idx := r, last_idx := r / 2 * 2 + 2 }
    (by rw [Nat.zero_add]) (by omega) hr (by omega) (block_start_zero r).symm
    (by rw [if_pos rfl])
  have hb : block_start r (0 + e + 1) = 0 := by
    unfold block_start
    rw [Nat.zero_add, Nat.div_eq_of_lt hr, Nat.zero_mul]
  rw [hb] at h2 h3
  simp only [Nat.zero_add] at h3
  rw [shift_right_one_pow, Nat.add_sub_cancel]
  exact ⟨v2, h1, h2, h3⟩

/-- The index variables a recursive-doubling step of the full routine leaves are those of
the index step. -/
theorem rab_ag_iter_indices {α : Type} (A : call_args α) (rank pm sm : Nat)
    (incoming : Mat α × Nat) (st st1 : proc α × rab_vars)
    (h : rab_ag_iter A rank pm sm incoming st = some st1) :
    ∃ send_range recv_range,
      rab_ag_index_step st.1.mat.width A.nprocs rank pm sm st.2
        = some (st1.2, send_range, recv_range) ∧
      exchanges st1.1 = exchanges st.1 ++ [event.sendrecv (rank ^^^ pm) (rank ^^^ pm)] := by
  unfold rab_ag_iter at h
  simp only at h
  unfold rab_ag_index_step
  cases hrng : rab_ag_ranges st.1.mat.width A.nprocs rank pm sm st.2 with
  | none =>
    rw [hrng] at h
    exact Option.noConfusion h
  | some x =>
    obtain ⟨v1, s, rr⟩ := x
    rw [hrng] at h
    simp only at h ⊢
    split at h
    · exact Option.noConfusion h
    · rename_i p2 hst
      have hl := (receive_log _ _ _ _ _ _ hst).1
      split at h
      · exact Option.noConfusion h
      · injection h with h
        subst h
        refine ⟨s, rr, rfl, ?_⟩
        simp only [exchanges] at hl ⊢
        rw [hl]
        simp [List.filter_append, event.is_sendrecv]

/-! ## Rabenseifner: ranges of the steps -/

theorem slice_end_mono (cols n i j : Nat) (hij : i ≤ j) (hj : j < n) :
    slice_end cols n i ≤ slice_end cols n j := by
  rcases Nat.eq_or_lt_of_le hij with h | h
  · rw [h]
  · exact Nat.le_trans (slice_end_le_begin cols n i j h hj) (slice_begin_le_end cols n j hj)

theorem block_range_le (cols n lo len : Nat) (hlen : 1 ≤ len) (h : lo + len ≤ n) :
    (block_range cols n lo len).lo ≤ (block_range cols n lo len).hi cols := by
  unfold block_range
  simp only [IR.lo, IR.hi]
  exact Nat.le_trans (slice_begin_le_end cols n lo (by omega))
    (slice_end_mono cols n lo (lo + len - 1) (by omega) (by omega))

/-- The two halves of a block of slices are adjacent column ranges that make up the column
range of the block. -/
theorem block_range_halves (cols n B h : Nat) (hpos : 0 < h) (hb : B + h + h ≤ n) :
    (block_range cols n B h).lo = (block_range cols n B (h + h)).lo ∧
    (block_range cols n B h).hi cols = (block_range cols n (B + h) h).lo ∧
    (block_range cols n (B + h) h).hi cols = (block_range cols n B (h + h)).hi cols := by
  unfold block_range
  simp only [IR.lo, IR.hi]
  refine ⟨trivial, ?_, ?_⟩
  · have := slice_begin_succ cols n (B + h - 1) (by omega)
    have e : B + h - 1 + 1 = B + h := by omega
    rw [e] at this
    exact this.symm
  · have e : B + h + h - 1 = B + (h + h) - 1 := by omega
    rw [e]

theorem rab_rs_expected_length (cols n r e : Nat) :
    (rab_rs_expected cols n r e).length = e + 1 := by
  induction e with
  | zero => rfl
  | succ e ih => simp [rab_rs_expected, ih]

theorem rab_rs_expected_get (cols n r : Nat) :
    ∀ e i, i ≤ e → (rab_rs_expected cols n r e)[i]?
      = some (r ^^^ 2 ^ (e - i),
          block_range cols n (block_start (r ^^^ 2 ^ (e - i)) (e - i)) (2 ^ (e - i)),
          block_range cols n (block_start r (e - i)) (2 ^ (e - i))) := by
  intro e
  induction e with
  | zero =>
    intro i hi
    have : i = 0 := by omega
    subst this
    rfl
  | succ e ih =>
    intro i hi
    cases i with
    | zero => simp [rab_rs_expected]
    | succ i =>
      have := ih i (by omega)
      simp only [rab_rs_expected, List.getElem?_cons_succ]
      rw [this]
      have e1 : e + 1 - (i + 1) = e - i := by omega
      rw [e1]

theorem rab_ag_expected_length (cols n r : Nat) :
    ∀ j u, (rab_ag_expected cols n r u j).length = j + 1 := by
  intro j
  induction j with
  | zero => intro u; rfl
  | succ j ih => intro u; simp [rab_ag_expected, ih]

theorem rab_ag_expected_get (cols n r : Nat) :
    ∀ j u i, i ≤ j → (rab_ag_expected cols n r u j)[i]?
      = some (r ^^^ 2 ^ (u + i),
          block_range cols n (block_start r (u + i)) (2 ^ (u + i)),
          block_range cols n (block_start (r ^^^ 2 ^ (u + i)) (u + i)) (2 ^ (u + i))) := by
  intro j
  induction j with
  | zero =>
    intro u i hi
    have : i = 0 := by omega
    subst this
    rfl
  | succ j ih =>
    intro u i hi
    cases i with
    | zero => simp [rab_ag_expected]
    | succ i =>
      have := ih (u + 1) i (by omega)
      simp only [rab_ag_expected, List.getElem?_cons_succ]
      rw [this]
      have e1 : u + 1 + i = u + (i + 1) := by omega
      rw [e1]

/-- The blocks of a rank and of its partner at exponent `e` are the two halves of the block
of the rank at exponent `e + 1`, inside the `2 ^ k` slices. -/
theorem block_pair (k r e : Nat) (he : e < k) (hr : r < 2 ^ k) :
    ((block_start r e = block_start r (e + 1) ∧
        block_start (r ^^^ 2 ^ e) e = block_start r (e + 1) + 2 ^ e ∧ r < r ^^^ 2 ^ e) ∨
      (block_start r e = block_start r (e + 1) + 2 ^ e ∧
        block_start (r ^^^ 2 ^ e) e = block_start r (e + 1) ∧ r ^^^ 2 ^ e < r)) ∧
    block_start r (e + 1) + 2 ^ e + 2 ^ e ≤ 2 ^ k ∧ 0 < 2 ^ e := by
  obtain ⟨t, rfl⟩ : ∃ t, k = t + (e + 1) := ⟨k - (e + 1), by omega⟩
  have hb := block_start_bound r (e + 1) t hr
  have hp : 2 ^ (e + 1) = 2 ^ e + 2 ^ e := by rw [Nat.pow_succ]; omega
  obtain ⟨hc, hs⟩ := block_start_halves r e
  refine ⟨?_, by rw [hp] at hb; omega, Nat.two_pow_pos e⟩
  by_cases hbit : r / 2 ^ e % 2 = 0
  · exact Or.inl ⟨(hc hbit).1, (hc hbit).2, (xor_lt_iff r e).2 hbit⟩
  · right
    refine ⟨(hs hbit).1, (hs hbit).2, ?_⟩
    have h1 : ¬ r < r ^^^ 2 ^ e := fun h => hbit ((xor_lt_iff r e).1 h)
    have h2 := xor_two_pow_ne r e
    omega

/-- The send and receive ranges of the step with `partner_mask = 2 ^ e` are the two halves
of the column range of the block of `2 ^ (e + 1)` slices of the rank. -/
theorem rab_step_ranges (cols k r e : Nat) (he : e < k) (hr : r < 2 ^ k) :
    (block_range cols (2 ^ k) (block_start (r ^^^ 2 ^ e) e) (2 ^ e)).lo
        ≤ (block_range cols (2 ^ k) (block_start (r ^^^ 2 ^ e) e) (2 ^ e)).hi cols ∧
    (block_range cols (2 ^ k) (block_start r e) (2 ^ e)).lo
        ≤ (block_range cols (2 ^ k) (block_start r e) (2 ^ e)).hi cols ∧
    ((r < r ^^^ 2 ^ e ∧
        (block_range cols (2 ^ k) (block_start r e) (2 ^ e)).hi cols
          = (block_range cols (2 ^ k) (block_start (r ^^^ 2 ^ e) e) (2 ^ e)).lo ∧
        (block_range cols (2 ^ k) (block_start r (e + 1)) (2 ^ (e + 1))).lo
          = (block_range cols (2 ^ k) (block_start r e) (2 ^ e)).lo ∧
        (block_range cols (2 ^ k) (block_start r (e + 1)) (2 ^ (e + 1))).hi cols
          = (block_range cols (2 ^ k) (block_start (r ^^^ 2 ^ e) e) (2 ^ e)).hi cols) ∨
      (r ^^^ 2 ^ e < r ∧
        (block_range cols (2 ^ k) (block_start (r ^^^ 2 ^ e) e) (2 ^ e)).hi cols
          = (block_range cols (2 ^ k) (block_start r e) (2 ^ e)).lo ∧
        (block_range cols (2 ^ k) (block_start r (e + 1)) (2 ^ (e + 1))).lo
          = (block_range cols (2 ^ k) (block_start (r ^^^ 2 ^ e) e) (2 ^ e)).lo ∧
        (block_range cols (2 ^ k) (block_start r (e + 1)) (2 ^ (e + 1))).hi cols
          = (block_range cols (2 ^ k) (block_start r e) (2 ^ e)).hi cols)) := by
  obtain ⟨hpair, hb, hpos⟩ := block_pair k r e he hr
  have hp : 2 ^ (e + 1) = 2 ^ e + 2 ^ e := by rw [Nat.pow_succ]; omega
  obtain ⟨g1, g2, g3⟩ := block_range_halves cols (2 ^ k) (block_start r (e + 1)) (2 ^ e) hpos hb
  have l1 := block_range_le cols (2 ^ k) (block_start r (e + 1)) (2 ^ e) hpos (by omega)
  have l2 := block_range_le cols (2 ^ k) (block_start r (e + 1) + 2 ^ e) (2 ^ e) hpos hb
  rw [hp]
  rcases hpair with ⟨e1, e2, hlt⟩ | ⟨e1, e2, hlt⟩
  · rw [e1, e2]
    exact ⟨l2, l1, Or.inl ⟨hlt, g2, g1.symm, g3.symm⟩⟩
  · rw [e1, e2]
    exact ⟨l1, l2, Or.inr ⟨hlt, g2, g1.symm, g3.symm⟩⟩

theorem block_range_all (cols k r : Nat) (hr : r < 2 ^ k) :
    block_range cols (2 ^ k) (block_start r k) (2 ^ k) = IR.range 0 cols := by
  have hb : block_start r k = 0 := by
    unfold block_start
    rw [Nat.div_eq_of_lt hr, Nat.zero_mul]
  have hpos := Nat.two_pow_pos k
  unfold block_range
  rw [hb, slice_begin_zero cols (2 ^ k) hpos, Nat.zero_add, slice_end_last cols (2 ^ k) hpos]

theorem block_range_single (cols n r : Nat) :
    block_range cols n (block_start r 0) (2 ^ 0) = slice_range cols n r := by
  rw [block_start_zero]
  rfl

/-- C22: for `n = 2 ^ k` ranks (`1 ≤ k ≤ 30`, `n` being an `int`) and a rank `r < n`, the
recursive-halving loop of `rabenseifner_allreduce` makes exactly `k = log2(n)` steps; at
step `i` the partner is `r XOR partner_mask` with `partner_mask = 2 ^ (k - 1 - i)`, that is
`n/2, n/4, ..., 1`; the receive range is the column range of the aligned block of
`partner_mask` slices that contains slice `r` and the send range that of the block of the
partner, both of `partner_mask` slices; the two are adjacent column ranges (the lower one
ends where the upper one begins), so disjoint, and together make up the column range of the
aligned block of `2 * partner_mask` slices of `r`, which is the receive range of the step
before and all columns at the first step; after the last step the receive range is the
column range of slice `r`. -/
theorem C22_recursive_halving_ranges (cols k r : Nat) (hk1 : 1 ≤ k) (hk : k ≤ 30)
    (hr : r < 2 ^ k) :
    rab_rs_indices cols (2 ^ k) r 32 (2 ^ k >>> 1) 1
        { send_idx := 0, recv_idx := 0, last_idx := u32 (2 ^ k) }
      = some (rab_rs_expected cols (2 ^ k) r (k - 1),
          { send_idx := r, recv_idx := r, last_idx := r / 2 * 2 + 2 }, 2 ^ k) ∧
    (rab_rs_expected cols (2 ^ k) r (k - 1)).length = k ∧
    (∀ i, i < k → (rab_rs_expected cols (2 ^ k) r (k - 1))[i]?
      = some (r ^^^ 2 ^ (k - 1 - i),
          block_range cols (2 ^ k) (block_start (r ^^^ 2 ^ (k - 1 - i)) (k - 1 - i))
            (2 ^ (k - 1 - i)),
          block_range cols (2 ^ k) (block_start r (k - 1 - i)) (2 ^ (k - 1 - i)))) ∧
    (∀ e, e < k →
      (block_range cols (2 ^ k) (block_start (r ^^^ 2 ^ e) e) (2 ^ e)).lo
          ≤ (block_range cols (2 ^ k) (block_start (r ^^^ 2 ^ e) e) (2 ^ e)).hi cols ∧
      (block_range cols (2 ^ k) (block_start r e) (2 ^ e)).lo
          ≤ (block_range cols (2 ^ k) (block_start r e) (2 ^ e)).hi cols ∧
      ((r < r ^^^ 2 ^ e ∧
          (block_range cols (2 ^ k) (block_start r e) (2 ^ e)).hi cols
            = (block_range cols (2 ^ k) (block_start (r ^^^ 2 ^ e) e) (2 ^ e)).lo ∧
          (block_range cols (2 ^ k) (block_start r (e + 1)) (2 ^ (e + 1))).lo
            = (block_range cols (2 ^ k) (block_start r e) (2 ^ e)).lo ∧
          (block_range cols (2 ^ k) (block_start r (e + 1)) (2 ^ (e + 1))).hi cols
            = (block_range cols (2 ^ k) (block_start (r ^^^ 2 ^ e) e) (2 ^ e)).hi cols) ∨
        (r ^^^ 2 ^ e < r ∧
          (block_range cols (2 ^ k) (block_start (r ^^^ 2 ^ e) e) (2 ^ e)).hi cols
            = (block_range cols (2 ^ k) (block_start r e) (2 ^ e)).lo ∧
          (block_range cols (2 ^ k) (block_start r (e + 1)) (2 ^ (e + 1))).lo
            = (block_range cols (2 ^ k) (block_start (r ^^^ 2 ^ e) e) (2 ^ e)).lo ∧
          (block_range cols (2 ^ k) (block_start r (e + 1)) (2 ^ (e + 1))).hi cols
            = (block_range cols (2 ^ k) (block_start r e) (2 ^ e)).hi cols))) ∧
    block_range cols (2 ^ k) (block_start r k) (2 ^ k) = IR.range 0 cols ∧
    block_range cols (2 ^ k) (block_start r 0) (2 ^ 0) = slice_range cols (2 ^ k) r := by
  refine ⟨rab_rs_run cols k r hk1 hk hr, ?_, ?_, ?_, block_range_all cols k r hr,
    block_range_single cols (2 ^ k) r⟩
  · rw [rab_rs_expected_length]; omega
  · intro i hi
    exact rab_rs_expected_get cols (2 ^ k) r (k - 1) i (by omega)
  · intro e he
    exact rab_step_ranges cols k r e he hr

theorem C22_recursive_halving_ranges_witness :
    rab_rs_indices 5 (2 ^ 2) 3 32 (2 ^ 2 >>> 1) 1
        { send_idx := 0, recv_idx := 0, last_idx := u32 (2 ^ 2) }
      = some (rab_rs_expected 5 (2 ^ 2) 3 (2 - 1),
          { send_idx := 3, recv_idx := 3, last_idx := 3 / 2 * 2 + 2 }, 2 ^ 2) ∧
    rab_rs_expected 5 4 3 1
      = [(1, IR.range 0 3, IR.range 3 5), (2, IR.range 3 4, IR.range 4 5)] :=
  ⟨(C22_recursive_halving_ranges 5 2 3 (by decide) (by decide) (by decide)).1, rfl⟩

/-! ## Rabenseifner: ranks whose messages fit get through -/

theorem sendrecv_all_live_ranked {σ α : Type} (n : Nat) (dst_of src_of : Nat → Nat)
    (send : Nat → σ → Option (Mat α × Nat)) (body : Nat → Mat α × Nat → σ → Option σ)
    (sts : Nat → Option σ) (P Q : Nat → σ → Prop) (M : Mat α × Nat → Prop)
    (hmatch : ∀ r, r < n → dst_of r < n ∧ src_of r < n ∧ dst_of (src_of r) = r
      ∧ src_of (dst_of r) = r)
    (hsts : ∀ r, r < n → ∃ p, sts r = some p ∧ P r p)
    (hsend : ∀ r p, r < n → P r p → ∃ d, send r p = some d ∧ M d)
    (hbody : ∀ r d p, r < n → P r p → M d → ∃ p1, body r d p = some p1 ∧ Q r p1) :
    ∀ r, r < n → ∃ p1, sendrecv_all n dst_of src_of send body sts r = some p1 ∧ Q r p1 := by
  intro r hr
  obtain ⟨h1, h2, h3, h4⟩ := hmatch r hr
  obtain ⟨p, hp, hP⟩ := hsts r hr
  obtain ⟨q, hq, hQ⟩ := hsts _ h2
  obtain ⟨d, hd, _⟩ := hsts _ h1
  obtain ⟨data, hdata, hM⟩ := hsend (src_of r) q h2 hQ
  obtain ⟨p1, hp1, hQ1⟩ := hbody r data p hr hP hM
  refine ⟨p1, ?_, hQ1⟩
  unfold sendrecv_all
  simp only [hp, hq, hd, h1, h2, h3, h4, and_self, if_true, hdata]
  exact hp1

theorem xor_match (k e : Nat) (he : e < k) :
    ∀ r, r < 2 ^ k → r ^^^ 2 ^ e < 2 ^ k ∧ r ^^^ 2 ^ e < 2 ^ k
      ∧ (r ^^^ 2 ^ e) ^^^ 2 ^ e = r ∧ (r ^^^ 2 ^ e) ^^^ 2 ^ e = r := by
  intro r hr
  exact ⟨xor_two_pow_lt r e k hr he, xor_two_pow_lt r e k hr he, xor_xor_cancel r _,
    xor_xor_cancel r _⟩

/-- The column range of a block of slices lies inside the matrix. -/
theorem block_range_inside (cols n lo len : Nat) (hlen : 1 ≤ len) (h : lo + len ≤ n) :
    ∃ a b, block_range cols n lo len = IR.range a b ∧ a ≤ b ∧ b ≤ cols := by
  refine ⟨_, _, rfl, ?_, slice_end_le_cols cols n _ (by omega) (by omega)⟩
  have := block_range_le cols n lo len hlen h
  unfold block_range at this
  simpa [IR.lo, IR.hi] using this

theorem rab_rs_index_step_ranges (cols n r pm sm : Nat) (v v1 : rab_vars) (s rr : IR)
    (h : rab_rs_index_step cols n r pm sm v = some (v1, s, rr)) :
    ∃ v0, rab_rs_ranges cols n r pm sm v = some (v0, s, rr) ∧
      (if pm >>> 1 > 0 then
          ∃ d, u32_div n (u32 (sm <<< 1)) = some d ∧
            v1 = { send_idx := v0.recv_idx, recv_idx := v0.recv_idx
                   last_idx := u32 (v0.recv_idx + d) }
        else v1 = { v0 with send_idx := v0.recv_idx }) := by
  unfold rab_rs_index_step at h
  cases hrng : rab_rs_ranges cols n r pm sm v with
  | none =>
    rw [hrng] at h
    exact Option.noConfusion h
  | some x =>
    obtain ⟨v0, s0, rr0⟩ := x
    rw [hrng] at h
    simp only at h
    by_cases hpm : pm >>> 1 > 0
    · rw [if_pos hpm] at h
      cases hd : u32_div n (u32 (sm <<< 1)) with
      | none =>
        rw [hd] at h
        exact Option.noConfusion h
      | some d =>
        rw [hd] at h
        simp only at h
        injection h with h
        injection h with h1 h2
        injection h2 with h2 h3
        subst h1 h2 h3
        exact ⟨v0, rfl, by rw [if_pos hpm]; exact ⟨d, rfl, rfl⟩⟩
    · rw [if_neg hpm] at h
      injection h with h
      injection h with h1 h2
      injection h2 with h2 h3
      subst h1 h2 h3
      exact ⟨v0, rfl, by rw [if_neg hpm]⟩

theorem rab_ag_index_step_ranges (cols n r pm sm : Nat) (v v1 : rab_vars) (s rr : IR)
    (h : rab_ag_index_step cols n r pm sm v = some (v1, s, rr)) :
    ∃ v0, rab_ag_ranges cols n r pm sm v = some (v0, s, rr) ∧
      v1 = (if r > r ^^^ pm then { v0 with send_idx := v0.recv_idx } else v0) := by
  unfold rab_ag_index_step at h
  cases hrng : rab_ag_ranges cols n r pm sm v with
  | none =>
    rw [hrng] at h
    exact Option.noConfusion h
  | some x =>
    obtain ⟨v0, s0, rr0⟩ := x
    rw [hrng] at h
    simp only at h
    injection h with h
    injection h with h1 h2
    injection h2 with h2 h3
    subst h1 h2 h3
    exact ⟨v0, rfl, rfl⟩

/-- What a rank sends in a recursive-halving step without the node-local shortcut is at most
`max_recv_count` bytes when the send range lies inside the matrix and the callback fits. -/
theorem rab_rs_send_live {α : Type} (A : call_args α) (rank pm sm h w : Nat)
    (p : proc α) (v v1 : rab_vars) (a b : Nat) (rr : IR)
    (hloc : A.no_local_trans = false) (hcb : callbacks_fit_ranges A h w)
    (hph : p.mat.height = h) (hpw : p.mat.width = w) (hab : a ≤ b) (hb : b ≤ w)
    (hstep : rab_rs_index_step p.mat.width A.nprocs rank pm sm v
      = some (v1, IR.range a b, rr)) :
    ∃ d, rab_rs_send A rank pm sm (p, v) = some d ∧ d.2 ≤ A.max_recv_count := by
  obtain ⟨v0, hrng, _⟩ := rab_rs_index_step_ranges _ _ _ _ _ _ _ _ _ hstep
  unfold rab_rs_send
  simp only [hrng]
  refine ⟨_, rfl, ?_⟩
  unfold rab_send_buf
  simp only [hloc, Bool.false_and, Bool.false_eq_true, if_false]
  exact hcb p.mat a b false hph hpw hab hb

/-- What a rank sends in a recursive-doubling step without the node-local shortcut is at
most `max_recv_count` bytes when the send range lies inside the matrix and the callback
fits. -/
theorem rab_ag_send_live {α : Type} (A : call_args α) (rank pm sm h w : Nat)
    (p : proc α) (v v1 : rab_vars) (a b : Nat) (rr : IR)
    (hloc : A.no_local_trans = false) (hcb : callbacks_fit_ranges A h w)
    (hph : p.mat.height = h) (hpw : p.mat.width = w) (hab : a ≤ b) (hb : b ≤ w)
    (hstep : rab_ag_index_step p.mat.width A.nprocs rank pm sm v
      = some (v1, IR.range a b, rr)) :
    ∃ d, rab_ag_send A rank pm sm (p, v) = some d ∧ d.2 ≤ A.max_recv_count := by
  obtain ⟨v0, hrng, _⟩ := rab_ag_index_step_ranges _ _ _ _ _ _ _ _ _ hstep
  unfold rab_ag_send
  simp only [hrng]
  refine ⟨_, rfl, ?_⟩
  unfold rab_send_buf
  simp only [hloc, Bool.false_and, Bool.false_eq_true, if_false]
  exact hcb p.mat a b false hph hpw hab hb

/-- A recursive-halving step of the full routine without the node-local shortcut comes back
on a message of at most `max_recv_count` bytes when the index step does. -/
theorem rab_rs_iter_live {α : Type} (A : call_args α) (rank pm sm h w : Nat)
    (incoming : Mat α × Nat) (p : proc α) (v v1 : rab_vars) (s rr : IR)
    (hloc : A.no_local_trans = false) (hp : rab_live A h w p)
    (hin : incoming.2 ≤ A.max_recv_count)
    (hstep : rab_rs_index_step p.mat.width A.nprocs rank pm sm v = some (v1, s, rr)) :
    ∃ p1, rab_rs_iter A rank pm sm incoming (p, v) = some (p1, v1) ∧ rab_live A h w p1 := by
  obtain ⟨hph, hpw, hcnt, a, hbuf, hcap⟩ := hp
  obtain ⟨v0, hrng, hv1⟩ := rab_rs_index_step_ranges _ _ _ _ _ _ _ _ _ hstep
  unfold rab_rs_iter
  simp only [hrng, hloc, Bool.false_and, Bool.false_eq_true, if_false, hbuf]
  rw [receive_scratch_any A.max_recv_count _ _ _ _ _]
  · simp only [load]
    by_cases hpm : pm >>> 1 > 0
    · rw [if_pos hpm] at hv1 ⊢
      obtain ⟨d, hd, e⟩ := hv1
      rw [hd]
      subst e
      exact ⟨_, rfl, hph, hpw, hcnt, a, rfl, hcap⟩
    · rw [if_neg hpm] at hv1 ⊢
      subst hv1
      exact ⟨_, rfl, hph, hpw, hcnt, a, rfl, hcap⟩
  · exact hcap
  · rw [hcnt]; exact hin
  · exact hin

/-- A recursive-doubling step of the full routine without the node-local shortcut and with
`id_recv` off comes back on a message of at most `max_recv_count` bytes when the index step
does. -/
theorem rab_ag_iter_live {α : Type} (A : call_args α) (rank pm sm h w : Nat)
    (incoming : Mat α × Nat) (p : proc α) (v v1 : rab_vars) (s rr : IR)
    (hloc : A.no_local_trans = false) (hid : A.id_recv = false) (hp : rab_live A h w p)
    (hin : incoming.2 ≤ A.max_recv_count)
    (hstep : rab_ag_index_step p.mat.width A.nprocs rank pm sm v = some (v1, s, rr)) :
    ∃ p1, rab_ag_iter A rank pm sm incoming (p, v) = some (p1, v1) ∧ rab_live A h w p1 := by
  obtain ⟨hph, hpw, hcnt, a, hbuf, hcap⟩ := hp
  obtain ⟨v0, hrng, hv1⟩ := rab_ag_index_step_ranges _ _ _ _ _ _ _ _ _ hstep
  unfold rab_ag_iter
  simp only [hrng, hloc, hid, Bool.false_and, Bool.false_or, Bool.false_eq_true, if_false,
    hbuf]
  rw [receive_scratch_any A.max_recv_count _ _ _ _ _]
  · simp only [load]
    subst hv1
    exact ⟨_, rfl, hph, hpw, hcnt, a, rfl, hcap⟩
  · exact hcap
  · rw [hcnt]; exact hin
  · exact hin

theorem rab_rs_loop_done {α : Type} (A : call_args α) (fuel sm : Nat)
    (sts : Nat → Option (proc α × rab_vars)) : rab_rs_loop A fuel 0 sm sts = (sm, sts) := by
  cases fuel <;> simp [rab_rs_loop]

theorem rab_ag_loop_done {α : Type} (A : call_args α) (fuel pm sm : Nat)
    (sts : Nat → Option (proc α × rab_vars)) (h : ¬ pm < A.nprocs) :
    rab_ag_loop A fuel pm sm sts = sts := by
  cases fuel <;> simp [rab_ag_loop, h]

/-- One lockstep recursive-halving step of the full routine without the node-local shortcut,
with callbacks that fit: every rank gets through it with the index variables `v1 r` when
the index step from `v0 r` gives them. -/
theorem rab_rs_step_live {α : Type} (A : call_args α) (h w t e : Nat)
    (hloc : A.no_local_trans = false) (hcb : callbacks_fit_ranges A h w)
    (hn : A.nprocs = 2 ^ (t + e + 1)) (v0 v1 : Nat → rab_vars)
    (hidx : ∀ r, r < A.nprocs → rab_rs_index_step w A.nprocs r (2 ^ e) (2 ^ t) (v0 r)
      = some (v1 r, block_range w A.nprocs (block_start (r ^^^ 2 ^ e) e) (2 ^ e),
          block_range w A.nprocs (block_start r e) (2 ^ e)))
    (sts : Nat → Option (proc α × rab_vars))
    (hsts : ∀ r, r < A.nprocs → ∃ p, sts r = some (p, v0 r) ∧ rab_live A h w p) :
    ∀ r, r < A.nprocs → ∃ p,
      sendrecv_all A.nprocs (fun r => r ^^^ 2 ^ e) (fun r => r ^^^ 2 ^ e)
        (fun r q => rab_rs_send A r (2 ^ e) (2 ^ t) q)
        (fun r => rab_rs_iter A r (2 ^ e) (2 ^ t)) sts r = some (p, v1 r)
      ∧ rab_live A h w p := by
  have hm : ∀ r, r < A.nprocs → r ^^^ 2 ^ e < A.nprocs ∧ r ^^^ 2 ^ e < A.nprocs
      ∧ (r ^^^ 2 ^ e) ^^^ 2 ^ e = r ∧ (r ^^^ 2 ^ e) ^^^ 2 ^ e = r := by
    rw [hn]; exact xor_match _ e (by omega)
  have hn2 : A.nprocs = 2 ^ (t + 1 + e) := by rw [hn]; congr 1; omega
  have key := sendrecv_all_live_ranked A.nprocs (fun r => r ^^^ 2 ^ e) (fun r => r ^^^ 2 ^ e)
    (fun r q => rab_rs_send A r (2 ^ e) (2 ^ t) q)
    (fun r => rab_rs_iter A r (2 ^ e) (2 ^ t)) sts
    (fun r st => st.2 = v0 r ∧ rab_live A h w st.1)
    (fun r st => st.2 = v1 r ∧ rab_live A h w st.1)
    (fun d => d.2 ≤ A.max_recv_count) hm
    (fun r hr => by
      obtain ⟨p, h1, h2⟩ := hsts r hr
      exact ⟨_, h1, rfl, h2⟩)
    (fun r st hr hP => by
      obtain ⟨h1, h2⟩ := hP
      obtain ⟨p, v⟩ := st
      simp only at h1 h2
      subst h1
      obtain ⟨a, b, hab_eq, hab, hb⟩ := block_range_inside w A.nprocs
        (block_start (r ^^^ 2 ^ e) e) (2 ^ e) (Nat.two_pow_pos e)
        (block_bound A.nprocs (r ^^^ 2 ^ e) (t + 1) e hn2 (hm r hr).1)
      have hs := hidx r hr
      rw [hab_eq, ← h2.2.1] at hs
      exact rab_rs_send_live A r _ _ h w p _ _ a b _ hloc hcb h2.1 h2.2.1 hab hb hs)
    (fun r d st hr hP hd => by
      obtain ⟨h1, h2⟩ := hP
      obtain ⟨p, v⟩ := st
      simp only at h1 h2
      subst h1
      have hs := hidx r hr
      rw [← h2.2.1] at hs
      obtain ⟨p1, g1, g2⟩ := rab_rs_iter_live A r _ _ h w d p _ _ _ _ hloc h2 hd hs
      exact ⟨_, g1, rfl, g2⟩)
  intro r hr
  obtain ⟨st, h1, h2, h3⟩ := key r hr
  obtain ⟨p, v⟩ := st
  simp only at h2 h3
  subst h2
  exact ⟨p, h1, h3⟩

/-- The recursive-halving loop of the full routine without the node-local shortcut, with
callbacks that fit: every rank gets through it with the index variables of the index
trace. -/
theorem rab_rs_loop_live {α : Type} (A : call_args α) (h w : Nat)
    (hloc : A.no_local_trans = false) (hcb : callbacks_fit_ranges A h w) :
    ∀ e t fuel (sts : Nat → Option (proc α × rab_vars)),
      A.nprocs = 2 ^ (t + e + 1) → t + e + 1 ≤ 30 → e + 1 ≤ fuel →
      (∀ r, r < A.nprocs → ∃ p, sts r = some (p,
          { send_idx := block_start r (e + 1), recv_idx := block_start r (e + 1),
            last_idx := block_start r (e + 1) + 2 ^ (e + 1) })
        ∧ rab_live A h w p) →
      (rab_rs_loop A fuel (2 ^ e) (2 ^ t) sts).1 = A.nprocs ∧
      ∀ r, r < A.nprocs → ∃ p, (rab_rs_loop A fuel (2 ^ e) (2 ^ t) sts).2 r = some (p,
          { send_idx := r, recv_idx := r, last_idx := block_start r 1 + 2 ^ 1 })
        ∧ rab_live A h w p := by
  intro e
  induction e with
  | zero =>
    intro t fuel sts hn hk hf hsts
    obtain ⟨f, rfl⟩ : ∃ f, fuel = f + 1 := ⟨fuel - 1, by omega⟩
    unfold rab_rs_loop
    have hsh : 2 ^ 0 >>> 1 = 0 := by decide
    rw [if_pos (Nat.two_pow_pos 0), hsh, rab_rs_loop_done, shift_left_one_u32 t (by omega)]
    refine ⟨by rw [hn], ?_⟩
    exact rab_rs_step_live A h w t 0 hloc hcb hn
      (fun r => rab_vars.mk (block_start r 1) (block_start r 1) (block_start r 1 + 2 ^ 1))
      (fun r => rab_vars.mk r r (block_start r 1 + 2 ^ 1))
      (fun r hr => rab_rs_index_step_last w A.nprocs r t hn hk hr) sts hsts
  | succ e ih =>
    intro t fuel sts hn hk hf hsts
    obtain ⟨f, rfl⟩ : ∃ f, fuel = f + 1 := ⟨fuel - 1, by omega⟩
    have hn2 : A.nprocs = 2 ^ (t + 1 + e + 1) := by rw [hn]; congr 1; omega
    unfold rab_rs_loop
    rw [if_pos (Nat.two_pow_pos (e + 1)), shift_right_one_pow,
      shift_left_one_u32 t (by omega)]
    apply ih (t + 1) f _ hn2 (by omega) (by omega)
    exact rab_rs_step_live A h w t (e + 1) hloc hcb hn
      (fun r => rab_vars.mk (block_start r (e + 2)) (block_start r (e + 2))
        (block_start r (e + 2) + 2 ^ (e + 2)))
      (fun r => rab_vars.mk (block_start r (e + 1)) (block_start r (e + 1))
        (block_start r (e + 1) + 2 ^ (e + 1)))
      (fun r hr => rab_rs_index_step_succ w A.nprocs r t e hn hk hr) sts hsts

/-- One lockstep recursive-doubling step of the full routine without the node-local shortcut
and with `id_recv` off, with callbacks that fit: every rank gets through it and owns the
aligned block of twice the size afterwards. -/
theorem rab_ag_step_live {α : Type} (A : call_args α) (h w u j : Nat)
    (hloc : A.no_local_trans = false) (hid : A.id_recv = false)
    (hcb : callbacks_fit_ranges A h w)
    (sts : Nat → Option (proc α × rab_vars))
    (hn : A.nprocs = 2 ^ (u + j + 1)) (hk : u + j + 1 ≤ 30)
    (hsts : ∀ r, r < A.nprocs → ∃ st, sts r = some st ∧ rab_live A h w st.1
      ∧ st.2.send_idx = block_start r u
      ∧ st.2.last_idx = (if u = 0 then r / 2 * 2 + 2 else block_start r u + 2 ^ u)) :
    ∀ r, r < A.nprocs → ∃ st,
      sendrecv_all A.nprocs (fun r => r ^^^ 2 ^ u) (fun r => r ^^^ 2 ^ u)
        (fun r q => rab_ag_send A r (2 ^ u) (2 ^ j) q)
        (fun r => rab_ag_iter A r (2 ^ u) (2 ^ j)) sts r = some st
      ∧ rab_live A h w st.1 ∧ st.2.send_idx = block_start r (u + 1)
      ∧ st.2.last_idx = (if u + 1 = 0 then r / 2 * 2 + 2
          else block_start r (u + 1) + 2 ^ (u + 1)) := by
  have hm : ∀ r, r < A.nprocs → r ^^^ 2 ^ u < A.nprocs ∧ r ^^^ 2 ^ u < A.nprocs
      ∧ (r ^^^ 2 ^ u) ^^^ 2 ^ u = r ∧ (r ^^^ 2 ^ u) ^^^ 2 ^ u = r := by
    rw [hn]; exact xor_match _ u (by omega)
  have hn2 : A.nprocs = 2 ^ (j + 1 + u) := by rw [hn]; congr 1; omega
  exact sendrecv_all_live_ranked A.nprocs (fun r => r ^^^ 2 ^ u) (fun r => r ^^^ 2 ^ u)
    (fun r q => rab_ag_send A r (2 ^ u) (2 ^ j) q)
    (fun r => rab_ag_iter A r (2 ^ u) (2 ^ j)) sts
    (fun r st => rab_live A h w st.1 ∧ st.2.send_idx = block_start r u
      ∧ st.2.last_idx = (if u = 0 then r / 2 * 2 + 2 else block_start r u + 2 ^ u))
    (fun r st => rab_live A h w st.1 ∧ st.2.send_idx = block_start r (u + 1)
      ∧ st.2.last_idx = (if u + 1 = 0 then r / 2 * 2 + 2
          else block_start r (u + 1) + 2 ^ (u + 1)))
    (fun d => d.2 ≤ A.max_recv_count)
    hm hsts
    (fun r st hr hP => by
      obtain ⟨h1, h2, h3⟩ := hP
      obtain ⟨p, v⟩ := st
      obtain ⟨v1, g1, _⟩ := rab_ag_index_step_eq p.mat.width A.nprocs r u j hn hk hr v h2 h3
      obtain ⟨a, b, hab_eq, hab, hb⟩ := block_range_inside p.mat.width A.nprocs
        (block_start r u) (2 ^ u) (Nat.two_pow_pos u)
        (block_bound A.nprocs r (j + 1) u hn2 hr)
      rw [hab_eq] at g1
      have hb2 : b ≤ w := by rw [← h1.2.1]; exact hb
      exact rab_ag_send_live A r _ _ h w p v v1 a b _ hloc hcb h1.1 h1.2.1 hab hb2 g1)
    (fun r d st hr hP hd => by
      obtain ⟨h1, h2, h3⟩ := hP
      obtain ⟨p, v⟩ := st
      obtain ⟨v1, g1, g2, g3, _⟩ :=
        rab_ag_index_step_eq p.mat.width A.nprocs r u j hn hk hr v h2 h3
      obtain ⟨p1, e1, e2⟩ := rab_ag_iter_live A r _ _ h w d p v v1 _ _ hloc hid h1 hd g1
      refine ⟨_, e1, e2, g2, ?_⟩
      rw [if_neg (by omega)]
      exact g3)

/-- The recursive-doubling loop of the full routine without the node-local shortcut and with
`id_recv` off, with callbacks that fit: every rank gets through it. -/
theorem rab_ag_loop_live {α : Type} (A : call_args α) (h w : Nat)
    (hloc : A.no_local_trans = false) (hid : A.id_recv = false)
    (hcb : callbacks_fit_ranges A h w) :
    ∀ j u fuel (sts : Nat → Option (proc α × rab_vars)),
      A.nprocs = 2 ^ (u + j + 1) → u + j + 1 ≤ 30 → j + 1 ≤ fuel →
      (∀ r, r < A.nprocs → ∃ st, sts r = some st ∧ rab_live A h w st.1
        ∧ st.2.send_idx = block_start r u
        ∧ st.2.last_idx = (if u = 0 then r / 2 * 2 + 2 else block_start r u + 2 ^ u)) →
      ∀ r, r < A.nprocs → ∃ st, rab_ag_loop A fuel (2 ^ u) (2 ^ j) sts r = some st := by
  intro j
  induction j with
  | zero =>
    intro u fuel sts hn hk hf hsts r hr
    obtain ⟨f, rfl⟩ : ∃ f, fuel = f + 1 := ⟨fuel - 1, by omega⟩
    have hlt : 2 ^ u < A.nprocs := by
      rw [hn]; exact Nat.pow_lt_pow_right (by decide) (by omega)
    unfold rab_ag_loop
    rw [if_pos hlt, shift_left_one_u32 u (by omega),
      rab_ag_loop_done _ _ _ _ _ (by rw [hn]; exact Nat.lt_irrefl _)]
    obtain ⟨st, hst, _⟩ := rab_ag_step_live A h w u 0 hloc hid hcb sts hn hk hsts r hr
    exact ⟨st, hst⟩
  | succ j ih =>
    intro u fuel sts hn hk hf hsts r hr
    obtain ⟨f, rfl⟩ : ∃ f, fuel = f + 1 := ⟨fuel - 1, by omega⟩
    have hlt : 2 ^ u < A.nprocs := by
      rw [hn]; exact Nat.pow_lt_pow_right (by decide) (by omega)
    have hn2 : A.nprocs = 2 ^ (u + 1 + j + 1) := by rw [hn]; congr 1; omega
    unfold rab_ag_loop
    rw [if_pos hlt, shift_left_one_u32 u (by omega), shift_right_one_pow]
    exact ih (u + 1) f _ hn2 (by omega) (by omega)
      (rab_ag_step_live A h w u (j + 1) hloc hid hcb sts hn hk hsts) r hr

/-- On a power-of-two communicator of at most `2 ^ 30` processes, without the node-local
shortcut and with `id_recv` off, `rabenseifner_allreduce` returns on every rank when the
matrices have one shape, the send callback never reports more than `max_recv_count` bytes
for a column range inside such a matrix, and the pools are well formed. -/
theorem rabenseifner_returns {α : Type} (A : call_args α) (init : Nat → proc α)
    (k h w r : Nat) (hk1 : 1 ≤ k) (hk : k ≤ 30) (hn : A.nprocs = 2 ^ k)
    (hloc : A.no_local_trans = false) (hid : A.id_recv = false)
    (hdim : ∀ q, q < A.nprocs → (init q).mat.height = h ∧ (init q).mat.width = w)
    (hcb : callbacks_fit_ranges A h w)
    (hwf : ∀ q, q < A.nprocs → pool_wf (init q).comm.pool)
    (hr : r < A.nprocs) :
    ∃ p, rabenseifner_allreduce A init r = outcome.returned p := by
  obtain ⟨e, rfl⟩ : ∃ e, k = e + 1 := ⟨k - 1, by omega⟩
  have hne1 : A.nprocs ≠ 1 := by
    rw [hn]
    have := Nat.one_lt_two_pow (n := e + 1) (by omega)
    omega
  have hpow : A.nprocs &&& (A.nprocs - 1) = 0 :=
    (and_pred_eq_zero_iff A.nprocs (by rw [hn]; exact Nat.two_pow_pos _)).mpr ⟨_, hn⟩
  have hn0 : A.nprocs = 2 ^ (0 + e + 1) := by rw [hn, Nat.zero_add]
  have hrs := rab_rs_loop_live A h w hloc hcb e 0 32
    (fun r => some (rab_setup A (init r))) hn0 (by omega) (by omega)
    (fun q hq => by
      obtain ⟨a, ha, hcap, _, _⟩ := acquire_zero_spec A.max_recv_count (init q) (hwf q hq)
      refine ⟨(rab_setup A (init q)).1, ?_, (hdim q hq).1, (hdim q hq).2, rfl, a, ha, hcap⟩
      have hb : block_start q (e + 1) = 0 := by
        unfold block_start
        rw [Nat.div_eq_of_lt (by rw [← hn]; exact hq), Nat.zero_mul]
      rw [hb, Nat.zero_add, ← hn]
      have hu : u32 A.nprocs = A.nprocs :=
        u32_of_lt _ (by rw [hn]; exact two_pow_lt_u32 _ (by omega))
      simp only [rab_setup, hu])
  obtain ⟨hsm, hst⟩ := hrs
  unfold rabenseifner_allreduce
  rw [if_neg hne1, if_neg (by rw [hpow]; exact fun h => h rfl)]
  simp only
  have hsh : A.nprocs >>> 1 = 2 ^ e := by rw [hn]; exact shift_right_one_pow e
  rw [hsh]
  rw [Nat.pow_zero] at hsm hst
  rw [hsm, hsh]
  obtain ⟨st, hst2⟩ := rab_ag_loop_live A h w hloc hid hcb e 0 32 _ hn0 (by omega) (by omega)
    (fun q hq => by
      obtain ⟨p, h1, h2⟩ := hst q hq
      refine ⟨_, h1, h2, (block_start_zero q).symm, ?_⟩
      rw [if_pos rfl]
      show block_start q 1 + 2 ^ 1 = q / 2 * 2 + 2
      rw [block_start_one, Nat.pow_one])
    r hr
  rw [Nat.pow_zero] at hst2
  rw [hst2]
  exact ⟨_, rfl⟩


/-! ## Rabenseifner's allreduce: the index arithmetic is safe -/

theorem rab_expected_ranges_le (cols k r : Nat) (hk1 : 1 ≤ k) (hr : r < 2 ^ k)
    (x : Nat × IR × IR)
    (hx : x ∈ rab_rs_expected cols (2 ^ k) r (k - 1) ++ rab_ag_expected cols (2 ^ k) r 0 (k - 1)) :
    x.2.1.lo ≤ x.2.1.hi cols ∧ x.2.2.lo ≤ x.2.2.hi cols := by
  rcases List.mem_append.mp hx with h | h
  · obtain ⟨i, hi⟩ := List.mem_iff_getElem?.mp h
    have hlt : i < k := by
      have := (List.getElem?_eq_some.mp hi).1
      rw [rab_rs_expected_length] at this
      omega
    rw [rab_rs_expected_get cols (2 ^ k) r (k - 1) i (by omega)] at hi
    have hx2 := (Option.some.inj hi).symm
    subst hx2
    obtain ⟨h1, h2, _⟩ := rab_step_ranges cols k r (k - 1 - i) (by omega) hr
    exact ⟨h1, h2⟩
  · obtain ⟨i, hi⟩ := List.mem_iff_getElem?.mp h
    have hlt : i < k := by
      have := (List.getElem?_eq_some.mp hi).1
      rw [rab_ag_expected_length] at this
      omega
    rw [rab_ag_expected_get cols (2 ^ k) r (k - 1) 0 i (by omega)] at hi
    have hx2 := (Option.some.inj hi).symm
    subst hx2
    obtain ⟨h1, h2, _⟩ := rab_step_ranges cols k r (0 + i) (by omega) hr
    exact ⟨h2, h1⟩

/-- The numbers of one step of either loop: the block of `2 ^ (e + 1)` slices lies inside
the vector, no sum leaves `unsigned int` and no subtraction of one wraps. -/
theorem rab_step_numbers (B h n : Nat) (hpos : 0 < h) (hb : B + h + h ≤ n)
    (hn32 : n < 2 ^ 32) :
    B + h < 2 ^ 32 ∧ 1 ≤ B + h ∧ B + h < 2 ^ 32 ∧ 1 ≤ B + h + h ∧ B + h + h < 2 ^ 32 := by
  omega

theorem scenario_rab_plain_fits : callbacks_fit_ranges scenario_rab_plain_args 1 4 := by
  intro m a b flag h1 h2 hab hb
  show 8 * (view m IR.ALL (IR.range a b)).height * (view m IR.ALL (IR.range a b)).width ≤ 32
  simp only [view, IR.hi, IR.lo, h1]
  omega

/-- C25: for `n = 2 ^ k` ranks (`1 ≤ k ≤ 30`, `n` being an `int`), a rank `r < n`, any
callbacks and any `max_recv_count`: for any number of columns the index variables run
through both loops with every subscript of `slice_ends` and `slice_lengths` inside the
vector and every divisor non-zero (`rab_rs_indices` and `rab_ag_indices` have a value), the
recursive-halving loop ending with `send_idx = recv_idx = r` and the recursive-doubling
loop starting there; at the step with `partner_mask = 2 ^ e` of either loop, with `B` the
first slice of the aligned block of `2 ^ (e + 1)` slices around `r`: the divisor
`slice_mask * 2` is not zero and the quotient is `2 ^ e`; the subscripts used are `B`,
`B + 2 ^ e`, `B + 2 ^ e - 1` and `B + 2 ^ (e + 1) - 1`, all below `n`, formed without
leaving `unsigned int` and with no wrap in the subtraction of one; in the allgather branch
`recv_idx = send_idx - 2 ^ e` the value of `send_idx` is `B + 2 ^ e`, so the subtraction
does not wrap and gives `B`; every send and receive range of both loops has start at most
end; a step of either loop of the routine that comes back has moved the index variables as
the index step does and exchanged with `r XOR partner_mask`; and when the messages fit
(no node-local shortcut, `id_recv` off, matrices of one shape `h × w`, a send callback that
reports at most `max_recv_count` bytes for a column range of such a matrix, well-formed
pools) the call returns on rank `r`. -/
theorem C25_rabenseifner_index_safety {α : Type} (A : call_args α) (init : Nat → proc α)
    (cols k r : Nat) (hk1 : 1 ≤ k) (hk : k ≤ 30) (hn : A.nprocs = 2 ^ k) (hr : r < 2 ^ k) :
    (∃ v2,
      rab_rs_indices cols (2 ^ k) r 32 (2 ^ k >>> 1) 1
          { send_idx := 0, recv_idx := 0, last_idx := u32 (2 ^ k) }
        = some (rab_rs_expected cols (2 ^ k) r (k - 1),
            { send_idx := r, recv_idx := r, last_idx := r / 2 * 2 + 2 }, 2 ^ k) ∧
      rab_ag_indices cols (2 ^ k) r 32 1 (2 ^ k >>> 1)
          { send_idx := r, recv_idx := r, last_idx := r / 2 * 2 + 2 }
        = some (rab_ag_expected cols (2 ^ k) r 0 (k - 1), v2)) ∧
    (∀ e, e < k →
      u32 (2 ^ (k - 1 - e) * 2) ≠ 0 ∧
      u32_div (2 ^ k) (u32 (2 ^ (k - 1 - e) * 2)) = some (2 ^ e) ∧
      0 < 2 ^ e ∧
      block_start r (e + 1) + 2 ^ e + 2 ^ e ≤ 2 ^ k ∧
      u32 (block_start r (e + 1) + 2 ^ e) = block_start r (e + 1) + 2 ^ e ∧
      u32 (block_start r (e + 1) + 2 ^ e + 2 ^ e) = block_start r (e + 1) + 2 ^ e + 2 ^ e ∧
      u32_sub (block_start r (e + 1) + 2 ^ e) 1 = block_start r (e + 1) + 2 ^ e - 1 ∧
      u32_sub (block_start r (e + 1) + 2 ^ e + 2 ^ e) 1
        = block_start r (e + 1) + 2 ^ e + 2 ^ e - 1 ∧
      (r < r ^^^ 2 ^ e → block_start r e = block_start r (e + 1)) ∧
      (¬ r < r ^^^ 2 ^ e →
        block_start r e = block_start r (e + 1) + 2 ^ e ∧
        2 ^ e ≤ block_start r e ∧
        u32_sub (block_start r e) (2 ^ e) = block_start r (e + 1))) ∧
    (∀ x, x ∈ rab_rs_expected cols (2 ^ k) r (k - 1)
          ++ rab_ag_expected cols (2 ^ k) r 0 (k - 1) →
      x.2.1.lo ≤ x.2.1.hi cols ∧ x.2.2.lo ≤ x.2.2.hi cols) ∧
    (∀ pm sm incoming st st1, rab_rs_iter A r pm sm incoming st = some st1 →
      ∃ send_range recv_range,
        rab_rs_index_step st.1.mat.width A.nprocs r pm sm st.2
          = some (st1.2, send_range, recv_range) ∧
        exchanges st1.1 = exchanges st.1 ++ [event.sendrecv (r ^^^ pm) (r ^^^ pm)]) ∧
    (∀ pm sm incoming st st1, rab_ag_iter A r pm sm incoming st = some st1 →
      ∃ send_range recv_range,
        rab_ag_index_step st.1.mat.width A.nprocs r pm sm st.2
          = some (st1.2, send_range, recv_range) ∧
        exchanges st1.1 = exchanges st.1 ++ [event.sendrecv (r ^^^ pm) (r ^^^ pm)]) ∧
    (∀ h w : Nat, A.no_local_trans = false → A.id_recv = false →
      (∀ q, q < A.nprocs → (init q).mat.height = h ∧ (init q).mat.width = w) →
      callbacks_fit_ranges A h w →
      (∀ q, q < A.nprocs → pool_wf (init q).comm.pool) →
      ∃ p, rabenseifner_allreduce A init r = outcome.returned p) := by
  refine ⟨?_, ?_, rab_expected_ranges_le cols k r hk1 hr,
    fun pm sm incoming st st1 h => rab_rs_iter_indices A r pm sm incoming st st1 h,
    fun pm sm incoming st st1 h => rab_ag_iter_indices A r pm sm incoming st st1 h,
    fun h w hloc hid hdim hcb hwf =>
      rabenseifner_returns A init k h w r hk1 hk hn hloc hid hdim hcb hwf
        (by rw [hn]; exact hr)⟩
  · obtain ⟨v2, h, _⟩ := rab_ag_run cols k r hk1 hk hr
    exact ⟨v2, rab_rs_run cols k r hk1 hk hr, h⟩
  · intro e he
    have hn32 : 2 ^ k < 2 ^ 32 := two_pow_lt_u32 k (by omega)
    obtain ⟨hpair, hb, hpos⟩ := block_pair k r e he hr
    obtain ⟨f1, f2, _, f4, f5⟩ :=
      rab_step_numbers (block_start r (e + 1)) (2 ^ e) (2 ^ k) hpos hb hn32
    have hexp : k = (k - 1 - e) + e + 1 := by omega
    have hdiv := u32_div_pow (2 ^ k) (k - 1 - e) e (congrArg (fun x => 2 ^ x) hexp) (by omega)
    have hnz : u32 (2 ^ (k - 1 - e) * 2) ≠ 0 := by
      intro h0
      rw [h0] at hdiv
      exact Option.noConfusion hdiv
    refine ⟨hnz, hdiv, hpos, hb, u32_of_lt _ f1, u32_of_lt _ f5,
      u32_sub_of_le _ 1 f2 f1, u32_sub_of_le _ 1 f4 f5, ?_, ?_⟩
    · intro hlt
      rcases hpair with ⟨h1, _, _⟩ | ⟨_, _, h3⟩
      · exact h1
      · exact absurd hlt (Nat.lt_asymm h3)
    · intro hnlt
      rcases hpair with ⟨_, _, h3⟩ | ⟨h1, _, _⟩
      · exact absurd h3 hnlt
      · refine ⟨h1, by rw [h1]; exact Nat.le_add_left _ _, ?_⟩
        rw [h1, u32_sub_of_le _ _ (Nat.le_add_left _ _) f1, Nat.add_sub_cancel]

theorem C25_rabenseifner_index_safety_witness :
    scenario_rab_plain_args.nprocs = 2 ^ 2 ∧ 3 < 2 ^ 2 ∧
    (∃ v2, rab_rs_indices 5 (2 ^ 2) 3 32 (2 ^ 2 >>> 1) 1
          { send_idx := 0, recv_idx := 0, last_idx := u32 (2 ^ 2) }
        = some ([(1, IR.range 0 3, IR.range 3 5), (2, IR.range 3 4, IR.range 4 5)],
            { send_idx := 3, recv_idx := 3, last_idx := 4 }, 4) ∧
      rab_ag_indices 5 (2 ^ 2) 3 32 1 (2 ^ 2 >>> 1)
          { send_idx := 3, recv_idx := 3, last_idx := 4 }
        = some ([(2, IR.range 4 5, IR.range 3 4), (1, IR.range 3 5, IR.range 0 3)], v2)) ∧
    u32_div (2 ^ 2) (u32 (2 ^ (2 - 1 - 1) * 2)) = some (2 ^ 1) ∧
    u32_sub (block_start 3 1) (2 ^ 1) = block_start 3 (1 + 1) ∧
    (∃ p, rabenseifner_allreduce scenario_rab_plain_args scenario_rab_init 3
      = outcome.returned p) :=
  have h := C25_rabenseifner_index_safety scenario_rab_plain_args scenario_rab_init 5 2 3
    (by decide) (by decide) rfl (by decide)
  ⟨rfl, by decide, h.1, (h.2.1 1 (by decide)).2.1,
    ((h.2.1 1 (by decide)).2.2.2.2.2.2.2.2.2 (by decide)).2.2,
    h.2.2.2.2.2 1 4 rfl rfl (fun _ _ => ⟨rfl, rfl⟩) scenario_rab_plain_fits
      (fun _ _ => pool_wf_empty [])⟩


/-! ## Messages that do not fit -/

/-- The transport stops a call whose message is longer than the receive posted for it or
than the buffer it goes to: `pe_ring_allreduce` on 3 ranks with `1 × 6` matrices of 8-byte
entries does not return with `max_recv_count = 8` and returns with `max_recv_count = 16`;
with `max_recv_count = 0` none of `pe_ring_allreduce`, `ring_allreduce` and
`recursive_doubling_allreduce_pow2` returns in its scenario; and in the two-node scenario of
`rabenseifner_allreduce` rank 2, which receives 16 bytes through the pointer left at the
last column of its matrix, does not return. -/
theorem long_message_stops_call :
    (pe_ring_allreduce scenario_pe_args
      (fun _ => fresh_proc { height := 1, width := 6, entry := fun _ _ => 1 }) 0).final.isSome
        = false ∧
    (pe_ring_allreduce { scenario_pe_args with max_recv_count := 16 }
      (fun _ => fresh_proc { height := 1, width := 6, entry := fun _ _ => 1 }) 0).final.isSome
        = true ∧
    (pe_ring_allreduce { scenario_pe_args with max_recv_count := 0 }
      scenario_pe_init 0).final.isSome = false ∧
    (ring_allreduce { scenario_pe_args with max_recv_count := 0 }
      scenario_pe_init 0).final.isSome = false ∧
    (recursive_doubling_allreduce_pow2 { scenario_rd_args with max_recv_count := 0 }
      scenario_rd_init 0).final.isSome = false ∧
    (rabenseifner_allreduce scenario_rab_args scenario_rab_init 2).final.isSome = false := by
  decide

end lbann
